import Mathlib

/-!
# mc-chess: bitboard move generation

A shallow embedding of the white-perspective move generator of `moves.cpp`
(attack geometry, per-piece generators, castling, `all_moves`) together with the
packed `Move` word, followed by theorems about the generated move lists.

Machine words are natural numbers; every operation that can leave the 64-bit
range in C++ (left shift, subtraction, multiplication, complement) is reduced
modulo `2^64` explicitly.  Functions whose call tree contains an `assert`
return `Option`, `none` standing for a failed assertion.
-/

/-- A `Bitboard` is a `uint64_t`: bit `i` stands for square `i`. -/
abbrev Bitboard := Nat

namespace bitboard

/-- The all-ones 64-bit word. -/
def ones : Bitboard := 0xffffffffffffffff

/-- Truncation of an intermediate result to 64 bits. -/
def wrap (x : Nat) : Bitboard := x % 2 ^ 64

/-- The C++ `~b` on a 64-bit word. -/
def complement (b : Bitboard) : Bitboard := wrap (b ^^^ ones)

/-- The C++ `a << k` on a 64-bit word. -/
def shl (a : Bitboard) (k : Nat) : Bitboard := wrap (a <<< k)

/-- The C++ `a >> k` on a 64-bit word. -/
def shr (a : Bitboard) (k : Nat) : Bitboard := a >>> k

/-- The C++ `a - b` on 64-bit words (wrapping). -/
def sub (a b : Bitboard) : Bitboard := wrap (a + (2 ^ 64 - wrap b))

/-- The C++ `a * b` on 64-bit words (wrapping). -/
def mul (a b : Bitboard) : Bitboard := wrap (a * b)

/-- The builtin `__builtin_bswap64`: byte `k` of the argument becomes byte `7 - k`. -/
def bswap64 (x : Bitboard) : Bitboard :=
  ((x &&& 0xff) <<< 56) ||| (((x >>> 8) &&& 0xff) <<< 48) |||
  (((x >>> 16) &&& 0xff) <<< 40) ||| (((x >>> 24) &&& 0xff) <<< 32) |||
  (((x >>> 32) &&& 0xff) <<< 24) ||| (((x >>> 40) &&& 0xff) <<< 16) |||
  (((x >>> 48) &&& 0xff) <<< 8) ||| ((x >>> 56) &&& 0xff)

/-- Modelled from the spec: `bitboard::flip_vertically` (bitboard.hpp is not among the
sources), the byte swap that mirrors the board across the rank 4/5 boundary. -/
def flip_vertically (b : Bitboard) : Bitboard := bswap64 b

/-- Modelled from the spec: the squares visited by `bitboard::for_each_member`
(bitboard.hpp is not among the sources), the indices of the set bits of a 64-bit word,
least significant first. -/
def members (b : Bitboard) : List Nat := (List.range 64).filter (fun i => b.testBit i)

/-- Modelled from the spec: `bitboard::for_each_member` (bitboard.hpp is not among the
sources) running a callback that updates captured state `σ` and may fail an assertion. -/
def for_each_member {σ : Type} (b : Bitboard) (init : σ) (f : σ → Nat → Option σ) : Option σ :=
  (members b).foldlM f init

end bitboard

namespace directions

/-- Modelled from the spec: `directions::vertical` (direction.hpp is not among the sources);
one rank is 8 bits since a square index is `file + 8 * rank`. -/
def vertical : Nat := 8

/-- Modelled from the spec: `directions::horizontal`, one file is 1 bit. -/
def horizontal : Nat := 1

/-- Modelled from the spec: the signed square offsets of direction.hpp. -/
def north : Int := 8

/-- Modelled from the spec: the signed square offsets of direction.hpp. -/
def south : Int := -8

/-- Modelled from the spec: the signed square offsets of direction.hpp. -/
def east : Int := 1

/-- Modelled from the spec: the signed square offsets of direction.hpp. -/
def west : Int := -1

end directions

namespace files

/-- Modelled from the spec: the file bitboards (their header is not among the sources);
`files::a = a1 | a2 | ... | a8`. -/
def a : Bitboard := 0x0101010101010101
/-- Modelled from the spec: file b. -/
def b : Bitboard := 0x0202020202020202
/-- Modelled from the spec: file g. -/
def g : Bitboard := 0x4040404040404040
/-- Modelled from the spec: file h. -/
def h : Bitboard := 0x8080808080808080

/-- Modelled from the spec: `files::partition.parts_by_square_index[s]`, the file through `s`. -/
def by_square (s : Nat) : Bitboard := a <<< (s % 8)

end files

/-- Modelled from the spec: a part of the rank partition; the code reads only `rank.index`. -/
structure Rank where
  index : Nat
deriving DecidableEq, Repr

namespace ranks

/-- Modelled from the spec: rank 2. -/
def _2 : Bitboard := 0x000000000000ff00
/-- Modelled from the spec: rank 3. -/
def _3 : Bitboard := 0x0000000000ff0000
/-- Modelled from the spec: rank 8 (`a8 | b8 | ... | h8`). -/
def _8 : Bitboard := 0xff00000000000000

/-- Modelled from the spec: `ranks::partition.parts_by_square_index[s]`, the rank through `s`. -/
def by_square (s : Nat) : Rank := ⟨s / 8⟩

end ranks

namespace antidiagonals

/-- Modelled from the spec: `antidiagonals::a1h8 = a1 | b2 | ... | h8`. -/
def a1h8 : Bitboard := 0x8040201008040201

/-- Modelled from the spec: `antidiagonals::partition.parts_by_square_index[s]`, the line
parallel to a1-h8 through `s` (rank minus file is constant along it). -/
def by_square (s : Nat) : Bitboard :=
  (List.range 64).foldl
    (fun acc t => if t / 8 + s % 8 = s / 8 + t % 8 then acc ||| (1 <<< t) else acc) 0

end antidiagonals

namespace diagonals

/-- Modelled from the spec: `diagonals::partition.parts_by_square_index[s]`, the line
parallel to a8-h1 through `s` (rank plus file is constant along it). -/
def by_square (s : Nat) : Bitboard :=
  (List.range 64).foldl
    (fun acc t => if t / 8 + t % 8 = s / 8 + s % 8 then acc ||| (1 <<< t) else acc) 0

end diagonals

namespace squares

/-- The bitboard `squares::partition[i].bitboard` of square `i`. -/
def bitboard (i : Nat) : Bitboard := 1 <<< i

/-! The square constants `a1 .. h8` of squares.hpp, each standing for its index. -/

def a1 : Nat := 0
def b1 : Nat := 1
def c1 : Nat := 2
def d1 : Nat := 3
def e1 : Nat := 4
def f1 : Nat := 5
def g1 : Nat := 6
def h1 : Nat := 7
def a2 : Nat := 8
def b2 : Nat := 9
def c2 : Nat := 10
def d2 : Nat := 11
def e2 : Nat := 12
def f2 : Nat := 13
def g2 : Nat := 14
def h2 : Nat := 15
def a3 : Nat := 16
def b3 : Nat := 17
def c3 : Nat := 18
def d3 : Nat := 19
def e3 : Nat := 20
def f3 : Nat := 21
def g3 : Nat := 22
def h3 : Nat := 23
def a4 : Nat := 24
def b4 : Nat := 25
def c4 : Nat := 26
def d4 : Nat := 27
def e4 : Nat := 28
def f4 : Nat := 29
def g4 : Nat := 30
def h4 : Nat := 31
def a5 : Nat := 32
def b5 : Nat := 33
def c5 : Nat := 34
def d5 : Nat := 35
def e5 : Nat := 36
def f5 : Nat := 37
def g5 : Nat := 38
def h5 : Nat := 39
def a6 : Nat := 40
def b6 : Nat := 41
def c6 : Nat := 42
def d6 : Nat := 43
def e6 : Nat := 44
def f6 : Nat := 45
def g6 : Nat := 46
def h6 : Nat := 47
def a7 : Nat := 48
def b7 : Nat := 49
def c7 : Nat := 50
def d7 : Nat := 51
def e7 : Nat := 52
def f7 : Nat := 53
def g7 : Nat := 54
def h7 : Nat := 55
def a8 : Nat := 56
def b8 : Nat := 57
def c8 : Nat := 58
def d8 : Nat := 59
def e8 : Nat := 60
def f8 : Nat := 61
def g8 : Nat := 62
def h8 : Nat := 63

/-- Modelled from the spec: `squares::index_from_bitboard` (declared in squares.hpp, defined
elsewhere), the least-significant-bit index of a bitboard; `0` for the empty bitboard. -/
def index_from_bitboard (b : Bitboard) : Nat := (bitboard.members b).headD 0

end squares

namespace moves
open bitboard directions

/-- The function `moves::slides` (Hyperbola Quintessence). -/
def slides (occupancy piece mobility : Bitboard) : Bitboard :=
  let mobility := mobility &&& complement piece
  let forward := occupancy &&& mobility
  let reverse := bswap64 forward
  let forward := sub forward piece
  let reverse := sub reverse (bswap64 piece)
  let forward := forward ^^^ bswap64 reverse
  forward &&& mobility

/-- The function `moves::rank_onto_a1h8`. -/
def rank_onto_a1h8 (b : Bitboard) (rank : Rank) : Bitboard :=
  let b := shr b (rank.index * vertical) &&& 0xff
  mul b 0x0101010101010101 &&& antidiagonals.a1h8

/-- The function `moves::a1h8_onto_rank`; `none` when the assertion fails. -/
def a1h8_onto_rank (b : Bitboard) (rank : Rank) : Option Bitboard :=
  if b &&& complement antidiagonals.a1h8 = 0 then
    let b := mul b 0x0101010101010101
    let b := b / 0x0100000000000000
    some (shl b (rank.index * vertical))
  else none

/-- The function `moves::slides_rank`. -/
def slides_rank (occupancy piece : Bitboard) (rank : Rank) : Option Bitboard :=
  let occupancy := rank_onto_a1h8 occupancy rank
  let piece := rank_onto_a1h8 piece rank
  let attacks := slides occupancy piece antidiagonals.a1h8
  a1h8_onto_rank attacks rank

/-- The function `moves::pawn_attacks_w`. -/
def pawn_attacks_w (pawn : Bitboard) : Bitboard :=
  shr (shl (pawn &&& complement files.a) vertical) horizontal

/-- The function `moves::pawn_attacks_e`. -/
def pawn_attacks_e (pawn : Bitboard) : Bitboard :=
  shl (shl (pawn &&& complement files.h) vertical) horizontal

/-- The function `moves::knight_attacks`. -/
def knight_attacks (knight : Bitboard) (leftshift rightshift : Nat) (badtarget : Bitboard) :
    Bitboard :=
  shr (shl knight leftshift) rightshift &&& complement badtarget

/-- The function `moves::bishop_attacks`. -/
def bishop_attacks (occupancy : Bitboard) (source : Nat) : Bitboard :=
  slides occupancy (squares.bitboard source) (diagonals.by_square source) |||
  slides occupancy (squares.bitboard source) (antidiagonals.by_square source)

/-- The function `moves::rook_attacks`. -/
def rook_attacks (occupancy : Bitboard) (source : Nat) : Option Bitboard := do
  let r ← slides_rank occupancy (squares.bitboard source) (ranks.by_square source)
  pure (slides occupancy (squares.bitboard source) (files.by_square source) ||| r)

/-- The function `moves::queen_attacks`. -/
def queen_attacks (occupancy : Bitboard) (source : Nat) : Option Bitboard := do
  let r ← rook_attacks occupancy source
  pure (bishop_attacks occupancy source ||| r)

/-- The function `moves::king_attacks`. -/
def king_attacks (king : Bitboard) : Bitboard :=
  let leftright := shr (king &&& complement files.a) horizontal |||
    shl (king &&& complement files.h) horizontal
  let triple := leftright ||| king
  leftright ||| shl triple vertical ||| shr triple vertical

end moves

/-- The values of `enum class Move::Type`, each standing for its underlying integer.  Modelled
from the spec: the declaration with all 13 kinds is not among the sources; the kinds are
numbered in the order in which `Move::typename_from_type` and the spec list them. -/
abbrev MoveType := Nat

namespace MoveType

def normal : MoveType := 0
def double_push : MoveType := 1
def castle_kingside : MoveType := 2
def castle_queenside : MoveType := 3
def capture : MoveType := 4
def promotion_knight : MoveType := 5
def promotion_bishop : MoveType := 6
def promotion_rook : MoveType := 7
def promotion_queen : MoveType := 8
def capturing_promotion_knight : MoveType := 9
def capturing_promotion_bishop : MoveType := 10
def capturing_promotion_rook : MoveType := 11
def capturing_promotion_queen : MoveType := 12

/-- The 13 declared kinds. -/
def values : List MoveType :=
  [normal, double_push, castle_kingside, castle_queenside, capture,
   promotion_knight, promotion_bishop, promotion_rook, promotion_queen,
   capturing_promotion_knight, capturing_promotion_bishop, capturing_promotion_rook,
   capturing_promotion_queen]

end MoveType

/-- The class `Move` of moves.hpp / moves.cpp: a 16-bit word. -/
structure Move where
  move : Nat
deriving DecidableEq, Repr

namespace Move

def nbits_type : Nat := 4
def nbits_from : Nat := 6
def nbits_to : Nat := 6
def offset_type : Nat := 0
def offset_from : Nat := offset_type + nbits_type
def offset_to : Nat := offset_from + nbits_from

/-- The constructor `Move::Move(from, to, type)` of moves.cpp; `none` when one of its two
assertions fails.  The word is the `int` expression converted to `uint16_t`. -/
def new (source target : Int) (type : MoveType) : Option Move :=
  if 0 ≤ source ∧ source < 64 ∧ 0 ≤ target ∧ target < 64 then
    some ⟨(((type % 2 ^ 16) <<< offset_type) ||| (source.toNat <<< offset_from) |||
      (target.toNat <<< offset_to)) % 2 ^ 16⟩
  else none

/-- The accessor `Move::type()`. -/
def type (m : Move) : MoveType := (m.move >>> offset_type) &&& ((1 <<< nbits_type) - 1)

/-- The accessor `Move::from()` of moves.cpp (`Move::source()` in move.cpp). -/
def source (m : Move) : Nat := (m.move >>> offset_from) &&& ((1 <<< nbits_from) - 1)

/-- The accessor `Move::to()` of moves.cpp (`Move::target()` in move.cpp). -/
def target (m : Move) : Nat := (m.move >>> offset_to) &&& ((1 <<< nbits_to) - 1)

/-- The predicate `Move::is_capture()`. -/
def is_capture (m : Move) : Bool :=
  match m.type with
  | 4 => true
  | 9 => true
  | 10 => true
  | 11 => true
  | 12 => true
  | _ => false

end Move

/-- The two colours; moves are generated for `white`. -/
inductive Color where
  | white
  | black
deriving DecidableEq, Repr

/-- The six kinds of piece, in the order of `pieces::values`. -/
inductive Piece where
  | pawn
  | knight
  | bishop
  | rook
  | queen
  | king
deriving DecidableEq, Repr

namespace pieces

/-- Modelled from the spec: `pieces::values` (pieces.hpp is not among the sources). -/
def values : List Piece := [.pawn, .knight, .bishop, .rook, .queen, .king]

end pieces

/-- The type `Board`: one bitboard per colour and piece. -/
abbrev Board := Color → Piece → Bitboard

/-- The type `Occupancy`: one bitboard per colour. -/
abbrev Occupancy := Color → Bitboard

/-- Modelled from the spec: one entry of the knight attack table (knight.hpp is not among the
sources): the two shifts and the mask of targets that a wrap across a file edge produces. -/
structure KnightAttackType where
  leftshift : Nat
  rightshift : Nat
  badtargets : Bitboard
deriving DecidableEq, Repr

open directions in
/-- Modelled from the spec: `get_knight_attack_types()` (knight.hpp is not among the sources),
the eight jumps in the order nnw, ssw, nww, sww, nne, sse, nee, see of moves.hpp. -/
def get_knight_attack_types : List KnightAttackType :=
  [ ⟨2 * vertical, horizontal, files.h⟩,
    ⟨0, 2 * vertical + horizontal, files.h⟩,
    ⟨vertical, 2 * horizontal, files.g ||| files.h⟩,
    ⟨0, vertical + 2 * horizontal, files.g ||| files.h⟩,
    ⟨2 * vertical + horizontal, 0, files.a⟩,
    ⟨horizontal, 2 * vertical, files.a⟩,
    ⟨vertical + 2 * horizontal, 0, files.a ||| files.b⟩,
    ⟨2 * horizontal, vertical, files.a ||| files.b⟩ ]

/-- The `enum Relativity` of moves.cpp, with its integer values. -/
inductive Relativity where
  | absolute
  | relative
deriving DecidableEq, Repr

/-- The integer value of a `Relativity`. -/
def Relativity.toInt : Relativity → Int
  | .absolute => 0
  | .relative => 1

open bitboard in
/-- The function `moves_from_targets`: one move per target, appended to `ms`. -/
def moves_from_targets (ms : List Move) (targets : Bitboard) (source : Int)
    (relativity : Relativity) (type : MoveType) : Option (List Move) :=
  for_each_member targets ms (fun ms target => do
    let m ← Move.new (relativity.toInt * (target : Int) + source) (target : Int) type
    pure (ms ++ [m]))

open bitboard in
/-- The function `moves_from_attacks`: normal and capturing moves from a set of attacks. -/
def moves_from_attacks (ms : List Move) (attacks us them : Bitboard) (source : Int)
    (relativity : Relativity) : Option (List Move) := do
  let attacks := attacks &&& complement us
  let ms ← moves_from_targets ms (attacks &&& complement them) source relativity MoveType.normal
  moves_from_targets ms (attacks &&& them) source relativity MoveType.capture

namespace moves
open bitboard directions

/-- The function `moves::all_attacks`; includes attacks on own pieces. -/
def all_attacks (occupancy : Bitboard) (board : Board) : Option Bitboard := do
  let attackers := board Color.white
  let knight_attacks := get_knight_attack_types.foldl
    (fun acc ka => acc |||
      moves.knight_attacks (attackers Piece.knight) ka.leftshift ka.rightshift ka.badtargets) 0
  let bishop_attacks ← for_each_member (attackers Piece.bishop) 0
    (fun acc source => pure (acc ||| moves.bishop_attacks occupancy source))
  let rook_attacks ← for_each_member (attackers Piece.rook) 0
    (fun acc source => do pure (acc ||| (← moves.rook_attacks occupancy source)))
  let queen_attacks ← for_each_member (attackers Piece.queen) 0
    (fun acc source => do pure (acc ||| (← moves.queen_attacks occupancy source)))
  pure (pawn_attacks_w (attackers Piece.pawn) |||
    pawn_attacks_e (attackers Piece.pawn) |||
    king_attacks (attackers Piece.king) |||
    knight_attacks ||| bishop_attacks ||| rook_attacks ||| queen_attacks)

/-- The function `moves::black_attacks`: the attacks of black, computed on the flipped board. -/
def black_attacks (occupancy : Bitboard) (board : Board) : Option Bitboard := do
  let b_occupancy := flip_vertically occupancy
  let b_board : Board := fun c piece =>
    match c with
    | Color.white => flip_vertically (board Color.black piece)
    | Color.black => flip_vertically (board Color.white piece)
  let b_attacks ← all_attacks b_occupancy b_board
  pure (flip_vertically b_attacks)

/-- The function `moves::pawn`. -/
def pawn (ms : List Move) (pawn us them en_passant_square : Bitboard) : Option (List Move) := do
  let flat_occupancy := us ||| them
  -- single push
  let single_push_targets := shl pawn vertical &&& complement flat_occupancy
  let ms ← moves_from_targets ms (single_push_targets &&& complement ranks._8) south
    Relativity.relative MoveType.normal
  let promotion_targets := single_push_targets &&& ranks._8
  let ms ← (if promotion_targets ≠ 0 then
      [MoveType.promotion_knight, MoveType.promotion_bishop,
       MoveType.promotion_rook, MoveType.promotion_queen].foldlM
        (fun ms promotion =>
          moves_from_targets ms promotion_targets south Relativity.relative promotion) ms
    else pure ms)
  -- double push
  let double_push_targets :=
    shl (single_push_targets &&& ranks._3) vertical &&& complement flat_occupancy
  let ms ← moves_from_targets ms double_push_targets (2 * south)
    Relativity.relative MoveType.double_push
  -- captures
  let capture_targets := pawn_attacks_w pawn &&& (them ||| en_passant_square)
  let ms ← moves_from_targets ms (capture_targets &&& complement ranks._8) (south + east)
    Relativity.relative MoveType.capture
  let promotion_targets := capture_targets &&& ranks._8
  let ms ← (if promotion_targets ≠ 0 then
      [MoveType.capturing_promotion_knight, MoveType.capturing_promotion_bishop,
       MoveType.capturing_promotion_rook, MoveType.capturing_promotion_queen].foldlM
        (fun ms promotion =>
          moves_from_targets ms promotion_targets (south + east) Relativity.relative promotion) ms
    else pure ms)
  let capture_targets := pawn_attacks_e pawn &&& (them ||| en_passant_square)
  let ms ← moves_from_targets ms (capture_targets &&& complement ranks._8) (south + west)
    Relativity.relative MoveType.capture
  let promotion_targets := capture_targets &&& ranks._8
  if promotion_targets ≠ 0 then
    [MoveType.capturing_promotion_knight, MoveType.capturing_promotion_bishop,
     MoveType.capturing_promotion_rook, MoveType.capturing_promotion_queen].foldlM
      (fun ms promotion =>
        moves_from_targets ms promotion_targets (south + west) Relativity.relative promotion) ms
  else pure ms

/-- The function `moves::knight`. -/
def knight (ms : List Move) (knight us them _en_passant_square : Bitboard) :
    Option (List Move) :=
  get_knight_attack_types.foldlM
    (fun ms ka =>
      moves_from_attacks ms (knight_attacks knight ka.leftshift ka.rightshift ka.badtargets)
        us them (-(ka.leftshift : Int) + (ka.rightshift : Int)) Relativity.relative) ms

/-- The function `moves::bishop`. -/
def bishop (ms : List Move) (bishop us them _en_passant_square : Bitboard) :
    Option (List Move) :=
  let flat_occupancy := us ||| them
  for_each_member bishop ms (fun ms source =>
    moves_from_attacks ms (bishop_attacks flat_occupancy source) us them (source : Int)
      Relativity.absolute)

/-- The function `moves::rook`. -/
def rook (ms : List Move) (rook us them _en_passant_square : Bitboard) : Option (List Move) :=
  let flat_occupancy := us ||| them
  for_each_member rook ms (fun ms source => do
    moves_from_attacks ms (← rook_attacks flat_occupancy source) us them (source : Int)
      Relativity.absolute)

/-- The function `moves::queen`. -/
def queen (ms : List Move) (queen us them _en_passant_square : Bitboard) : Option (List Move) :=
  let flat_occupancy := us ||| them
  for_each_member queen ms (fun ms source => do
    moves_from_attacks ms (← queen_attacks flat_occupancy source) us them (source : Int)
      Relativity.absolute)

/-- The function `moves::king`. -/
def king (ms : List Move) (king us them _en_passant_square : Bitboard) : Option (List Move) :=
  moves_from_attacks ms (king_attacks king) us them (squares.index_from_bitboard king : Int)
    Relativity.absolute

/-- The function `moves::castle`. -/
def castle (ms : List Move) (occupancy : Bitboard) (board : Board)
    (can_castle_kingside can_castle_queenside : Bool) : Option (List Move) := do
  let attacks ← black_attacks occupancy board
  let e1 := squares.bitboard squares.e1
  let f1 := squares.bitboard squares.f1
  let g1 := squares.bitboard squares.g1
  let d1 := squares.bitboard squares.d1
  let c1 := squares.bitboard squares.c1
  let b1 := squares.bitboard squares.b1
  let ms ← (if can_castle_kingside ∧ attacks &&& (e1 ||| f1 ||| g1) = 0 ∧
      occupancy &&& (f1 ||| g1) = 0 then do
      let m ← Move.new squares.e1 squares.g1 MoveType.castle_kingside
      pure (ms ++ [m])
    else pure ms)
  if can_castle_queenside ∧ attacks &&& (e1 ||| d1 ||| c1 ||| b1) = 0 ∧
      occupancy &&& (d1 ||| c1 ||| b1) = 0 then do
    let m ← Move.new squares.e1 squares.c1 MoveType.castle_queenside
    pure (ms ++ [m])
  else pure ms

/-- The table `move_generators_by_piece`. -/
def move_generators_by_piece :
    Piece → List Move → Bitboard → Bitboard → Bitboard → Bitboard → Option (List Move)
  | Piece.pawn => pawn
  | Piece.knight => knight
  | Piece.bishop => bishop
  | Piece.rook => rook
  | Piece.queen => queen
  | Piece.king => king

/-- The function `moves::piece_moves`. -/
def piece_moves (ms : List Move) (piece : Piece) (board : Board) (occupancy : Occupancy)
    (en_passant_square : Bitboard) : Option (List Move) :=
  move_generators_by_piece piece ms (board Color.white piece) (occupancy Color.white)
    (occupancy Color.black) en_passant_square

/-- The function `moves::all_moves`. -/
def all_moves (ms : List Move) (board : Board) (occupancy : Occupancy)
    (en_passant_square : Bitboard) (can_castle_kingside can_castle_queenside : Bool) :
    Option (List Move) := do
  let ms ← pieces.values.foldlM
    (fun ms piece =>
      move_generators_by_piece piece ms (board Color.white piece) (occupancy Color.white)
        (occupancy Color.black) en_passant_square) ms
  castle ms (occupancy Color.white ||| occupancy Color.black) board
    can_castle_kingside can_castle_queenside

end moves

/-! ## Closed forms: what each generator appends -/

/-- The word built by the constructor `Move::Move` from in-range fields. -/
def Move.pack (source target : Nat) (type : MoveType) : Move :=
  ⟨(((type % 2 ^ 16) <<< Move.offset_type) ||| (source <<< Move.offset_from) |||
      (target <<< Move.offset_to)) % 2 ^ 16⟩

/-- The function `f` extends its accumulator by exactly `out` (and fails no assertion). -/
def Appends (f : List Move → Option (List Move)) (out : List Move) : Prop :=
  ∀ ms, f ms = some (ms ++ out)

/-- The moves that `moves_from_targets` emits when the source of target `t` is `src t`. -/
def targets_moves (targets : Bitboard) (src : Nat → Nat) (type : Nat) : List Move :=
  (bitboard.members targets).map (fun t => Move.pack (src t) t type)

/-- The moves that `moves_from_attacks` emits. -/
def attacks_moves (attacks us them : Bitboard) (src : Nat → Nat) : List Move :=
  targets_moves (attacks &&& bitboard.complement us &&& bitboard.complement them) src
      MoveType.normal ++
    targets_moves (attacks &&& bitboard.complement us &&& them) src MoveType.capture

namespace moves
open bitboard directions

/-- The value of `slides_rank` (its assertion always holds). -/
def slides_rank_val (occupancy piece : Bitboard) (rank : Rank) : Bitboard :=
  shl (mul (slides (rank_onto_a1h8 occupancy rank) (rank_onto_a1h8 piece rank)
    antidiagonals.a1h8) 0x0101010101010101 / 0x0100000000000000) (rank.index * vertical)

/-- The value of `rook_attacks`. -/
def rook_attacks_val (occupancy : Bitboard) (source : Nat) : Bitboard :=
  slides occupancy (squares.bitboard source) (files.by_square source) |||
    slides_rank_val occupancy (squares.bitboard source) (ranks.by_square source)

/-- The value of `queen_attacks`. -/
def queen_attacks_val (occupancy : Bitboard) (source : Nat) : Bitboard :=
  bishop_attacks occupancy source ||| rook_attacks_val occupancy source

/-- The value of `all_attacks`. -/
def all_attacks_val (occupancy : Bitboard) (board : Board) : Bitboard :=
  pawn_attacks_w (board Color.white Piece.pawn) |||
    pawn_attacks_e (board Color.white Piece.pawn) |||
    king_attacks (board Color.white Piece.king) |||
    get_knight_attack_types.foldl
      (fun acc ka => acc |||
        knight_attacks (board Color.white Piece.knight) ka.leftshift ka.rightshift ka.badtargets)
      0 |||
    (members (board Color.white Piece.bishop)).foldl
      (fun acc source => acc ||| bishop_attacks occupancy source) 0 |||
    (members (board Color.white Piece.rook)).foldl
      (fun acc source => acc ||| rook_attacks_val occupancy source) 0 |||
    (members (board Color.white Piece.queen)).foldl
      (fun acc source => acc ||| queen_attacks_val occupancy source) 0

/-- The value of `black_attacks`. -/
def black_attacks_val (occupancy : Bitboard) (board : Board) : Bitboard :=
  flip_vertically (all_attacks_val (flip_vertically occupancy) (fun c piece =>
    match c with
    | Color.white => flip_vertically (board Color.black piece)
    | Color.black => flip_vertically (board Color.white piece)))

/-- The four promotion kinds, in the order of the loop in `moves::pawn`. -/
def promotions : List Nat :=
  [MoveType.promotion_knight, MoveType.promotion_bishop,
   MoveType.promotion_rook, MoveType.promotion_queen]

/-- The four capturing promotion kinds, in the order of the loops in `moves::pawn`. -/
def capturing_promotions : List Nat :=
  [MoveType.capturing_promotion_knight, MoveType.capturing_promotion_bishop,
   MoveType.capturing_promotion_rook, MoveType.capturing_promotion_queen]

/-- Single-push targets of `moves::pawn`. -/
def single_push_targets (pawn us them : Bitboard) : Bitboard :=
  shl pawn vertical &&& complement (us ||| them)

/-- Double-push targets of `moves::pawn`. -/
def double_push_targets (pawn us them : Bitboard) : Bitboard :=
  shl (single_push_targets pawn us them &&& ranks._3) vertical &&& complement (us ||| them)

/-- Capture targets to the west of `moves::pawn`. -/
def capture_targets_w (pawn them en_passant_square : Bitboard) : Bitboard :=
  pawn_attacks_w pawn &&& (them ||| en_passant_square)

/-- Capture targets to the east of `moves::pawn`. -/
def capture_targets_e (pawn them en_passant_square : Bitboard) : Bitboard :=
  pawn_attacks_e pawn &&& (them ||| en_passant_square)

/-- The moves that `moves::pawn` appends, in order. -/
def pawn_moves (pawn us them en_passant_square : Bitboard) : List Move :=
  targets_moves (single_push_targets pawn us them &&& complement ranks._8) (fun t => t - 8)
      MoveType.normal ++
    promotions.flatMap (fun ty =>
      targets_moves (single_push_targets pawn us them &&& ranks._8) (fun t => t - 8) ty) ++
    targets_moves (double_push_targets pawn us them) (fun t => t - 16) MoveType.double_push ++
    targets_moves (capture_targets_w pawn them en_passant_square &&& complement ranks._8)
      (fun t => t - 7) MoveType.capture ++
    capturing_promotions.flatMap (fun ty =>
      targets_moves (capture_targets_w pawn them en_passant_square &&& ranks._8)
        (fun t => t - 7) ty) ++
    targets_moves (capture_targets_e pawn them en_passant_square &&& complement ranks._8)
      (fun t => t - 9) MoveType.capture ++
    capturing_promotions.flatMap (fun ty =>
      targets_moves (capture_targets_e pawn them en_passant_square &&& ranks._8)
        (fun t => t - 9) ty)

/-- The moves that `moves::knight` appends. -/
def knight_moves (knight us them : Bitboard) : List Move :=
  get_knight_attack_types.flatMap (fun ka =>
    attacks_moves (knight_attacks knight ka.leftshift ka.rightshift ka.badtargets) us them
      (fun t => t + ka.rightshift - ka.leftshift))

/-- The moves that a slider generator appends: for every piece square, its attacks. -/
def slider_moves (attacks : Nat → Bitboard) (piece us them : Bitboard) : List Move :=
  (members piece).flatMap (fun source =>
    attacks_moves (attacks source) us them (fun _ => source))

/-- The moves that `moves::king` appends. -/
def king_moves (king us them : Bitboard) : List Move :=
  attacks_moves (king_attacks king) us them (fun _ => squares.index_from_bitboard king)

/-- The condition under which `moves::castle` emits the kingside castle. -/
def kingside_ok (attacks occupancy : Bitboard) (can_castle_kingside : Bool) : Prop :=
  can_castle_kingside = true ∧
    attacks &&& (squares.bitboard squares.e1 ||| squares.bitboard squares.f1 |||
      squares.bitboard squares.g1) = 0 ∧
    occupancy &&& (squares.bitboard squares.f1 ||| squares.bitboard squares.g1) = 0

/-- The condition under which `moves::castle` emits the queenside castle. -/
def queenside_ok (attacks occupancy : Bitboard) (can_castle_queenside : Bool) : Prop :=
  can_castle_queenside = true ∧
    attacks &&& (squares.bitboard squares.e1 ||| squares.bitboard squares.d1 |||
      squares.bitboard squares.c1 ||| squares.bitboard squares.b1) = 0 ∧
    occupancy &&& (squares.bitboard squares.d1 ||| squares.bitboard squares.c1 |||
      squares.bitboard squares.b1) = 0

instance (attacks occupancy : Bitboard) (c : Bool) : Decidable (kingside_ok attacks occupancy c) :=
  by unfold kingside_ok; infer_instance

instance (attacks occupancy : Bitboard) (c : Bool) : Decidable (queenside_ok attacks occupancy c) :=
  by unfold queenside_ok; infer_instance

/-- The moves that `moves::castle` appends. -/
def castle_moves (occupancy : Bitboard) (board : Board)
    (can_castle_kingside can_castle_queenside : Bool) : List Move :=
  (if kingside_ok (black_attacks_val occupancy board) occupancy can_castle_kingside then
      [Move.pack squares.e1 squares.g1 MoveType.castle_kingside] else []) ++
    (if queenside_ok (black_attacks_val occupancy board) occupancy can_castle_queenside then
      [Move.pack squares.e1 squares.c1 MoveType.castle_queenside] else [])

/-- The moves that `moves::all_moves` appends. -/
def all_moves_list (board : Board) (occupancy : Occupancy) (en_passant_square : Bitboard)
    (can_castle_kingside can_castle_queenside : Bool) : List Move :=
  let us := occupancy Color.white
  let them := occupancy Color.black
  pawn_moves (board Color.white Piece.pawn) us them en_passant_square ++
  (knight_moves (board Color.white Piece.knight) us them ++
  (slider_moves (bishop_attacks (us ||| them)) (board Color.white Piece.bishop) us them ++
  (slider_moves (rook_attacks_val (us ||| them)) (board Color.white Piece.rook) us them ++
  (slider_moves (queen_attacks_val (us ||| them)) (board Color.white Piece.queen) us them ++
  (king_moves (board Color.white Piece.king) us them ++
  castle_moves (us ||| them) board can_castle_kingside can_castle_queenside)))))

end moves

/-! ## What the generators guarantee of each emitted move -/

/-- A move emitted from a set of attacks of the pieces in `piece`: it leaves a square of
`piece`, lands on a square not occupied by `us`, and is a capture exactly when the target is
occupied by `them`. -/
def PieceMove (piece us them : Bitboard) (m : Move) : Prop :=
  ∃ s t, s < 64 ∧ t < 64 ∧ piece.testBit s = true ∧ us.testBit t = false ∧
    m.source = s ∧ m.target = t ∧
    ((m.type = MoveType.normal ∧ them.testBit t = false) ∨
      (m.type = MoveType.capture ∧ them.testBit t = true))

/-- A move emitted by `moves::pawn`, by the block of the function that emits it. -/
inductive PawnMove (pawn us them en_passant_square : Bitboard) (m : Move) : Prop where
  | push (t : Nat) (ht : t < 64) (h8 : 8 ≤ t) (hp : pawn.testBit (t - 8) = true)
      (hfree : (us ||| them).testBit t = false)
      (hsrc : m.source = t - 8) (htgt : m.target = t)
      (hty : (ranks._8.testBit t = false ∧ m.type = MoveType.normal) ∨
        (ranks._8.testBit t = true ∧ m.type ∈ moves.promotions)) :
      PawnMove pawn us them en_passant_square m
  | double_push (t : Nat) (ht : 16 ≤ t ∧ t < 32) (hp : pawn.testBit (t - 16) = true)
      (hfree : (us ||| them).testBit t = false) (hfree' : (us ||| them).testBit (t - 8) = false)
      (hsrc : m.source = t - 16) (htgt : m.target = t) (hty : m.type = MoveType.double_push) :
      PawnMove pawn us them en_passant_square m
  | capture_w (t : Nat) (ht : t < 64) (h7 : 7 ≤ t) (hp : pawn.testBit (t - 7) = true)
      (hfile : files.a.testBit (t - 7) = false)
      (hcap : (them ||| en_passant_square).testBit t = true)
      (hsrc : m.source = t - 7) (htgt : m.target = t)
      (hty : (ranks._8.testBit t = false ∧ m.type = MoveType.capture) ∨
        (ranks._8.testBit t = true ∧ m.type ∈ moves.capturing_promotions)) :
      PawnMove pawn us them en_passant_square m
  | capture_e (t : Nat) (ht : t < 64) (h9 : 9 ≤ t) (hp : pawn.testBit (t - 9) = true)
      (hfile : files.h.testBit (t - 9) = false)
      (hcap : (them ||| en_passant_square).testBit t = true)
      (hsrc : m.source = t - 9) (htgt : m.target = t)
      (hty : (ranks._8.testBit t = false ∧ m.type = MoveType.capture) ∨
        (ranks._8.testBit t = true ∧ m.type ∈ moves.capturing_promotions)) :
      PawnMove pawn us them en_passant_square m

/-- Consistency of the arguments of `moves::all_moves` for a position with white to move:
the twelve piece bitboards are 64-bit words and pairwise disjoint, each occupancy is the union
of its colour's pieces, white has exactly one king, a castling flag is set only while the king
stands on e1 and the rook on its corner, and the en-passant square is empty or a single
unoccupied square of rank 6. -/
structure Consistent (board : Board) (occupancy : Occupancy) (en_passant_square : Bitboard)
    (can_castle_kingside can_castle_queenside : Bool) : Prop where
  word : ∀ c p, board c p < 2 ^ 64
  disjoint : ∀ c p c' p', (c ≠ c' ∨ p ≠ p') → board c p &&& board c' p' = 0
  occupancy_eq : ∀ c, occupancy c =
    board c Piece.pawn ||| board c Piece.knight ||| board c Piece.bishop |||
      board c Piece.rook ||| board c Piece.queen ||| board c Piece.king
  one_king : ∃ k, k < 64 ∧ board Color.white Piece.king = squares.bitboard k
  kingside : can_castle_kingside = true →
    board Color.white Piece.king = squares.bitboard squares.e1 ∧
      (board Color.white Piece.rook).testBit squares.h1 = true
  queenside : can_castle_queenside = true →
    board Color.white Piece.king = squares.bitboard squares.e1 ∧
      (board Color.white Piece.rook).testBit squares.a1 = true
  en_passant : en_passant_square = 0 ∨ ∃ e, 40 ≤ e ∧ e < 48 ∧
    en_passant_square = squares.bitboard e ∧
    (occupancy Color.white ||| occupancy Color.black).testBit e = false

/-! ## Positions of the test suite -/

namespace positions
open squares

/-- The bitboard of a list of squares. -/
def of_squares (l : List Nat) : Bitboard := l.foldl (fun acc s => acc ||| squares.bitboard s) 0

/-- The occupancies of a board: `occupancy[c]` is the union of the pieces of colour `c`. -/
def occupancy_of (board : Board) : Occupancy := fun c =>
  board c Piece.pawn ||| board c Piece.knight ||| board c Piece.bishop |||
    board c Piece.rook ||| board c Piece.queen ||| board c Piece.king

/-- The board seen from the other side: every bitboard flipped vertically and the colours
swapped, as `moves::black_attacks` does and as the head comment of moves.cpp prescribes for
generating the moves of Black. -/
def flip (board : Board) : Board := fun c piece =>
  match c with
  | Color.white => bitboard.flip_vertically (board Color.black piece)
  | Color.black => bitboard.flip_vertically (board Color.white piece)

/-- The standard starting position (test `initial_moves`). -/
def initial : Board
  | Color.white, Piece.pawn => ranks._2
  | Color.white, Piece.knight => of_squares [b1, g1]
  | Color.white, Piece.bishop => of_squares [c1, f1]
  | Color.white, Piece.rook => of_squares [a1, h1]
  | Color.white, Piece.queen => of_squares [d1]
  | Color.white, Piece.king => of_squares [e1]
  | Color.black, Piece.pawn => of_squares [a7, b7, c7, d7, e7, f7, g7, h7]
  | Color.black, Piece.knight => of_squares [b8, g8]
  | Color.black, Piece.bishop => of_squares [c8, f8]
  | Color.black, Piece.rook => of_squares [a8, h8]
  | Color.black, Piece.queen => of_squares [d8]
  | Color.black, Piece.king => of_squares [e8]

/-- The expected moves of test `initial_moves`, built as the test builds them. -/
def initial_expected : List Move :=
  (bitboard.members ranks._2).flatMap (fun s =>
      [Move.pack s (s + 8) MoveType.normal, Move.pack s (s + 2 * 8) MoveType.double_push]) ++
    (bitboard.members (of_squares [b1, g1])).flatMap (fun s =>
      [Move.pack s (s + 2 * 8 - 1) MoveType.normal, Move.pack s (s + 2 * 8 + 1) MoveType.normal])

/-- The board of `r1b2rk1/pp1P1p1p/q1p2n2/2N2PpB/1NP2bP1/2R1B3/PP2Q2P/R3K3` (test
`various_moves`, whose first block checks these twelve bitboards). -/
def various : Board
  | Color.white, Piece.pawn => of_squares [a2, b2, c4, d7, f5, g4, h2]
  | Color.white, Piece.knight => of_squares [b4, c5]
  | Color.white, Piece.bishop => of_squares [e3, h5]
  | Color.white, Piece.rook => of_squares [a1, c3]
  | Color.white, Piece.queen => of_squares [e2]
  | Color.white, Piece.king => of_squares [e1]
  | Color.black, Piece.pawn => of_squares [a7, b7, c6, f7, g5, h7]
  | Color.black, Piece.knight => of_squares [f6]
  | Color.black, Piece.bishop => of_squares [c8, f4]
  | Color.black, Piece.rook => of_squares [a8, f8]
  | Color.black, Piece.queen => of_squares [a6]
  | Color.black, Piece.king => of_squares [g8]

/-- All moves from `s` to the squares of `targets`, of one kind. -/
def to_each (s : Nat) (targets : List Nat) (type : MoveType) : List Move :=
  targets.map (fun t => Move.pack s t type)

/-- The expected moves of test `various_moves`, in the order of the test. -/
def various_expected : List Move :=
  to_each a1 [b1, c1, d1] MoveType.normal ++
  to_each e1 [d1, f1, d2, f2] MoveType.normal ++
  [Move.pack e1 c1 MoveType.castle_queenside] ++
  [Move.pack a2 a3 MoveType.normal, Move.pack a2 a4 MoveType.double_push] ++
  [Move.pack b2 b3 MoveType.normal] ++
  to_each e2 [f1, f2, g2, f3, d3, d2, c2, d1] MoveType.normal ++
  [Move.pack h2 h3 MoveType.normal, Move.pack h2 h4 MoveType.double_push] ++
  to_each c3 [c2, c1, d3, b3, a3] MoveType.normal ++
  to_each e3 [f2, g1, d4, d2, c1] MoveType.normal ++
  [Move.pack e3 f4 MoveType.capture] ++
  to_each b4 [d5, d3, c2] MoveType.normal ++
  to_each b4 [a6, c6] MoveType.capture ++
  to_each c5 [e6, e4, d3, b3, a4] MoveType.normal ++
  to_each c5 [a6, b7] MoveType.capture ++
  [Move.pack f5 g6 MoveType.capture] ++
  [Move.pack h5 g6 MoveType.normal, Move.pack h5 f7 MoveType.capture] ++
  [MoveType.promotion_knight, MoveType.promotion_bishop, MoveType.promotion_rook,
    MoveType.promotion_queen].map (fun type => Move.pack d7 d8 type) ++
  [MoveType.capturing_promotion_knight, MoveType.capturing_promotion_bishop,
    MoveType.capturing_promotion_rook, MoveType.capturing_promotion_queen].map
    (fun type => Move.pack d7 c8 type)

/-- The board of `8/5B2/8/Q1pk4/8/8/PPP5/6K1` (test `king_capture`, black to move). -/
def king_capture : Board
  | Color.white, Piece.pawn => of_squares [a2, b2, c2]
  | Color.white, Piece.bishop => of_squares [f7]
  | Color.white, Piece.queen => of_squares [a5]
  | Color.white, Piece.king => of_squares [g1]
  | Color.black, Piece.pawn => of_squares [c5]
  | Color.black, Piece.king => of_squares [d5]
  | _, _ => 0

/-- The board of test `king_capture` after black has played d5c4 (white to move). -/
def king_capture_after : Board
  | Color.white, Piece.pawn => of_squares [a2, b2, c2]
  | Color.white, Piece.bishop => of_squares [f7]
  | Color.white, Piece.queen => of_squares [a5]
  | Color.white, Piece.king => of_squares [g1]
  | Color.black, Piece.pawn => of_squares [c5]
  | Color.black, Piece.king => of_squares [c4]
  | _, _ => 0

end positions

/-! ## Sliding attacks as the specification words them: walking to the first blocker -/

namespace spec

/-- The squares met when walking from the square of file `file` and rank `rank` by steps of
`(df, dr)`, nearest first, until the edge of the board (at most `fuel` of them). -/
def ray_from (file rank df dr : Int) : Nat → List Nat
  | 0 => []
  | fuel + 1 =>
    if 0 ≤ file + df ∧ file + df < 8 ∧ 0 ≤ rank + dr ∧ rank + dr < 8 then
      ((file + df) + 8 * (rank + dr)).toNat :: ray_from (file + df) (rank + dr) df dr fuel
    else []

/-- The squares met when walking from square `s` in direction `(df, dr)`. -/
def ray (s : Nat) (df dr : Int) : List Nat := ray_from ((s % 8 : Nat) : Int) ((s / 8 : Nat) : Int) df dr 7

/-- The squares reached on a walk along `path`: every square up to and including the first
occupied one. -/
def walk (occupancy : Bitboard) : List Nat → Bitboard
  | [] => 0
  | t :: path => squares.bitboard t ||| (if occupancy.testBit t then 0 else walk occupancy path)

/-- Rook attacks: the walks along the rank and the file, in all four directions. -/
def rook_attacks (occupancy : Bitboard) (s : Nat) : Bitboard :=
  walk occupancy (ray s 0 1) ||| walk occupancy (ray s 0 (-1)) |||
    (walk occupancy (ray s 1 0) ||| walk occupancy (ray s (-1) 0))

/-- Bishop attacks: the walks along both diagonals, in all four directions. -/
def bishop_attacks (occupancy : Bitboard) (s : Nat) : Bitboard :=
  walk occupancy (ray s 1 (-1)) ||| walk occupancy (ray s (-1) 1) |||
    (walk occupancy (ray s 1 1) ||| walk occupancy (ray s (-1) (-1)))

end spec

/-! ## Exhaustive checks of the sliding attacks

The checks below run over every square and every occupancy of the line through it.  They are
written with the primitive operations of `Nat` so that they evaluate quickly; each function
is proved equal to the definition it stands for. -/

namespace fast

/-- The function `bitboard.bswap64` on primitives. -/
def bswap64 (x : Nat) : Nat :=
  Nat.lor (Nat.lor (Nat.lor (Nat.lor (Nat.lor (Nat.lor (Nat.lor
    (Nat.shiftLeft (Nat.land x 0xff) 56)
    (Nat.shiftLeft (Nat.land (Nat.shiftRight x 8) 0xff) 48))
    (Nat.shiftLeft (Nat.land (Nat.shiftRight x 16) 0xff) 40))
    (Nat.shiftLeft (Nat.land (Nat.shiftRight x 24) 0xff) 32))
    (Nat.shiftLeft (Nat.land (Nat.shiftRight x 32) 0xff) 24))
    (Nat.shiftLeft (Nat.land (Nat.shiftRight x 40) 0xff) 16))
    (Nat.shiftLeft (Nat.land (Nat.shiftRight x 48) 0xff) 8))
    (Nat.land (Nat.shiftRight x 56) 0xff)

/-- The function `bitboard.sub` on primitives. -/
def sub (a b : Nat) : Nat :=
  Nat.mod (Nat.add a (Nat.sub 18446744073709551616 (Nat.mod b 18446744073709551616)))
    18446744073709551616

/-- The function `bitboard.complement` on primitives. -/
def complement (b : Nat) : Nat := Nat.mod (Nat.xor b 0xffffffffffffffff) 18446744073709551616

/-- The function `moves.slides` on primitives. -/
def slides (occupancy piece mobility : Nat) : Nat :=
  Nat.land
    (Nat.xor (sub (Nat.land occupancy (Nat.land mobility (complement piece))) piece)
      (bswap64 (sub (bswap64 (Nat.land occupancy (Nat.land mobility (complement piece))))
        (bswap64 piece))))
    (Nat.land mobility (complement piece))

/-- The function `moves.rank_onto_a1h8` on primitives. -/
def rank_onto_a1h8 (b index : Nat) : Nat :=
  Nat.land (Nat.mod (Nat.mul (Nat.land (Nat.shiftRight b (Nat.mul index 8)) 0xff)
    0x0101010101010101) 18446744073709551616) 0x8040201008040201

/-- The function `moves.slides_rank_val` on primitives. -/
def slides_rank_val (occupancy piece index : Nat) : Nat :=
  Nat.mod (Nat.shiftLeft
    (Nat.div (Nat.mod (Nat.mul
      (slides (rank_onto_a1h8 occupancy index) (rank_onto_a1h8 piece index) 0x8040201008040201)
      0x0101010101010101) 18446744073709551616) 0x0100000000000000)
    (Nat.mul index 8)) 18446744073709551616

/-- The union of the squares of a list. -/
def mask : List Nat → Nat
  | [] => 0
  | t :: l => Nat.lor (Nat.shiftLeft 1 t) (mask l)

/-- All subsets of the squares of a list, as bitboards. -/
def submasks : List Nat → List Nat
  | [] => [0]
  | t :: l => submasks l ++ (submasks l).map (fun x => Nat.lor (Nat.shiftLeft 1 t) x)

/-- Every occupancy of the squares of a path, paired with the squares reached by the walk
along the path under that occupancy. -/
def walks : List Nat → List (Nat × Nat)
  | [] => [(0, 0)]
  | t :: path =>
    (walks path).map (fun xw => (xw.1, Nat.lor (Nat.shiftLeft 1 t) xw.2)) ++
      (submasks path).map (fun x => (Nat.lor (Nat.shiftLeft 1 t) x, Nat.shiftLeft 1 t))

/-- The test `p i` holds for every `i < n`. -/
def all_below (p : Nat → Bool) : Nat → Bool
  | 0 => true
  | n + 1 =>
    match p n with
    | true => all_below p n
    | false => false

/-- The test `p x` holds for every `x` of the list. -/
def all_of {α : Type} (p : α → Bool) : List α → Bool
  | [] => true
  | x :: l =>
    match p x with
    | true => all_of p l
    | false => false

/-- For square `s`: the two rays `r1`, `r2` make up the line `line` without `s`, and on every
occupancy of these squares `slides` gives the union of the two walks. -/
def line_ok (s line : Nat) (r1 r2 : List Nat) : Bool :=
  match Nat.beq (mask (r1 ++ r2)) (Nat.land line (complement (Nat.shiftLeft 1 s))) with
  | false => false
  | true =>
    all_of (fun xw1 => all_of (fun xw2 =>
        Nat.beq (slides (Nat.lor xw1.1 xw2.1) (Nat.shiftLeft 1 s) line) (Nat.lor xw1.2 xw2.2))
      (walks r2)) (walks r1)

/-- For square `s`: the two rays `r1`, `r2` and `s` make up the rank of `s`, and on every
occupancy of the rank `slides_rank` gives the union of the two walks. -/
def rank_ok (s : Nat) (r1 r2 : List Nat) : Bool :=
  match Nat.beq (Nat.lor (mask (r1 ++ r2)) (Nat.shiftLeft 1 s))
      (Nat.shiftLeft 0xff (Nat.mul (Nat.div s 8) 8)) with
  | false => false
  | true =>
    all_of (fun xw1 => all_of (fun xw2 => all_of (fun b =>
        Nat.beq
          (slides_rank_val (Nat.lor (Nat.lor xw1.1 xw2.1) b) (Nat.shiftLeft 1 s) (Nat.div s 8))
          (Nat.lor xw1.2 xw2.2))
      [0, Nat.shiftLeft 1 s]) (walks r2)) (walks r1)

/-- The check of `slides` along files, for the squares below `n`. -/
def files_ok (n : Nat) : Bool :=
  all_below (fun s => line_ok s (files.by_square s) (spec.ray s 0 1) (spec.ray s 0 (-1))) n

/-- The check of `slides` along the a8-h1 parallels, for the squares below `n`. -/
def diagonals_ok (n : Nat) : Bool :=
  all_below (fun s =>
    line_ok s (diagonals.by_square s) (spec.ray s 1 (-1)) (spec.ray s (-1) 1)) n

/-- The check of `slides` along the a1-h8 parallels, for the squares below `n`. -/
def antidiagonals_ok (n : Nat) : Bool :=
  all_below (fun s =>
    line_ok s (antidiagonals.by_square s) (spec.ray s 1 1) (spec.ray s (-1) (-1))) n

/-- The check of `slides_rank`, for the squares below `n`. -/
def ranks_ok (n : Nat) : Bool :=
  all_below (fun s => rank_ok s (spec.ray s 1 0) (spec.ray s (-1) 0)) n

end fast

/-! ## King attacks as the specification words them: the neighbouring squares -/

namespace spec

/-- Two distinct squares whose files and whose ranks differ by at most one. -/
def adjacent (s t : Nat) : Prop :=
  s ≠ t ∧ s % 8 ≤ t % 8 + 1 ∧ t % 8 ≤ s % 8 + 1 ∧ s / 8 ≤ t / 8 + 1 ∧ t / 8 ≤ s / 8 + 1

instance (s t : Nat) : Decidable (adjacent s t) := by unfold adjacent; infer_instance

end spec

namespace fast

/-- The check of `king_attacks` on single kings: for every square below `n`, the attacks are
the squares adjacent to it. -/
def king_ok (n : Nat) : Bool :=
  all_below (fun s =>
    Nat.beq (moves.king_attacks (Nat.shiftLeft 1 s))
      (mask ((List.range 64).filter (fun t => decide (spec.adjacent s t))))) n

end fast

/-! ## Promotion piece of a move (move.cpp) -/

/-- The function `Move::promotion()` of move.cpp: the piece promoted to, if any. -/
def Move.promotion (m : Move) : Option Piece :=
  match m.type with
  | 5 => some Piece.knight
  | 9 => some Piece.knight
  | 6 => some Piece.bishop
  | 10 => some Piece.bishop
  | 7 => some Piece.rook
  | 11 => some Piece.rook
  | 8 => some Piece.queen
  | 12 => some Piece.queen
  | _ => none

/-- The capture flag as a function of the kind (the switch of `Move::is_capture`). -/
def MoveType.captures (type : MoveType) : Bool :=
  match type with
  | 4 => true
  | 9 => true
  | 10 => true
  | 11 => true
  | 12 => true
  | _ => false

/-- The promotion piece as a function of the kind (the switch of `Move::promotion`). -/
def MoveType.promotes (type : MoveType) : Option Piece :=
  match type with
  | 5 => some Piece.knight
  | 9 => some Piece.knight
  | 6 => some Piece.bishop
  | 10 => some Piece.bishop
  | 7 => some Piece.rook
  | 11 => some Piece.rook
  | 8 => some Piece.queen
  | 12 => some Piece.queen
  | _ => none

/-! ## Pawn and knight attacks, and attacked squares, as the specification words them -/

namespace spec

/-- A knight's move: one file and two ranks apart, or two files and one rank apart. -/
def knight_jump (s t : Nat) : Prop :=
  ((s % 8 + 1 = t % 8 ∨ t % 8 + 1 = s % 8) ∧ (s / 8 + 2 = t / 8 ∨ t / 8 + 2 = s / 8)) ∨
  ((s % 8 + 2 = t % 8 ∨ t % 8 + 2 = s % 8) ∧ (s / 8 + 1 = t / 8 ∨ t / 8 + 1 = s / 8))

instance (s t : Nat) : Decidable (knight_jump s t) := by unfold knight_jump; infer_instance

/-- A white pawn's attack: one rank up and one file to either side. -/
def pawn_attack (s t : Nat) : Prop :=
  t / 8 = s / 8 + 1 ∧ (t % 8 + 1 = s % 8 ∨ s % 8 + 1 = t % 8)

instance (s t : Nat) : Decidable (pawn_attack s t) := by unfold pawn_attack; infer_instance

/-- Square `t` is attacked by a white piece of `board`: a pawn diagonally below it, an adjacent
king, a knight a knight's move away, or a bishop, rook or queen whose walk under `occupancy`
reaches it. -/
def attacked_by_white (occupancy : Bitboard) (board : Board) (t : Nat) : Prop :=
  ∃ s, s < 64 ∧
    (((board Color.white Piece.pawn).testBit s = true ∧ pawn_attack s t) ∨
     ((board Color.white Piece.king).testBit s = true ∧ adjacent s t) ∨
     ((board Color.white Piece.knight).testBit s = true ∧ knight_jump s t) ∨
     ((board Color.white Piece.bishop).testBit s = true ∧
        (bishop_attacks occupancy s).testBit t = true) ∨
     ((board Color.white Piece.rook).testBit s = true ∧
        (rook_attacks occupancy s).testBit t = true) ∨
     ((board Color.white Piece.queen).testBit s = true ∧
        ((bishop_attacks occupancy s).testBit t = true ∨
          (rook_attacks occupancy s).testBit t = true)))

end spec

/-- A function of bitboards that acts on every member square separately: a square is in the
image of a bitboard exactly when it is in the image of one of its members. -/
def Linear (f : Bitboard → Bitboard) : Prop :=
  ∀ x t, (f x).testBit t = true ↔
    ∃ s, x.testBit s = true ∧ (f (squares.bitboard s)).testBit t = true

namespace moves

/-- The union of the knight attacks over the eight attack types (the knight loop of
`moves::all_attacks`). -/
def knight_attacks_all (knight : Bitboard) : Bitboard :=
  get_knight_attack_types.foldl
    (fun acc ka => acc ||| knight_attacks knight ka.leftshift ka.rightshift ka.badtargets) 0

/-- The union of the two pawn attacks (the first two terms of `moves::all_attacks`). -/
def pawn_attacks_all (pawn : Bitboard) : Bitboard :=
  pawn_attacks_w pawn ||| pawn_attacks_e pawn

end moves

namespace fast

/-- The check of an attack function on single pieces: for every square `s` below `n`, its
value on the bitboard of `s` is the set of the squares `t` of the board with `rel s t`. -/
def single_ok (f : Nat → Nat) (rel : Nat → Nat → Bool) (n : Nat) : Bool :=
  all_below (fun s => Nat.beq (f (Nat.shiftLeft 1 s)) (mask ((List.range 64).filter (rel s)))) n

end fast

/-! ## The search tree (spec, MCTS Node) -/

namespace mcts

/-- Modelled from the spec: a node of the search tree together with the subtree it owns (the
class `mcts::Node` is not among the sources): "`incoming_move`", "`visits`", the value
accumulator (a number here, its arithmetic is not used), and "`children`: ordered sequence",
each child owned by its node. -/
inductive Tree where
  | mk (incoming_move : Option Move) (visits : Nat) (wins : Int) (children : List Tree)

/-- The field `incoming_move` of a node. -/
def Tree.incoming_move : Tree → Option Move
  | Tree.mk move _ _ _ => move

/-- The field `visits` of a node. -/
def Tree.visits : Tree → Nat
  | Tree.mk _ visits _ _ => visits

/-- The value accumulator of a node. -/
def Tree.wins : Tree → Int
  | Tree.mk _ _ wins _ => wins

/-- The field `children` of a node. -/
def Tree.children : Tree → List Tree
  | Tree.mk _ _ _ children => children

/-- Modelled from the spec: the field "`parent`: weak back-reference (nullable; root has
none)": null, or the parent node with its own fields, its other children (the siblings
before and after the node, with their subtrees) and its own parent reference. -/
inductive Parent where
  | null
  | node (incoming_move : Option Move) (visits : Nat) (wins : Int)
      (before after : List Tree) (parent : Parent)

/-- What a pointer `mcts::Node*` gives access to: the node with its subtree, and through the
parent reference everything above it. -/
structure Node where
  tree : Tree
  parent : Parent

/-- The first child with the incoming move `move` among `children`, with the children before
it (preceded by `before`) and after it. -/
def find_child (move : Move) : List Tree → List Tree → Option (List Tree × Tree × List Tree)
  | _, [] => none
  | before, child :: after =>
    if child.incoming_move = some move then some (before, child, after)
    else find_child move (before ++ [child]) after

/-- Modelled from the spec: `mcts::Node::get_child(move)`, the child reached by `move`, or
null: a pointer to the first child with that incoming move, whose parent reference leads to
this node. -/
def Node.get_child (n : Node) (move : Move) : Option Node :=
  match find_child move [] n.tree.children with
  | some (before, child, after) =>
    some { tree := child
           parent := Parent.node n.tree.incoming_move n.tree.visits n.tree.wins
             before after n.parent }
  | none => none

/-- Modelled from the spec: "`destroy_parent_and_siblings()` on a child returns that child as
the new root after dropping its parent and all sibling subtrees": the node keeps its subtree
and its statistics, what its parent reference led to is destroyed, and the reference is
null. -/
def Node.destroy_parent_and_siblings (n : Node) : Option Node :=
  some { tree := n.tree, parent := Parent.null }

end mcts

/-! ## The pondering agent (mcts_agent.cpp): the controller and the ponderers, step by step -/

namespace agent

/-- The fields of `MCTSAgent` that only the change functions write: `do_ponder`, the current
`state` (named by a number, `none` while unset) and the pointer `node` to the root of the
search tree (`none` for the null pointer). -/
structure Shared where
  do_ponder : Bool
  state : Option Nat
  node : Option mcts.Node

/-- Why a step cannot be taken. -/
inductive Fault where
  /-- The thread is blocked, has ended, or the operation is not available. -/
  | blocked
  /-- An assertion failed: `node || !do_ponder` in `perform_pondering`, `state` or `node` at
  the head of `advance_state`, or `node` inside its change function. -/
  | assertion
  /-- The null `node` was dereferenced: by a sample, or by `get_child` in a change function. -/
  | null_node
deriving DecidableEq, Repr

/-- A change function passed to `between_ponderings`, as the sequence of its writes; a write
fails when an assertion inside the function fails. -/
abbrev Change := List (Shared → Except Fault Shared)

/-- Modelled from the spec: a counting barrier, which "blocks until a fixed number of parties
have arrived, then releases them all" (the class of `barrier_before_change` and
`barrier_after_change` is not among the sources): the number of parties and the number of
arrivals still missing. -/
structure Barrier where
  threshold : Nat
  count : Nat
deriving DecidableEq, Repr

/-- Where the controller thread stands. -/
inductive ControllerPc where
  /-- Outside every operation of the agent. -/
  | idle
  /-- In `between_ponderings`, before `barrier_before_change.wait()`. -/
  | arrive_before (change : Change)
  /-- Blocked in `barrier_before_change.wait()`. -/
  | wait_before (change : Change)
  /-- Inside `change()`, with the writes still to do. -/
  | changing (rest : Change)
  /-- In `between_ponderings`, before `barrier_after_change.wait()`. -/
  | arrive_after
  /-- Blocked in `barrier_after_change.wait()`. -/
  | wait_after
  /-- In the destructor, inside `ponderers.join_all()`. -/
  | joining
  /-- The destructor has returned. -/
  | destroyed

/-- Where a ponderer thread stands in `ponder` and `perform_pondering`. -/
inductive PondererPc where
  /-- At the test `while (!do_terminate)`. -/
  | loop
  /-- At the read of `pending_change` in `if (pending_change || !do_ponder)`. -/
  | test_pending
  /-- At the read of `do_ponder` in `if (pending_change || !do_ponder)`. -/
  | test_do_ponder
  /-- Before `barrier_before_change.wait()`. -/
  | arrive_before
  /-- Blocked in `barrier_before_change.wait()`. -/
  | wait_before
  /-- Between the two barriers, before `barrier_after_change.wait()`. -/
  | arrive_after
  /-- Blocked in `barrier_after_change.wait()`. -/
  | wait_after
  /-- At `assert(node || !do_ponder)`. -/
  | assert_node
  /-- At the test `if (do_ponder)`. -/
  | test_ponder
  /-- Inside the pondering batch, with `left` samples to go. -/
  | pondering (left : Nat)
  /-- The loop of `ponder` has ended. -/
  | terminated
deriving DecidableEq, Repr

/-- The class `MCTSAgent` together with the positions of its threads. -/
structure MCTSAgent where
  pending_change : Bool
  do_terminate : Bool
  shared : Shared
  barrier_before_change : Barrier
  barrier_after_change : Barrier
  controller : ControllerPc
  ponderers : List PondererPc

/-- The constructor `MCTSAgent::MCTSAgent(nponderers)`: both barriers have `nponderers + 1`
parties and every ponderer thread starts its loop. -/
def MCTSAgent.new (nponderers : Nat) : MCTSAgent :=
  { pending_change := false
    do_terminate := false
    shared := { do_ponder := false, state := none, node := none }
    barrier_before_change := { threshold := nponderers + 1, count := nponderers + 1 }
    barrier_after_change := { threshold := nponderers + 1, count := nponderers + 1 }
    controller := ControllerPc.idle
    ponderers := List.replicate nponderers PondererPc.loop }

/-- A ponderer blocked in `barrier_before_change.wait()`. -/
def PondererPc.waits_before : PondererPc → Bool
  | PondererPc.wait_before => true
  | _ => false

/-- A ponderer blocked in `barrier_after_change.wait()`. -/
def PondererPc.waits_after : PondererPc → Bool
  | PondererPc.wait_after => true
  | _ => false

/-- A ponderer between the two barriers: released from `barrier_before_change` and not yet
released from `barrier_after_change`. -/
def PondererPc.between : PondererPc → Bool
  | PondererPc.arrive_after => true
  | PondererPc.wait_after => true
  | _ => false

/-- A ponderer inside its pondering batch. -/
def PondererPc.in_batch : PondererPc → Bool
  | PondererPc.pondering _ => true
  | _ => false

/-- The controller blocked in `barrier_before_change.wait()`. -/
def ControllerPc.waits_before : ControllerPc → Bool
  | ControllerPc.wait_before _ => true
  | _ => false

/-- The controller blocked in `barrier_after_change.wait()`. -/
def ControllerPc.waits_after : ControllerPc → Bool
  | ControllerPc.wait_after => true
  | _ => false

/-- The controller between the two barriers of `between_ponderings`. -/
def ControllerPc.between : ControllerPc → Bool
  | ControllerPc.changing _ => true
  | ControllerPc.arrive_after => true
  | ControllerPc.wait_after => true
  | _ => false

/-- The release of a ponderer from `barrier_before_change`. -/
def PondererPc.release_before : PondererPc → PondererPc
  | PondererPc.wait_before => PondererPc.arrive_after
  | pc => pc

/-- The release of a ponderer from `barrier_after_change`. -/
def PondererPc.release_after : PondererPc → PondererPc
  | PondererPc.wait_after => PondererPc.assert_node
  | pc => pc

/-- The release of the controller from `barrier_before_change`: it enters `change()`. -/
def ControllerPc.release_before : ControllerPc → ControllerPc
  | ControllerPc.wait_before change => ControllerPc.changing change
  | pc => pc

/-- The release of the controller from `barrier_after_change`: `between_ponderings` returns. -/
def ControllerPc.release_after : ControllerPc → ControllerPc
  | ControllerPc.wait_after => ControllerPc.idle
  | pc => pc

/-- The call `barrier_before_change.wait()` of a thread already marked as waiting: the last
party to arrive resets the barrier and releases every waiting thread, itself included; any
other party stays blocked. -/
def MCTSAgent.wait_before (a : MCTSAgent) : MCTSAgent :=
  if a.barrier_before_change.count = 1 then
    { a with
      barrier_before_change :=
        { a.barrier_before_change with count := a.barrier_before_change.threshold }
      controller := a.controller.release_before
      ponderers := a.ponderers.map PondererPc.release_before }
  else
    { a with
      barrier_before_change :=
        { a.barrier_before_change with count := a.barrier_before_change.count - 1 } }

/-- The call `barrier_after_change.wait()` of a thread already marked as waiting. -/
def MCTSAgent.wait_after (a : MCTSAgent) : MCTSAgent :=
  if a.barrier_after_change.count = 1 then
    { a with
      barrier_after_change :=
        { a.barrier_after_change with count := a.barrier_after_change.threshold }
      controller := a.controller.release_after
      ponderers := a.ponderers.map PondererPc.release_after }
  else
    { a with
      barrier_after_change :=
        { a.barrier_after_change with count := a.barrier_after_change.count - 1 } }

/-- Ponderer `i` moves to `pc`. -/
def MCTSAgent.jump (a : MCTSAgent) (i : Nat) (pc : PondererPc) : MCTSAgent :=
  { a with ponderers := a.ponderers.set i pc }

/-- One step of ponderer `i`, standing at `pc`, through `ponder` and `perform_pondering`. -/
def MCTSAgent.ponderer_step (a : MCTSAgent) (i : Nat) : PondererPc → Except Fault MCTSAgent
  | PondererPc.loop =>
    Except.ok (a.jump i (if a.do_terminate then PondererPc.terminated else PondererPc.test_pending))
  | PondererPc.test_pending =>
    Except.ok (a.jump i
      (if a.pending_change then PondererPc.arrive_before else PondererPc.test_do_ponder))
  | PondererPc.test_do_ponder =>
    Except.ok (a.jump i
      (if !a.shared.do_ponder then PondererPc.arrive_before else PondererPc.test_ponder))
  | PondererPc.arrive_before =>
    Except.ok ((a.jump i PondererPc.wait_before).wait_before)
  | PondererPc.wait_before => Except.error Fault.blocked
  | PondererPc.arrive_after =>
    Except.ok ((a.jump i PondererPc.wait_after).wait_after)
  | PondererPc.wait_after => Except.error Fault.blocked
  | PondererPc.assert_node =>
    if a.shared.node.isSome || !a.shared.do_ponder then
      Except.ok (a.jump i PondererPc.test_ponder)
    else Except.error Fault.assertion
  | PondererPc.test_ponder =>
    Except.ok (a.jump i (if a.shared.do_ponder then PondererPc.pondering 100 else PondererPc.loop))
  | PondererPc.pondering 0 => Except.ok (a.jump i PondererPc.loop)
  | PondererPc.pondering (left + 1) =>
    if a.shared.node.isSome then Except.ok (a.jump i (PondererPc.pondering left))
    else Except.error Fault.null_node
  | PondererPc.terminated => Except.error Fault.blocked

/-- One step of the controller through `between_ponderings` or the destructor. -/
def MCTSAgent.controller_step (a : MCTSAgent) : Except Fault MCTSAgent :=
  match a.controller with
  | ControllerPc.arrive_before change =>
    Except.ok (MCTSAgent.wait_before { a with controller := ControllerPc.wait_before change })
  | ControllerPc.changing (write :: rest) =>
    match write a.shared with
    | Except.ok shared =>
      Except.ok { a with shared := shared, controller := ControllerPc.changing rest }
    | Except.error fault => Except.error fault
  | ControllerPc.changing [] =>
    Except.ok { a with pending_change := false, controller := ControllerPc.arrive_after }
  | ControllerPc.arrive_after =>
    Except.ok (MCTSAgent.wait_after { a with controller := ControllerPc.wait_after })
  | ControllerPc.joining =>
    if a.ponderers.all (fun pc => pc == PondererPc.terminated) then
      Except.ok { a with controller := ControllerPc.destroyed }
    else Except.error Fault.blocked
  | _ => Except.error Fault.blocked

/-- What the scheduler and the user of the agent may do next. -/
inductive Event where
  /-- The controller calls `between_ponderings(change)` and writes `pending_change = true`. -/
  | between_ponderings (change : Change)
  /-- The controller enters the destructor and writes `do_terminate = true`. -/
  | destroy
  /-- The controller takes its next step. -/
  | controller
  /-- Ponderer `i` takes its next step. -/
  | ponderer (i : Nat)

/-- One step of the agent. -/
def MCTSAgent.step (a : MCTSAgent) : Event → Except Fault MCTSAgent
  | Event.between_ponderings change =>
    match a.controller with
    | ControllerPc.idle =>
      Except.ok { a with pending_change := true, controller := ControllerPc.arrive_before change }
    | _ => Except.error Fault.blocked
  | Event.destroy =>
    match a.controller with
    | ControllerPc.idle =>
      Except.ok { a with do_terminate := true, controller := ControllerPc.joining }
    | _ => Except.error Fault.blocked
  | Event.controller => a.controller_step
  | Event.ponderer i =>
    match a.ponderers[i]? with
    | some pc => a.ponderer_step i pc
    | none => Except.error Fault.blocked

/-- An interleaving: the steps of a schedule, one after the other. -/
def MCTSAgent.run (a : MCTSAgent) : List Event → Except Fault MCTSAgent
  | [] => Except.ok a
  | e :: schedule =>
    match a.step e with
    | Except.ok a' => MCTSAgent.run a' schedule
    | Except.error fault => Except.error fault

/-- The number of threads blocked in `barrier_before_change.wait()`. -/
def MCTSAgent.waiting_before (a : MCTSAgent) : Nat :=
  a.ponderers.countP PondererPc.waits_before + (if a.controller.waits_before then 1 else 0)

/-- The number of threads blocked in `barrier_after_change.wait()`. -/
def MCTSAgent.waiting_after (a : MCTSAgent) : Nat :=
  a.ponderers.countP PondererPc.waits_after + (if a.controller.waits_after then 1 else 0)

/-- The invariant of the barrier protocol with `n` ponderers: either nobody is between the two
barriers and `barrier_before_change` misses as many arrivals as threads are not blocked in it,
or the controller and all ponderers are between the two barriers and `barrier_after_change`
misses as many arrivals as threads are not blocked in it. -/
structure Inv (n : Nat) (a : MCTSAgent) : Prop where
  length : a.ponderers.length = n
  threshold_before : a.barrier_before_change.threshold = n + 1
  threshold_after : a.barrier_after_change.threshold = n + 1
  phase :
    (a.controller.between = false ∧ (∀ pc ∈ a.ponderers, pc.between = false) ∧
      a.barrier_before_change.count + a.waiting_before = n + 1 ∧
      a.barrier_after_change.count = n + 1) ∨
    (a.controller.between = true ∧ (∀ pc ∈ a.ponderers, pc.between = true) ∧
      a.barrier_before_change.count = n + 1 ∧
      a.barrier_after_change.count + a.waiting_after = n + 1)

end agent

/-! ## The position (State): generated moves, make and unmake -/

/-- The opponent of a colour. -/
def Color.other : Color → Color
  | Color.white => Color.black
  | Color.black => Color.white

namespace squares

/-- The square `i` mirrored across the rank 4/5 boundary: same file, rank `7 - rank`. -/
def flip_vertically (i : Nat) : Nat := 8 * (7 - i / 8) + i % 8

/-- The square on which the king of a colour starts. -/
def king_home : Color → Nat
  | Color.white => e1
  | Color.black => e8

/-- The corner on which the kingside rook of a colour starts. -/
def kingside_corner : Color → Nat
  | Color.white => h1
  | Color.black => h8

/-- The corner on which the queenside rook of a colour starts. -/
def queenside_corner : Color → Nat
  | Color.white => a1
  | Color.black => a8

end squares

/-- Modelled from the spec: the flip of a move (state.cpp and its helpers are not among the
sources; "for black, the caller flips the board vertically, generates, flips moves back"):
source and target are mirrored, the kind is kept. -/
def Move.flip_vertically (m : Move) : Move :=
  Move.pack (squares.flip_vertically m.source) (squares.flip_vertically m.target) m.type

/-- Modelled from the spec: the castling rights of one colour, `castling_rights[color][side]`
(state.hpp is not among the sources). -/
structure CastlingRights where
  kingside : Bool
  queenside : Bool
deriving DecidableEq, Repr

/-- Modelled from the spec: the class `State` (state.hpp and state.cpp are not among the
sources): the twelve piece bitboards, the derived occupancies, the side to move, the
en-passant square, the castling rights, the cached attacks of the opponent and the hash. -/
structure State where
  board : Board
  occupancy : Occupancy
  flat_occupancy : Bitboard
  us : Color
  en_passant_square : Bitboard
  castling_rights : Color → CastlingRights
  their_attacks : Bitboard
  hash : Nat

/-- Modelled from the spec: the undo record (state.hpp is not among the sources), "enough
information to reverse exactly one move: captured piece (if any) and its square, previous
castling rights, previous en-passant square, promotion/demotion hint, previous hash",
together with the move itself. -/
structure Undo where
  move : Move
  captured : Option (Piece × Nat)
  castling_rights : Color → CastlingRights
  en_passant_square : Bitboard
  promotion : Option Piece
  hash : Nat

/-- The board with the bitboard of colour `c` and piece `p` replaced by `x`. -/
def Board.set (board : Board) (c : Color) (p : Piece) (x : Bitboard) : Board :=
  fun c' p' => if c' = c ∧ p' = p then x else board c' p'

/-- The board with the piece `p` of colour `c` taken off `square`. -/
def Board.remove (board : Board) (c : Color) (p : Piece) (square : Nat) : Board :=
  board.set c p (board c p &&& bitboard.complement (squares.bitboard square))

/-- The board with a piece `p` of colour `c` put on `square`. -/
def Board.add (board : Board) (c : Color) (p : Piece) (square : Nat) : Board :=
  board.set c p (board c p ||| squares.bitboard square)

/-- The piece of colour `c` standing on `square`, if any. -/
def piece_at (board : Board) (c : Color) (square : Nat) : Option Piece :=
  pieces.values.find? (fun p => (board c p).testBit square)

namespace State

/-- Modelled from the spec: the attacks of one colour on a placement, as `their_attacks` is
recomputed: `moves::all_attacks` for white and `moves::black_attacks` for black. -/
def attacks_of (attacker : Color) (flat_occupancy : Bitboard) (board : Board) :
    Option Bitboard :=
  match attacker with
  | Color.white => moves.all_attacks flat_occupancy board
  | Color.black => moves.black_attacks flat_occupancy board

/-- Modelled from the spec: the position seen from the other side (state.cpp is not among the
sources; "flipping occupancy, flipping every piece bitboard, swapping color ownership"). -/
def flip_vertically (s : State) : State :=
  { board := positions.flip s.board
    occupancy := fun c => bitboard.flip_vertically (s.occupancy c.other)
    flat_occupancy := bitboard.flip_vertically s.flat_occupancy
    us := s.us.other
    en_passant_square := bitboard.flip_vertically s.en_passant_square
    castling_rights := fun c => s.castling_rights c.other
    their_attacks := bitboard.flip_vertically s.their_attacks
    hash := s.hash }

end State

/-- Modelled from the spec: the undo record seen from the other side. -/
def Undo.flip_vertically (u : Undo) : Undo :=
  { move := u.move.flip_vertically
    captured := u.captured.map (fun c => (c.1, squares.flip_vertically c.2))
    castling_rights := fun c => u.castling_rights c.other
    en_passant_square := bitboard.flip_vertically u.en_passant_square
    promotion := u.promotion
    hash := u.hash }

namespace State

/-- Modelled from the spec: the generated move list with white to move (`moves::moves(state)`
is not among the sources): empty when white's king has been captured; otherwise the list of
`moves::all_moves`, restricted to the moves onto the opponent's king when that king is
attacked ("forced king capture"). -/
def moves_white (s : State) : Option (List Move) :=
  if s.board Color.white Piece.king = 0 then some []
  else do
    let ms ← moves.all_moves [] s.board s.occupancy s.en_passant_square
      (s.castling_rights Color.white).kingside (s.castling_rights Color.white).queenside
    let attacks ← moves.all_attacks s.flat_occupancy s.board
    if attacks &&& s.board Color.black Piece.king ≠ 0 then
      pure (ms.filter (fun m =>
        squares.bitboard m.target &&& s.board Color.black Piece.king != 0))
    else pure ms

/-- Modelled from the spec: the generated move list `moves::moves(state)` (not among the
sources): "all routines generate from white's perspective; for black, the caller flips the
board vertically, generates, flips moves back". -/
def moves (s : State) : Option (List Move) :=
  match s.us with
  | Color.white => s.moves_white
  | Color.black => s.flip_vertically.moves_white.map (List.map Move.flip_vertically)

/-- Modelled from the spec: `State::make_move` for white to move (state.cpp is not among the
sources), in the order of the spec: the moving piece is found on the source; a capture is
resolved against the pre-move en-passant square (an en-passant capture removes the pawn on
the square behind it); the piece leaves the source and it, or the piece promoted to, lands on
the target; castling also moves the rook; a double push sets the en-passant square to the
square passed over and every other move clears it; a king move clears both rights of the
mover, a rook move from its corner the corresponding right, a capture on a rook's corner the
corresponding right of the captured side; the side to move is swapped and `their_attacks`
becomes the attacks of the side that just moved. The hash is left to `make_move`. -/
def make_white (s : State) (m : Move) : Option (Undo × State) := do
  let piece ← piece_at s.board Color.white m.source
  let capture_square :=
    if piece = Piece.pawn ∧ squares.bitboard m.target = s.en_passant_square then m.target - 8
    else m.target
  let captured ←
    (if m.is_capture then
      (piece_at s.board Color.black capture_square).map (fun p => some (p, capture_square))
    else some none)
  let board1 :=
    match captured with
    | some c => s.board.remove Color.black c.1 c.2
    | none => s.board
  let board2 := (board1.remove Color.white piece m.source).add Color.white
    (m.promotion.getD piece) m.target
  let board3 :=
    if m.type = MoveType.castle_kingside then
      (board2.remove Color.white Piece.rook squares.h1).add Color.white Piece.rook squares.f1
    else if m.type = MoveType.castle_queenside then
      (board2.remove Color.white Piece.rook squares.a1).add Color.white Piece.rook squares.d1
    else board2
  let en_passant_square :=
    if m.type = MoveType.double_push then squares.bitboard (m.source + 8) else 0
  let castling_rights : Color → CastlingRights := fun c =>
    match c with
    | Color.white =>
      { kingside := (s.castling_rights Color.white).kingside && !decide (piece = Piece.king) &&
          !decide (piece = Piece.rook ∧ m.source = squares.h1)
        queenside := (s.castling_rights Color.white).queenside && !decide (piece = Piece.king) &&
          !decide (piece = Piece.rook ∧ m.source = squares.a1) }
    | Color.black =>
      { kingside := (s.castling_rights Color.black).kingside &&
          !(m.is_capture && decide (capture_square = squares.h8))
        queenside := (s.castling_rights Color.black).queenside &&
          !(m.is_capture && decide (capture_square = squares.a8)) }
  let occupancy := positions.occupancy_of board3
  let flat_occupancy := occupancy Color.white ||| occupancy Color.black
  let their_attacks ← attacks_of Color.white flat_occupancy board3
  pure
    ({ move := m
       captured := captured
       castling_rights := s.castling_rights
       en_passant_square := s.en_passant_square
       promotion := m.promotion
       hash := s.hash },
     { board := board3
       occupancy := occupancy
       flat_occupancy := flat_occupancy
       us := Color.black
       en_passant_square := en_passant_square
       castling_rights := castling_rights
       their_attacks := their_attacks
       hash := s.hash })

/-- Modelled from the spec: `State::unmake_move` after a move of white (state.cpp is not among
the sources): the steps of `make_white` are reversed from the undo record, last first: the
rook of a castling goes back, the piece on the target (a pawn again if the move promoted)
goes back to the source, the captured piece is put back on its square, and the castling
rights, the en-passant square and the hash are those of the record; `their_attacks` is
recomputed. -/
def unmake_white (s : State) (u : Undo) : Option State := do
  let m := u.move
  let board2 :=
    if m.type = MoveType.castle_kingside then
      (s.board.remove Color.white Piece.rook squares.f1).add Color.white Piece.rook squares.h1
    else if m.type = MoveType.castle_queenside then
      (s.board.remove Color.white Piece.rook squares.d1).add Color.white Piece.rook squares.a1
    else s.board
  let placed ← piece_at board2 Color.white m.target
  let piece :=
    match u.promotion with
    | some _ => Piece.pawn
    | none => placed
  let board1 := (board2.remove Color.white placed m.target).add Color.white piece m.source
  let board :=
    match u.captured with
    | some c => board1.add Color.black c.1 c.2
    | none => board1
  let occupancy := positions.occupancy_of board
  let flat_occupancy := occupancy Color.white ||| occupancy Color.black
  let their_attacks ← attacks_of Color.black flat_occupancy board
  pure
    { board := board
      occupancy := occupancy
      flat_occupancy := flat_occupancy
      us := Color.white
      en_passant_square := u.en_passant_square
      castling_rights := u.castling_rights
      their_attacks := their_attacks
      hash := u.hash }

/-- Modelled from the spec: the recomputation of the hash; the Zobrist features are outside
the spec, so the hash is any function `zobrist` of the placement, the side to move, the
en-passant square and the castling rights. -/
def rehash (zobrist : Board → Color → Bitboard → (Color → CastlingRights) → Nat) (s : State) :
    State :=
  { s with hash := zobrist s.board s.us s.en_passant_square s.castling_rights }

/-- Modelled from the spec: `State::make_move` (state.cpp is not among the sources); `none`
when the move cannot be applied. A move of black is made relative to the mover: on the
flipped position, as white, and the result is flipped back. The hash is recomputed. -/
def make_move (zobrist : Board → Color → Bitboard → (Color → CastlingRights) → Nat)
    (s : State) (m : Move) : Option (Undo × State) :=
  match s.us with
  | Color.white => (s.make_white m).map (fun r => (r.1, r.2.rehash zobrist))
  | Color.black =>
    (s.flip_vertically.make_white m.flip_vertically).map
      (fun r => (r.1.flip_vertically, r.2.flip_vertically.rehash zobrist))

/-- Modelled from the spec: `State::unmake_move` (state.cpp is not among the sources); the
mover is the opponent of the side to move. -/
def unmake_move (s : State) (u : Undo) : Option State :=
  match s.us with
  | Color.black => s.unmake_white u
  | Color.white =>
    (s.flip_vertically.unmake_white u.flip_vertically).map State.flip_vertically

/-- Modelled from the spec: the default `State`, the standard starting position with white to
move, all castling rights and no en-passant square. -/
def initial (zobrist : Board → Color → Bitboard → (Color → CastlingRights) → Nat) : State :=
  rehash zobrist
    { board := positions.initial
      occupancy := positions.occupancy_of positions.initial
      flat_occupancy := positions.occupancy_of positions.initial Color.white |||
        positions.occupancy_of positions.initial Color.black
      us := Color.white
      en_passant_square := 0
      castling_rights := fun _ => { kingside := true, queenside := true }
      their_attacks := moves.black_attacks_val
        (positions.occupancy_of positions.initial Color.white |||
          positions.occupancy_of positions.initial Color.black) positions.initial
      hash := 0 }

/-- Modelled from the spec: the predicate `State::require_consistent` (state.cpp is not among
the sources), which "reconstructs occupancy, flat_occupancy, their_attacks from board and
asserts equality", together with the disjointness of the two occupancies. -/
def require_consistent (s : State) : Prop :=
  (∀ c, s.occupancy c = positions.occupancy_of s.board c) ∧
  s.flat_occupancy = s.occupancy Color.white ||| s.occupancy Color.black ∧
  s.occupancy Color.white &&& s.occupancy Color.black = 0 ∧
  attacks_of s.us.other s.flat_occupancy s.board = some s.their_attacks

end State

/-- The states reached from the initial position by making generated moves. -/
inductive Reachable (zobrist : Board → Color → Bitboard → (Color → CastlingRights) → Nat) :
    State → Prop where
  | initial : Reachable zobrist (State.initial zobrist)
  | make_move {s s' : State} {ms : List Move} {m : Move} {u : Undo} :
      Reachable zobrist s → s.moves = some ms → m ∈ ms →
      s.make_move zobrist m = some (u, s') → Reachable zobrist s'

/-- The invariant of the reachable positions: the bitboards are 64-bit words, no square holds
two pieces, the occupancies and the cached attacks are those of the placement, each colour
has at most one king, a castling right is held only while the rook stands on its corner and
the king, if still on the board, on its home square, and the en-passant square is empty or a
single free square behind a pawn of the side that just moved. -/
structure Good (s : State) : Prop where
  word : ∀ c p, s.board c p < 2 ^ 64
  disjoint : ∀ c p c' p', (c ≠ c' ∨ p ≠ p') → s.board c p &&& s.board c' p' = 0
  occupancy_eq : ∀ c, s.occupancy c = positions.occupancy_of s.board c
  flat_eq : s.flat_occupancy = s.occupancy Color.white ||| s.occupancy Color.black
  attacks_eq : State.attacks_of s.us.other s.flat_occupancy s.board = some s.their_attacks
  kings : ∀ c, s.board c Piece.king = 0 ∨
    ∃ k, k < 64 ∧ s.board c Piece.king = squares.bitboard k
  kingside : ∀ c, (s.castling_rights c).kingside = true →
    (s.board c Piece.king = 0 ∨ s.board c Piece.king = squares.bitboard (squares.king_home c)) ∧
      (s.board c Piece.rook).testBit (squares.kingside_corner c) = true
  queenside : ∀ c, (s.castling_rights c).queenside = true →
    (s.board c Piece.king = 0 ∨ s.board c Piece.king = squares.bitboard (squares.king_home c)) ∧
      (s.board c Piece.rook).testBit (squares.queenside_corner c) = true
  en_passant : s.en_passant_square = 0 ∨ ∃ e, s.en_passant_square = squares.bitboard e ∧
    s.flat_occupancy.testBit e = false ∧
    match s.us with
    | Color.white => 40 ≤ e ∧ e < 48 ∧ (s.board Color.black Piece.pawn).testBit (e - 8) = true
    | Color.black => 16 ≤ e ∧ e < 24 ∧ (s.board Color.white Piece.pawn).testBit (e + 8) = true

/-- What a generated move of white does to the position, by kind; `piece` is the moving
piece. -/
inductive MoveKind (s : State) (m : Move) (piece : Piece) : Prop where
  | normal (hty : m.type = MoveType.normal)
      (hfree : ∀ q, (s.board Color.black q).testBit m.target = false)
  | capture (hty : m.type = MoveType.capture) (cp : Piece)
      (hcp : (s.board Color.black cp).testBit m.target = true)
      (hnep : squares.bitboard m.target ≠ s.en_passant_square)
  | en_passant (hty : m.type = MoveType.capture) (hp : piece = Piece.pawn)
      (hep : squares.bitboard m.target = s.en_passant_square) (h40 : 40 ≤ m.target)
      (hpawn : (s.board Color.black Piece.pawn).testBit (m.target - 8) = true)
      (hfree : ∀ q, (s.board Color.black q).testBit m.target = false)
  | double_push (hty : m.type = MoveType.double_push) (hp : piece = Piece.pawn)
      (hsrc : 8 ≤ m.source ∧ m.source < 16) (htgt : m.target = m.source + 16)
      (hpass : ∀ c q, (s.board c q).testBit (m.source + 8) = false)
      (hfree : ∀ q, (s.board Color.black q).testBit m.target = false)
  | promotion (hty : m.type ∈ moves.promotions) (hp : piece = Piece.pawn)
      (hfree : ∀ q, (s.board Color.black q).testBit m.target = false)
  | capturing_promotion (hty : m.type ∈ moves.capturing_promotions) (hp : piece = Piece.pawn)
      (cp : Piece) (hcp : (s.board Color.black cp).testBit m.target = true)
      (hnep : squares.bitboard m.target ≠ s.en_passant_square)
  | castle_kingside (hty : m.type = MoveType.castle_kingside) (hp : piece = Piece.king)
      (hsrc : m.source = squares.e1) (htgt : m.target = squares.g1)
      (hrook : (s.board Color.white Piece.rook).testBit squares.h1 = true)
      (hpass : ∀ c q, (s.board c q).testBit squares.f1 = false)
      (hfree : ∀ q, (s.board Color.black q).testBit m.target = false)
  | castle_queenside (hty : m.type = MoveType.castle_queenside) (hp : piece = Piece.king)
      (hsrc : m.source = squares.e1) (htgt : m.target = squares.c1)
      (hrook : (s.board Color.white Piece.rook).testBit squares.a1 = true)
      (hpass : ∀ c q, (s.board c q).testBit squares.d1 = false)
      (hfree : ∀ q, (s.board Color.black q).testBit m.target = false)

/-- What every generated move of white satisfies: it is a 16-bit word, it takes the white
`piece` from the source to a different square free of white pieces, and it is of one of the
kinds of `MoveKind`. -/
structure WhiteMove (s : State) (m : Move) (piece : Piece) : Prop where
  word : m.move < 2 ^ 16
  ne : m.source ≠ m.target
  source_piece : (s.board Color.white piece).testBit m.source = true
  target_free : ∀ q, (s.board Color.white q).testBit m.target = false
  kind : MoveKind s m piece

namespace State

/-- The square on which a capture by white's `piece` with move `m` takes the captured piece:
behind the target for an en-passant capture, the target otherwise. -/
def capture_square (s : State) (m : Move) (piece : Piece) : Nat :=
  if piece = Piece.pawn ∧ squares.bitboard m.target = s.en_passant_square then m.target - 8
  else m.target

/-- The board after the capture of `captured` has been resolved. -/
def board_captured (board : Board) (captured : Option (Piece × Nat)) : Board :=
  match captured with
  | some c => board.remove Color.black c.1 c.2
  | none => board

/-- The board after white's `piece` has gone from the source to the target of `m`. -/
def board_moved (board : Board) (m : Move) (piece : Piece) : Board :=
  (board.remove Color.white piece m.source).add Color.white (m.promotion.getD piece) m.target

/-- The board after the rook of a castling has moved. -/
def board_castled (board : Board) (m : Move) : Board :=
  if m.type = MoveType.castle_kingside then
    (board.remove Color.white Piece.rook squares.h1).add Color.white Piece.rook squares.f1
  else if m.type = MoveType.castle_queenside then
    (board.remove Color.white Piece.rook squares.a1).add Color.white Piece.rook squares.d1
  else board

/-- The board that `make_white` produces when `piece` moves and `captured` is captured. -/
def board_made (s : State) (m : Move) (piece : Piece) (captured : Option (Piece × Nat)) :
    Board :=
  board_castled (board_moved (board_captured s.board captured) m piece) m

/-- The castling rights that `make_white` produces. -/
def rights_made (s : State) (m : Move) (piece : Piece) : Color → CastlingRights := fun c =>
  match c with
  | Color.white =>
    { kingside := (s.castling_rights Color.white).kingside && !decide (piece = Piece.king) &&
        !decide (piece = Piece.rook ∧ m.source = squares.h1)
      queenside := (s.castling_rights Color.white).queenside && !decide (piece = Piece.king) &&
        !decide (piece = Piece.rook ∧ m.source = squares.a1) }
  | Color.black =>
    { kingside := (s.castling_rights Color.black).kingside &&
        !(m.is_capture && decide (s.capture_square m piece = squares.h8))
      queenside := (s.castling_rights Color.black).queenside &&
        !(m.is_capture && decide (s.capture_square m piece = squares.a8)) }

/-- The state that `make_white` produces when `piece` moves and `captured` is captured. -/
def made_white (s : State) (m : Move) (piece : Piece) (captured : Option (Piece × Nat)) :
    State :=
  { board := s.board_made m piece captured
    occupancy := positions.occupancy_of (s.board_made m piece captured)
    flat_occupancy := positions.occupancy_of (s.board_made m piece captured) Color.white |||
      positions.occupancy_of (s.board_made m piece captured) Color.black
    us := Color.black
    en_passant_square :=
      if m.type = MoveType.double_push then squares.bitboard (m.source + 8) else 0
    castling_rights := s.rights_made m piece
    their_attacks := moves.all_attacks_val
      (positions.occupancy_of (s.board_made m piece captured) Color.white |||
        positions.occupancy_of (s.board_made m piece captured) Color.black)
      (s.board_made m piece captured)
    hash := s.hash }

/-- The undo record that `make_white` produces when `captured` is captured. -/
def undo_white (s : State) (m : Move) (captured : Option (Piece × Nat)) : Undo :=
  { move := m
    captured := captured
    castling_rights := s.castling_rights
    en_passant_square := s.en_passant_square
    promotion := m.promotion
    hash := s.hash }

end State

namespace State

/-- The bit `i` of the bitboard of colour `c` and piece `q` is the captured piece. -/
def hit (captured : Option (Piece × Nat)) (c : Color) (q : Piece) (i : Nat) : Bool :=
  match captured with
  | some cc => decide (c = Color.black ∧ q = cc.1 ∧ i = cc.2)
  | none => false

/-- The board after the rook of a castling has moved back. -/
def board_uncastled (board : Board) (m : Move) : Board :=
  if m.type = MoveType.castle_kingside then
    (board.remove Color.white Piece.rook squares.f1).add Color.white Piece.rook squares.h1
  else if m.type = MoveType.castle_queenside then
    (board.remove Color.white Piece.rook squares.d1).add Color.white Piece.rook squares.a1
  else board

/-- The piece that goes back to the source: a pawn if the move promoted. -/
def unpromoted (promotion : Option Piece) (placed : Piece) : Piece :=
  match promotion with
  | some _ => Piece.pawn
  | none => placed

/-- The board after the piece on the target has gone back to the source. -/
def board_unmoved (board : Board) (m : Move) (placed piece : Piece) : Board :=
  (board.remove Color.white placed m.target).add Color.white piece m.source

/-- The board after the captured piece has been put back. -/
def board_uncaptured (board : Board) (captured : Option (Piece × Nat)) : Board :=
  match captured with
  | some c => board.add Color.black c.1 c.2
  | none => board

/-- The board that `unmake_white` produces when `placed` stands on the target. -/
def board_unmade (s : State) (u : Undo) (placed : Piece) : Board :=
  board_uncaptured
    (board_unmoved (board_uncastled s.board u.move) u.move placed (unpromoted u.promotion placed))
    u.captured

/-- The state that `unmake_white` produces when `placed` stands on the target. -/
def unmade_white (s : State) (u : Undo) (placed : Piece) : State :=
  { board := s.board_unmade u placed
    occupancy := positions.occupancy_of (s.board_unmade u placed)
    flat_occupancy := positions.occupancy_of (s.board_unmade u placed) Color.white |||
      positions.occupancy_of (s.board_unmade u placed) Color.black
    us := Color.white
    en_passant_square := u.en_passant_square
    castling_rights := u.castling_rights
    their_attacks := moves.black_attacks_val
      (positions.occupancy_of (s.board_unmade u placed) Color.white |||
        positions.occupancy_of (s.board_unmade u placed) Color.black)
      (s.board_unmade u placed)
    hash := u.hash }

end State

/-- What the proofs need of a move of white's `piece` that captures `captured`: the piece
stands on the source, any piece on the target is the captured one, the captured piece stands
on the capture square, only pawns promote, and castlings and double pushes are as the
generator emits them. -/
structure Step (s : State) (m : Move) (piece : Piece) (captured : Option (Piece × Nat)) :
    Prop where
  source_piece : (s.board Color.white piece).testBit m.source = true
  ne : m.source ≠ m.target
  target_hit : ∀ c q, (s.board c q).testBit m.target = true →
    State.hit captured c q m.target = true
  captured_piece : ∀ cc, captured = some cc →
    (s.board Color.black cc.1).testBit cc.2 = true ∧ cc.2 = s.capture_square m piece ∧
      m.is_capture = true
  not_captured : captured = none → m.is_capture = false
  promotion : ∀ q, m.promotion = some q →
    piece = Piece.pawn ∧ q ≠ Piece.king ∧ q ≠ Piece.pawn
  castle_kingside : m.type = MoveType.castle_kingside →
    piece = Piece.king ∧ m.source = squares.e1 ∧ m.target = squares.g1 ∧
      (s.board Color.white Piece.rook).testBit squares.h1 = true ∧
      (∀ c q, (s.board c q).testBit squares.f1 = false) ∧ captured = none
  castle_queenside : m.type = MoveType.castle_queenside →
    piece = Piece.king ∧ m.source = squares.e1 ∧ m.target = squares.c1 ∧
      (s.board Color.white Piece.rook).testBit squares.a1 = true ∧
      (∀ c q, (s.board c q).testBit squares.d1 = false) ∧ captured = none
  castle_king : piece = Piece.king → m.promotion = none
  double_push : m.type = MoveType.double_push →
    piece = Piece.pawn ∧ 8 ≤ m.source ∧ m.source < 16 ∧ m.target = m.source + 16 ∧
      ∀ c q, (s.board c q).testBit (m.source + 8) = false

/-! ## Names of the move kinds (moves.cpp) and the square constants (squares.hpp) -/

/-- The exception `std::invalid_argument` with its message. -/
structure invalid_argument where
  what : String
deriving DecidableEq, Repr

/-- The function `Move::typename_from_type`: the name of a kind; the default branch of the
switch throws `invalid_argument` with the kind printed in hexadecimal. -/
def Move.typename_from_type (type : MoveType) : Except invalid_argument String :=
  match type with
  | 0 => Except.ok "normal"
  | 1 => Except.ok "double_push"
  | 2 => Except.ok "castle_kingside"
  | 3 => Except.ok "castle_queenside"
  | 4 => Except.ok "capture"
  | 5 => Except.ok "promotion_knight"
  | 6 => Except.ok "promotion_bishop"
  | 7 => Except.ok "promotion_rook"
  | 8 => Except.ok "promotion_queen"
  | 9 => Except.ok "capturing_promotion_knight"
  | 10 => Except.ok "capturing_promotion_bishop"
  | 11 => Except.ok "capturing_promotion_rook"
  | 12 => Except.ok "capturing_promotion_queen"
  | other =>
    Except.error ⟨"undefined move type: 0x" ++ String.mk (Nat.toDigits 16 (other % 2 ^ 16))⟩

/-- The name returned by `Move::typename_from_type`, if any. -/
def Move.typename_of (type : MoveType) : Option String :=
  match Move.typename_from_type type with
  | Except.ok name => some name
  | Except.error _ => none

namespace squares

/-- The square constants of squares.hpp as the header lists them: one row per rank, from
rank 1 to rank 8, and in each row the files a to h. -/
def constants : List (List Nat) :=
  [[a1, b1, c1, d1, e1, f1, g1, h1],
   [a2, b2, c2, d2, e2, f2, g2, h2],
   [a3, b3, c3, d3, e3, f3, g3, h3],
   [a4, b4, c4, d4, e4, f4, g4, h4],
   [a5, b5, c5, d5, e5, f5, g5, h5],
   [a6, b6, c6, d6, e6, f6, g6, h6],
   [a7, b7, c7, d7, e7, f7, g7, h7],
   [a8, b8, c8, d8, e8, f8, g8, h8]]

/-- The constant named by file `file` (a..h as 0..7) and rank `rank` (1..8 as 0..7). -/
def constant (file rank : Nat) : Nat := (constants.getD rank []).getD file 0

end squares

/-! ## The operations of the agent (mcts_agent.cpp) -/

namespace agent

/-- The operations of the class `State` and the constructor of `mcts::Node` that the change
functions of the agent call.  Neither is among the sources, so each is a parameter; states
are named by numbers, as in `Shared`. -/
structure Collaborators where
  /-- The state after `State::make_move(move)`. -/
  make_move : Nat → Move → Nat
  /-- The node built by `new mcts::Node(nullptr, incoming_move, state)`. -/
  new_node : Option Move → Nat → mcts.Node

/-- The change function of `set_state`: `this->state = state`, then the old tree is deleted
and `node` is a new parentless node without incoming move on that state. -/
def set_state_change (c : Collaborators) (state : Nat) : Change :=
  [fun s => Except.ok { s with state := some state },
   fun s => Except.ok { s with node := some (c.new_node none state) }]

/-- The change function of `advance_state`: `this->state->make_move(move)`, then the root
becomes `child->destroy_parent_and_siblings()` (asserted not null) if `get_child(move)` finds
a child, and otherwise a new parentless node with incoming move `move` on the advanced
state. -/
def advance_state_change (c : Collaborators) (move : Move) : Change :=
  [fun s =>
    match s.state with
    | some state => Except.ok { s with state := some (c.make_move state move) }
    | none => Except.error Fault.assertion,
   fun s =>
    match s.node with
    | none => Except.error Fault.null_node
    | some node =>
      match node.get_child move with
      | some child =>
        match child.destroy_parent_and_siblings with
        | some root => Except.ok { s with node := some root }
        | none => Except.error Fault.assertion
      | none =>
        match s.state with
        | some state => Except.ok { s with node := some (c.new_node (some move) state) }
        | none => Except.error Fault.assertion]

/-- The change function of `start_pondering`. -/
def start_pondering_change : Change :=
  [fun s => Except.ok { s with do_ponder := true }]

/-- The change function of `stop_pondering`. -/
def stop_pondering_change : Change :=
  [fun s => Except.ok { s with do_ponder := false }]

/-- The call of `MCTSAgent::between_ponderings(change)` up to its first write,
`pending_change = true`; the controller goes through the rest of the function step by step
(`controller_step`). -/
def MCTSAgent.between_ponderings (a : MCTSAgent) (change : Change) : Except Fault MCTSAgent :=
  a.step (Event.between_ponderings change)

/-- The call of `MCTSAgent::set_state(state)`: it returns at once if the state is the current
one, and otherwise enters `between_ponderings`. -/
def MCTSAgent.set_state (c : Collaborators) (a : MCTSAgent) (state : Nat) :
    Except Fault MCTSAgent :=
  if a.shared.state = some state then Except.ok a
  else a.between_ponderings (set_state_change c state)

/-- The call of `MCTSAgent::advance_state(move)`: `assert(this->state)`,
`assert(this->node)`, then it enters `between_ponderings`. -/
def MCTSAgent.advance_state (c : Collaborators) (a : MCTSAgent) (move : Move) :
    Except Fault MCTSAgent :=
  if a.shared.state.isNone then Except.error Fault.assertion
  else if a.shared.node.isNone then Except.error Fault.assertion
  else a.between_ponderings (advance_state_change c move)

/-- The call of `MCTSAgent::start_pondering()`. -/
def MCTSAgent.start_pondering (a : MCTSAgent) : Except Fault MCTSAgent :=
  a.between_ponderings start_pondering_change

/-- The call of `MCTSAgent::stop_pondering()`. -/
def MCTSAgent.stop_pondering (a : MCTSAgent) : Except Fault MCTSAgent :=
  a.between_ponderings stop_pondering_change

/-- A step of one of the threads, as opposed to a new call by the user of the agent. -/
def Event.is_thread : Event → Bool
  | Event.controller => true
  | Event.ponderer _ => true
  | _ => false

/-- The call `call` of an operation returns: it begins, and after the thread steps of
`schedule` the controller is outside every operation again, the agent being `a'`. -/
def Returns (call : Except Fault MCTSAgent) (schedule : List Event) (a' : MCTSAgent) : Prop :=
  ∃ a, call = Except.ok a ∧ schedule.all Event.is_thread = true ∧
    a.run schedule = Except.ok a' ∧ a'.controller = ControllerPc.idle

/-- A whole change function: its writes one after the other. -/
def apply_change : Change → Shared → Except Fault Shared
  | [], s => Except.ok s
  | write :: rest, s =>
    match write s with
    | Except.ok s' => apply_change rest s'
    | Except.error fault => Except.error fault

/-- The writes of its change function that the controller has still to do. -/
def ControllerPc.remaining : ControllerPc → Change
  | ControllerPc.arrive_before change => change
  | ControllerPc.wait_before change => change
  | ControllerPc.changing rest => rest
  | _ => []

/-- The controller has done the writes of its change function, or is outside every
operation. -/
def ControllerPc.after_change : ControllerPc → Bool
  | ControllerPc.idle => true
  | ControllerPc.arrive_after => true
  | ControllerPc.wait_after => true
  | _ => false

/-- The controller is in the destructor. -/
def ControllerPc.in_destructor : ControllerPc → Bool
  | ControllerPc.joining => true
  | ControllerPc.destroyed => true
  | _ => false

/-- A change function that writes neither `state` nor `node`. -/
def keeps_state (change : Change) : Prop :=
  ∀ write ∈ change, ∀ s s', write s = Except.ok s' → s'.state = s.state ∧ s'.node = s.node

/-- An event other than a call with a change function that writes `state` or `node`. -/
def Event.keeps_state : Event → Prop
  | Event.between_ponderings change => agent.keeps_state change
  | _ => True

/-- Facts of every agent state reached from the constructor, besides `Inv`: a ponderer is
inside its batch only while `do_ponder` is set, and before the destructor `do_terminate` is
not set and no ponderer has left its loop. -/
structure Sound (a : MCTSAgent) : Prop where
  batch : ∀ pc ∈ a.ponderers, pc.in_batch = true → a.shared.do_ponder = true
  alive : a.controller.in_destructor = false →
    a.do_terminate = false ∧ ∀ pc ∈ a.ponderers, pc ≠ PondererPc.terminated

/-- The controller has called `between_ponderings(change)` and not yet reached
`barrier_before_change`; the ponderers can go on: `node` is set if `do_ponder` is. -/
structure Calling (n : Nat) (change : Change) (a : MCTSAgent) : Prop where
  inv : Inv n a
  sound : Sound a
  controller : a.controller = ControllerPc.arrive_before change
  pending : a.pending_change = true
  healthy : a.shared.do_ponder = true → a.shared.node.isSome = true

/-- The agent `a'` is `a` with the ponderers at `ponderers`, up to the count of
`barrier_before_change`. -/
structure Moved (a : MCTSAgent) (ponderers : List PondererPc) (a' : MCTSAgent) : Prop where
  ponderers : a'.ponderers = ponderers
  pending : a'.pending_change = a.pending_change
  terminate : a'.do_terminate = a.do_terminate
  shared : a'.shared = a.shared
  controller : a'.controller = a.controller

/-- What a call of `between_ponderings` keeps true until it returns: the writes still to do,
applied to the current fields, give the result `result` of the whole change function. -/
structure Effect (result : Except Fault Shared) (terminate : Bool) (a : MCTSAgent) : Prop where
  call : a.controller.in_destructor = false
  result : apply_change a.controller.remaining a.shared = result
  pending : a.controller.after_change = true → a.pending_change = false
  terminate : a.do_terminate = terminate

/-- The writes that the controller has still to do keep `state` and `node`, which are `state`
and `node`. -/
structure Unset (state : Option Nat) (node : Option mcts.Node) (a : MCTSAgent) : Prop where
  remaining : keeps_state a.controller.remaining
  state : a.shared.state = state
  node : a.shared.node = node

/-- The agent reaches `a'` by steps of its threads, during which the ponderers alone move, to
`ponderers`. -/
def Drives (a : MCTSAgent) (ponderers : List PondererPc) (a' : MCTSAgent) : Prop :=
  ∃ schedule, schedule.all Event.is_thread = true ∧ a.run schedule = Except.ok a' ∧
    Moved a ponderers a'

end agent

namespace agent

/-- The flag `pending_change` is set exactly while the controller is in `between_ponderings`
and has not left its change function. -/
def MCTSAgent.pending_ok (a : MCTSAgent) : Prop :=
  a.pending_change = !(a.controller.after_change || a.controller.in_destructor)

end agent

/-! ## The public operations of the agent and the root under `do_ponder` -/

namespace agent

/-- The condition of `assert(node || !do_ponder)`: the root is set if `do_ponder` is. -/
def Shared.rooted (s : Shared) : Prop :=
  s.do_ponder = true → s.node.isSome = true

/-- The condition `rooted` holds now and after each of the writes still to do. -/
def rooted_through : Change → Shared → Prop
  | [], s => s.rooted
  | write :: rest, s => s.rooted ∧ ∀ s', write s = Except.ok s' → rooted_through rest s'

/-- The writes that the controller has still to do keep the root set if `do_ponder` is. -/
def MCTSAgent.rooted (a : MCTSAgent) : Prop :=
  rooted_through a.controller.remaining a.shared

/-- The event is a step of a thread, the destructor, or the call of `between_ponderings` by
one of the public operations of the agent on the collaborators `c`: `set_state`,
`advance_state`, `start_pondering` (also called by `resume` and by `start_decision`) or
`stop_pondering` (also called by `pause` and by `idle`). -/
def Event.is_public (c : Collaborators) : Event → Prop
  | Event.between_ponderings change =>
    (∃ state, change = set_state_change c state) ∨
    (∃ move, change = advance_state_change c move) ∨
    change = start_pondering_change ∨ change = stop_pondering_change
  | _ => True

/-- The event is public, and if it is a call of `start_pondering`, the root of the agent `a`
on which it is called is set. -/
def Event.follows_protocol (c : Collaborators) (a : MCTSAgent) (e : Event) : Prop :=
  e.is_public c ∧
    (e = Event.between_ponderings start_pondering_change → a.shared.node.isSome = true)

/-- Every event of the schedule follows the protocol in the agent state in which it
happens. -/
def MCTSAgent.follows (c : Collaborators) : MCTSAgent → List Event → Prop
  | _, [] => True
  | a, e :: schedule =>
    e.follows_protocol c a ∧ ∀ a', a.step e = Except.ok a' → MCTSAgent.follows c a' schedule

end agent

namespace State

/-- Modelled from the spec: `State::their_king_attacked` (state.cpp is not among the sources):
the side to move attacks the square of the opponent's king; the attacks are computed from the
placement, as `their_attacks` is for the other side. -/
def their_king_attacked (s : State) : Option Bool :=
  (attacks_of s.us s.flat_occupancy s.board).map
    (fun attacks => attacks &&& s.board s.us.other Piece.king != 0)

/-- The state of test `king_capture`, `8/5B2/8/Q1pk4/8/8/PPP5/6K1 b - - 0 0`: black to move,
no castling rights, no en-passant square. -/
def king_capture : State :=
  { board := positions.king_capture
    occupancy := positions.occupancy_of positions.king_capture
    flat_occupancy := positions.occupancy_of positions.king_capture Color.white |||
      positions.occupancy_of positions.king_capture Color.black
    us := Color.black
    en_passant_square := 0
    castling_rights := fun _ => { kingside := false, queenside := false }
    their_attacks := moves.all_attacks_val
      (positions.occupancy_of positions.king_capture Color.white |||
        positions.occupancy_of positions.king_capture Color.black) positions.king_capture
    hash := 0 }

/-- The state of test `king_capture` after black has played d5c4: white to move, the black
king on c4 attacked by the bishop on f7. -/
def king_capture_after : State :=
  { board := positions.king_capture_after
    occupancy := positions.occupancy_of positions.king_capture_after
    flat_occupancy := positions.occupancy_of positions.king_capture_after Color.white |||
      positions.occupancy_of positions.king_capture_after Color.black
    us := Color.white
    en_passant_square := 0
    castling_rights := fun _ => { kingside := false, queenside := false }
    their_attacks := moves.black_attacks_val
      (positions.occupancy_of positions.king_capture_after Color.white |||
        positions.occupancy_of positions.king_capture_after Color.black)
      positions.king_capture_after
    hash := 0 }

/-- The fields of a state that two states are compared on in the scenarios below: the twelve
piece bitboards, the occupancies, the side to move, the en-passant square, the castling
rights and the cached attacks. -/
def fields (s : State) : List Nat × Color × List Bool :=
  (pieces.values.map (s.board Color.white) ++ pieces.values.map (s.board Color.black) ++
      [s.occupancy Color.white, s.occupancy Color.black, s.flat_occupancy,
        s.en_passant_square, s.their_attacks],
    s.us,
    [(s.castling_rights Color.white).kingside, (s.castling_rights Color.white).queenside,
      (s.castling_rights Color.black).kingside, (s.castling_rights Color.black).queenside])

end State

/-! # Theorems -/

/-! ## Machine-word lemmas -/

namespace bitboard

@[simp] theorem testBit_wrap (x i : Nat) : (wrap x).testBit i = (decide (i < 64) && x.testBit i) := by
  unfold wrap
  exact Nat.testBit_mod_two_pow x 64 i

theorem testBit_ones (i : Nat) : ones.testBit i = decide (i < 64) := by
  have : ones = 2 ^ 64 - 1 := by decide
  rw [this, Nat.testBit_two_pow_sub_one]

@[simp] theorem testBit_complement (b i : Nat) :
    (complement b).testBit i = (decide (i < 64) && !b.testBit i) := by
  simp only [complement, testBit_wrap, Nat.testBit_xor, testBit_ones]
  by_cases h : i < 64 <;> simp [h]

@[simp] theorem testBit_shl (a k i : Nat) :
    (shl a k).testBit i = (decide (i < 64) && (decide (k ≤ i) && a.testBit (i - k))) := by
  simp [shl, Nat.testBit_shiftLeft]

@[simp] theorem testBit_shr (a k i : Nat) : (shr a k).testBit i = a.testBit (k + i) := by
  simp [shr]

theorem mem_members {b t : Nat} : t ∈ members b ↔ t < 64 ∧ b.testBit t = true := by
  simp [members]

theorem members_nodup (b : Nat) : (members b).Nodup :=
  (List.nodup_range 64).filter _

end bitboard

@[simp] theorem squares.testBit_bitboard (s i : Nat) :
    (squares.bitboard s).testBit i = decide (s = i) := by
  simp [squares.bitboard, Nat.one_shiftLeft, Nat.testBit_two_pow]

/-! ## The packed move word -/

theorem Move.pack_word {s t ty : Nat} (hs : s < 64) (ht : t < 64) (hty : ty < 16) :
    (Move.pack s t ty).move = ty + 16 * s + 1024 * t := by
  have h1 : (ty % 2 ^ 16) <<< Move.offset_type = ty := by
    simp [Move.offset_type]; omega
  have h2 : s <<< Move.offset_from = 2 ^ 4 * s := by
    simp [Move.offset_from, Move.offset_type, Move.nbits_type, Nat.shiftLeft_eq, Nat.mul_comm]
  have h3 : t <<< Move.offset_to = 2 ^ 10 * t := by
    simp [Move.offset_to, Move.offset_from, Move.offset_type, Move.nbits_type, Move.nbits_from,
      Nat.shiftLeft_eq, Nat.mul_comm]
  have h4 : ty ||| 2 ^ 4 * s = 2 ^ 4 * s + ty := by
    rw [Nat.lor_comm]; exact (Nat.mul_add_lt_is_or (by omega) s).symm
  have h5 : (2 ^ 4 * s + ty) ||| 2 ^ 10 * t = 2 ^ 10 * t + (2 ^ 4 * s + ty) := by
    rw [Nat.lor_comm]; exact (Nat.mul_add_lt_is_or (by omega) t).symm
  simp only [Move.pack, h1, h2, h3, h4, h5]
  omega

theorem Move.pack_fields {s t ty : Nat} (hs : s < 64) (ht : t < 64) (hty : ty < 16) :
    (Move.pack s t ty).source = s ∧ (Move.pack s t ty).target = t ∧
      (Move.pack s t ty).type = ty := by
  have hw := Move.pack_word hs ht hty
  have e4 : (1 <<< Move.nbits_type) - 1 = 2 ^ 4 - 1 := by decide
  have e6 : (1 <<< Move.nbits_from) - 1 = 2 ^ 6 - 1 := by decide
  have e6' : (1 <<< Move.nbits_to) - 1 = 2 ^ 6 - 1 := by decide
  refine ⟨?_, ?_, ?_⟩
  · simp only [Move.source, hw, e6, Nat.and_pow_two_sub_one_eq_mod, Nat.shiftRight_eq_div_pow]
    simp [Move.offset_from, Move.offset_type, Move.nbits_type]; omega
  · simp only [Move.target, hw, e6', Nat.and_pow_two_sub_one_eq_mod, Nat.shiftRight_eq_div_pow]
    simp [Move.offset_to, Move.offset_from, Move.offset_type, Move.nbits_type, Move.nbits_from]
    omega
  · have h0 : (Move.pack s t ty).type = ((Move.pack s t ty).move >>> 0) &&& (2 ^ 4 - 1) := rfl
    rw [h0, hw, Nat.and_pow_two_sub_one_eq_mod, Nat.shiftRight_eq_div_pow]
    show @Eq Nat _ _
    omega

theorem Move.new_eq_pack {s t : Nat} (hs : s < 64) (ht : t < 64) (ty : Nat) :
    Move.new (s : Int) (t : Int) ty = some (Move.pack s t ty) := by
  have : (0 : Int) ≤ s ∧ (s : Int) < 64 ∧ (0 : Int) ≤ t ∧ (t : Int) < 64 := by omega
  simp [Move.new, this, Move.pack]

/-! ## Generators as list extensions -/

theorem Appends.nil : Appends (fun ms => some ms) [] := by
  intro ms; simp

theorem Appends.bind {f g : List Move → Option (List Move)} {a b : List Move}
    (hf : Appends f a) (hg : Appends g b) : Appends (fun ms => (f ms).bind g) (a ++ b) := by
  intro ms; simp [hf ms, hg (ms ++ a)]

theorem Appends.foldlM {α : Type} (f : List Move → α → Option (List Move)) (out : α → List Move) :
    ∀ (l : List α), (∀ x ∈ l, Appends (fun ms => f ms x) (out x)) →
      Appends (fun ms => l.foldlM f ms) (l.flatMap out)
  | [], _ => by intro ms; simp
  | x :: l, h => by
    intro ms
    have hx := h x (List.mem_cons_self x l) ms
    have hl := Appends.foldlM f out l (fun y hy => h y (List.mem_cons_of_mem x hy)) (ms ++ out x)
    simp only [List.foldlM_cons, List.flatMap_cons]
    simp only at hx hl
    rw [show f ms x = some (ms ++ out x) from hx]
    simp [hl]

theorem moves_from_targets_appends (targets : Bitboard) (source : Int) (relativity : Relativity)
    (type : Nat) (src : Nat → Nat)
    (h : ∀ t, t < 64 → targets.testBit t = true →
      relativity.toInt * (t : Int) + source = (src t : Int) ∧ src t < 64) :
    Appends (fun ms => moves_from_targets ms targets source relativity type)
      (targets_moves targets src type) := by
  have key := Appends.foldlM
    (fun (ms : List Move) (target : Nat) => do
      let m ← Move.new (relativity.toInt * (target : Int) + source) (target : Int) type
      pure (ms ++ [m]))
    (fun t => [Move.pack (src t) t type]) (bitboard.members targets) (by
      intro t ht ms
      obtain ⟨ht64, htb⟩ := bitboard.mem_members.mp ht
      obtain ⟨h1, h2⟩ := h t ht64 htb
      simp only [h1, Move.new_eq_pack h2 ht64]
      rfl)
  intro ms
  have hk := key ms
  have hmap : ∀ l : List Nat, l.flatMap (fun t => [Move.pack (src t) t type]) =
      l.map (fun t => Move.pack (src t) t type) := by
    intro l
    induction l with
    | nil => rfl
    | cons a l ih => simp [List.flatMap_cons, ih]
  simp only [moves_from_targets, bitboard.for_each_member, targets_moves]
  rw [← hmap]
  exact hk

theorem moves_from_attacks_appends (attacks us them : Bitboard) (source : Int)
    (relativity : Relativity) (src : Nat → Nat)
    (h : ∀ t, t < 64 → attacks.testBit t = true →
      relativity.toInt * (t : Int) + source = (src t : Int) ∧ src t < 64) :
    Appends (fun ms => moves_from_attacks ms attacks us them source relativity)
      (attacks_moves attacks us them src) := by
  have h1 := moves_from_targets_appends (attacks &&& bitboard.complement us &&&
    bitboard.complement them) source relativity MoveType.normal src (by
      intro t ht hb; simp only [Nat.testBit_and, Bool.and_eq_true] at hb; exact h t ht hb.1.1)
  have h2 := moves_from_targets_appends (attacks &&& bitboard.complement us &&& them)
    source relativity MoveType.capture src (by
      intro t ht hb; simp only [Nat.testBit_and, Bool.and_eq_true] at hb; exact h t ht hb.1.1)
  exact Appends.bind h1 h2

/-! ## The assertion of `a1h8_onto_rank` never fails on the output of `slides` -/

namespace moves
open bitboard directions

theorem slides_and_complement (x p m : Bitboard) : slides x p m &&& complement m = 0 := by
  apply Nat.eq_of_testBit_eq
  intro i
  simp only [slides, Nat.testBit_and, testBit_complement, Nat.zero_testBit]
  cases m.testBit i <;> simp

theorem slides_rank_eq (occupancy piece : Bitboard) (rank : Rank) :
    slides_rank occupancy piece rank = some (slides_rank_val occupancy piece rank) := by
  simp only [slides_rank, a1h8_onto_rank, slides_and_complement, slides_rank_val, if_true]

theorem rook_attacks_eq (occupancy : Bitboard) (source : Nat) :
    rook_attacks occupancy source = some (rook_attacks_val occupancy source) := by
  simp [rook_attacks, slides_rank_eq, rook_attacks_val]

theorem queen_attacks_eq (occupancy : Bitboard) (source : Nat) :
    queen_attacks occupancy source = some (queen_attacks_val occupancy source) := by
  simp [queen_attacks, rook_attacks_eq, queen_attacks_val]

theorem foldlM_some {σ α : Type} (g : σ → α → σ) (l : List α) (init : σ) :
    l.foldlM (fun acc x => (some (g acc x) : Option σ)) init = some (l.foldl g init) := by
  induction l generalizing init with
  | nil => rfl
  | cons a l ih => simp [List.foldlM_cons, ih]

theorem all_attacks_eq (occupancy : Bitboard) (board : Board) :
    all_attacks occupancy board = some (all_attacks_val occupancy board) := by
  simp only [all_attacks, for_each_member, rook_attacks_eq, queen_attacks_eq, pure,
    bind, Option.bind, foldlM_some, all_attacks_val]

theorem black_attacks_eq (occupancy : Bitboard) (board : Board) :
    black_attacks occupancy board = some (black_attacks_val occupancy board) := by
  simp only [black_attacks, all_attacks_eq, pure, bind, Option.bind, black_attacks_val]

end moves

/-! ## Closed forms of the per-piece generators -/

namespace moves
open bitboard directions

theorem targets_moves_zero (src : Nat → Nat) (ty : Nat) : targets_moves 0 src ty = [] := by
  have : members 0 = [] := by decide
  simp [targets_moves, this]

/-- A promotion loop of `moves::pawn`, guarded by `promotion_targets != 0`. -/
theorem promotion_loop_appends (kinds : List Nat) (targets : Bitboard) (source : Int)
    (src : Nat → Nat)
    (h : ∀ t, t < 64 → targets.testBit t = true →
      Relativity.relative.toInt * (t : Int) + source = (src t : Int) ∧ src t < 64) :
    Appends (fun ms => if targets ≠ 0 then
        kinds.foldlM (fun ms promotion =>
          moves_from_targets ms targets source Relativity.relative promotion) ms
      else pure ms)
      (kinds.flatMap (fun ty => targets_moves targets src ty)) := by
  have key := Appends.foldlM
    (fun ms promotion => moves_from_targets ms targets source Relativity.relative promotion)
    (fun ty => targets_moves targets src ty) kinds
    (fun ty _ => moves_from_targets_appends targets source Relativity.relative ty src h)
  intro ms
  by_cases h0 : targets = 0
  · subst h0
    have : kinds.flatMap (fun ty => targets_moves 0 src ty) = [] := by
      induction kinds with
      | nil => rfl
      | cons a l ih => simp [List.flatMap_cons, targets_moves_zero, ih]
    simp [this]
  · simp only [ne_eq, h0, not_false_eq_true, if_true]
    exact key ms

theorem testBit_single_push {pawn us them t : Nat}
    (h : (single_push_targets pawn us them).testBit t = true) :
    8 ≤ t ∧ pawn.testBit (t - 8) = true ∧ (us ||| them).testBit t = false := by
  simp only [single_push_targets, vertical, Nat.testBit_and, testBit_shl, testBit_complement,
    Bool.and_eq_true, decide_eq_true_eq, Bool.not_eq_true'] at h
  exact ⟨h.1.2.1, h.1.2.2, h.2.2⟩

theorem testBit_double_push {pawn us them t : Nat}
    (h : (double_push_targets pawn us them).testBit t = true) :
    16 ≤ t ∧ t < 32 ∧ pawn.testBit (t - 16) = true ∧ (us ||| them).testBit t = false ∧
      (us ||| them).testBit (t - 8) = false := by
  simp only [double_push_targets, vertical, Nat.testBit_and, testBit_shl, testBit_complement,
    Bool.and_eq_true, decide_eq_true_eq, Bool.not_eq_true'] at h
  obtain ⟨⟨_, h8, hs, h3⟩, _, hf⟩ := h
  obtain ⟨h8', hp, hf'⟩ := testBit_single_push hs
  have hr : ranks._3 = 2 ^ 24 - 1 - (2 ^ 16 - 1) := by decide
  have h24 : t - 8 < 24 := by
    by_contra hc
    have : ranks._3.testBit (t - 8) = false := by
      apply Nat.testBit_lt_two_pow
      calc ranks._3 < 2 ^ 24 := by decide
        _ ≤ 2 ^ (t - 8) := Nat.pow_le_pow_right (by decide) (by omega)
    rw [this] at h3; exact Bool.noConfusion h3
  refine ⟨by omega, by omega, ?_, hf, hf'⟩
  rw [show t - 16 = t - 8 - 8 by omega]; exact hp

theorem testBit_pawn_attacks_w {pawn t : Nat} (h : (pawn_attacks_w pawn).testBit t = true) :
    7 ≤ t ∧ pawn.testBit (t - 7) = true ∧ files.a.testBit (t - 7) = false := by
  simp only [pawn_attacks_w, vertical, horizontal, Nat.testBit_and, testBit_shl, testBit_shr,
    testBit_complement, Bool.and_eq_true, decide_eq_true_eq, Bool.not_eq_true'] at h
  obtain ⟨_, h8, hp, _, ha⟩ := h
  rw [show 1 + t - 8 = t - 7 by omega] at hp ha
  exact ⟨by omega, hp, ha⟩

theorem testBit_pawn_attacks_e {pawn t : Nat} (h : (pawn_attacks_e pawn).testBit t = true) :
    9 ≤ t ∧ pawn.testBit (t - 9) = true ∧ files.h.testBit (t - 9) = false := by
  simp only [pawn_attacks_e, vertical, horizontal, Nat.testBit_and, testBit_shl,
    testBit_complement, Bool.and_eq_true, decide_eq_true_eq, Bool.not_eq_true'] at h
  obtain ⟨_, h1, _, h8, hp, _, ha⟩ := h
  rw [show t - 1 - 8 = t - 9 by omega] at hp ha
  exact ⟨by omega, hp, ha⟩

theorem pawn_appends (pawn us them en_passant_square : Bitboard) :
    Appends (fun ms => moves.pawn ms pawn us them en_passant_square)
      (pawn_moves pawn us them en_passant_square) := by
  have rel : Relativity.relative.toInt = 1 := rfl
  have a1 := moves_from_targets_appends
    (single_push_targets pawn us them &&& complement ranks._8) south Relativity.relative
    MoveType.normal (fun t => t - 8) (by
      intro t ht hb
      rw [Nat.testBit_and, Bool.and_eq_true] at hb
      have := (testBit_single_push hb.1).1
      simp only [rel, south]; omega)
  have a2 := promotion_loop_appends promotions
    (single_push_targets pawn us them &&& ranks._8) south (fun t => t - 8) (by
      intro t ht hb
      rw [Nat.testBit_and, Bool.and_eq_true] at hb
      have := (testBit_single_push hb.1).1
      simp only [rel, south]; omega)
  have a3 := moves_from_targets_appends (double_push_targets pawn us them) (2 * south)
    Relativity.relative MoveType.double_push (fun t => t - 16) (by
      intro t ht hb
      have := (testBit_double_push hb).1
      simp only [rel, south]; omega)
  have a4 := moves_from_targets_appends
    (capture_targets_w pawn them en_passant_square &&& complement ranks._8) (south + east)
    Relativity.relative MoveType.capture (fun t => t - 7) (by
      intro t ht hb
      simp only [capture_targets_w, Nat.testBit_and, Bool.and_eq_true] at hb
      have := (testBit_pawn_attacks_w hb.1.1).1
      simp only [rel, south, east]; omega)
  have a5 := promotion_loop_appends capturing_promotions
    (capture_targets_w pawn them en_passant_square &&& ranks._8) (south + east)
    (fun t => t - 7) (by
      intro t ht hb
      simp only [capture_targets_w, Nat.testBit_and, Bool.and_eq_true] at hb
      have := (testBit_pawn_attacks_w hb.1.1).1
      simp only [rel, south, east]; omega)
  have a6 := moves_from_targets_appends
    (capture_targets_e pawn them en_passant_square &&& complement ranks._8) (south + west)
    Relativity.relative MoveType.capture (fun t => t - 9) (by
      intro t ht hb
      simp only [capture_targets_e, Nat.testBit_and, Bool.and_eq_true] at hb
      have := (testBit_pawn_attacks_e hb.1.1).1
      simp only [rel, south, west]; omega)
  have a7 := promotion_loop_appends capturing_promotions
    (capture_targets_e pawn them en_passant_square &&& ranks._8) (south + west)
    (fun t => t - 9) (by
      intro t ht hb
      simp only [capture_targets_e, Nat.testBit_and, Bool.and_eq_true] at hb
      have := (testBit_pawn_attacks_e hb.1.1).1
      simp only [rel, south, west]; omega)
  have key := Appends.bind a1 (Appends.bind a2 (Appends.bind a3 (Appends.bind a4
    (Appends.bind a5 (Appends.bind a6 a7)))))
  intro ms
  have hk := key ms
  simp only [pawn_moves, List.append_assoc]
  exact hk

theorem testBit_knight_attacks {knight ls rs bad t : Nat}
    (h : (knight_attacks knight ls rs bad).testBit t = true) :
    ls ≤ t + rs ∧ t + rs < 64 ∧ knight.testBit (t + rs - ls) = true ∧ bad.testBit t = false := by
  simp only [knight_attacks, Nat.testBit_and, testBit_shl, testBit_shr, testBit_complement,
    Bool.and_eq_true, decide_eq_true_eq, Bool.not_eq_true'] at h
  obtain ⟨⟨h1, h2, h3⟩, _, h4⟩ := h
  rw [Nat.add_comm rs t] at h1 h2 h3
  exact ⟨h2, h1, h3, h4⟩

theorem knight_appends (knight us them en_passant_square : Bitboard) :
    Appends (fun ms => moves.knight ms knight us them en_passant_square)
      (knight_moves knight us them) := by
  exact Appends.foldlM
    (fun ms (ka : KnightAttackType) =>
      moves_from_attacks ms (knight_attacks knight ka.leftshift ka.rightshift ka.badtargets)
        us them (-(ka.leftshift : Int) + (ka.rightshift : Int)) Relativity.relative)
    (fun ka => attacks_moves (knight_attacks knight ka.leftshift ka.rightshift ka.badtargets)
      us them (fun t => t + ka.rightshift - ka.leftshift))
    get_knight_attack_types
    (fun ka _ => moves_from_attacks_appends _ us them _ Relativity.relative _ (by
      intro t _ hb
      obtain ⟨h1, h2, _, _⟩ := testBit_knight_attacks hb
      have rel : Relativity.relative.toInt = 1 := rfl
      simp only [rel]; omega))

theorem absolute_appends (attacks us them : Bitboard) {source : Nat} (hs : source < 64) :
    Appends (fun ms => moves_from_attacks ms attacks us them (source : Int) Relativity.absolute)
      (attacks_moves attacks us them (fun _ => source)) :=
  moves_from_attacks_appends attacks us them _ Relativity.absolute _ (by
    intro t _ _
    have rel : Relativity.absolute.toInt = 0 := rfl
    simp only [rel]; omega)

theorem bishop_appends (bishop us them en_passant_square : Bitboard) :
    Appends (fun ms => moves.bishop ms bishop us them en_passant_square)
      (slider_moves (bishop_attacks (us ||| them)) bishop us them) :=
  Appends.foldlM
    (fun ms (source : Nat) =>
      moves_from_attacks ms (bishop_attacks (us ||| them) source) us them (source : Int)
        Relativity.absolute)
    (fun source => attacks_moves (bishop_attacks (us ||| them) source) us them (fun _ => source))
    (members bishop)
    (fun _ hs => absolute_appends _ us them (mem_members.mp hs).1)

theorem rook_appends (rook us them en_passant_square : Bitboard) :
    Appends (fun ms => moves.rook ms rook us them en_passant_square)
      (slider_moves (rook_attacks_val (us ||| them)) rook us them) := by
  have key := Appends.foldlM
    (fun ms (source : Nat) => do
      moves_from_attacks ms (← rook_attacks (us ||| them) source) us them (source : Int)
        Relativity.absolute)
    (fun source => attacks_moves (rook_attacks_val (us ||| them) source) us them
      (fun _ => source))
    (members rook)
    (fun source hs ms => by
      have := absolute_appends (rook_attacks_val (us ||| them) source) us them
        (mem_members.mp hs).1 ms
      simp only [rook_attacks_eq, bind, Option.bind]
      exact this)
  exact key

theorem queen_appends (queen us them en_passant_square : Bitboard) :
    Appends (fun ms => moves.queen ms queen us them en_passant_square)
      (slider_moves (queen_attacks_val (us ||| them)) queen us them) := by
  have key := Appends.foldlM
    (fun ms (source : Nat) => do
      moves_from_attacks ms (← queen_attacks (us ||| them) source) us them (source : Int)
        Relativity.absolute)
    (fun source => attacks_moves (queen_attacks_val (us ||| them) source) us them
      (fun _ => source))
    (members queen)
    (fun source hs ms => by
      have := absolute_appends (queen_attacks_val (us ||| them) source) us them
        (mem_members.mp hs).1 ms
      simp only [queen_attacks_eq, bind, Option.bind]
      exact this)
  exact key

theorem index_from_bitboard_lt (b : Bitboard) : squares.index_from_bitboard b < 64 := by
  unfold squares.index_from_bitboard
  cases h : members b with
  | nil => simp
  | cons a l =>
    have : a ∈ members b := by rw [h]; exact List.mem_cons_self a l
    simpa using (mem_members.mp this).1

theorem king_appends (king us them en_passant_square : Bitboard) :
    Appends (fun ms => moves.king ms king us them en_passant_square)
      (king_moves king us them) :=
  absolute_appends (king_attacks king) us them (index_from_bitboard_lt king)

theorem castle_appends (occupancy : Bitboard) (board : Board)
    (can_castle_kingside can_castle_queenside : Bool) :
    Appends (fun ms => moves.castle ms occupancy board can_castle_kingside can_castle_queenside)
      (castle_moves occupancy board can_castle_kingside can_castle_queenside) := by
  intro ms
  have hk : Move.new (squares.e1 : Nat) (squares.g1 : Nat) MoveType.castle_kingside =
      some (Move.pack squares.e1 squares.g1 MoveType.castle_kingside) :=
    Move.new_eq_pack (by decide) (by decide) _
  have hq : Move.new (squares.e1 : Nat) (squares.c1 : Nat) MoveType.castle_queenside =
      some (Move.pack squares.e1 squares.c1 MoveType.castle_queenside) :=
    Move.new_eq_pack (by decide) (by decide) _
  simp only [moves.castle, black_attacks_eq, bind, Option.bind, pure, hk, hq, castle_moves,
    kingside_ok, queenside_ok]
  split_ifs <;> simp

theorem all_moves_appends (board : Board) (occupancy : Occupancy) (en_passant_square : Bitboard)
    (can_castle_kingside can_castle_queenside : Bool) :
    Appends (fun ms => moves.all_moves ms board occupancy en_passant_square
        can_castle_kingside can_castle_queenside)
      (all_moves_list board occupancy en_passant_square
        can_castle_kingside can_castle_queenside) := by
  intro ms
  simp only [moves.all_moves, pieces.values, List.foldlM_cons, List.foldlM_nil,
    move_generators_by_piece, bind, Option.bind, pure,
    pawn_appends _ _ _ _ _, knight_appends _ _ _ _ _, bishop_appends _ _ _ _ _,
    rook_appends _ _ _ _ _, queen_appends _ _ _ _ _, king_appends _ _ _ _ _,
    castle_appends _ _ _ _ _, all_moves_list, List.append_assoc]

end moves

/-! ## Membership in the emitted lists -/

theorem mem_targets_moves {targets : Bitboard} {src : Nat → Nat} {ty : Nat} {m : Move}
    (hsrc : ∀ t, t < 64 → targets.testBit t = true → src t < 64) (hty : ty < 16)
    (h : m ∈ targets_moves targets src ty) :
    ∃ t, t < 64 ∧ targets.testBit t = true ∧ m.source = src t ∧ m.target = t ∧ m.type = ty := by
  simp only [targets_moves, List.mem_map] at h
  obtain ⟨t, ht, rfl⟩ := h
  obtain ⟨h64, hb⟩ := bitboard.mem_members.mp ht
  obtain ⟨h1, h2, h3⟩ := Move.pack_fields (hsrc t h64 hb) h64 hty
  exact ⟨t, h64, hb, h1, h2, h3⟩

theorem mem_targets_moves_of {targets : Bitboard} {src : Nat → Nat} {ty t : Nat}
    (ht : t < 64) (hb : targets.testBit t = true) :
    Move.pack (src t) t ty ∈ targets_moves targets src ty := by
  simp only [targets_moves, List.mem_map]
  exact ⟨t, bitboard.mem_members.mpr ⟨ht, hb⟩, rfl⟩

theorem mem_attacks_moves {attacks us them : Bitboard} {src : Nat → Nat} {m : Move}
    (hsrc : ∀ t, t < 64 → attacks.testBit t = true → src t < 64)
    (h : m ∈ attacks_moves attacks us them src) :
    ∃ t, t < 64 ∧ attacks.testBit t = true ∧ us.testBit t = false ∧
      m.source = src t ∧ m.target = t ∧
      ((m.type = MoveType.normal ∧ them.testBit t = false) ∨
        (m.type = MoveType.capture ∧ them.testBit t = true)) := by
  simp only [attacks_moves, List.mem_append] at h
  rcases h with h | h
  · obtain ⟨t, ht, hb, h1, h2, h3⟩ := mem_targets_moves (by
      intro t ht hb
      simp only [Nat.testBit_and, Bool.and_eq_true] at hb
      exact hsrc t ht hb.1.1) (by decide) h
    simp only [Nat.testBit_and, bitboard.testBit_complement, Bool.and_eq_true,
      decide_eq_true_eq, Bool.not_eq_true'] at hb
    exact ⟨t, ht, hb.1.1, hb.1.2.2, h1, h2, Or.inl ⟨h3, hb.2.2⟩⟩
  · obtain ⟨t, ht, hb, h1, h2, h3⟩ := mem_targets_moves (by
      intro t ht hb
      simp only [Nat.testBit_and, Bool.and_eq_true] at hb
      exact hsrc t ht hb.1.1) (by decide) h
    simp only [Nat.testBit_and, bitboard.testBit_complement, Bool.and_eq_true,
      decide_eq_true_eq, Bool.not_eq_true'] at hb
    exact ⟨t, ht, hb.1.1, hb.1.2.2, h1, h2, Or.inr ⟨h3, hb.2⟩⟩

namespace moves
open bitboard directions

theorem mem_promotion_moves {kinds : List Nat} {targets : Bitboard} {src : Nat → Nat} {m : Move}
    (hk : ∀ ty ∈ kinds, ty < 16)
    (hsrc : ∀ t, t < 64 → targets.testBit t = true → src t < 64)
    (h : m ∈ kinds.flatMap (fun ty => targets_moves targets src ty)) :
    ∃ t, t < 64 ∧ targets.testBit t = true ∧ m.source = src t ∧ m.target = t ∧
      m.type ∈ kinds := by
  simp only [List.mem_flatMap] at h
  obtain ⟨ty, hty, hm⟩ := h
  obtain ⟨t, ht, hb, h1, h2, h3⟩ := mem_targets_moves hsrc (hk ty hty) hm
  exact ⟨t, ht, hb, h1, h2, h3 ▸ hty⟩

theorem promotions_lt : ∀ ty ∈ promotions, ty < 16 := by decide

theorem capturing_promotions_lt : ∀ ty ∈ capturing_promotions, ty < 16 := by decide

theorem mem_pawn_moves {pawn us them en_passant_square : Bitboard} {m : Move}
    (h : m ∈ pawn_moves pawn us them en_passant_square) :
    PawnMove pawn us them en_passant_square m := by
  simp only [pawn_moves, List.mem_append] at h
  have e8 : ∀ a b : Nat, a &&& b = b &&& a := Nat.land_comm
  rcases h with ((((((h | h) | h) | h) | h) | h) | h)
  · obtain ⟨t, ht, hb, h1, h2, h3⟩ := mem_targets_moves (by intro t ht _; omega) (by decide) h
    simp only [Nat.testBit_and, Bool.and_eq_true, testBit_complement, decide_eq_true_eq,
      Bool.not_eq_true'] at hb
    obtain ⟨h8, hp, hf⟩ := testBit_single_push hb.1
    exact .push t ht h8 hp hf h1 h2 (Or.inl ⟨hb.2.2, h3⟩)
  · obtain ⟨t, ht, hb, h1, h2, h3⟩ :=
      mem_promotion_moves promotions_lt (by intro t ht _; omega) h
    simp only [Nat.testBit_and, Bool.and_eq_true] at hb
    obtain ⟨h8, hp, hf⟩ := testBit_single_push hb.1
    exact .push t ht h8 hp hf h1 h2 (Or.inr ⟨hb.2, h3⟩)
  · obtain ⟨t, ht, hb, h1, h2, h3⟩ := mem_targets_moves (by intro t ht _; omega) (by decide) h
    obtain ⟨h16, h32, hp, hf, hf'⟩ := testBit_double_push hb
    exact .double_push t ⟨h16, h32⟩ hp hf hf' h1 h2 h3
  · obtain ⟨t, ht, hb, h1, h2, h3⟩ := mem_targets_moves (by intro t ht _; omega) (by decide) h
    simp only [capture_targets_w, Nat.testBit_and, Bool.and_eq_true, testBit_complement,
      decide_eq_true_eq, Bool.not_eq_true'] at hb
    obtain ⟨h7, hp, hf⟩ := testBit_pawn_attacks_w hb.1.1
    exact .capture_w t ht h7 hp hf hb.1.2 h1 h2 (Or.inl ⟨hb.2.2, h3⟩)
  · obtain ⟨t, ht, hb, h1, h2, h3⟩ :=
      mem_promotion_moves capturing_promotions_lt (by intro t ht _; omega) h
    simp only [capture_targets_w, Nat.testBit_and, Bool.and_eq_true] at hb
    obtain ⟨h7, hp, hf⟩ := testBit_pawn_attacks_w hb.1.1
    exact .capture_w t ht h7 hp hf hb.1.2 h1 h2 (Or.inr ⟨hb.2, h3⟩)
  · obtain ⟨t, ht, hb, h1, h2, h3⟩ := mem_targets_moves (by intro t ht _; omega) (by decide) h
    simp only [capture_targets_e, Nat.testBit_and, Bool.and_eq_true, testBit_complement,
      decide_eq_true_eq, Bool.not_eq_true'] at hb
    obtain ⟨h9, hp, hf⟩ := testBit_pawn_attacks_e hb.1.1
    exact .capture_e t ht h9 hp hf hb.1.2 h1 h2 (Or.inl ⟨hb.2.2, h3⟩)
  · obtain ⟨t, ht, hb, h1, h2, h3⟩ :=
      mem_promotion_moves capturing_promotions_lt (by intro t ht _; omega) h
    simp only [capture_targets_e, Nat.testBit_and, Bool.and_eq_true] at hb
    obtain ⟨h9, hp, hf⟩ := testBit_pawn_attacks_e hb.1.1
    exact .capture_e t ht h9 hp hf hb.1.2 h1 h2 (Or.inr ⟨hb.2, h3⟩)

theorem mem_knight_moves {knight us them : Bitboard} {m : Move}
    (h : m ∈ knight_moves knight us them) : PieceMove knight us them m := by
  simp only [knight_moves, List.mem_flatMap] at h
  obtain ⟨ka, _, hm⟩ := h
  obtain ⟨t, ht, hb, hu, h1, h2, h3⟩ := mem_attacks_moves (by
    intro t _ hb
    obtain ⟨h1, h2, _, _⟩ := testBit_knight_attacks hb
    omega) hm
  obtain ⟨k1, k2, k3, _⟩ := testBit_knight_attacks hb
  exact ⟨t + ka.rightshift - ka.leftshift, t, by omega, ht, k3, hu, h1, h2, h3⟩

theorem mem_slider_moves {attacks : Nat → Bitboard} {piece us them : Bitboard} {m : Move}
    (h : m ∈ slider_moves attacks piece us them) :
    ∃ s, s < 64 ∧ piece.testBit s = true ∧ m.source = s ∧
      (attacks s).testBit m.target = true ∧ PieceMove piece us them m := by
  simp only [slider_moves, List.mem_flatMap] at h
  obtain ⟨s, hs, hm⟩ := h
  obtain ⟨hs64, hsb⟩ := mem_members.mp hs
  obtain ⟨t, ht, hb, hu, h1, h2, h3⟩ := mem_attacks_moves (by intro _ _ _; exact hs64) hm
  exact ⟨s, hs64, hsb, h1, h2 ▸ hb, s, t, hs64, ht, hsb, hu, h1, h2, h3⟩

theorem index_from_bitboard_testBit {b : Bitboard} (h : members b ≠ []) :
    b.testBit (squares.index_from_bitboard b) = true := by
  unfold squares.index_from_bitboard
  cases hm : members b with
  | nil => exact absurd hm h
  | cons a l =>
    have : a ∈ members b := by rw [hm]; exact List.mem_cons_self a l
    simpa using (mem_members.mp this).2

theorem king_attacks_zero : king_attacks 0 = 0 := by decide

theorem testBit_lt_of_word {b i : Nat} (hb : b < 2 ^ 64) (h : b.testBit i = true) : i < 64 := by
  by_contra hc
  have : b.testBit i = false := by
    apply Nat.testBit_lt_two_pow
    calc b < 2 ^ 64 := hb
      _ ≤ 2 ^ i := Nat.pow_le_pow_right (by decide) (by omega)
  rw [this] at h; exact Bool.noConfusion h

theorem members_eq_nil {b : Bitboard} (hb : b < 2 ^ 64) (h : members b = []) : b = 0 := by
  apply Nat.eq_of_testBit_eq
  intro i
  rw [Nat.zero_testBit]
  by_contra hc
  have hi : b.testBit i = true := by simpa using hc
  have : i ∈ members b := mem_members.mpr ⟨testBit_lt_of_word hb hi, hi⟩
  rw [h] at this; exact absurd this (List.not_mem_nil i)

theorem mem_king_moves {king us them : Bitboard} {m : Move} (hw : king < 2 ^ 64)
    (h : m ∈ king_moves king us them) :
    (king_attacks king).testBit m.target = true ∧ PieceMove king us them m := by
  obtain ⟨t, ht, hb, hu, h1, h2, h3⟩ :=
    mem_attacks_moves (by intro _ _ _; exact index_from_bitboard_lt king) h
  have hne : members king ≠ [] := by
    intro h0
    rw [members_eq_nil hw h0, king_attacks_zero, Nat.zero_testBit] at hb
    exact Bool.noConfusion hb
  exact ⟨h2 ▸ hb, squares.index_from_bitboard king, t, index_from_bitboard_lt king, ht,
    index_from_bitboard_testBit hne, hu, h1, h2, h3⟩

theorem mem_castle_moves {occupancy : Bitboard} {board : Board} {ck cq : Bool} {m : Move}
    (h : m ∈ castle_moves occupancy board ck cq) :
    (kingside_ok (black_attacks_val occupancy board) occupancy ck ∧
        m = Move.pack squares.e1 squares.g1 MoveType.castle_kingside) ∨
      (queenside_ok (black_attacks_val occupancy board) occupancy cq ∧
        m = Move.pack squares.e1 squares.c1 MoveType.castle_queenside) := by
  simp only [castle_moves, List.mem_append] at h
  rcases h with h | h
  · split_ifs at h with hc
    · exact Or.inl ⟨hc, by simpa using h⟩
    · exact absurd h (List.not_mem_nil m)
  · split_ifs at h with hc
    · exact Or.inr ⟨hc, by simpa using h⟩
    · exact absurd h (List.not_mem_nil m)

end moves

/-! ## Invariants of the generated moves (consistent positions) -/

namespace Consistent

variable {board : Board} {occupancy : Occupancy} {en_passant_square : Bitboard}
  {can_castle_kingside can_castle_queenside : Bool}

theorem occupied (h : Consistent board occupancy en_passant_square can_castle_kingside
    can_castle_queenside) {c : Color} {p : Piece} {s : Nat}
    (hs : (board c p).testBit s = true) : (occupancy c).testBit s = true := by
  rw [h.occupancy_eq c]
  cases p <;> simp [Nat.testBit_or, hs]

theorem not_both (h : Consistent board occupancy en_passant_square can_castle_kingside
    can_castle_queenside) (c : Color) (p : Piece) (c' : Color) (p' : Piece) {s : Nat}
    (hne : c ≠ c' ∨ p ≠ p')
    (hs : (board c p).testBit s = true) : (board c' p').testBit s = false := by
  have h0 := congrArg (fun x => Nat.testBit x s) (h.disjoint c p c' p' hne)
  simpa [Nat.testBit_and, hs] using h0

theorem piece_move (h : Consistent board occupancy en_passant_square can_castle_kingside
    can_castle_queenside) {p : Piece} {m : Move}
    (hm : PieceMove (board Color.white p) (occupancy Color.white) (occupancy Color.black) m) :
    m.source ≠ m.target ∧ (board Color.white p).testBit m.source = true := by
  obtain ⟨s, t, _, _, hs, hu, h1, h2, _⟩ := hm
  refine ⟨?_, h1 ▸ hs⟩
  rw [h1, h2]
  intro heq
  have := h.occupied hs
  rw [heq, hu] at this
  exact Bool.noConfusion this

end Consistent

theorem Move.source_castle_kingside :
    (Move.pack squares.e1 squares.g1 MoveType.castle_kingside).source = 4 ∧
    (Move.pack squares.e1 squares.g1 MoveType.castle_kingside).target = 6 ∧
    (Move.pack squares.e1 squares.g1 MoveType.castle_kingside).type = 2 := by decide

theorem Move.source_castle_queenside :
    (Move.pack squares.e1 squares.c1 MoveType.castle_queenside).source = 4 ∧
    (Move.pack squares.e1 squares.c1 MoveType.castle_queenside).target = 2 ∧
    (Move.pack squares.e1 squares.c1 MoveType.castle_queenside).type = 3 := by decide

/-- C1: in a consistent position with white to move, `moves::all_moves` fails no assertion,
and every move it appends has a source different from its target and a source square occupied
by a white piece. -/
theorem all_moves_source_occupied (board : Board) (occupancy : Occupancy)
    (en_passant_square : Bitboard) (can_castle_kingside can_castle_queenside : Bool)
    (h : Consistent board occupancy en_passant_square can_castle_kingside can_castle_queenside)
    (ms : List Move) :
    ∃ out, moves.all_moves ms board occupancy en_passant_square can_castle_kingside
        can_castle_queenside = some (ms ++ out) ∧
      ∀ m ∈ out, m.source ≠ m.target ∧
        ∃ piece, (board Color.white piece).testBit m.source = true := by
  refine ⟨_, moves.all_moves_appends board occupancy en_passant_square can_castle_kingside
    can_castle_queenside ms, ?_⟩
  intro m hm
  simp only [moves.all_moves_list, List.mem_append] at hm
  rcases hm with hm | hm | hm | hm | hm | hm | hm
  · have hp := moves.mem_pawn_moves hm
    refine ⟨?_, Piece.pawn, ?_⟩
    · cases hp with
      | push t ht h8 hp hfree hsrc htgt hty => rw [hsrc, htgt]; omega
      | double_push t ht hp hfree hfree' hsrc htgt hty => rw [hsrc, htgt]; omega
      | capture_w t ht h7 hp hfile hcap hsrc htgt hty => rw [hsrc, htgt]; omega
      | capture_e t ht h9 hp hfile hcap hsrc htgt hty => rw [hsrc, htgt]; omega
    · cases hp with
      | push t ht h8 hp hfree hsrc htgt hty => rw [hsrc]; exact hp
      | double_push t ht hp hfree hfree' hsrc htgt hty => rw [hsrc]; exact hp
      | capture_w t ht h7 hp hfile hcap hsrc htgt hty => rw [hsrc]; exact hp
      | capture_e t ht h9 hp hfile hcap hsrc htgt hty => rw [hsrc]; exact hp
  · have := h.piece_move (moves.mem_knight_moves hm)
    exact ⟨this.1, Piece.knight, this.2⟩
  · have := h.piece_move (moves.mem_slider_moves hm).choose_spec.2.2.2.2
    exact ⟨this.1, Piece.bishop, this.2⟩
  · have := h.piece_move (moves.mem_slider_moves hm).choose_spec.2.2.2.2
    exact ⟨this.1, Piece.rook, this.2⟩
  · have := h.piece_move (moves.mem_slider_moves hm).choose_spec.2.2.2.2
    exact ⟨this.1, Piece.queen, this.2⟩
  · have := h.piece_move (moves.mem_king_moves (h.word _ _) hm).2
    exact ⟨this.1, Piece.king, this.2⟩
  · rcases moves.mem_castle_moves hm with ⟨hok, rfl⟩ | ⟨hok, rfl⟩
    · obtain ⟨hk, _⟩ := h.kingside hok.1
      rw [Move.source_castle_kingside.1, Move.source_castle_kingside.2.1]
      exact ⟨by decide, Piece.king, by rw [hk]; decide⟩
    · obtain ⟨hk, _⟩ := h.queenside hok.1
      rw [Move.source_castle_queenside.1, Move.source_castle_queenside.2.1]
      exact ⟨by decide, Piece.king, by rw [hk]; decide⟩

theorem Move.is_capture_of_type {m : Move} {ty : Nat} (h : m.type = ty) :
    m.is_capture = (ty == 4 || ty == 9 || ty == 10 || ty == 11 || ty == 12) := by
  unfold Move.is_capture
  rw [h]
  split <;> simp_all

theorem squares.bitboard_injective {s t : Nat} (h : squares.bitboard s = squares.bitboard t) :
    s = t := by
  have := congrArg (fun x => Nat.testBit x t) h
  simpa using this

theorem squares.bitboard_ne_zero (s : Nat) : squares.bitboard s ≠ 0 := by
  intro h
  have := congrArg (fun x => Nat.testBit x s) h
  simp at this

namespace Consistent

variable {board : Board} {occupancy : Occupancy} {en_passant_square : Bitboard}
  {can_castle_kingside can_castle_queenside : Bool}

theorem not_black_of_free (_h : Consistent board occupancy en_passant_square can_castle_kingside
    can_castle_queenside) {t : Nat}
    (hf : (occupancy Color.white ||| occupancy Color.black).testBit t = false) :
    (occupancy Color.black).testBit t = false := by
  simp only [Nat.testBit_or, Bool.or_eq_false_iff] at hf
  exact hf.2

/-- The en-passant square, when a target, is a rank-6 square equal to that target. -/
theorem en_passant_target (h : Consistent board occupancy en_passant_square can_castle_kingside
    can_castle_queenside) {t : Nat} (ht : squares.bitboard t = en_passant_square) :
    40 ≤ t ∧ t < 48 := by
  rcases h.en_passant with h0 | ⟨e, h1, h2, h3, _⟩
  · exact absurd (ht.trans h0) (squares.bitboard_ne_zero t)
  · have := squares.bitboard_injective (ht.trans h3)
    omega

theorem piece_move_capture (h : Consistent board occupancy en_passant_square
    can_castle_kingside can_castle_queenside) {p : Piece} (hp : p ≠ Piece.pawn) {m : Move}
    (hm : PieceMove (board Color.white p) (occupancy Color.white) (occupancy Color.black) m) :
    m.is_capture = true ↔ ((occupancy Color.black).testBit m.target = true ∨
      ((board Color.white Piece.pawn).testBit m.source = true ∧
        squares.bitboard m.target = en_passant_square)) := by
  obtain ⟨s, t, _, _, hs, _, h1, h2, h3⟩ := hm
  have hnp : (board Color.white Piece.pawn).testBit m.source = false := by
    rw [h1]; exact h.not_both Color.white p Color.white Piece.pawn (Or.inr hp) hs
  rw [h2, hnp]
  rcases h3 with ⟨hty, hb⟩ | ⟨hty, hb⟩
  · rw [Move.is_capture_of_type hty, hb]; simp [MoveType.normal]
  · rw [Move.is_capture_of_type hty, hb]; simp [MoveType.capture]

end Consistent

theorem moves.promotions_not_capture {m : Move} (h : m.type ∈ moves.promotions) :
    m.is_capture = false := by
  simp only [moves.promotions, List.mem_cons, List.mem_singleton, List.not_mem_nil,
    or_false] at h
  rcases h with h | h | h | h <;> rw [Move.is_capture_of_type h] <;> decide

theorem moves.capturing_promotions_capture {m : Move} (h : m.type ∈ moves.capturing_promotions) :
    m.is_capture = true := by
  simp only [moves.capturing_promotions, List.mem_cons, List.mem_singleton, List.not_mem_nil,
    or_false] at h
  rcases h with h | h | h | h <;> rw [Move.is_capture_of_type h] <;> decide

/-- C2: in a consistent position with white to move in which a non-empty en-passant square
has a black pawn directly below it, a move appended by `moves::all_moves` has a capturing
type exactly when its target is occupied by a black piece, or the moved piece is a pawn and
the target is the en-passant square. -/
theorem all_moves_capture_iff (board : Board) (occupancy : Occupancy)
    (en_passant_square : Bitboard) (can_castle_kingside can_castle_queenside : Bool)
    (h : Consistent board occupancy en_passant_square can_castle_kingside can_castle_queenside)
    (hep : ∀ e, en_passant_square = squares.bitboard e →
      (board Color.black Piece.pawn).testBit (e - 8) = true)
    (ms : List Move) :
    ∃ out, moves.all_moves ms board occupancy en_passant_square can_castle_kingside
        can_castle_queenside = some (ms ++ out) ∧
      ∀ m ∈ out, (m.is_capture = true ↔
        ((occupancy Color.black).testBit m.target = true ∨
          ((board Color.white Piece.pawn).testBit m.source = true ∧
            squares.bitboard m.target = en_passant_square))) := by
  refine ⟨_, moves.all_moves_appends board occupancy en_passant_square can_castle_kingside
    can_castle_queenside ms, ?_⟩
  intro m hm
  simp only [moves.all_moves_list, List.mem_append] at hm
  rcases hm with hm | hm | hm | hm | hm | hm | hm
  · cases moves.mem_pawn_moves hm with
    | push t ht h8 hp hfree hsrc htgt hty =>
      have hnc : m.is_capture = false := by
        rcases hty with ⟨_, hty⟩ | ⟨_, hty⟩
        · rw [Move.is_capture_of_type hty]; decide
        · exact moves.promotions_not_capture hty
      rw [hnc, htgt, h.not_black_of_free hfree]
      constructor
      · intro hc; exact Bool.noConfusion hc
      · rintro (hc | ⟨_, hc⟩)
        · exact Bool.noConfusion hc
        · have hr := h.en_passant_target hc
          have hb := hep t hc.symm
          have hw := h.not_both Color.white Piece.pawn Color.black Piece.pawn
            (Or.inl (by decide)) hp
          rw [hb] at hw; exact Bool.noConfusion hw
    | double_push t ht hp hfree hfree' hsrc htgt hty =>
      rw [Move.is_capture_of_type hty, htgt, h.not_black_of_free hfree]
      constructor
      · intro hc; exact absurd hc (by decide)
      · rintro (hc | ⟨_, hc⟩)
        · exact Bool.noConfusion hc
        · have hr := h.en_passant_target hc
          omega
    | capture_w t ht h7 hp hfile hcap hsrc htgt hty =>
      have hc : m.is_capture = true := by
        rcases hty with ⟨_, hty⟩ | ⟨_, hty⟩
        · rw [Move.is_capture_of_type hty]; decide
        · exact moves.capturing_promotions_capture hty
      rw [hc, htgt, hsrc]
      refine ⟨fun _ => ?_, fun _ => rfl⟩
      simp only [Nat.testBit_or, Bool.or_eq_true] at hcap
      rcases hcap with hcap | hcap
      · exact Or.inl hcap
      · refine Or.inr ⟨hp, ?_⟩
        rcases h.en_passant with h0 | ⟨e, _, _, h3, _⟩
        · rw [h0, Nat.zero_testBit] at hcap; exact Bool.noConfusion hcap
        · rw [h3, squares.testBit_bitboard, decide_eq_true_eq] at hcap
          rw [h3, hcap]
    | capture_e t ht h9 hp hfile hcap hsrc htgt hty =>
      have hc : m.is_capture = true := by
        rcases hty with ⟨_, hty⟩ | ⟨_, hty⟩
        · rw [Move.is_capture_of_type hty]; decide
        · exact moves.capturing_promotions_capture hty
      rw [hc, htgt, hsrc]
      refine ⟨fun _ => ?_, fun _ => rfl⟩
      simp only [Nat.testBit_or, Bool.or_eq_true] at hcap
      rcases hcap with hcap | hcap
      · exact Or.inl hcap
      · refine Or.inr ⟨hp, ?_⟩
        rcases h.en_passant with h0 | ⟨e, _, _, h3, _⟩
        · rw [h0, Nat.zero_testBit] at hcap; exact Bool.noConfusion hcap
        · rw [h3, squares.testBit_bitboard, decide_eq_true_eq] at hcap
          rw [h3, hcap]
  · exact h.piece_move_capture (by decide) (moves.mem_knight_moves hm)
  · exact h.piece_move_capture (by decide) (moves.mem_slider_moves hm).choose_spec.2.2.2.2
  · exact h.piece_move_capture (by decide) (moves.mem_slider_moves hm).choose_spec.2.2.2.2
  · exact h.piece_move_capture (by decide) (moves.mem_slider_moves hm).choose_spec.2.2.2.2
  · exact h.piece_move_capture (by decide) (moves.mem_king_moves (h.word _ _) hm).2
  · have hking : ∀ ck : can_castle_kingside = true ∨ can_castle_queenside = true,
        (board Color.white Piece.pawn).testBit 4 = false := by
      intro ck
      have hk : board Color.white Piece.king = squares.bitboard squares.e1 := by
        rcases ck with ck | ck
        · exact (h.kingside ck).1
        · exact (h.queenside ck).1
      exact h.not_both Color.white Piece.king Color.white Piece.pawn (Or.inr (by decide))
        (by rw [hk]; decide)
    rcases moves.mem_castle_moves hm with ⟨hok, rfl⟩ | ⟨hok, rfl⟩
    · rw [Move.is_capture_of_type Move.source_castle_kingside.2.2,
        Move.source_castle_kingside.1, Move.source_castle_kingside.2.1, hking (Or.inl hok.1)]
      have hfree := congrArg (fun x => Nat.testBit x 6) hok.2.2
      simp only [Nat.testBit_and, Nat.testBit_or, Nat.zero_testBit] at hfree
      have h6 : ((squares.bitboard squares.f1).testBit 6 ||
          (squares.bitboard squares.g1).testBit 6) = true := by decide
      rw [h6, Bool.and_true, Bool.or_eq_false_iff] at hfree
      rw [hfree.2]
      simp
    · rw [Move.is_capture_of_type Move.source_castle_queenside.2.2,
        Move.source_castle_queenside.1, Move.source_castle_queenside.2.1, hking (Or.inr hok.1)]
      have hfree := congrArg (fun x => Nat.testBit x 2) hok.2.2
      simp only [Nat.testBit_and, Nat.testBit_or, Nat.zero_testBit] at hfree
      have h6 : ((squares.bitboard squares.d1).testBit 2 ||
          (squares.bitboard squares.c1).testBit 2 ||
          (squares.bitboard squares.b1).testBit 2) = true := by decide
      rw [h6, Bool.and_true, Bool.or_eq_false_iff] at hfree
      rw [hfree.2]
      simp

/-! ## The move lists of the test positions -/

theorem exists_of_any {α : Type} {o : Option α} {p : α → Bool} (h : o.any p = true) :
    ∃ a, o = some a ∧ p a = true := by
  cases o with
  | none => exact absurd h (by simp [Option.any])
  | some a => exact ⟨a, rfl, by simpa [Option.any] using h⟩

/-- C6: for the standard starting position, with all castling rights and no en-passant
square, `moves::all_moves` produces exactly 20 moves: a single and a double push for each
pawn of rank 2 and the four knight moves b1-a3, b1-c3, g1-f3, g1-h3 (no castling move, no
other move). -/
theorem initial_position_moves :
    ∃ out, moves.all_moves [] positions.initial (positions.occupancy_of positions.initial) 0
        true true = some out ∧
      out.length = 20 ∧ out.Perm positions.initial_expected := by
  have h : (moves.all_moves [] positions.initial (positions.occupancy_of positions.initial) 0
      true true).any (fun out => decide (out.length = 20 ∧
        out.Perm positions.initial_expected)) = true := by decide!
  obtain ⟨out, h1, h2⟩ := exists_of_any h
  exact ⟨out, h1, of_decide_eq_true h2⟩

/-- C5: for the position of test `various_moves` (white to move, only the queenside castling
right, en-passant square g6), `moves::all_moves` produces exactly the expected set of the
test, each move once: it contains the queenside castle, the en-passant capture f5xg6, the
four promotions d7-d8 and the four capturing promotions d7xc8, and no move leaves c4 or g4. -/
theorem various_position_moves :
    ∃ out, moves.all_moves [] positions.various (positions.occupancy_of positions.various)
        (squares.bitboard squares.g6) false true = some out ∧
      out.Perm positions.various_expected ∧
      Move.pack squares.e1 squares.c1 MoveType.castle_queenside ∈ out ∧
      Move.pack squares.f5 squares.g6 MoveType.capture ∈ out ∧
      (∀ type ∈ moves.promotions, Move.pack squares.d7 squares.d8 type ∈ out) ∧
      (∀ type ∈ moves.capturing_promotions, Move.pack squares.d7 squares.c8 type ∈ out) ∧
      (∀ m ∈ out, m.source ≠ squares.c4 ∧ m.source ≠ squares.g4) := by
  have h : (moves.all_moves [] positions.various (positions.occupancy_of positions.various)
      (squares.bitboard squares.g6) false true).any (fun out => decide (
        out.Perm positions.various_expected ∧
        Move.pack squares.e1 squares.c1 MoveType.castle_queenside ∈ out ∧
        Move.pack squares.f5 squares.g6 MoveType.capture ∈ out ∧
        (∀ type ∈ moves.promotions, Move.pack squares.d7 squares.d8 type ∈ out) ∧
        (∀ type ∈ moves.capturing_promotions, Move.pack squares.d7 squares.c8 type ∈ out) ∧
        (∀ m ∈ out, m.source ≠ squares.c4 ∧ m.source ≠ squares.g4))) = true := by decide!
  obtain ⟨out, h1, h2⟩ := exists_of_any h
  exact ⟨out, h1, of_decide_eq_true h2⟩

/-- The function `moves::all_moves` itself does not look at the opponent's king: after black's
d5c4 in the position of test `king_capture`, white attacks the black king on c4, and
`moves::all_moves` emits the pawn move a2-a3, whose target is not the king's square. The
restriction to king captures is made by its caller, `moves::moves(state)`. -/
theorem king_capture_not_forced :
    ∃ attacks out,
      moves.all_attacks (positions.occupancy_of positions.king_capture_after Color.white |||
          positions.occupancy_of positions.king_capture_after Color.black)
        positions.king_capture_after = some attacks ∧
      attacks &&& positions.king_capture_after Color.black Piece.king ≠ 0 ∧
      moves.all_moves [] positions.king_capture_after
        (positions.occupancy_of positions.king_capture_after) 0 false false = some out ∧
      Move.pack squares.a2 squares.a3 MoveType.normal ∈ out ∧
      squares.bitboard (Move.pack squares.a2 squares.a3 MoveType.normal).target &&&
        positions.king_capture_after Color.black Piece.king = 0 := by
  have h : (moves.all_attacks
      (positions.occupancy_of positions.king_capture_after Color.white |||
        positions.occupancy_of positions.king_capture_after Color.black)
      positions.king_capture_after).any (fun attacks =>
        (moves.all_moves [] positions.king_capture_after
          (positions.occupancy_of positions.king_capture_after) 0 false false).any (fun out =>
          decide (attacks &&& positions.king_capture_after Color.black Piece.king ≠ 0 ∧
            Move.pack squares.a2 squares.a3 MoveType.normal ∈ out ∧
            squares.bitboard (Move.pack squares.a2 squares.a3 MoveType.normal).target &&&
              positions.king_capture_after Color.black Piece.king = 0))) = true := by decide!
  obtain ⟨attacks, h1, h2⟩ := exists_of_any h
  obtain ⟨out, h3, h4⟩ := exists_of_any h2
  have h5 := of_decide_eq_true h4
  exact ⟨attacks, out, h1, h5.1, h3, h5.2⟩

theorem positions.initial_consistent :
    Consistent positions.initial (positions.occupancy_of positions.initial) 0 true true where
  word := by intro c p; cases c <;> cases p <;> decide
  disjoint := by
    intro c p c' p' hne
    cases c <;> cases p <;> cases c' <;> cases p' <;>
      first
      | decide
      | exact absurd hne (by decide)
  occupancy_eq := fun _ => rfl
  one_king := ⟨squares.e1, by decide, by decide⟩
  kingside := fun _ => ⟨by decide, by decide⟩
  queenside := fun _ => ⟨by decide, by decide⟩
  en_passant := Or.inl rfl

theorem positions.various_consistent :
    Consistent positions.various (positions.occupancy_of positions.various)
      (squares.bitboard squares.g6) false true where
  word := by intro c p; cases c <;> cases p <;> decide
  disjoint := by
    intro c p c' p' hne
    cases c <;> cases p <;> cases c' <;> cases p' <;>
      first
      | decide
      | exact absurd hne (by decide)
  occupancy_eq := fun _ => rfl
  one_king := ⟨squares.e1, by decide, by decide⟩
  kingside := fun hc => absurd hc (by decide)
  queenside := fun _ => ⟨by decide, by decide⟩
  en_passant := Or.inr ⟨squares.g6, by decide, by decide, rfl, by decide⟩

/-- Witness of C1: the standard starting position is consistent, and the invariant holds of
the moves generated for it. -/
theorem all_moves_source_occupied_witness :
    Consistent positions.initial (positions.occupancy_of positions.initial) 0 true true ∧
    ∃ out, moves.all_moves [] positions.initial (positions.occupancy_of positions.initial) 0
        true true = some ([] ++ out) ∧
      ∀ m ∈ out, m.source ≠ m.target ∧
        ∃ piece, (positions.initial Color.white piece).testBit m.source = true :=
  ⟨positions.initial_consistent,
    all_moves_source_occupied positions.initial (positions.occupancy_of positions.initial) 0
      true true positions.initial_consistent []⟩

/-- Witness of C2: the position of test `various_moves`, with en-passant square g6 above the
black pawn on g5. -/
theorem all_moves_capture_iff_witness :
    Consistent positions.various (positions.occupancy_of positions.various)
      (squares.bitboard squares.g6) false true ∧
    (∀ e, squares.bitboard squares.g6 = squares.bitboard e →
      (positions.various Color.black Piece.pawn).testBit (e - 8) = true) ∧
    ∃ out, moves.all_moves [] positions.various (positions.occupancy_of positions.various)
        (squares.bitboard squares.g6) false true = some ([] ++ out) ∧
      ∀ m ∈ out, (m.is_capture = true ↔
        ((positions.occupancy_of positions.various Color.black).testBit m.target = true ∨
          ((positions.various Color.white Piece.pawn).testBit m.source = true ∧
            squares.bitboard m.target = squares.bitboard squares.g6))) :=
  have hep : ∀ e, squares.bitboard squares.g6 = squares.bitboard e →
      (positions.various Color.black Piece.pawn).testBit (e - 8) = true := by
    intro e he
    rw [← squares.bitboard_injective he]
    decide
  ⟨positions.various_consistent, hep,
    all_moves_capture_iff positions.various (positions.occupancy_of positions.various)
      (squares.bitboard squares.g6) false true positions.various_consistent hep []⟩

/-! ## Sliding attacks: the exhaustive checks -/

theorem fast.files_ok_true : fast.files_ok 64 = true := by decide!

theorem fast.diagonals_ok_true : fast.diagonals_ok 64 = true := by decide!

theorem fast.antidiagonals_ok_true : fast.antidiagonals_ok 64 = true := by decide!

theorem fast.ranks_ok_true : fast.ranks_ok 64 = true := by decide!

theorem fast.slides_eq (occupancy piece mobility : Nat) :
    fast.slides occupancy piece mobility = moves.slides occupancy piece mobility := rfl

theorem fast.slides_rank_val_eq (occupancy piece index : Nat) :
    fast.slides_rank_val occupancy piece index =
      moves.slides_rank_val occupancy piece ⟨index⟩ := rfl

theorem fast.all_below_spec {p : Nat → Bool} :
    ∀ {n : Nat}, fast.all_below p n = true → ∀ i, i < n → p i = true
  | 0, _, i, hi => absurd hi (Nat.not_lt_zero i)
  | n + 1, h, i, hi => by
    unfold fast.all_below at h
    split at h
    · next hp =>
      rcases Nat.lt_succ_iff_lt_or_eq.mp hi with hlt | rfl
      · exact fast.all_below_spec h i hlt
      · exact hp
    · exact Bool.noConfusion h

theorem fast.all_of_spec {α : Type} {p : α → Bool} :
    ∀ {l : List α}, fast.all_of p l = true → ∀ x ∈ l, p x = true
  | [], _, x, hx => absurd hx (List.not_mem_nil x)
  | a :: l, h, x, hx => by
    unfold fast.all_of at h
    split at h
    · next hp =>
      rcases List.mem_cons.mp hx with rfl | hmem
      · exact hp
      · exact fast.all_of_spec h x hmem
    · exact Bool.noConfusion h

theorem fast.mask_cons (t : Nat) (l : List Nat) :
    fast.mask (t :: l) = squares.bitboard t ||| fast.mask l := rfl

theorem fast.mask_append (r1 r2 : List Nat) :
    fast.mask (r1 ++ r2) = fast.mask r1 ||| fast.mask r2 := by
  induction r1 with
  | nil => simp [fast.mask]
  | cons t l ih => rw [List.cons_append, fast.mask_cons, fast.mask_cons, ih, Nat.lor_assoc]

theorem land_bitboard (occupancy t : Nat) :
    occupancy &&& squares.bitboard t = if occupancy.testBit t then squares.bitboard t else 0 := by
  apply Nat.eq_of_testBit_eq
  intro i
  by_cases h : occupancy.testBit t = true
  · simp only [h, if_true, Nat.testBit_and, squares.testBit_bitboard]
    by_cases hi : t = i
    · subst hi; simp [h]
    · simp [hi]
  · simp only [h, Nat.testBit_and, squares.testBit_bitboard, Nat.zero_testBit]
    by_cases hi : t = i
    · subst hi; simp [h]
    · simp [hi]

theorem land_lor (a b c : Nat) : a &&& (b ||| c) = (a &&& b) ||| (a &&& c) := by
  apply Nat.eq_of_testBit_eq
  intro i
  simp only [Nat.testBit_and, Nat.testBit_or, Bool.and_or_distrib_left]

theorem fast.submasks_mem (occupancy : Nat) :
    ∀ r : List Nat, occupancy &&& fast.mask r ∈ fast.submasks r
  | [] => by simp [fast.mask, fast.submasks]
  | t :: r => by
    have ih := fast.submasks_mem occupancy r
    rw [fast.mask_cons, land_lor, land_bitboard]
    unfold fast.submasks
    by_cases h : occupancy.testBit t = true
    · simp only [h, if_true]
      exact List.mem_append_right _ (List.mem_map.mpr ⟨_, ih, rfl⟩)
    · simp only [h, Bool.false_eq_true, if_false, Nat.zero_or]
      exact List.mem_append_left _ ih

theorem fast.walks_mem (occupancy : Nat) :
    ∀ r : List Nat, (occupancy &&& fast.mask r, spec.walk occupancy r) ∈ fast.walks r
  | [] => by simp [fast.mask, fast.walks, spec.walk]
  | t :: r => by
    have ih := fast.walks_mem occupancy r
    rw [fast.mask_cons, land_lor, land_bitboard]
    unfold fast.walks spec.walk
    by_cases h : occupancy.testBit t = true
    · simp only [h, if_true]
      refine List.mem_append_right _ (List.mem_map.mpr ⟨_, fast.submasks_mem occupancy r, ?_⟩)
      simp only [Nat.or_zero]
      rfl
    · simp only [h, Bool.false_eq_true, if_false, Nat.zero_or]
      refine List.mem_append_left _ (List.mem_map.mpr ⟨_, ih, ?_⟩)
      rfl

theorem moves.slides_restrict (occupancy piece mobility : Nat) :
    moves.slides occupancy piece mobility =
      moves.slides (occupancy &&& (mobility &&& bitboard.complement piece)) piece mobility := by
  have key : occupancy &&& (mobility &&& bitboard.complement piece) &&&
      (mobility &&& bitboard.complement piece) =
      occupancy &&& (mobility &&& bitboard.complement piece) := by
    apply Nat.eq_of_testBit_eq
    intro i
    simp only [Nat.testBit_and]
    cases occupancy.testBit i <;> cases mobility.testBit i <;>
      cases (bitboard.complement piece).testBit i <;> rfl
  simp only [moves.slides, key]

theorem fast.line_ok_spec {s line : Nat} {r1 r2 : List Nat} (h : fast.line_ok s line r1 r2 = true)
    (occupancy : Nat) :
    moves.slides occupancy (squares.bitboard s) line =
      spec.walk occupancy r1 ||| spec.walk occupancy r2 := by
  unfold fast.line_ok at h
  split at h
  · exact Bool.noConfusion h
  · next hm =>
    have hmask : fast.mask (r1 ++ r2) = line &&& bitboard.complement (squares.bitboard s) :=
      Nat.eq_of_beq_eq_true hm
    have h1 := fast.all_of_spec h _ (fast.walks_mem occupancy r1)
    have h2 := fast.all_of_spec h1 _ (fast.walks_mem occupancy r2)
    have h3 := Nat.eq_of_beq_eq_true h2
    rw [moves.slides_restrict, ← hmask, fast.mask_append, land_lor]
    exact h3

theorem land_shiftLeft_ff (occupancy k : Nat) :
    bitboard.shr (occupancy &&& (0xff <<< k)) k &&& 0xff = bitboard.shr occupancy k &&& 0xff := by
  apply Nat.eq_of_testBit_eq
  intro i
  simp only [Nat.testBit_and, bitboard.testBit_shr, Nat.testBit_shiftLeft]
  have : k + i - k = i := by omega
  rw [this]
  cases occupancy.testBit (k + i) <;> cases Nat.testBit 255 i <;> simp

theorem moves.slides_rank_val_restrict (occupancy piece index : Nat) :
    moves.slides_rank_val occupancy piece ⟨index⟩ =
      moves.slides_rank_val (occupancy &&& (0xff <<< (index * 8))) piece ⟨index⟩ := by
  simp only [moves.slides_rank_val, moves.rank_onto_a1h8, directions.vertical, land_shiftLeft_ff]

theorem fast.rank_ok_spec {s : Nat} {r1 r2 : List Nat} (h : fast.rank_ok s r1 r2 = true)
    (occupancy : Nat) :
    moves.slides_rank_val occupancy (squares.bitboard s) ⟨s / 8⟩ =
      spec.walk occupancy r1 ||| spec.walk occupancy r2 := by
  unfold fast.rank_ok at h
  split at h
  · exact Bool.noConfusion h
  · next hm =>
    have hmask : fast.mask (r1 ++ r2) ||| squares.bitboard s = 0xff <<< (s / 8 * 8) :=
      Nat.eq_of_beq_eq_true hm
    have h1 := fast.all_of_spec h _ (fast.walks_mem occupancy r1)
    have h2 := fast.all_of_spec h1 _ (fast.walks_mem occupancy r2)
    have hb : occupancy &&& squares.bitboard s ∈ [0, Nat.shiftLeft 1 s] := by
      rw [land_bitboard]
      by_cases hs : occupancy.testBit s = true
      · simp only [hs, if_true]; exact List.mem_cons_of_mem _ (List.mem_singleton.mpr rfl)
      · simp only [hs]; exact List.mem_cons_self _ _
    have h3 := Nat.eq_of_beq_eq_true (fast.all_of_spec h2 _ hb)
    rw [moves.slides_rank_val_restrict, ← hmask, fast.mask_append, land_lor, land_lor]
    exact h3

/-- The function `slides` along the file of `s`: the walks up and down the file. -/
theorem moves.slides_file {s : Nat} (hs : s < 64) (occupancy : Nat) :
    moves.slides occupancy (squares.bitboard s) (files.by_square s) =
      spec.walk occupancy (spec.ray s 0 1) ||| spec.walk occupancy (spec.ray s 0 (-1)) :=
  fast.line_ok_spec (fast.all_below_spec fast.files_ok_true s hs) occupancy

/-- The function `slides` along the a8-h1 parallel through `s`: the walks down-right and up-left. -/
theorem moves.slides_diagonal {s : Nat} (hs : s < 64) (occupancy : Nat) :
    moves.slides occupancy (squares.bitboard s) (diagonals.by_square s) =
      spec.walk occupancy (spec.ray s 1 (-1)) ||| spec.walk occupancy (spec.ray s (-1) 1) :=
  fast.line_ok_spec (fast.all_below_spec fast.diagonals_ok_true s hs) occupancy

/-- The function `slides` along the a1-h8 parallel through `s`: the walks up-right and down-left. -/
theorem moves.slides_antidiagonal {s : Nat} (hs : s < 64) (occupancy : Nat) :
    moves.slides occupancy (squares.bitboard s) (antidiagonals.by_square s) =
      spec.walk occupancy (spec.ray s 1 1) ||| spec.walk occupancy (spec.ray s (-1) (-1)) :=
  fast.line_ok_spec (fast.all_below_spec fast.antidiagonals_ok_true s hs) occupancy

/-- The value of `slides_rank` along the rank of `s`: the walks to the right and to the left. -/
theorem moves.slides_rank_val_walk {s : Nat} (hs : s < 64) (occupancy : Nat) :
    moves.slides_rank_val occupancy (squares.bitboard s) (ranks.by_square s) =
      spec.walk occupancy (spec.ray s 1 0) ||| spec.walk occupancy (spec.ray s (-1) 0) :=
  fast.rank_ok_spec (fast.all_below_spec fast.ranks_ok_true s hs) occupancy

/-- The function `slides_rank` along the rank of `s`: the walks to the right and to the left. -/
theorem moves.slides_rank_walk {s : Nat} (hs : s < 64) (occupancy : Nat) :
    moves.slides_rank occupancy (squares.bitboard s) (ranks.by_square s) =
      some (spec.walk occupancy (spec.ray s 1 0) ||| spec.walk occupancy (spec.ray s (-1) 0)) := by
  rw [moves.slides_rank_eq, moves.slides_rank_val_walk hs]

/-- C3: for every square `s` and every occupancy, `moves::rook_attacks` fails no assertion and
returns exactly the squares reached by walking from `s` along its file and its rank in the
four directions, up to and including the first occupied square (`s` itself excluded); for a
rook on c3 with occupancy {f5, c3} this is `0x0404040404fb0404`. -/
theorem rook_attacks_walk :
    (∀ s occupancy, s < 64 →
      moves.rook_attacks occupancy s = some (spec.rook_attacks occupancy s)) ∧
    moves.rook_attacks (positions.of_squares [squares.f5, squares.c3]) squares.c3 =
      some 0x0404040404fb0404 := by
  refine ⟨fun s occupancy hs => ?_, by decide!⟩
  rw [moves.rook_attacks_eq, moves.rook_attacks_val, moves.slides_file hs,
    moves.slides_rank_val_walk hs]
  rfl

/-- Witness of C3: a rook on c3 with the occupancy of the test position. -/
theorem rook_attacks_walk_witness :
    squares.c3 < 64 ∧
    moves.rook_attacks (positions.of_squares [squares.f5, squares.c3]) squares.c3 =
      some (spec.rook_attacks (positions.of_squares [squares.f5, squares.c3]) squares.c3) :=
  ⟨by decide, rook_attacks_walk.1 squares.c3 _ (by decide)⟩

/-- C4: for every square `s` and every occupancy, `moves::bishop_attacks` is exactly the set of
squares reached by walking from `s` along both of its diagonals in the four directions, up to
and including the first occupied square (`s` itself excluded); for a bishop on f5 with
occupancy {f5, c3} this is `0x0488500050880402`. -/
theorem bishop_attacks_walk :
    (∀ s occupancy, s < 64 →
      moves.bishop_attacks occupancy s = spec.bishop_attacks occupancy s) ∧
    moves.bishop_attacks (positions.of_squares [squares.f5, squares.c3]) squares.f5 =
      0x0488500050880402 := by
  refine ⟨fun s occupancy hs => ?_, by decide!⟩
  rw [moves.bishop_attacks, moves.slides_diagonal hs, moves.slides_antidiagonal hs]
  rfl

/-- Witness of C4: a bishop on f5 with the occupancy of the test position. -/
theorem bishop_attacks_walk_witness :
    squares.f5 < 64 ∧
    moves.bishop_attacks (positions.of_squares [squares.f5, squares.c3]) squares.f5 =
      spec.bishop_attacks (positions.of_squares [squares.f5, squares.c3]) squares.f5 :=
  ⟨by decide, bishop_attacks_walk.1 squares.f5 _ (by decide)⟩

/-! ## Castling -/

theorem land_eq_zero_iff (x m : Nat) :
    x &&& m = 0 ↔ ∀ i, m.testBit i = true → x.testBit i = false := by
  constructor
  · intro h i hi
    have := congrArg (fun y => Nat.testBit y i) h
    simpa [Nat.testBit_and, hi] using this
  · intro h
    apply Nat.eq_of_testBit_eq
    intro i
    rw [Nat.testBit_and, Nat.zero_testBit]
    by_cases hi : m.testBit i = true
    · rw [h i hi]; rfl
    · simp [hi]

theorem moves.kingside_ok_iff (attacks occupancy : Bitboard) (c : Bool) :
    moves.kingside_ok attacks occupancy c ↔
      (c = true ∧ attacks.testBit squares.e1 = false ∧ attacks.testBit squares.f1 = false ∧
        attacks.testBit squares.g1 = false ∧ occupancy.testBit squares.f1 = false ∧
        occupancy.testBit squares.g1 = false) := by
  simp only [moves.kingside_ok, land_eq_zero_iff, Nat.testBit_or, squares.testBit_bitboard,
    Bool.or_eq_true, decide_eq_true_eq]
  constructor
  · rintro ⟨h1, h2, h3⟩
    exact ⟨h1, h2 _ (Or.inl (Or.inl rfl)), h2 _ (Or.inl (Or.inr rfl)), h2 _ (Or.inr rfl),
      h3 _ (Or.inl rfl), h3 _ (Or.inr rfl)⟩
  · rintro ⟨h1, h2, h3, h4, h5, h6⟩
    refine ⟨h1, ?_, ?_⟩
    · rintro i ((rfl | rfl) | rfl) <;> assumption
    · rintro i (rfl | rfl) <;> assumption

theorem moves.queenside_ok_iff (attacks occupancy : Bitboard) (c : Bool) :
    moves.queenside_ok attacks occupancy c ↔
      (c = true ∧ attacks.testBit squares.e1 = false ∧ attacks.testBit squares.d1 = false ∧
        attacks.testBit squares.c1 = false ∧ attacks.testBit squares.b1 = false ∧
        occupancy.testBit squares.d1 = false ∧ occupancy.testBit squares.c1 = false ∧
        occupancy.testBit squares.b1 = false) := by
  simp only [moves.queenside_ok, land_eq_zero_iff, Nat.testBit_or, squares.testBit_bitboard,
    Bool.or_eq_true, decide_eq_true_eq]
  constructor
  · rintro ⟨h1, h2, h3⟩
    exact ⟨h1, h2 _ (Or.inl (Or.inl (Or.inl rfl))), h2 _ (Or.inl (Or.inl (Or.inr rfl))),
      h2 _ (Or.inl (Or.inr rfl)), h2 _ (Or.inr rfl),
      h3 _ (Or.inl (Or.inl rfl)), h3 _ (Or.inl (Or.inr rfl)), h3 _ (Or.inr rfl)⟩
  · rintro ⟨h1, h2, h3, h4, h5, h6, h7, h8⟩
    refine ⟨h1, ?_, ?_⟩
    · rintro i (((rfl | rfl) | rfl) | rfl) <;> assumption
    · rintro i ((rfl | rfl) | rfl) <;> assumption

/-- C8: `moves::castle` fails no assertion and appends, in this order, the move built from
(e1, g1, castle_kingside) exactly when `can_castle_kingside` holds, none of e1, f1, g1 is in
the attacks of black and f1, g1 are unoccupied, and the move built from
(e1, c1, castle_queenside) exactly when `can_castle_queenside` holds, none of e1, d1, c1, b1
is in the attacks of black and d1, c1, b1 are unoccupied; it appends nothing else. -/
theorem castle_appends_iff (ms : List Move) (occupancy : Bitboard) (board : Board)
    (can_castle_kingside can_castle_queenside : Bool) :
    ∃ attacks kingside queenside,
      moves.black_attacks occupancy board = some attacks ∧
      Move.new squares.e1 squares.g1 MoveType.castle_kingside = some kingside ∧
      Move.new squares.e1 squares.c1 MoveType.castle_queenside = some queenside ∧
      moves.castle ms occupancy board can_castle_kingside can_castle_queenside =
        some (ms ++
          (if can_castle_kingside = true ∧ attacks.testBit squares.e1 = false ∧
              attacks.testBit squares.f1 = false ∧ attacks.testBit squares.g1 = false ∧
              occupancy.testBit squares.f1 = false ∧ occupancy.testBit squares.g1 = false
            then [kingside] else []) ++
          (if can_castle_queenside = true ∧ attacks.testBit squares.e1 = false ∧
              attacks.testBit squares.d1 = false ∧ attacks.testBit squares.c1 = false ∧
              attacks.testBit squares.b1 = false ∧ occupancy.testBit squares.d1 = false ∧
              occupancy.testBit squares.c1 = false ∧ occupancy.testBit squares.b1 = false
            then [queenside] else [])) := by
  refine ⟨moves.black_attacks_val occupancy board,
    Move.pack squares.e1 squares.g1 MoveType.castle_kingside,
    Move.pack squares.e1 squares.c1 MoveType.castle_queenside,
    moves.black_attacks_eq occupancy board,
    Move.new_eq_pack (by decide) (by decide) _,
    Move.new_eq_pack (by decide) (by decide) _, ?_⟩
  have key : moves.castle ms occupancy board can_castle_kingside can_castle_queenside =
      some (ms ++ moves.castle_moves occupancy board can_castle_kingside can_castle_queenside) :=
    moves.castle_appends occupancy board can_castle_kingside can_castle_queenside ms
  rw [key, moves.castle_moves, List.append_assoc]
  simp only [moves.kingside_ok_iff, moves.queenside_ok_iff]

/-! ## Promotions -/

theorem forall_lt_64 {P : Nat → Prop} [DecidablePred P]
    (h : fast.all_below (fun t => decide (P t)) 64 = true) : ∀ t, t < 64 → P t :=
  fun t ht => of_decide_eq_true (fast.all_below_spec h t ht)

theorem ranks.testBit_8 : ∀ t, t < 64 → ranks._8.testBit t = decide (56 ≤ t) :=
  forall_lt_64 (by decide!)

theorem files.testBit_a : ∀ t, t < 64 → files.a.testBit t = decide (t % 8 = 0) :=
  forall_lt_64 (by decide!)

theorem files.testBit_h : ∀ t, t < 64 → files.h.testBit t = decide (t % 8 = 7) :=
  forall_lt_64 (by decide!)

theorem filter_eq_of_nodup (t0 : Nat) :
    ∀ l : List Nat, l.Nodup → l.filter (fun t => decide (t = t0)) = if t0 ∈ l then [t0] else []
  | [], _ => rfl
  | a :: l, h => by
    have hn := List.nodup_cons.mp h
    have ih := filter_eq_of_nodup t0 l hn.2
    by_cases ha : a = t0
    · subst ha
      simp only [List.filter_cons, decide_True, if_true, List.mem_cons, true_or]
      rw [ih, if_neg hn.1]
    · have ha' : ¬ t0 = a := fun h => ha h.symm
      simp only [List.filter_cons, ha, decide_False, Bool.false_eq_true, if_false, List.mem_cons,
        ha', false_or]
      exact ih

/-- The moves between two given squares among those emitted for a set of targets. -/
theorem filter_targets_moves (targets : Bitboard) (src : Nat → Nat) (ty s0 t0 : Nat)
    (hsrc : ∀ t, t < 64 → targets.testBit t = true → src t < 64) (hty : ty < 16) :
    (targets_moves targets src ty).filter (fun m => decide (m.source = s0 ∧ m.target = t0)) =
      if t0 < 64 ∧ targets.testBit t0 = true ∧ src t0 = s0 then [Move.pack s0 t0 ty] else [] := by
  unfold targets_moves
  rw [List.filter_map]
  have hcongr : (bitboard.members targets).filter
      ((fun m => decide (m.source = s0 ∧ m.target = t0)) ∘ fun t => Move.pack (src t) t ty) =
      (bitboard.members targets).filter (fun t => decide (t = t0) && decide (src t0 = s0)) := by
    apply List.filter_congr
    intro t ht
    obtain ⟨h64, hb⟩ := bitboard.mem_members.mp ht
    obtain ⟨h1, h2, _⟩ := Move.pack_fields (hsrc t h64 hb) h64 hty
    simp only [Function.comp, h1, h2]
    by_cases htt : t = t0
    · subst htt; simp
    · simp [htt]
  rw [hcongr]
  by_cases hs : src t0 = s0
  · simp only [hs, decide_True, Bool.and_true, and_true]
    rw [filter_eq_of_nodup t0 _ (bitboard.members_nodup targets)]
    simp only [bitboard.mem_members]
    split_ifs
    · simp only [List.map_cons, List.map_nil, hs]
    · rfl
  · simp only [hs, decide_False, Bool.and_false, and_false, if_false, List.filter_false,
      List.map_nil]

namespace moves
open bitboard directions

theorem filter_kinds (kinds : List Nat) (targets : Bitboard) (src : Nat → Nat) (s0 t0 : Nat)
    (hk : ∀ ty ∈ kinds, ty < 16)
    (hsrc : ∀ t, t < 64 → targets.testBit t = true → src t < 64) :
    (kinds.flatMap (fun ty => targets_moves targets src ty)).filter
        (fun m => decide (m.source = s0 ∧ m.target = t0)) =
      if t0 < 64 ∧ targets.testBit t0 = true ∧ src t0 = s0 then
        kinds.map (fun ty => Move.pack s0 t0 ty) else [] := by
  induction kinds with
  | nil => simp
  | cons ty kinds ih =>
    have ih' := ih (fun ty h => hk ty (List.mem_cons_of_mem _ h))
    rw [List.flatMap_cons, List.filter_append, ih',
      filter_targets_moves targets src ty s0 t0 hsrc (hk ty (List.mem_cons_self _ _))]
    split_ifs <;> simp

theorem map_type_pack {s t : Nat} (hs : s < 64) (ht : t < 64) :
    ∀ kinds : List Nat, (∀ ty ∈ kinds, ty < 16) →
      (kinds.map (fun ty => Move.pack s t ty)).map Move.type = kinds
  | [], _ => rfl
  | ty :: kinds, hk => by
    rw [List.map_cons, List.map_cons,
      map_type_pack hs ht kinds (fun ty h => hk ty (List.mem_cons_of_mem _ h)),
      (Move.pack_fields hs ht (hk ty (List.mem_cons_self _ _))).2.2]

/-- The moves from `s0` to `t0` among those emitted by `moves::pawn`, block by block. -/
theorem filter_pawn_moves (pawn us them en_passant_square s0 t0 : Nat) :
    (pawn_moves pawn us them en_passant_square).filter
        (fun m => decide (m.source = s0 ∧ m.target = t0)) =
      (if t0 < 64 ∧ (single_push_targets pawn us them &&& complement ranks._8).testBit t0 = true ∧
          t0 - 8 = s0 then [Move.pack s0 t0 MoveType.normal] else []) ++
      ((if t0 < 64 ∧ (single_push_targets pawn us them &&& ranks._8).testBit t0 = true ∧
          t0 - 8 = s0 then promotions.map (fun ty => Move.pack s0 t0 ty) else []) ++
      ((if t0 < 64 ∧ (double_push_targets pawn us them).testBit t0 = true ∧
          t0 - 16 = s0 then [Move.pack s0 t0 MoveType.double_push] else []) ++
      ((if t0 < 64 ∧ (capture_targets_w pawn them en_passant_square &&&
            complement ranks._8).testBit t0 = true ∧
          t0 - 7 = s0 then [Move.pack s0 t0 MoveType.capture] else []) ++
      ((if t0 < 64 ∧ (capture_targets_w pawn them en_passant_square &&&
            ranks._8).testBit t0 = true ∧
          t0 - 7 = s0 then capturing_promotions.map (fun ty => Move.pack s0 t0 ty) else []) ++
      ((if t0 < 64 ∧ (capture_targets_e pawn them en_passant_square &&&
            complement ranks._8).testBit t0 = true ∧
          t0 - 9 = s0 then [Move.pack s0 t0 MoveType.capture] else []) ++
      (if t0 < 64 ∧ (capture_targets_e pawn them en_passant_square &&&
            ranks._8).testBit t0 = true ∧
          t0 - 9 = s0 then capturing_promotions.map (fun ty => Move.pack s0 t0 ty)
        else [])))))) := by
  have hs : ∀ (k : Nat) (T : Bitboard) (t : Nat), t < 64 → T.testBit t = true → t - k < 64 :=
    fun k T t ht _ => by omega
  simp only [pawn_moves, List.filter_append, List.append_assoc]
  rw [filter_targets_moves _ _ _ s0 t0 (hs 8 _) (by decide),
    filter_kinds promotions _ _ s0 t0 promotions_lt (hs 8 _),
    filter_targets_moves _ _ _ s0 t0 (hs 16 _) (by decide),
    filter_targets_moves _ _ _ s0 t0 (hs 7 _) (by decide),
    filter_kinds capturing_promotions _ _ s0 t0 capturing_promotions_lt (hs 7 _),
    filter_targets_moves _ _ _ s0 t0 (hs 9 _) (by decide),
    filter_kinds capturing_promotions _ _ s0 t0 capturing_promotions_lt (hs 9 _)]

end moves

/-- C9: `moves::pawn` fails no assertion, and among the moves it appends: a pawn on `p` whose
single push lands on an empty square of rank 8 gets exactly the four moves to that square of
types promotion_knight, promotion_bishop, promotion_rook, promotion_queen (in this order); a
pawn on `p` capturing on a square `t` of rank 8 (one file to the west or to the east, `t`
holding an opposing piece or being the en-passant square) gets exactly the four moves to `t`
of the capturing_promotion types; and no appended move with target on rank 8 has type
normal, capture or double_push. -/
theorem pawn_promotions (ms : List Move) (pawn us them en_passant_square : Bitboard) :
    ∃ out, moves.pawn ms pawn us them en_passant_square = some (ms ++ out) ∧
      (∀ p, pawn.testBit p = true → 56 ≤ p + 8 → p + 8 < 64 →
        (us ||| them).testBit (p + 8) = false →
        (out.filter (fun m => decide (m.source = p ∧ m.target = p + 8))).map Move.type =
          [MoveType.promotion_knight, MoveType.promotion_bishop, MoveType.promotion_rook,
            MoveType.promotion_queen]) ∧
      (∀ p t, pawn.testBit p = true → 56 ≤ t → t < 64 →
        ((t = p + 7 ∧ p % 8 ≠ 0) ∨ (t = p + 9 ∧ p % 8 ≠ 7)) →
        (them ||| en_passant_square).testBit t = true →
        (out.filter (fun m => decide (m.source = p ∧ m.target = t))).map Move.type =
          [MoveType.capturing_promotion_knight, MoveType.capturing_promotion_bishop,
            MoveType.capturing_promotion_rook, MoveType.capturing_promotion_queen]) ∧
      (∀ m ∈ out, 56 ≤ m.target →
        m.type ≠ MoveType.normal ∧ m.type ≠ MoveType.capture ∧
          m.type ≠ MoveType.double_push) := by
  refine ⟨_, moves.pawn_appends pawn us them en_passant_square ms, ?_, ?_, ?_⟩
  · intro p hp h56 h64 hfree
    have hr8 : ranks._8.testBit (p + 8) = true := by
      rw [ranks.testBit_8 _ h64]; exact decide_eq_true h56
    have hsp : (moves.single_push_targets pawn us them).testBit (p + 8) = true := by
      simp only [moves.single_push_targets, directions.vertical, Nat.testBit_and,
        bitboard.testBit_shl, bitboard.testBit_complement, hfree, Nat.add_sub_cancel, hp]
      simp [h64]
    rw [moves.filter_pawn_moves,
      if_neg (by
        intro h
        have := h.2.1
        simp only [Nat.testBit_and, bitboard.testBit_complement, hr8] at this
        simp at this),
      if_pos ⟨h64, by simp only [Nat.testBit_and, hsp, hr8]; rfl, by omega⟩,
      if_neg (by intro h; have := h.2.2; omega),
      if_neg (by intro h; have := h.2.2; omega),
      if_neg (by intro h; have := h.2.2; omega),
      if_neg (by intro h; have := h.2.2; omega),
      if_neg (by intro h; have := h.2.2; omega)]
    simp only [List.nil_append, List.append_nil]
    exact moves.map_type_pack (by omega) h64 _ moves.promotions_lt
  · intro p t hp h56 h64 hpt hcap
    have hr8 : ranks._8.testBit t = true := by
      rw [ranks.testBit_8 _ h64]; exact decide_eq_true h56
    rcases hpt with ⟨rfl, hfile⟩ | ⟨rfl, hfile⟩
    · have ha : files.a.testBit p = false := by
        rw [files.testBit_a _ (by omega)]; exact decide_eq_false hfile
      have hcw : (moves.capture_targets_w pawn them en_passant_square).testBit (p + 7) = true := by
        have e : 1 + (p + 7) - 8 = p := by omega
        have h1 : 1 + (p + 7) < 64 := by omega
        have h2 : 8 ≤ 1 + (p + 7) := by omega
        have h3 : p < 64 := by omega
        simp only [moves.capture_targets_w, moves.pawn_attacks_w, directions.vertical,
          directions.horizontal, Nat.testBit_and, bitboard.testBit_shl, bitboard.testBit_shr,
          bitboard.testBit_complement, e, hp, ha, hcap, h1, h2, h3]
        rfl
      rw [moves.filter_pawn_moves,
        if_neg (by intro h; have := h.2.2; omega),
        if_neg (by intro h; have := h.2.2; omega),
        if_neg (by intro h; have := h.2.2; omega),
        if_neg (by
          intro h
          have := h.2.1
          simp only [Nat.testBit_and, bitboard.testBit_complement, hr8] at this
          simp at this),
        if_pos ⟨h64, by simp only [Nat.testBit_and, hcw, hr8]; rfl, by omega⟩,
        if_neg (by intro h; have := h.2.2; omega),
        if_neg (by intro h; have := h.2.2; omega)]
      simp only [List.nil_append, List.append_nil]
      exact moves.map_type_pack (by omega) h64 _ moves.capturing_promotions_lt
    · have ha : files.h.testBit p = false := by
        rw [files.testBit_h _ (by omega)]; exact decide_eq_false hfile
      have hce : (moves.capture_targets_e pawn them en_passant_square).testBit (p + 9) = true := by
        have e : p + 9 - 1 - 8 = p := by omega
        have h1 : p + 9 - 1 < 64 := by omega
        have h2 : 8 ≤ p + 9 - 1 := by omega
        have h3 : p < 64 := by omega
        have h4 : 1 ≤ p + 9 := by omega
        simp only [moves.capture_targets_e, moves.pawn_attacks_e, directions.vertical,
          directions.horizontal, Nat.testBit_and, bitboard.testBit_shl,
          bitboard.testBit_complement, e, hp, ha, hcap, h1, h2, h3, h4, h64]
        rfl
      rw [moves.filter_pawn_moves,
        if_neg (by intro h; have := h.2.2; omega),
        if_neg (by intro h; have := h.2.2; omega),
        if_neg (by intro h; have := h.2.2; omega),
        if_neg (by intro h; have := h.2.2; omega),
        if_neg (by intro h; have := h.2.2; omega),
        if_neg (by
          intro h
          have := h.2.1
          simp only [Nat.testBit_and, bitboard.testBit_complement, hr8] at this
          simp at this),
        if_pos ⟨h64, by simp only [Nat.testBit_and, hce, hr8]; rfl, by omega⟩]
      simp only [List.nil_append, List.append_nil]
      exact moves.map_type_pack (by omega) h64 _ moves.capturing_promotions_lt
  · intro m hm h56
    have hkinds : ∀ {kinds : List Nat}, m.type ∈ kinds →
        (∀ ty ∈ kinds, ty ≠ 0 ∧ ty ≠ 4 ∧ ty ≠ 1) →
        m.type ≠ MoveType.normal ∧ m.type ≠ MoveType.capture ∧
          m.type ≠ MoveType.double_push := fun h hk => hk _ h
    have hr8 : ∀ t, t < 64 → m.target = t → ranks._8.testBit t = true := by
      intro t ht htgt
      rw [ranks.testBit_8 _ ht]; exact decide_eq_true (htgt ▸ h56)
    cases moves.mem_pawn_moves hm with
    | push t ht h8 hp hfree hsrc htgt hty =>
      rcases hty with ⟨hn, _⟩ | ⟨_, hty⟩
      · rw [hr8 t ht htgt] at hn; exact Bool.noConfusion hn
      · exact hkinds hty (by decide)
    | double_push t ht hp hfree hfree' hsrc htgt hty =>
      rw [htgt] at h56; omega
    | capture_w t ht h7 hp hfile hcap hsrc htgt hty =>
      rcases hty with ⟨hn, _⟩ | ⟨_, hty⟩
      · rw [hr8 t ht htgt] at hn; exact Bool.noConfusion hn
      · exact hkinds hty (by decide)
    | capture_e t ht h9 hp hfile hcap hsrc htgt hty =>
      rcases hty with ⟨hn, _⟩ | ⟨_, hty⟩
      · rw [hr8 t ht htgt] at hn; exact Bool.noConfusion hn
      · exact hkinds hty (by decide)

/-- Witness of C9: the pawn on d7 of the position of test `various_moves`, which promotes on
the empty d8 and captures the bishop on c8. -/
theorem pawn_promotions_witness :
    (positions.various Color.white Piece.pawn).testBit squares.d7 = true ∧
    (positions.occupancy_of positions.various Color.white |||
      positions.occupancy_of positions.various Color.black).testBit squares.d8 = false ∧
    (positions.occupancy_of positions.various Color.black |||
      squares.bitboard squares.g6).testBit squares.c8 = true ∧
    ∃ out, moves.pawn [] (positions.various Color.white Piece.pawn)
        (positions.occupancy_of positions.various Color.white)
        (positions.occupancy_of positions.various Color.black)
        (squares.bitboard squares.g6) = some ([] ++ out) ∧
      (out.filter (fun m => decide (m.source = squares.d7 ∧ m.target = squares.d7 + 8))).map
          Move.type =
        [MoveType.promotion_knight, MoveType.promotion_bishop, MoveType.promotion_rook,
          MoveType.promotion_queen] ∧
      (out.filter (fun m => decide (m.source = squares.d7 ∧ m.target = squares.c8))).map
          Move.type =
        [MoveType.capturing_promotion_knight, MoveType.capturing_promotion_bishop,
          MoveType.capturing_promotion_rook, MoveType.capturing_promotion_queen] := by
  obtain ⟨out, h1, h2, h3, _⟩ := pawn_promotions [] (positions.various Color.white Piece.pawn)
    (positions.occupancy_of positions.various Color.white)
    (positions.occupancy_of positions.various Color.black) (squares.bitboard squares.g6)
  exact ⟨by decide, by decide, by decide, out, h1,
    h2 squares.d7 (by decide) (by decide) (by decide) (by decide),
    h3 squares.d7 squares.c8 (by decide) (by decide) (by decide) (Or.inl (by decide))
      (by decide)⟩

/-! ## King moves -/

theorem fast.king_ok_true : fast.king_ok 64 = true := by decide!

theorem fast.testBit_mask (i : Nat) : ∀ l : List Nat, (fast.mask l).testBit i = decide (i ∈ l)
  | [] => by simp [fast.mask]
  | t :: l => by
    rw [fast.mask_cons, Nat.testBit_or, squares.testBit_bitboard, fast.testBit_mask i l]
    by_cases h : t = i
    · subst h; simp
    · have h' : ¬ i = t := fun e => h e.symm
      simp [h, h']

/-- The attacks of a single king are the squares adjacent to it. -/
theorem moves.king_attacks_adjacent {s t : Nat} (hs : s < 64) (ht : t < 64) :
    (moves.king_attacks (squares.bitboard s)).testBit t = true ↔ spec.adjacent s t := by
  have h := Nat.eq_of_beq_eq_true (fast.all_below_spec fast.king_ok_true s hs)
  have h' : moves.king_attacks (squares.bitboard s) =
      fast.mask ((List.range 64).filter (fun t => decide (spec.adjacent s t))) := h
  rw [h', fast.testBit_mask]
  simp [ht]

theorem squares.index_from_bitboard_bitboard :
    ∀ s, s < 64 → squares.index_from_bitboard (squares.bitboard s) = s :=
  forall_lt_64 (by decide!)

/-- C10: `moves::king` filters nothing by attacks: for a king on `k` it fails no assertion and
appends a move from `k` to every square adjacent to `k` that holds no piece of `us` (a capture
when the square holds a piece of `them`, a normal move otherwise), whatever the opponent
attacks. -/
theorem king_moves_unfiltered (ms : List Move) (k us them en_passant_square : Nat) (hk : k < 64) :
    ∃ out, moves.king ms (squares.bitboard k) us them en_passant_square = some (ms ++ out) ∧
      ∀ t, t < 64 → spec.adjacent k t → us.testBit t = false →
        ∃ m ∈ out, m.source = k ∧ m.target = t ∧
          m.type = if them.testBit t = true then MoveType.capture else MoveType.normal := by
  refine ⟨_, moves.king_appends (squares.bitboard k) us them en_passant_square ms, ?_⟩
  intro t ht hadj hfree
  have hatt := (moves.king_attacks_adjacent hk ht).mpr hadj
  have hidx := squares.index_from_bitboard_bitboard k hk
  by_cases hthem : them.testBit t = true
  · refine ⟨Move.pack k t MoveType.capture, ?_, ?_⟩
    · unfold moves.king_moves attacks_moves
      apply List.mem_append_right
      have hmem := @mem_targets_moves_of (moves.king_attacks (squares.bitboard k) &&&
          bitboard.complement us &&& them)
        (fun _ => squares.index_from_bitboard (squares.bitboard k))
        MoveType.capture t ht (by
          simp only [Nat.testBit_and, bitboard.testBit_complement, hatt, hfree, hthem]
          simp [ht])
      rw [hidx] at hmem
      rw [hidx]
      exact hmem
    · obtain ⟨h1, h2, h3⟩ := Move.pack_fields hk ht (show MoveType.capture < 16 by decide)
      exact ⟨h1, h2, by rw [if_pos hthem]; exact h3⟩
  · refine ⟨Move.pack k t MoveType.normal, ?_, ?_⟩
    · unfold moves.king_moves attacks_moves
      apply List.mem_append_left
      have hmem := @mem_targets_moves_of (moves.king_attacks (squares.bitboard k) &&&
          bitboard.complement us &&& bitboard.complement them)
        (fun _ => squares.index_from_bitboard (squares.bitboard k))
        MoveType.normal t ht (by
          simp only [Nat.testBit_and, bitboard.testBit_complement, hatt, hfree, hthem]
          simp [ht])
      rw [hidx] at hmem
      rw [hidx]
      exact hmem
    · obtain ⟨h1, h2, h3⟩ := Move.pack_fields hk ht (show MoveType.normal < 16 by decide)
      exact ⟨h1, h2, by rw [if_neg hthem]; exact h3⟩

/-- Witness of C10: the position of test `king_capture` seen from Black (board flipped, colours
swapped), where the king stands on d4 and the opposing bishop on f2: the step d4-c5 (d5-c4 on
the real board) is generated, although on c5 the king stands in the bishop's attacks. -/
theorem king_moves_unfiltered_witness :
    squares.d4 < 64 ∧
    positions.flip positions.king_capture Color.white Piece.king = squares.bitboard squares.d4 ∧
    positions.flip positions.king_capture Color.black Piece.bishop =
      squares.bitboard squares.f2 ∧
    spec.adjacent squares.d4 squares.c5 ∧
    (positions.occupancy_of (positions.flip positions.king_capture) Color.white).testBit
      squares.c5 = false ∧
    (moves.bishop_attacks
      ((positions.occupancy_of (positions.flip positions.king_capture) Color.white |||
          positions.occupancy_of (positions.flip positions.king_capture) Color.black) ^^^
        squares.bitboard squares.d4 ||| squares.bitboard squares.c5) squares.f2).testBit
      squares.c5 = true ∧
    ∃ out, moves.king [] (squares.bitboard squares.d4)
        (positions.occupancy_of (positions.flip positions.king_capture) Color.white)
        (positions.occupancy_of (positions.flip positions.king_capture) Color.black) 0 =
          some ([] ++ out) ∧
      ∃ m ∈ out, m.source = squares.d4 ∧ m.target = squares.c5 ∧ m.type = MoveType.normal := by
  obtain ⟨out, h1, h2⟩ := king_moves_unfiltered [] squares.d4
    (positions.occupancy_of (positions.flip positions.king_capture) Color.white)
    (positions.occupancy_of (positions.flip positions.king_capture) Color.black) 0 (by decide)
  obtain ⟨m, hm, h3, h4, h5⟩ := h2 squares.c5 (by decide) (by decide) (by decide)
  refine ⟨by decide, by decide, by decide, by decide, by decide, by decide, out, h1, m, hm,
    h3, h4, ?_⟩
  rw [h5]
  decide

/-! ## King attacks of a single king; pawn attacks as single shifts -/

/-- C13: for every square `s`, `moves::king_attacks` of the single-bit bitboard of `s` is exactly
the set of on-board squares other than `s` whose file and rank each differ from those of `s`
by at most one (so nothing wraps between file a and file h); for a king on e1 it is
`0x0000000000003828`. -/
theorem king_attacks_single :
    (∀ s t, s < 64 →
      ((moves.king_attacks (squares.bitboard s)).testBit t = true ↔
        t < 64 ∧ spec.adjacent s t)) ∧
    moves.king_attacks (squares.bitboard squares.e1) = 0x0000000000003828 := by
  refine ⟨fun s t hs => ?_, by decide⟩
  have h : moves.king_attacks (squares.bitboard s) =
      fast.mask ((List.range 64).filter (fun t => decide (spec.adjacent s t))) :=
    Nat.eq_of_beq_eq_true (fast.all_below_spec fast.king_ok_true s hs)
  rw [h, fast.testBit_mask]
  simp

/-- Witness of C13: the king on e1 attacks d2 and does not attack h1. -/
theorem king_attacks_single_witness :
    squares.e1 < 64 ∧
    ((moves.king_attacks (squares.bitboard squares.e1)).testBit squares.d2 = true ↔
      squares.d2 < 64 ∧ spec.adjacent squares.e1 squares.d2) ∧
    ((moves.king_attacks (squares.bitboard squares.e1)).testBit squares.h1 = true ↔
      squares.h1 < 64 ∧ spec.adjacent squares.e1 squares.h1) :=
  ⟨by decide, king_attacks_single.1 squares.e1 squares.d2 (by decide),
    king_attacks_single.1 squares.e1 squares.h1 (by decide)⟩

theorem files.testBit_a_56 : files.a.testBit 56 = true := by decide

/-- C14: for every pawn bitboard `p` (in particular every 64-bit one), `moves::pawn_attacks_w`
is `((p AND NOT file_a) << 7) mod 2^64` and `moves::pawn_attacks_e` is
`((p AND NOT file_h) << 9) mod 2^64`, although the code shifts left by 8 and then right or
left by 1. -/
theorem pawn_attacks_single_shift (p : Bitboard) :
    moves.pawn_attacks_w p = ((p &&& bitboard.complement files.a) <<< 7) % 2 ^ 64 ∧
    moves.pawn_attacks_e p = ((p &&& bitboard.complement files.h) <<< 9) % 2 ^ 64 := by
  constructor
  · apply Nat.eq_of_testBit_eq
    intro i
    simp only [moves.pawn_attacks_w, directions.vertical, directions.horizontal,
      bitboard.testBit_shr, bitboard.testBit_shl, Nat.testBit_and, bitboard.testBit_complement,
      Nat.testBit_mod_two_pow, Nat.testBit_shiftLeft, ge_iff_le]
    by_cases h63 : i = 63
    · subst h63
      simp [files.testBit_a_56]
    · by_cases h7 : 7 ≤ i
      · have e : 1 + i - 8 = i - 7 := by omega
        rw [e]
        by_cases h64 : i < 64
        · have h1 : 1 + i < 64 := by omega
          have h2 : 8 ≤ 1 + i := by omega
          simp [h7, h64, h1, h2]
        · have h1 : ¬ 1 + i < 64 := by omega
          simp [h64, h1]
      · have h2 : ¬ 8 ≤ 1 + i := by omega
        simp [h7, h2]
  · apply Nat.eq_of_testBit_eq
    intro i
    simp only [moves.pawn_attacks_e, directions.vertical, directions.horizontal,
      bitboard.testBit_shl, Nat.testBit_and, bitboard.testBit_complement,
      Nat.testBit_mod_two_pow, Nat.testBit_shiftLeft, ge_iff_le]
    by_cases h9 : 9 ≤ i
    · have e : i - 1 - 8 = i - 9 := by omega
      rw [e]
      by_cases h64 : i < 64
      · have h1 : i - 1 < 64 := by omega
        have h2 : 8 ≤ i - 1 := by omega
        have h3 : 1 ≤ i := by omega
        simp [h9, h64, h1, h2, h3]
      · simp [h64]
    · have h2 : ¬ (1 ≤ i ∧ 8 ≤ i - 1) := by omega
      by_cases h1 : 1 ≤ i
      · have h3 : ¬ 8 ≤ i - 1 := by omega
        simp [h9, h1, h3]
      · simp [h9, h1]

/-! ## The move word: round trip, capture flag, promotion piece -/

theorem Move.testBit_pack {s t ty : Nat} (hs : s < 64) (hty : ty < 16) (i : Nat) :
    (Move.pack s t ty).move.testBit i =
      if i < 4 then ty.testBit i else if i < 10 then s.testBit (i - 4)
      else if i < 16 then t.testBit (i - 10) else false := by
  have hlt : ∀ {x n j : Nat}, x < 2 ^ n → n ≤ j → x.testBit j = false := by
    intro x n j hx hj
    apply Nat.testBit_lt_two_pow
    exact Nat.lt_of_lt_of_le hx (Nat.pow_le_pow_right (by decide) hj)
  have e1 : Move.offset_type = 0 := rfl
  have e2 : Move.offset_from = 4 := rfl
  have e3 : Move.offset_to = 10 := rfl
  simp only [Move.pack, e1, e2, e3, Nat.testBit_mod_two_pow, Nat.testBit_or,
    Nat.testBit_shiftLeft, Nat.sub_zero, ge_iff_le, Nat.zero_le, decide_True, Bool.true_and]
  by_cases h4 : i < 4
  · have h16 : i < 16 := by omega
    have h4' : ¬ 4 ≤ i := by omega
    have h10' : ¬ 10 ≤ i := by omega
    simp [h4, h16, h4', h10']
  · have hty' : ty.testBit i = false := hlt (show ty < 2 ^ 4 from hty) (by omega)
    by_cases h10 : i < 10
    · have h16 : i < 16 := by omega
      have h10' : ¬ 10 ≤ i := by omega
      have h4' : 4 ≤ i := by omega
      simp [h4, h10, h16, h10', h4', hty']
    · have hs' : s.testBit (i - 4) = false := hlt (show s < 2 ^ 6 from hs) (by omega)
      have h4' : 4 ≤ i := by omega
      have h10' : 10 ≤ i := by omega
      by_cases h16 : i < 16
      · simp [h4, h10, h16, h10', h4', hty', hs']
      · simp [h4, h10, h16]

/-- C15: the move encoding round-trips.  For every source and target in 0..63 and each of the
13 move kinds, the constructor succeeds and the accessors of the constructed move return
that source, target and kind; the word is a 16-bit word in which the kind occupies bits 0..3,
the source bits 4..9 and the target bits 10..15 (three disjoint ranges). -/
theorem move_round_trip (source target type : Nat) (hs : source < 64)
    (ht : target < 64) (hty : type ∈ MoveType.values) :
    ∃ m, Move.new source target type = some m ∧
      m.source = source ∧ m.target = target ∧ m.type = type ∧
      m.move < 2 ^ 16 ∧
      (Move.offset_type + Move.nbits_type ≤ Move.offset_from ∧
        Move.offset_from + Move.nbits_from ≤ Move.offset_to ∧
        Move.offset_to + Move.nbits_to ≤ 16) ∧
      ∀ i, m.move.testBit i =
        if i < 4 then type.testBit i else if i < 10 then source.testBit (i - 4)
        else if i < 16 then target.testBit (i - 10) else false := by
  have hty16 : type < 16 := by
    have : ∀ ty ∈ MoveType.values, ty < 16 := by decide
    exact this type hty
  obtain ⟨h1, h2, h3⟩ := Move.pack_fields hs ht hty16
  refine ⟨Move.pack source target type, Move.new_eq_pack hs ht type, h1, h2, h3, ?_,
    by decide, fun i => Move.testBit_pack hs hty16 i⟩
  rw [Move.pack_word hs ht hty16]
  omega

/-- Witness of C15: the en-passant capture f5xg6 of test `various_moves`. -/
theorem move_round_trip_witness :
    squares.f5 < 64 ∧ squares.g6 < 64 ∧ MoveType.capture ∈ MoveType.values ∧
    ∃ m, Move.new squares.f5 squares.g6 MoveType.capture = some m ∧
      m.source = squares.f5 ∧ m.target = squares.g6 ∧ m.type = MoveType.capture := by
  obtain ⟨m, h1, h2, h3, h4, _⟩ := move_round_trip squares.f5 squares.g6 MoveType.capture
    (by decide) (by decide) (by decide)
  exact ⟨by decide, by decide, by decide, m, h1, h2, h3, h4⟩

/-- C16: for every move word, `is_capture()` is true exactly when the kind is capture or one of
the four capturing promotions. -/
theorem is_capture_iff (m : Move) :
    m.is_capture = true ↔
      (m.type = MoveType.capture ∨ m.type = MoveType.capturing_promotion_knight ∨
        m.type = MoveType.capturing_promotion_bishop ∨
        m.type = MoveType.capturing_promotion_rook ∨
        m.type = MoveType.capturing_promotion_queen) := by
  unfold Move.is_capture
  simp only [MoveType.capture, MoveType.capturing_promotion_knight,
    MoveType.capturing_promotion_bishop, MoveType.capturing_promotion_rook,
    MoveType.capturing_promotion_queen]
  split <;> simp_all

theorem Move.type_lt (m : Move) : m.type < 16 := by
  show (m.move >>> 0) &&& (2 ^ 4 - 1) < 16
  rw [Nat.and_pow_two_sub_one_eq_mod]
  exact Nat.mod_lt _ (by decide)

theorem Move.is_capture_eq (m : Move) : m.is_capture = MoveType.captures m.type := rfl

theorem Move.promotion_eq (m : Move) : m.promotion = MoveType.promotes m.type := rfl

theorem MoveType.promotes_iff : ∀ a : Nat, a < 16 →
    ((MoveType.promotes a = some Piece.knight ↔ (a = 5 ∨ a = 9)) ∧
      (MoveType.promotes a = some Piece.bishop ↔ (a = 6 ∨ a = 10)) ∧
      (MoveType.promotes a = some Piece.rook ↔ (a = 7 ∨ a = 11)) ∧
      (MoveType.promotes a = some Piece.queen ↔ (a = 8 ∨ a = 12)) ∧
      MoveType.promotes a ≠ some Piece.pawn ∧ MoveType.promotes a ≠ some Piece.king ∧
      (a ∈ [0, 1, 2, 3, 4] → MoveType.promotes a = none)) := by
  decide

theorem forall_below {P : Nat → Prop} [DecidablePred P] {n : Nat}
    (h : fast.all_below (fun t => decide (P t)) n = true) : ∀ t, t < n → P t :=
  fun t ht => of_decide_eq_true (fast.all_below_spec h t ht)

theorem MoveType.same_pair (a : Nat) (ha : a < 16) (b : Nat) (hb : b < 16)
    (hc : MoveType.captures a = MoveType.captures b)
    (hp : MoveType.promotes a = MoveType.promotes b) :
    a = b ∨ (MoveType.captures a = false ∧ MoveType.promotes a = none ∧
      MoveType.captures b = false ∧ MoveType.promotes b = none) := by
  have key : ∀ a : Nat, a < 16 → ∀ b : Nat, b < 16 →
      (decide (MoveType.captures a = MoveType.captures b) &&
        decide (MoveType.promotes a = MoveType.promotes b)) = true →
      (decide (a = b) || (!MoveType.captures a && decide (MoveType.promotes a = none) &&
        !MoveType.captures b && decide (MoveType.promotes b = none))) = true :=
    forall_below (by decide)
  have h := key a ha b hb (by simp [hc, hp])
  simp only [Bool.or_eq_true, Bool.and_eq_true, decide_eq_true_eq, Bool.not_eq_true'] at h
  rcases h with h | ⟨⟨⟨h1, h2⟩, h3⟩, h4⟩
  · exact Or.inl h
  · exact Or.inr ⟨h1, h2, h3, h4⟩

/-- C17: for every move word, `promotion()` returns knight, bishop, rook or queen exactly when
the kind is the promotion or the capturing promotion to that piece, and none for normal,
double_push, castle_kingside, castle_queenside and capture; hence two moves with the same
pair `(is_capture(), promotion())` have the same kind, unless both kinds neither capture nor
promote. -/
theorem promotion_iff (m m' : Move) :
    (m.promotion = some Piece.knight ↔
      (m.type = MoveType.promotion_knight ∨ m.type = MoveType.capturing_promotion_knight)) ∧
    (m.promotion = some Piece.bishop ↔
      (m.type = MoveType.promotion_bishop ∨ m.type = MoveType.capturing_promotion_bishop)) ∧
    (m.promotion = some Piece.rook ↔
      (m.type = MoveType.promotion_rook ∨ m.type = MoveType.capturing_promotion_rook)) ∧
    (m.promotion = some Piece.queen ↔
      (m.type = MoveType.promotion_queen ∨ m.type = MoveType.capturing_promotion_queen)) ∧
    m.promotion ≠ some Piece.pawn ∧ m.promotion ≠ some Piece.king ∧
    (m.type ∈ [MoveType.normal, MoveType.double_push, MoveType.castle_kingside,
        MoveType.castle_queenside, MoveType.capture] → m.promotion = none) ∧
    (m.is_capture = m'.is_capture → m.promotion = m'.promotion →
      m.type = m'.type ∨
        (m.is_capture = false ∧ m.promotion = none ∧
          m'.is_capture = false ∧ m'.promotion = none)) := by
  obtain ⟨k1, k2, k3, k4, k5, k6, k7⟩ := MoveType.promotes_iff m.type m.type_lt
  rw [Move.promotion_eq, Move.promotion_eq, Move.is_capture_eq, Move.is_capture_eq]
  exact ⟨k1, k2, k3, k4, k5, k6, k7, MoveType.same_pair m.type m.type_lt m'.type m'.type_lt⟩

/-! ## Attack functions act square by square -/

theorem Linear.id : Linear (fun x => x) := by
  intro x t
  constructor
  · intro h; exact ⟨t, h, by simp⟩
  · rintro ⟨s, h1, h2⟩
    have : s = t := by simpa using h2
    exact this ▸ h1

theorem Linear.zero : Linear (fun _ => 0) := by
  intro x t
  simp

theorem Linear.or {f g : Bitboard → Bitboard} (hf : Linear f) (hg : Linear g) :
    Linear (fun x => f x ||| g x) := by
  intro x t
  simp only [Nat.testBit_or, Bool.or_eq_true]
  rw [hf x t, hg x t]
  constructor
  · rintro (⟨s, h1, h2⟩ | ⟨s, h1, h2⟩)
    · exact ⟨s, h1, Or.inl h2⟩
    · exact ⟨s, h1, Or.inr h2⟩
  · rintro ⟨s, h1, h2 | h2⟩
    · exact Or.inl ⟨s, h1, h2⟩
    · exact Or.inr ⟨s, h1, h2⟩

theorem Linear.and_const {f : Bitboard → Bitboard} (hf : Linear f) (c : Bitboard) :
    Linear (fun x => f x &&& c) := by
  intro x t
  simp only [Nat.testBit_and, Bool.and_eq_true]
  rw [hf x t]
  constructor
  · rintro ⟨⟨s, h1, h2⟩, hc⟩
    exact ⟨s, h1, h2, hc⟩
  · rintro ⟨s, h1, h2, hc⟩
    exact ⟨⟨s, h1, h2⟩, hc⟩

theorem Linear.shl {f : Bitboard → Bitboard} (hf : Linear f) (k : Nat) :
    Linear (fun x => bitboard.shl (f x) k) := by
  intro x t
  simp only [bitboard.testBit_shl, Bool.and_eq_true]
  rw [hf x (t - k)]
  constructor
  · rintro ⟨h64, hk, s, h1, h2⟩
    exact ⟨s, h1, h64, hk, h2⟩
  · rintro ⟨s, h1, h64, hk, h2⟩
    exact ⟨h64, hk, s, h1, h2⟩

theorem Linear.shr {f : Bitboard → Bitboard} (hf : Linear f) (k : Nat) :
    Linear (fun x => bitboard.shr (f x) k) := by
  intro x t
  simp only [bitboard.testBit_shr]
  exact hf x (k + t)

theorem Linear.foldl {α : Type} {g : α → Bitboard → Bitboard} (hg : ∀ a, Linear (g a)) :
    ∀ (l : List α) {f0 : Bitboard → Bitboard}, Linear f0 →
      Linear (fun x => l.foldl (fun acc a => acc ||| g a x) (f0 x))
  | [], _, h0 => h0
  | a :: l, _, h0 => Linear.foldl hg l (h0.or (hg a))

theorem moves.king_attacks_linear : Linear moves.king_attacks := by
  have hlr : Linear (fun king =>
      bitboard.shr (king &&& bitboard.complement files.a) directions.horizontal |||
        bitboard.shl (king &&& bitboard.complement files.h) directions.horizontal) :=
    ((Linear.id.and_const _).shr _).or ((Linear.id.and_const _).shl _)
  have ht := hlr.or Linear.id
  exact (hlr.or (ht.shl directions.vertical)).or (ht.shr directions.vertical)

theorem moves.pawn_attacks_all_linear : Linear moves.pawn_attacks_all :=
  Linear.or (((Linear.id.and_const _).shl _).shr _) (((Linear.id.and_const _).shl _).shl _)

theorem moves.knight_attacks_linear (ls rs bad : Nat) :
    Linear (fun knight => moves.knight_attacks knight ls rs bad) :=
  ((Linear.id.shl ls).shr rs).and_const _

theorem moves.knight_attacks_all_linear : Linear moves.knight_attacks_all :=
  Linear.foldl (fun (ka : KnightAttackType) =>
    moves.knight_attacks_linear ka.leftshift ka.rightshift ka.badtargets)
    get_knight_attack_types Linear.zero

/-- An attack function that acts square by square and whose value on each single square is
known is known on every bitboard. -/
theorem Linear.testBit_iff {f : Bitboard → Bitboard} (hf : Linear f) {rel : Nat → Nat → Bool}
    (h : fast.single_ok f rel 64 = true) {x : Bitboard} (hx : x < 2 ^ 64) (t : Nat) :
    (f x).testBit t = true ↔ t < 64 ∧ ∃ s, s < 64 ∧ x.testBit s = true ∧ rel s t = true := by
  have key : ∀ s, s < 64 → ((f (squares.bitboard s)).testBit t = true ↔ t < 64 ∧ rel s t = true) := by
    intro s hs
    have h1 := Nat.eq_of_beq_eq_true (fast.all_below_spec h s hs)
    have h2 : f (squares.bitboard s) = fast.mask ((List.range 64).filter (rel s)) := h1
    rw [h2, fast.testBit_mask]
    simp
  rw [hf x t]
  constructor
  · rintro ⟨s, h1, h2⟩
    have hs := moves.testBit_lt_of_word hx h1
    have := (key s hs).mp h2
    exact ⟨this.1, s, hs, h1, this.2⟩
  · rintro ⟨ht, s, hs, h1, h2⟩
    exact ⟨s, h1, (key s hs).mpr ⟨ht, h2⟩⟩

theorem fast.knight_ok_true :
    fast.single_ok moves.knight_attacks_all (fun s t => decide (spec.knight_jump s t)) 64 = true := by
  decide!

theorem fast.pawn_ok_true :
    fast.single_ok moves.pawn_attacks_all (fun s t => decide (spec.pawn_attack s t)) 64 = true := by
  decide!

theorem fast.king_single_ok_true :
    fast.single_ok moves.king_attacks (fun s t => decide (spec.adjacent s t)) 64 = true :=
  fast.king_ok_true

theorem testBit_foldl_or {α : Type} (g : α → Nat) (t : Nat) :
    ∀ (l : List α) (init : Nat), (l.foldl (fun acc a => acc ||| g a) init).testBit t = true ↔
      init.testBit t = true ∨ ∃ a ∈ l, (g a).testBit t = true
  | [], init => by simp
  | a :: l, init => by
    rw [List.foldl_cons, testBit_foldl_or g t l (init ||| g a)]
    simp only [Nat.testBit_or, Bool.or_eq_true, List.mem_cons, exists_eq_or_imp]
    exact or_assoc

theorem moves.testBit_knight_attacks_iff (knight ls rs bad t : Nat) :
    (moves.knight_attacks knight ls rs bad).testBit t = true ↔
      ls ≤ t + rs ∧ t + rs < 64 ∧ knight.testBit (t + rs - ls) = true ∧ t < 64 ∧
        bad.testBit t = false := by
  simp only [moves.knight_attacks, Nat.testBit_and, bitboard.testBit_shl, bitboard.testBit_shr,
    bitboard.testBit_complement, Bool.and_eq_true, decide_eq_true_eq, Bool.not_eq_true']
  rw [Nat.add_comm rs t]
  tauto

/-- C12: for every 64-bit knight bitboard, the union over the eight knight attack types of
`moves::knight_attacks` is exactly the set of squares of the board a knight's move away from a
knight of the bitboard; and every square produced by one attack type comes, by that type's
shift, from a knight that is a knight's move away from it (no wrap around a file edge). -/
theorem knight_attacks_jumps (knight : Bitboard) (hk : knight < 2 ^ 64) :
    (∀ t, (get_knight_attack_types.foldl (fun acc ka => acc |||
          moves.knight_attacks knight ka.leftshift ka.rightshift ka.badtargets) 0).testBit t = true ↔
        t < 64 ∧ ∃ s, s < 64 ∧ knight.testBit s = true ∧ spec.knight_jump s t) ∧
    (∀ ka ∈ get_knight_attack_types, ∀ t,
      (moves.knight_attacks knight ka.leftshift ka.rightshift ka.badtargets).testBit t = true →
        ka.leftshift ≤ t + ka.rightshift ∧
        knight.testBit (t + ka.rightshift - ka.leftshift) = true ∧
        spec.knight_jump (t + ka.rightshift - ka.leftshift) t) := by
  constructor
  · intro t
    have h := moves.knight_attacks_all_linear.testBit_iff fast.knight_ok_true hk t
    simpa using h
  · intro ka hka t h
    obtain ⟨h1, h2, h3, h4, h5⟩ := (moves.testBit_knight_attacks_iff _ _ _ _ _).mp h
    refine ⟨h1, h3, ?_⟩
    have hs : t + ka.rightshift - ka.leftshift < 64 := by omega
    have hone : (moves.knight_attacks (squares.bitboard (t + ka.rightshift - ka.leftshift))
        ka.leftshift ka.rightshift ka.badtargets).testBit t = true :=
      (moves.testBit_knight_attacks_iff _ _ _ _ _).mpr ⟨h1, h2, by simp, h4, h5⟩
    have hall : (moves.knight_attacks_all
        (squares.bitboard (t + ka.rightshift - ka.leftshift))).testBit t = true :=
      (testBit_foldl_or _ t _ 0).mpr (Or.inr ⟨ka, hka, hone⟩)
    have hb : squares.bitboard (t + ka.rightshift - ka.leftshift) < 2 ^ 64 := by
      unfold squares.bitboard
      rw [Nat.one_shiftLeft]
      exact Nat.pow_lt_pow_right (by decide) hs
    have := (moves.knight_attacks_all_linear.testBit_iff fast.knight_ok_true hb t).mp hall
    obtain ⟨_, s, _, hs1, hs2⟩ := this
    have : t + ka.rightshift - ka.leftshift = s := by simpa using hs1
    rw [this]
    simpa using hs2

/-- Witness of C12: the knights of the starting position, on b1 and g1. -/
theorem knight_attacks_jumps_witness :
    (0x42 : Nat) < 2 ^ 64 ∧
    ((get_knight_attack_types.foldl (fun acc ka => acc |||
          moves.knight_attacks 0x42 ka.leftshift ka.rightshift ka.badtargets) 0).testBit
        squares.c3 = true ↔
      squares.c3 < 64 ∧ ∃ s, s < 64 ∧ (0x42 : Nat).testBit s = true ∧
        spec.knight_jump s squares.c3) :=
  ⟨by decide, (knight_attacks_jumps 0x42 (by decide)).1 squares.c3⟩

/-! ## The attacked squares -/

theorem spec.ray_from_lt (df dr : Int) (t : Nat) :
    ∀ (fuel : Nat) (file rank : Int), t ∈ spec.ray_from file rank df dr fuel → t < 64
  | 0, _, _, h => by simp [spec.ray_from] at h
  | fuel + 1, file, rank, h => by
    unfold spec.ray_from at h
    split at h
    · next hc =>
      rcases List.mem_cons.mp h with rfl | h'
      · omega
      · exact spec.ray_from_lt df dr t fuel _ _ h'
    · simp at h

theorem spec.testBit_walk {occupancy t : Nat} :
    ∀ {path : List Nat}, (spec.walk occupancy path).testBit t = true → t ∈ path
  | [], h => by simp [spec.walk] at h
  | a :: path, h => by
    unfold spec.walk at h
    rw [Nat.testBit_or, Bool.or_eq_true, squares.testBit_bitboard, decide_eq_true_eq] at h
    rcases h with rfl | h
    · exact List.mem_cons_self _ _
    · split at h
      · simp at h
      · exact List.mem_cons_of_mem _ (spec.testBit_walk h)

theorem spec.testBit_walk_ray {occupancy s t : Nat} {df dr : Int}
    (h : (spec.walk occupancy (spec.ray s df dr)).testBit t = true) : t < 64 :=
  spec.ray_from_lt df dr t _ _ _ (spec.testBit_walk h)

theorem spec.testBit_rook_attacks {occupancy s t : Nat}
    (h : (spec.rook_attacks occupancy s).testBit t = true) : t < 64 := by
  simp only [spec.rook_attacks, Nat.testBit_or, Bool.or_eq_true] at h
  rcases h with (h | h) | (h | h) <;> exact spec.testBit_walk_ray h

theorem spec.testBit_bishop_attacks {occupancy s t : Nat}
    (h : (spec.bishop_attacks occupancy s).testBit t = true) : t < 64 := by
  simp only [spec.bishop_attacks, Nat.testBit_or, Bool.or_eq_true] at h
  rcases h with (h | h) | (h | h) <;> exact spec.testBit_walk_ray h

/-- The value of `rook_attacks` is the walk along the file and the rank. -/
theorem moves.rook_attacks_val_walk {s : Nat} (hs : s < 64) (occupancy : Nat) :
    moves.rook_attacks_val occupancy s = spec.rook_attacks occupancy s := by
  rw [moves.rook_attacks_val, moves.slides_file hs, moves.slides_rank_val_walk hs]
  rfl

/-- The function `bishop_attacks` is the walk along both diagonals. -/
theorem moves.bishop_attacks_eq_walk {s : Nat} (hs : s < 64) (occupancy : Nat) :
    moves.bishop_attacks occupancy s = spec.bishop_attacks occupancy s := by
  rw [moves.bishop_attacks, moves.slides_diagonal hs, moves.slides_antidiagonal hs]
  rfl

/-- The union over the members of a bitboard of a per-square attack set. -/
theorem testBit_foldl_members {g g' : Nat → Nat} (h : ∀ s, s < 64 → g s = g' s)
    (hlt : ∀ s t, (g' s).testBit t = true → t < 64) (b t : Nat) :
    ((bitboard.members b).foldl (fun acc s => acc ||| g s) 0).testBit t = true ↔
      t < 64 ∧ ∃ s, s < 64 ∧ b.testBit s = true ∧ (g' s).testBit t = true := by
  rw [testBit_foldl_or g t _ 0]
  simp only [Nat.zero_testBit, Bool.false_eq_true, false_or, bitboard.mem_members]
  constructor
  · rintro ⟨s, ⟨hs, hb⟩, hg⟩
    rw [h s hs] at hg
    exact ⟨hlt s t hg, s, hs, hb, hg⟩
  · rintro ⟨_, s, hs, hb, hg⟩
    exact ⟨s, ⟨hs, hb⟩, by rw [h s hs]; exact hg⟩

/-- The bits of the value of `all_attacks`: the squares of the board attacked by a white
piece. -/
theorem moves.testBit_all_attacks_val (occupancy : Bitboard) (board : Board)
    (hw : ∀ piece, board Color.white piece < 2 ^ 64) (t : Nat) :
    (moves.all_attacks_val occupancy board).testBit t = true ↔
      t < 64 ∧ spec.attacked_by_white occupancy board t := by
  have hp := moves.pawn_attacks_all_linear.testBit_iff fast.pawn_ok_true (hw Piece.pawn) t
  have hk := moves.king_attacks_linear.testBit_iff fast.king_single_ok_true (hw Piece.king) t
  have hn := moves.knight_attacks_all_linear.testBit_iff fast.knight_ok_true
    (hw Piece.knight) t
  have hb := testBit_foldl_members
    (fun s hs => moves.bishop_attacks_eq_walk hs occupancy)
    (fun s t h => spec.testBit_bishop_attacks h) (board Color.white Piece.bishop) t
  have hr := testBit_foldl_members
    (fun s hs => moves.rook_attacks_val_walk hs occupancy)
    (fun s t h => spec.testBit_rook_attacks h) (board Color.white Piece.rook) t
  have hq := @testBit_foldl_members (moves.queen_attacks_val occupancy)
    (fun s => spec.bishop_attacks occupancy s ||| spec.rook_attacks occupancy s)
    (fun s hs => by
      show moves.bishop_attacks occupancy s ||| moves.rook_attacks_val occupancy s = _
      rw [moves.bishop_attacks_eq_walk hs, moves.rook_attacks_val_walk hs])
    (fun s t h => by
      rw [Nat.testBit_or, Bool.or_eq_true] at h
      rcases h with h | h
      · exact spec.testBit_bishop_attacks h
      · exact spec.testBit_rook_attacks h)
    (board Color.white Piece.queen) t
  simp only [moves.pawn_attacks_all, moves.knight_attacks_all, Nat.testBit_or,
    Bool.or_eq_true, decide_eq_true_eq] at hp hk hn hq
  unfold moves.all_attacks_val
  simp only [Nat.testBit_or, Bool.or_eq_true]
  rw [hp, hk, hn, hb, hr, hq]
  unfold spec.attacked_by_white
  constructor
  · rintro (((((⟨ht, s, hs, h1, h2⟩ | ⟨ht, s, hs, h1, h2⟩) | ⟨ht, s, hs, h1, h2⟩) |
      ⟨ht, s, hs, h1, h2⟩) | ⟨ht, s, hs, h1, h2⟩) | ⟨ht, s, hs, h1, h2⟩)
    · exact ⟨ht, s, hs, Or.inl ⟨h1, h2⟩⟩
    · exact ⟨ht, s, hs, Or.inr (Or.inl ⟨h1, h2⟩)⟩
    · exact ⟨ht, s, hs, Or.inr (Or.inr (Or.inl ⟨h1, h2⟩))⟩
    · exact ⟨ht, s, hs, Or.inr (Or.inr (Or.inr (Or.inl ⟨h1, h2⟩)))⟩
    · exact ⟨ht, s, hs, Or.inr (Or.inr (Or.inr (Or.inr (Or.inl ⟨h1, h2⟩))))⟩
    · exact ⟨ht, s, hs, Or.inr (Or.inr (Or.inr (Or.inr (Or.inr ⟨h1, h2⟩))))⟩
  · rintro ⟨ht, s, hs, ⟨h1, h2⟩ | ⟨h1, h2⟩ | ⟨h1, h2⟩ | ⟨h1, h2⟩ | ⟨h1, h2⟩ | ⟨h1, h2⟩⟩
    · exact Or.inl (Or.inl (Or.inl (Or.inl (Or.inl ⟨ht, s, hs, h1, h2⟩))))
    · exact Or.inl (Or.inl (Or.inl (Or.inl (Or.inr ⟨ht, s, hs, h1, h2⟩))))
    · exact Or.inl (Or.inl (Or.inl (Or.inr ⟨ht, s, hs, h1, h2⟩)))
    · exact Or.inl (Or.inl (Or.inr ⟨ht, s, hs, h1, h2⟩))
    · exact Or.inl (Or.inr ⟨ht, s, hs, h1, h2⟩)
    · exact Or.inr ⟨ht, s, hs, h1, h2⟩

/-- C11: for every occupancy and every board whose white bitboards are 64-bit words,
`moves::all_attacks` fails no assertion and returns exactly the squares of the board attacked
by a white piece: by a pawn diagonally upward, by the king, by a knight, or by a bishop, rook
or queen walking until the first occupied square of `occupancy`. The result is not masked by
white's own pieces: an attacked square is in it also when a white piece stands on it. -/
theorem all_attacks_attacked (occupancy : Bitboard) (board : Board)
    (hw : ∀ piece, board Color.white piece < 2 ^ 64) :
    ∃ attacks, moves.all_attacks occupancy board = some attacks ∧
      (∀ t, attacks.testBit t = true ↔ t < 64 ∧ spec.attacked_by_white occupancy board t) ∧
      (∀ t, t < 64 → (positions.occupancy_of board Color.white).testBit t = true →
        spec.attacked_by_white occupancy board t → attacks.testBit t = true) := by
  have main := moves.testBit_all_attacks_val occupancy board hw
  exact ⟨_, moves.all_attacks_eq occupancy board, main, fun t ht _ h => (main t).mpr ⟨ht, h⟩⟩

/-- Witness of C11: the starting position, where the pawn on a2 is attacked by the rook on a1
and is in the result although white occupies a2. -/
theorem all_attacks_attacked_witness :
    (∀ piece, positions.initial Color.white piece < 2 ^ 64) ∧
    (positions.occupancy_of positions.initial Color.white).testBit squares.a2 = true ∧
    spec.attacked_by_white
      (positions.occupancy_of positions.initial Color.white |||
        positions.occupancy_of positions.initial Color.black) positions.initial squares.a2 ∧
    ∃ attacks, moves.all_attacks
        (positions.occupancy_of positions.initial Color.white |||
          positions.occupancy_of positions.initial Color.black) positions.initial =
          some attacks ∧
      attacks.testBit squares.a2 = true := by
  have hw : ∀ piece, positions.initial Color.white piece < 2 ^ 64 := by
    intro piece; cases piece <;> decide
  have hocc : (positions.occupancy_of positions.initial Color.white).testBit squares.a2 = true := by
    decide
  have hatt : spec.attacked_by_white
      (positions.occupancy_of positions.initial Color.white |||
        positions.occupancy_of positions.initial Color.black) positions.initial squares.a2 :=
    ⟨squares.a1, by decide, Or.inr (Or.inr (Or.inr (Or.inr (Or.inl ⟨by decide, by decide!⟩))))⟩
  obtain ⟨attacks, h1, _, h3⟩ := all_attacks_attacked _ positions.initial hw
  exact ⟨hw, hocc, hatt, attacks, h1, h3 squares.a2 (by decide) hocc hatt⟩

/-! ## The barrier protocol of the pondering agent -/

namespace agent

theorem countP_set {q : PondererPc → Bool} {x y : PondererPc} :
    ∀ {l : List PondererPc} {i : Nat}, l[i]? = some y →
      (l.set i x).countP q + (if q y then 1 else 0) = l.countP q + (if q x then 1 else 0)
  | [], i, h => by simp at h
  | a :: l, 0, h => by
    have : a = y := by simpa using h
    subst this
    simp only [List.set_cons_zero, List.countP_cons]
    omega
  | a :: l, i + 1, h => by
    have h' : l[i]? = some y := by simpa using h
    have ih := countP_set (q := q) (x := x) h'
    simp only [List.set_cons_succ, List.countP_cons]
    omega

theorem mem_of_getElem? {l : List PondererPc} {i : Nat} {pc : PondererPc}
    (h : l[i]? = some pc) : pc ∈ l := by
  obtain ⟨hi, rfl⟩ := List.getElem?_eq_some_iff.mp h
  exact List.getElem_mem hi

theorem forall_mem_set {P : PondererPc → Prop} {l : List PondererPc} {i : Nat}
    {x : PondererPc} (h : ∀ pc ∈ l, P pc) (hx : P x) : ∀ pc ∈ l.set i x, P pc := by
  intro pc hpc
  rcases List.mem_or_eq_of_mem_set hpc with h1 | h1
  · exact h pc h1
  · exact h1 ▸ hx

theorem countP_eq_zero_of {q : PondererPc → Bool} {l : List PondererPc}
    (h : ∀ pc ∈ l, q pc = false) : l.countP q = 0 := by
  rw [List.countP_eq_zero]
  intro pc hpc
  simp [h pc hpc]

theorem PondererPc.between_of_waits_before {pc : PondererPc} (h : pc.waits_before = true) :
    pc.release_before.between = true := by
  cases pc <;> simp_all [PondererPc.waits_before, PondererPc.release_before, PondererPc.between]

theorem PondererPc.waits_after_release_before {pc : PondererPc} (h : pc.waits_before = true) :
    pc.release_before.waits_after = false := by
  cases pc <;> simp_all [PondererPc.waits_before, PondererPc.release_before,
    PondererPc.waits_after]

theorem PondererPc.not_between_of_waits_after {pc : PondererPc} (h : pc.waits_after = true) :
    pc.release_after.between = false := by
  cases pc <;> simp_all [PondererPc.waits_after, PondererPc.release_after, PondererPc.between]

theorem PondererPc.waits_before_release_after {pc : PondererPc} (h : pc.waits_after = true) :
    pc.release_after.waits_before = false := by
  cases pc <;> simp_all [PondererPc.waits_after, PondererPc.release_after,
    PondererPc.waits_before]

theorem PondererPc.waits_before_of_between {pc : PondererPc} (h : pc.between = true) :
    pc.waits_before = false := by
  cases pc <;> simp_all [PondererPc.waits_before, PondererPc.between]

theorem PondererPc.waits_after_of_not_between {pc : PondererPc} (h : pc.between = false) :
    pc.waits_after = false := by
  cases pc <;> simp_all [PondererPc.waits_after, PondererPc.between]

theorem ControllerPc.released_before {pc : ControllerPc} (h : pc.waits_before = true) :
    pc.release_before.between = true ∧ pc.release_before.waits_after = false := by
  cases pc <;> simp_all [ControllerPc.waits_before, ControllerPc.release_before,
    ControllerPc.between, ControllerPc.waits_after]

theorem ControllerPc.released_after {pc : ControllerPc} (h : pc.waits_after = true) :
    pc.release_after.between = false ∧ pc.release_after.waits_before = false := by
  cases pc <;> simp_all [ControllerPc.waits_after, ControllerPc.release_after,
    ControllerPc.between, ControllerPc.waits_before]

/-- The constructor establishes the invariant. -/
theorem Inv.new (n : Nat) : Inv n (MCTSAgent.new n) := by
  refine ⟨by simp [MCTSAgent.new], rfl, rfl, Or.inl ⟨rfl, ?_, ?_, rfl⟩⟩
  · intro pc hpc
    have : pc = PondererPc.loop := by
      simp only [MCTSAgent.new] at hpc
      exact List.eq_of_mem_replicate hpc
    subst this
    rfl
  · have : (List.replicate n PondererPc.loop).countP PondererPc.waits_before = 0 :=
      countP_eq_zero_of (fun pc hpc => by
        rw [List.eq_of_mem_replicate hpc]; rfl)
    simp [MCTSAgent.new, MCTSAgent.waiting_before, this, ControllerPc.waits_before]

/-- A thread marked as waiting calls `barrier_before_change.wait()` while nobody is between
the barriers. -/
theorem Inv.wait_before {n : Nat} {a : MCTSAgent} (hl : a.ponderers.length = n)
    (h1 : a.barrier_before_change.threshold = n + 1)
    (h2 : a.barrier_after_change.threshold = n + 1)
    (hc : a.controller.between = false) (hp : ∀ pc ∈ a.ponderers, pc.between = false)
    (hcount : a.barrier_before_change.count + a.waiting_before = n + 2)
    (ha : a.barrier_after_change.count = n + 1) : Inv n a.wait_before := by
  have hle : a.ponderers.countP PondererPc.waits_before ≤ n :=
    hl ▸ List.countP_le_length _
  unfold MCTSAgent.waiting_before at hcount
  unfold MCTSAgent.wait_before
  split
  · next hlast =>
    have hcw : a.controller.waits_before = true := by
      by_contra hn
      simp only [hn] at hcount
      simp at hcount
      omega
    have hall : ∀ pc ∈ a.ponderers, pc.waits_before = true := by
      have : a.ponderers.countP PondererPc.waits_before = a.ponderers.length := by
        simp only [hcw, if_true] at hcount
        omega
      exact List.countP_eq_length.mp this
    refine ⟨by simpa using hl, h1, h2, Or.inr ⟨?_, ?_, ?_, ?_⟩⟩
    · exact (ControllerPc.released_before hcw).1
    · intro pc hpc
      obtain ⟨pc', hpc', rfl⟩ := List.mem_map.mp hpc
      exact PondererPc.between_of_waits_before (hall pc' hpc')
    · exact h1
    · have hz : (a.ponderers.map PondererPc.release_before).countP PondererPc.waits_after = 0 :=
        countP_eq_zero_of (fun pc hpc => by
          obtain ⟨pc', hpc', rfl⟩ := List.mem_map.mp hpc
          exact PondererPc.waits_after_release_before (hall pc' hpc'))
      simp only [MCTSAgent.waiting_after, hz, (ControllerPc.released_before hcw).2]
      simpa using ha
  · next hlast =>
    refine ⟨hl, h1, h2, Or.inl ⟨hc, hp, ?_, ha⟩⟩
    simp only [MCTSAgent.waiting_before]
    have : (if a.controller.waits_before = true then 1 else 0) ≤ 1 := by split <;> omega
    omega

/-- A thread marked as waiting calls `barrier_after_change.wait()` while everybody is between
the barriers. -/
theorem Inv.wait_after {n : Nat} {a : MCTSAgent} (hl : a.ponderers.length = n)
    (h1 : a.barrier_before_change.threshold = n + 1)
    (h2 : a.barrier_after_change.threshold = n + 1)
    (hc : a.controller.between = true) (hp : ∀ pc ∈ a.ponderers, pc.between = true)
    (hb : a.barrier_before_change.count = n + 1)
    (hcount : a.barrier_after_change.count + a.waiting_after = n + 2) :
    Inv n a.wait_after := by
  have hle : a.ponderers.countP PondererPc.waits_after ≤ n :=
    hl ▸ List.countP_le_length _
  unfold MCTSAgent.waiting_after at hcount
  unfold MCTSAgent.wait_after
  split
  · next hlast =>
    have hcw : a.controller.waits_after = true := by
      by_contra hn
      simp only [hn] at hcount
      simp at hcount
      omega
    have hall : ∀ pc ∈ a.ponderers, pc.waits_after = true := by
      have : a.ponderers.countP PondererPc.waits_after = a.ponderers.length := by
        simp only [hcw, if_true] at hcount
        omega
      exact List.countP_eq_length.mp this
    refine ⟨by simpa using hl, h1, h2, Or.inl ⟨?_, ?_, ?_, ?_⟩⟩
    · exact (ControllerPc.released_after hcw).1
    · intro pc hpc
      obtain ⟨pc', hpc', rfl⟩ := List.mem_map.mp hpc
      exact PondererPc.not_between_of_waits_after (hall pc' hpc')
    · have hz : (a.ponderers.map PondererPc.release_after).countP PondererPc.waits_before = 0 :=
        countP_eq_zero_of (fun pc hpc => by
          obtain ⟨pc', hpc', rfl⟩ := List.mem_map.mp hpc
          exact PondererPc.waits_before_release_after (hall pc' hpc'))
      simp only [MCTSAgent.waiting_before, hz, (ControllerPc.released_after hcw).2]
      simpa using hb
    · exact h2
  · next hlast =>
    refine ⟨hl, h1, h2, Or.inr ⟨hc, hp, hb, ?_⟩⟩
    simp only [MCTSAgent.waiting_after]
    have : (if a.controller.waits_after = true then 1 else 0) ≤ 1 := by split <;> omega
    omega

/-- A ponderer outside the barriers moves to another place outside the barriers. -/
theorem Inv.jump {n : Nat} {a : MCTSAgent} {i : Nat} {pc pc' : PondererPc} (h : Inv n a)
    (hi : a.ponderers[i]? = some pc) (hb : pc.between = false)
    (hw : pc.waits_before = false) (hb' : pc'.between = false)
    (hw' : pc'.waits_before = false) : Inv n (a.jump i pc') := by
  rcases h.phase with ⟨hc, hp, hcount, ha⟩ | ⟨_, hp, _, _⟩
  · refine ⟨by simpa [MCTSAgent.jump] using h.length, h.threshold_before, h.threshold_after,
      Or.inl ⟨hc, forall_mem_set hp hb', ?_, ha⟩⟩
    have := countP_set (q := PondererPc.waits_before) (x := pc') hi
    simp only [hw, hw', Bool.false_eq_true, if_false, Nat.add_zero] at this
    simp only [MCTSAgent.waiting_before, MCTSAgent.jump, this]
    exact hcount
  · have := hp pc (mem_of_getElem? hi)
    rw [hb] at this
    exact Bool.noConfusion this

/-- Every step of a ponderer keeps the invariant. -/
theorem Inv.ponderer_step {n : Nat} {a a' : MCTSAgent} {i : Nat} {pc : PondererPc}
    (h : Inv n a) (hi : a.ponderers[i]? = some pc)
    (hs : a.ponderer_step i pc = Except.ok a') : Inv n a' := by
  cases pc with
  | loop =>
    simp only [MCTSAgent.ponderer_step, Except.ok.injEq] at hs
    subst hs
    exact h.jump hi rfl rfl (by split <;> rfl) (by split <;> rfl)
  | test_pending =>
    simp only [MCTSAgent.ponderer_step, Except.ok.injEq] at hs
    subst hs
    exact h.jump hi rfl rfl (by split <;> rfl) (by split <;> rfl)
  | test_do_ponder =>
    simp only [MCTSAgent.ponderer_step, Except.ok.injEq] at hs
    subst hs
    exact h.jump hi rfl rfl (by split <;> rfl) (by split <;> rfl)
  | arrive_before =>
    simp only [MCTSAgent.ponderer_step, Except.ok.injEq] at hs
    subst hs
    rcases h.phase with ⟨hc, hp, hcount, ha⟩ | ⟨_, hp, _, _⟩
    · refine Inv.wait_before (by simpa [MCTSAgent.jump] using h.length) h.threshold_before
        h.threshold_after hc (forall_mem_set hp rfl) ?_ ha
      have := countP_set (q := PondererPc.waits_before) (x := PondererPc.wait_before) hi
      simp only [PondererPc.waits_before, Bool.false_eq_true, if_false, if_true,
        Nat.add_zero] at this
      simp only [MCTSAgent.waiting_before, MCTSAgent.jump, this]
      simp only [MCTSAgent.waiting_before] at hcount
      omega
    · exact Bool.noConfusion ((hp _ (mem_of_getElem? hi)).symm.trans rfl)
  | wait_before => simp [MCTSAgent.ponderer_step] at hs
  | arrive_after =>
    simp only [MCTSAgent.ponderer_step, Except.ok.injEq] at hs
    subst hs
    rcases h.phase with ⟨_, hp, _, _⟩ | ⟨hc, hp, hb, hcount⟩
    · exact Bool.noConfusion ((hp _ (mem_of_getElem? hi)).symm.trans rfl)
    · refine Inv.wait_after (by simpa [MCTSAgent.jump] using h.length) h.threshold_before
        h.threshold_after hc (forall_mem_set hp rfl) hb ?_
      have := countP_set (q := PondererPc.waits_after) (x := PondererPc.wait_after) hi
      simp only [PondererPc.waits_after, Bool.false_eq_true, if_false, if_true,
        Nat.add_zero] at this
      simp only [MCTSAgent.waiting_after, MCTSAgent.jump, this]
      simp only [MCTSAgent.waiting_after] at hcount
      omega
  | wait_after => simp [MCTSAgent.ponderer_step] at hs
  | assert_node =>
    simp only [MCTSAgent.ponderer_step] at hs
    split at hs
    · simp only [Except.ok.injEq] at hs
      subst hs
      exact h.jump hi rfl rfl rfl rfl
    · simp at hs
  | test_ponder =>
    simp only [MCTSAgent.ponderer_step, Except.ok.injEq] at hs
    subst hs
    exact h.jump hi rfl rfl (by split <;> rfl) (by split <;> rfl)
  | pondering left =>
    cases left with
    | zero =>
      simp only [MCTSAgent.ponderer_step, Except.ok.injEq] at hs
      subst hs
      exact h.jump hi rfl rfl rfl rfl
    | succ left =>
      simp only [MCTSAgent.ponderer_step] at hs
      split at hs
      · simp only [Except.ok.injEq] at hs
        subst hs
        exact h.jump hi rfl rfl rfl rfl
      · simp at hs
  | terminated => simp [MCTSAgent.ponderer_step] at hs

/-- Every step of the controller keeps the invariant. -/
theorem Inv.controller_step {n : Nat} {a a' : MCTSAgent} (h : Inv n a)
    (hs : a.controller_step = Except.ok a') : Inv n a' := by
  unfold MCTSAgent.controller_step at hs
  split at hs
  · next change hc =>
    simp only [Except.ok.injEq] at hs
    subst hs
    rcases h.phase with ⟨_, hp, hcount, ha⟩ | ⟨hb, _, _, _⟩
    · refine Inv.wait_before h.length h.threshold_before h.threshold_after rfl hp ?_ ha
      simp only [MCTSAgent.waiting_before, hc, ControllerPc.waits_before] at hcount ⊢
      simp at hcount ⊢
      omega
    · rw [hc] at hb; exact Bool.noConfusion hb
  · next write rest hc =>
    split at hs
    case h_2 => exact Except.noConfusion hs
    simp only [Except.ok.injEq] at hs
    subst hs
    rcases h.phase with ⟨hb, _, _, _⟩ | ⟨_, hp, hb, hcount⟩
    · rw [hc] at hb; exact Bool.noConfusion hb
    · refine ⟨h.length, h.threshold_before, h.threshold_after, Or.inr ⟨rfl, hp, hb, ?_⟩⟩
      simp only [MCTSAgent.waiting_after, hc, ControllerPc.waits_after] at hcount ⊢
      exact hcount
  · next hc =>
    simp only [Except.ok.injEq] at hs
    subst hs
    rcases h.phase with ⟨hb, _, _, _⟩ | ⟨_, hp, hb, hcount⟩
    · rw [hc] at hb; exact Bool.noConfusion hb
    · refine ⟨h.length, h.threshold_before, h.threshold_after, Or.inr ⟨rfl, hp, hb, ?_⟩⟩
      simp only [MCTSAgent.waiting_after, hc, ControllerPc.waits_after] at hcount ⊢
      exact hcount
  · next hc =>
    simp only [Except.ok.injEq] at hs
    subst hs
    rcases h.phase with ⟨hb, _, _, _⟩ | ⟨_, hp, hb, hcount⟩
    · rw [hc] at hb; exact Bool.noConfusion hb
    · refine Inv.wait_after h.length h.threshold_before h.threshold_after rfl hp hb ?_
      simp only [MCTSAgent.waiting_after, hc, ControllerPc.waits_after] at hcount ⊢
      simp at hcount ⊢
      omega
  · next hc =>
    split at hs
    · simp only [Except.ok.injEq] at hs
      subst hs
      rcases h.phase with ⟨_, hp, hcount, ha⟩ | ⟨hb, _, _, _⟩
      · refine ⟨h.length, h.threshold_before, h.threshold_after, Or.inl ⟨rfl, hp, ?_, ha⟩⟩
        simp only [MCTSAgent.waiting_before, hc, ControllerPc.waits_before] at hcount ⊢
        exact hcount
      · rw [hc] at hb; exact Bool.noConfusion hb
    · simp at hs
  · simp at hs

/-- Every step of the agent keeps the invariant. -/
theorem Inv.agent_step {n : Nat} {a a' : MCTSAgent} {e : Event} (h : Inv n a)
    (hs : a.step e = Except.ok a') : Inv n a' := by
  cases e with
  | between_ponderings change =>
    simp only [MCTSAgent.step] at hs
    split at hs
    · next hc =>
      simp only [Except.ok.injEq] at hs
      subst hs
      rcases h.phase with ⟨_, hp, hcount, ha⟩ | ⟨hb, _, _, _⟩
      · refine ⟨h.length, h.threshold_before, h.threshold_after, Or.inl ⟨rfl, hp, ?_, ha⟩⟩
        simp only [MCTSAgent.waiting_before, hc, ControllerPc.waits_before] at hcount ⊢
        exact hcount
      · rw [hc] at hb; exact Bool.noConfusion hb
    · simp at hs
  | destroy =>
    simp only [MCTSAgent.step] at hs
    split at hs
    · next hc =>
      simp only [Except.ok.injEq] at hs
      subst hs
      rcases h.phase with ⟨_, hp, hcount, ha⟩ | ⟨hb, _, _, _⟩
      · refine ⟨h.length, h.threshold_before, h.threshold_after, Or.inl ⟨rfl, hp, ?_, ha⟩⟩
        simp only [MCTSAgent.waiting_before, hc, ControllerPc.waits_before] at hcount ⊢
        exact hcount
      · rw [hc] at hb; exact Bool.noConfusion hb
    · simp at hs
  | controller => exact h.controller_step hs
  | ponderer i =>
    simp only [MCTSAgent.step] at hs
    split at hs
    · next pc hi => exact h.ponderer_step hi hs
    · simp at hs

/-- Every interleaving keeps the invariant. -/
theorem Inv.run {n : Nat} : ∀ (schedule : List Event) {a a' : MCTSAgent}, Inv n a →
    a.run schedule = Except.ok a' → Inv n a'
  | [], a, a', h, hs => by
    simp only [MCTSAgent.run, Except.ok.injEq] at hs
    exact hs ▸ h
  | e :: schedule, a, a', h, hs => by
    simp only [MCTSAgent.run] at hs
    split at hs
    · next a1 h1 => exact Inv.run schedule (h.agent_step h1) hs
    · simp at hs

end agent

/-- C20: in every interleaving of the controller and the `nponderers` ponderer threads of a
freshly constructed agent, whenever the controller is inside `change()` (at any of its
writes), every one of the `nponderers` ponderers stands between `barrier_before_change` and
`barrier_after_change` (released from the first and not yet released from the second), so
none is inside its pondering batch. -/
theorem change_excludes_pondering (nponderers : Nat) (schedule : List agent.Event)
    (a : agent.MCTSAgent) (rest : agent.Change)
    (hrun : (agent.MCTSAgent.new nponderers).run schedule = Except.ok a)
    (hchange : a.controller = agent.ControllerPc.changing rest) :
    a.ponderers.length = nponderers ∧
    ∀ pc ∈ a.ponderers,
      (pc = agent.PondererPc.arrive_after ∨ pc = agent.PondererPc.wait_after) ∧
        pc.in_batch = false := by
  have h := agent.Inv.run schedule (agent.Inv.new nponderers) hrun
  refine ⟨h.length, fun pc hpc => ?_⟩
  rcases h.phase with ⟨hb, _, _, _⟩ | ⟨_, hp, _, _⟩
  · rw [hchange] at hb; exact Bool.noConfusion hb
  · have := hp pc hpc
    cases pc <;> simp_all [agent.PondererPc.between, agent.PondererPc.in_batch]

open agent in
/-- Witness of C20: two ponderers; the controller calls `between_ponderings` with a change of
one write, both ponderers reach `barrier_before_change`, and the controller, arriving last,
enters `change()` while both ponderers stand before `barrier_after_change`. -/
theorem change_excludes_pondering_witness :
    (MCTSAgent.new 2).run
        [Event.between_ponderings [fun s => Except.ok { s with do_ponder := true }],
          Event.ponderer 0, Event.ponderer 0, Event.ponderer 0,
          Event.ponderer 1, Event.ponderer 1, Event.ponderer 1,
          Event.controller] =
      Except.ok
        { pending_change := true
          do_terminate := false
          shared := { do_ponder := false, state := none, node := none }
          barrier_before_change := { threshold := 3, count := 3 }
          barrier_after_change := { threshold := 3, count := 3 }
          controller := ControllerPc.changing [fun s => Except.ok { s with do_ponder := true }]
          ponderers := [PondererPc.arrive_after, PondererPc.arrive_after] } ∧
    [PondererPc.arrive_after, PondererPc.arrive_after].length = 2 ∧
    ∀ pc ∈ [PondererPc.arrive_after, PondererPc.arrive_after],
      (pc = PondererPc.arrive_after ∨ pc = PondererPc.wait_after) ∧ pc.in_batch = false :=
  ⟨rfl, change_excludes_pondering 2
    [Event.between_ponderings [fun s => Except.ok { s with do_ponder := true }],
      Event.ponderer 0, Event.ponderer 0, Event.ponderer 0,
      Event.ponderer 1, Event.ponderer 1, Event.ponderer 1,
      Event.controller]
    { pending_change := true
      do_terminate := false
      shared := { do_ponder := false, state := none, node := none }
      barrier_before_change := { threshold := 3, count := 3 }
      barrier_after_change := { threshold := 3, count := 3 }
      controller := ControllerPc.changing [fun s => Except.ok { s with do_ponder := true }]
      ponderers := [PondererPc.arrive_after, PondererPc.arrive_after] }
    [fun s => Except.ok { s with do_ponder := true }] rfl rfl⟩

open agent in
/-- The model lets ponderers ponder: with one ponderer, after a change that sets the state and
the root node and a change that sets `do_ponder`, the ponderer enters its batch of 100
samples. -/
theorem agent.pondering_reachable :
    (MCTSAgent.new 1).run
        [Event.between_ponderings
            [fun s => Except.ok { s with state := some 0 },
              fun s => Except.ok { s with node := some ⟨mcts.Tree.mk none 0 0 [], mcts.Parent.null⟩ }],
          Event.ponderer 0, Event.ponderer 0, Event.ponderer 0,
          Event.controller, Event.controller, Event.controller, Event.controller,
          Event.controller,
          Event.ponderer 0, Event.ponderer 0, Event.ponderer 0,
          Event.between_ponderings [fun s => Except.ok { s with do_ponder := true }],
          Event.ponderer 0, Event.ponderer 0, Event.ponderer 0,
          Event.controller, Event.controller, Event.controller, Event.controller,
          Event.ponderer 0, Event.ponderer 0, Event.ponderer 0] =
      Except.ok
        { pending_change := false
          do_terminate := false
          shared :=
            { do_ponder := true
              state := some 0
              node := some ⟨mcts.Tree.mk none 0 0 [], mcts.Parent.null⟩ }
          barrier_before_change := { threshold := 2, count := 2 }
          barrier_after_change := { threshold := 2, count := 2 }
          controller := ControllerPc.idle
          ponderers := [PondererPc.pondering 100] } := rfl

/-! ## The vertical flip -/

theorem bitboard.testBit_byte (x a b k i : Nat) (hb : b = 8 * k) :
    (((x >>> a) &&& 0xff) <<< b).testBit i =
      (decide (i / 8 = k) && x.testBit (a + i % 8)) := by
  subst hb
  have hff : (0xff : Nat) = 2 ^ 8 - 1 := by decide
  rw [Nat.testBit_shiftLeft, Nat.testBit_and, Nat.testBit_shiftRight, hff,
    Nat.testBit_two_pow_sub_one]
  by_cases hk : i / 8 = k
  · have h1 : 8 * k ≤ i := by omega
    have h2 : i - 8 * k = i % 8 := by omega
    have h3 : i % 8 < 8 := by omega
    simp [hk, h1, h2, h3]
  · by_cases h1 : 8 * k ≤ i
    · have h2 : ¬ (i - 8 * k < 8) := by omega
      simp [hk, h1, h2]
    · simp [hk, h1]

theorem bitboard.testBit_bswap64 (x i : Nat) :
    (bitboard.bswap64 x).testBit i =
      (decide (i < 64) && x.testBit (squares.flip_vertically i)) := by
  have e : bitboard.bswap64 x =
      ((((x >>> 0) &&& 0xff) <<< 56) ||| (((x >>> 8) &&& 0xff) <<< 48) |||
      (((x >>> 16) &&& 0xff) <<< 40) ||| (((x >>> 24) &&& 0xff) <<< 32) |||
      (((x >>> 32) &&& 0xff) <<< 24) ||| (((x >>> 40) &&& 0xff) <<< 16) |||
      (((x >>> 48) &&& 0xff) <<< 8) ||| (((x >>> 56) &&& 0xff) <<< 0)) := rfl
  rw [e]
  simp only [Nat.testBit_or, bitboard.testBit_byte x 0 56 7 i rfl,
    bitboard.testBit_byte x 8 48 6 i rfl, bitboard.testBit_byte x 16 40 5 i rfl,
    bitboard.testBit_byte x 24 32 4 i rfl, bitboard.testBit_byte x 32 24 3 i rfl,
    bitboard.testBit_byte x 40 16 2 i rfl, bitboard.testBit_byte x 48 8 1 i rfl,
    bitboard.testBit_byte x 56 0 0 i rfl, squares.flip_vertically]
  have hc : i / 8 = 0 ∨ i / 8 = 1 ∨ i / 8 = 2 ∨ i / 8 = 3 ∨ i / 8 = 4 ∨ i / 8 = 5 ∨
      i / 8 = 6 ∨ i / 8 = 7 ∨ 64 ≤ i := by omega
  rcases hc with h | h | h | h | h | h | h | h | h
  all_goals first
    | (have h64 : i < 64 := by omega
       simp [h, h64])
    | (have h64 : ¬ i < 64 := by omega
       have h0 : ¬ i / 8 = 0 := by omega
       have h1 : ¬ i / 8 = 1 := by omega
       have h2 : ¬ i / 8 = 2 := by omega
       have h3 : ¬ i / 8 = 3 := by omega
       have h4 : ¬ i / 8 = 4 := by omega
       have h5 : ¬ i / 8 = 5 := by omega
       have h6 : ¬ i / 8 = 6 := by omega
       have h7 : ¬ i / 8 = 7 := by omega
       simp [h64, h0, h1, h2, h3, h4, h5, h6, h7])

@[simp] theorem bitboard.testBit_flip_vertically (x i : Nat) :
    (bitboard.flip_vertically x).testBit i =
      (decide (i < 64) && x.testBit (squares.flip_vertically i)) :=
  bitboard.testBit_bswap64 x i

theorem squares.flip_index_lt {i : Nat} (h : i < 64) : squares.flip_vertically i < 64 := by
  unfold squares.flip_vertically; omega

theorem squares.flip_index_twice {i : Nat} (h : i < 64) :
    squares.flip_vertically (squares.flip_vertically i) = i := by
  unfold squares.flip_vertically; omega

theorem lt_of_testBit_lt {x : Nat} (h : ∀ i, x.testBit i = true → i < 64) : x < 2 ^ 64 := by
  apply Nat.lt_pow_two_of_testBit
  intro i hi
  by_contra hc
  have := h i (by simpa using hc)
  omega

theorem bitboard.flip_word_lt (x : Nat) : bitboard.flip_vertically x < 2 ^ 64 := by
  apply lt_of_testBit_lt
  intro i hi
  simp only [bitboard.testBit_flip_vertically, Bool.and_eq_true, decide_eq_true_eq] at hi
  exact hi.1

theorem bitboard.flip_word_twice {x : Nat} (hx : x < 2 ^ 64) :
    bitboard.flip_vertically (bitboard.flip_vertically x) = x := by
  apply Nat.eq_of_testBit_eq
  intro i
  simp only [bitboard.testBit_flip_vertically]
  by_cases hi : i < 64
  · simp [hi, squares.flip_index_lt hi, squares.flip_index_twice hi]
  · have : x.testBit i = false := by
      by_contra hc
      exact hi (moves.testBit_lt_of_word hx (by simpa using hc))
    simp [hi, this]

theorem bitboard.flip_vertically_or (x y : Nat) :
    bitboard.flip_vertically (x ||| y) =
      bitboard.flip_vertically x ||| bitboard.flip_vertically y := by
  apply Nat.eq_of_testBit_eq
  intro i
  simp only [bitboard.testBit_flip_vertically, Nat.testBit_or, Bool.and_or_distrib_left]

theorem bitboard.flip_vertically_and (x y : Nat) :
    bitboard.flip_vertically (x &&& y) =
      bitboard.flip_vertically x &&& bitboard.flip_vertically y := by
  apply Nat.eq_of_testBit_eq
  intro i
  simp only [bitboard.testBit_flip_vertically, Nat.testBit_and]
  cases decide (i < 64) <;> simp

theorem bitboard.flip_vertically_zero : bitboard.flip_vertically 0 = 0 := by decide

theorem bitboard.flip_vertically_bitboard {k : Nat} (hk : k < 64) :
    bitboard.flip_vertically (squares.bitboard k) =
      squares.bitboard (squares.flip_vertically k) := by
  apply Nat.eq_of_testBit_eq
  intro i
  simp only [bitboard.testBit_flip_vertically, squares.testBit_bitboard]
  by_cases hi : i < 64
  · have h1 : (k = squares.flip_vertically i) ↔ (squares.flip_vertically k = i) := by
      unfold squares.flip_vertically; omega
    simp [hi, h1]
  · have h1 : ¬ squares.flip_vertically k = i := by
      have := squares.flip_index_lt hk
      omega
    simp [hi, h1]

theorem squares.bitboard_lt {k : Nat} (hk : k < 64) : squares.bitboard k < 2 ^ 64 := by
  unfold squares.bitboard
  rw [Nat.one_shiftLeft]
  exact Nat.pow_lt_pow_right (by decide) hk

/-! ## Moves as 16-bit words -/

theorem Move.source_lt (m : Move) : m.source < 64 := by
  show (m.move >>> 4) &&& (2 ^ 6 - 1) < 64
  rw [Nat.and_pow_two_sub_one_eq_mod]
  omega

theorem Move.target_lt (m : Move) : m.target < 64 := by
  show (m.move >>> 10) &&& (2 ^ 6 - 1) < 64
  rw [Nat.and_pow_two_sub_one_eq_mod]
  omega

theorem Move.pack_lt (s t ty : Nat) : (Move.pack s t ty).move < 2 ^ 16 :=
  Nat.mod_lt _ (by decide)

theorem Move.ext_move {m m' : Move} (h : m.move = m'.move) : m = m' := by
  cases m; cases m'; simp_all

theorem Move.pack_eta {m : Move} (h : m.move < 2 ^ 16) :
    Move.pack m.source m.target m.type = m := by
  apply Move.ext_move
  apply Nat.eq_of_testBit_eq
  intro i
  have hty : m.type < 16 := Move.type_lt m
  rw [Move.testBit_pack (Move.source_lt m) hty]
  have e1 : m.type = m.move % 2 ^ 4 := by
    show (m.move >>> 0) &&& (2 ^ 4 - 1) = _
    rw [Nat.and_pow_two_sub_one_eq_mod]; rfl
  have e2 : m.source = (m.move >>> 4) % 2 ^ 6 := by
    show (m.move >>> 4) &&& (2 ^ 6 - 1) = _
    rw [Nat.and_pow_two_sub_one_eq_mod]
  have e3 : m.target = (m.move >>> 10) % 2 ^ 6 := by
    show (m.move >>> 10) &&& (2 ^ 6 - 1) = _
    rw [Nat.and_pow_two_sub_one_eq_mod]
  rw [e1, e2, e3]
  simp only [Nat.testBit_mod_two_pow, Nat.testBit_shiftRight]
  by_cases h4 : i < 4
  · simp [h4]
  · by_cases h10 : i < 10
    · have : i - 4 < 6 := by omega
      have e : 4 + (i - 4) = i := by omega
      simp [h4, h10, this, e]
    · by_cases h16 : i < 16
      · have : i - 10 < 6 := by omega
        have e : 10 + (i - 10) = i := by omega
        simp [h4, h10, h16, this, e]
      · have : m.move.testBit i = false := by
          apply Nat.testBit_lt_two_pow
          calc m.move < 2 ^ 16 := h
            _ ≤ 2 ^ i := Nat.pow_le_pow_right (by decide) (by omega)
        simp [h4, h10, h16, this]

theorem Move.flip_vertically_fields (m : Move) :
    m.flip_vertically.source = squares.flip_vertically m.source ∧
    m.flip_vertically.target = squares.flip_vertically m.target ∧
    m.flip_vertically.type = m.type :=
  Move.pack_fields (squares.flip_index_lt (Move.source_lt m))
    (squares.flip_index_lt (Move.target_lt m)) (Move.type_lt m)

theorem Move.flip_move_twice {m : Move} (h : m.move < 2 ^ 16) :
    m.flip_vertically.flip_vertically = m := by
  obtain ⟨h1, h2, h3⟩ := Move.flip_vertically_fields m
  show Move.pack _ _ _ = m
  rw [h1, h2, h3, squares.flip_index_twice (Move.source_lt m),
    squares.flip_index_twice (Move.target_lt m)]
  exact Move.pack_eta h

theorem Move.flip_move_lt (m : Move) : m.flip_vertically.move < 2 ^ 16 :=
  Move.pack_lt _ _ _

theorem moves.all_attacks_val_lt (occupancy : Bitboard) (board : Board)
    (hw : ∀ piece, board Color.white piece < 2 ^ 64) :
    moves.all_attacks_val occupancy board < 2 ^ 64 :=
  lt_of_testBit_lt (fun t ht => ((moves.testBit_all_attacks_val occupancy board hw t).mp ht).1)

/-! ## Putting pieces on a board and taking them off -/

namespace Board

theorem set_same (b : Board) (c : Color) (p : Piece) (x : Bitboard) : b.set c p x c p = x := by
  simp [Board.set]

theorem set_other (b : Board) {c c' : Color} {p p' : Piece} (x : Bitboard)
    (h : c' ≠ c ∨ p' ≠ p) : b.set c p x c' p' = b c' p' := by
  unfold Board.set
  rw [if_neg]
  rintro ⟨h1, h2⟩
  rcases h with h | h
  · exact h h1
  · exact h h2

theorem testBit_remove {b : Board} (hw : ∀ c p, b c p < 2 ^ 64) (c : Color) (p : Piece)
    (sq : Nat) (c' : Color) (p' : Piece) (i : Nat) :
    (b.remove c p sq c' p').testBit i =
      ((b c' p').testBit i && !decide (c' = c ∧ p' = p ∧ i = sq)) := by
  unfold Board.remove Board.set
  by_cases h : c' = c ∧ p' = p
  · obtain ⟨rfl, rfl⟩ := h
    simp only [true_and, and_self, if_true, Nat.testBit_and, bitboard.testBit_complement,
      squares.testBit_bitboard]
    by_cases hb : (b c' p').testBit i = true
    · have := moves.testBit_lt_of_word (hw c' p') hb
      by_cases hi : i = sq
      · subst hi; simp
      · have hi' : ¬ sq = i := fun e => hi e.symm
        simp [hb, this, hi, hi']
    · simp [hb]
  · rw [if_neg h]
    have : ¬ (c' = c ∧ p' = p ∧ i = sq) := fun ⟨h1, h2, _⟩ => h ⟨h1, h2⟩
    simp [this]

theorem testBit_add (b : Board) (c : Color) (p : Piece) (sq : Nat) (c' : Color) (p' : Piece)
    (i : Nat) :
    (b.add c p sq c' p').testBit i =
      ((b c' p').testBit i || decide (c' = c ∧ p' = p ∧ i = sq)) := by
  unfold Board.add Board.set
  by_cases h : c' = c ∧ p' = p
  · obtain ⟨rfl, rfl⟩ := h
    simp only [true_and, and_self, if_true, Nat.testBit_or, squares.testBit_bitboard]
    by_cases hi : i = sq
    · subst hi; simp
    · have hi' : ¬ sq = i := fun e => hi e.symm
      simp [hi, hi']
  · rw [if_neg h]
    have : ¬ (c' = c ∧ p' = p ∧ i = sq) := fun ⟨h1, h2, _⟩ => h ⟨h1, h2⟩
    simp [this]

theorem word_remove {b : Board} (hw : ∀ c p, b c p < 2 ^ 64) (c : Color) (p : Piece) (sq : Nat) :
    ∀ c' p', b.remove c p sq c' p' < 2 ^ 64 := by
  intro c' p'
  apply lt_of_testBit_lt
  intro i hi
  rw [testBit_remove hw] at hi
  simp only [Bool.and_eq_true] at hi
  exact moves.testBit_lt_of_word (hw c' p') hi.1

theorem word_add {b : Board} (hw : ∀ c p, b c p < 2 ^ 64) (c : Color) (p : Piece) {sq : Nat}
    (hsq : sq < 64) : ∀ c' p', b.add c p sq c' p' < 2 ^ 64 := by
  intro c' p'
  apply lt_of_testBit_lt
  intro i hi
  rw [testBit_add] at hi
  simp only [Bool.or_eq_true, decide_eq_true_eq] at hi
  rcases hi with hi | ⟨_, _, rfl⟩
  · exact moves.testBit_lt_of_word (hw c' p') hi
  · exact hsq

/-- Taking a piece off and putting it back. -/
theorem add_remove {b : Board} (hw : ∀ c p, b c p < 2 ^ 64) {c : Color} {p : Piece} {sq : Nat}
    (h : (b c p).testBit sq = true) : (b.remove c p sq).add c p sq = b := by
  funext c' p'
  apply Nat.eq_of_testBit_eq
  intro i
  rw [testBit_add, testBit_remove hw]
  by_cases hc : c' = c ∧ p' = p ∧ i = sq
  · obtain ⟨rfl, rfl, rfl⟩ := hc
    simp [h]
  · simp [hc]

/-- Putting a piece on a square it does not stand on and taking it off again. -/
theorem remove_add {b : Board} (hw : ∀ c p, b c p < 2 ^ 64) {c : Color} {p : Piece} {sq : Nat}
    (hsq : sq < 64) (h : (b c p).testBit sq = false) : (b.add c p sq).remove c p sq = b := by
  funext c' p'
  apply Nat.eq_of_testBit_eq
  intro i
  rw [testBit_remove (word_add hw c p hsq), testBit_add]
  by_cases hc : c' = c ∧ p' = p ∧ i = sq
  · obtain ⟨rfl, rfl, rfl⟩ := hc
    simp [h]
  · simp [hc]

end Board

/-- No square holds two pieces. -/
theorem no_overlap_of_disjoint {b : Board}
    (h : ∀ c p c' p', (c ≠ c' ∨ p ≠ p') → b c p &&& b c' p' = 0) {c c' : Color} {p p' : Piece}
    {i : Nat} (h1 : (b c p).testBit i = true) (h2 : (b c' p').testBit i = true) :
    c = c' ∧ p = p' := by
  by_contra hne
  have hne' : c ≠ c' ∨ p ≠ p' := by
    by_cases hc : c = c'
    · exact Or.inr (fun hp => hne ⟨hc, hp⟩)
    · exact Or.inl hc
  have := congrArg (fun x => Nat.testBit x i) (h c p c' p' hne')
  simp [Nat.testBit_and, h1, h2] at this

theorem disjoint_of_no_overlap {b : Board}
    (h : ∀ c p c' p' i, (b c p).testBit i = true → (b c' p').testBit i = true →
      c = c' ∧ p = p') :
    ∀ c p c' p', (c ≠ c' ∨ p ≠ p') → b c p &&& b c' p' = 0 := by
  intro c p c' p' hne
  apply Nat.eq_of_testBit_eq
  intro i
  rw [Nat.testBit_and, Nat.zero_testBit]
  by_cases h1 : (b c p).testBit i = true
  · by_cases h2 : (b c' p').testBit i = true
    · obtain ⟨e1, e2⟩ := h c p c' p' i h1 h2
      rcases hne with hne | hne
      · exact absurd e1 hne
      · exact absurd e2 hne
    · simp [h2]
  · simp [h1]

theorem piece_at_testBit {b : Board} {c : Color} {sq : Nat} {p : Piece}
    (h : piece_at b c sq = some p) : (b c p).testBit sq = true := by
  have := List.find?_some h
  simpa using this

theorem piece_at_eq_some {b : Board} {c : Color} {sq : Nat} {p : Piece}
    (h : (b c p).testBit sq = true) (hu : ∀ p', p' ≠ p → (b c p').testBit sq = false) :
    piece_at b c sq = some p := by
  cases p <;>
    simp [piece_at, pieces.values, List.find?, h, hu]

theorem piece_at_eq_some_of_disjoint {b : Board}
    (hd : ∀ c p c' p', (c ≠ c' ∨ p ≠ p') → b c p &&& b c' p' = 0) {c : Color} {sq : Nat}
    {p : Piece} (h : (b c p).testBit sq = true) : piece_at b c sq = some p := by
  apply piece_at_eq_some h
  intro p' hp'
  by_contra hc
  have := (no_overlap_of_disjoint hd h (by simpa using hc : (b c p').testBit sq = true)).2
  exact hp' this.symm

theorem positions.testBit_occupancy_of (b : Board) (c : Color) (i : Nat) :
    (positions.occupancy_of b c).testBit i = true ↔ ∃ p, (b c p).testBit i = true := by
  simp only [positions.occupancy_of, Nat.testBit_or, Bool.or_eq_true]
  constructor
  · rintro (((((h | h) | h) | h) | h) | h)
    exacts [⟨_, h⟩, ⟨_, h⟩, ⟨_, h⟩, ⟨_, h⟩, ⟨_, h⟩, ⟨_, h⟩]
  · rintro ⟨p, h⟩
    cases p
    · exact Or.inl (Or.inl (Or.inl (Or.inl (Or.inl h))))
    · exact Or.inl (Or.inl (Or.inl (Or.inl (Or.inr h))))
    · exact Or.inl (Or.inl (Or.inl (Or.inr h)))
    · exact Or.inl (Or.inl (Or.inr h))
    · exact Or.inl (Or.inr h)
    · exact Or.inr h

theorem positions.testBit_occupancy_of_false (b : Board) (c : Color) (i : Nat) :
    (positions.occupancy_of b c).testBit i = false ↔ ∀ p, (b c p).testBit i = false := by
  constructor
  · intro h p
    by_contra hc
    have := (positions.testBit_occupancy_of b c i).mpr ⟨p, by simpa using hc⟩
    rw [h] at this
    exact Bool.noConfusion this
  · intro h
    by_contra hc
    obtain ⟨p, hp⟩ := (positions.testBit_occupancy_of b c i).mp (by simpa using hc)
    rw [h p] at hp
    exact Bool.noConfusion hp

theorem lor_lt {x y : Nat} (hx : x < 2 ^ 64) (hy : y < 2 ^ 64) : x ||| y < 2 ^ 64 :=
  Nat.or_lt_two_pow hx hy

theorem positions.occupancy_of_lt {b : Board} (hw : ∀ c p, b c p < 2 ^ 64) (c : Color) :
    positions.occupancy_of b c < 2 ^ 64 := by
  unfold positions.occupancy_of
  exact lor_lt (lor_lt (lor_lt (lor_lt (lor_lt (hw _ _) (hw _ _)) (hw _ _)) (hw _ _))
    (hw _ _)) (hw _ _)

/-! ## The generated moves of white in a good position -/

namespace Good

variable {s : State}

theorem no_overlap (h : Good s) {c c' : Color} {p p' : Piece} {i : Nat}
    (h1 : (s.board c p).testBit i = true) (h2 : (s.board c' p').testBit i = true) :
    c = c' ∧ p = p' :=
  no_overlap_of_disjoint h.disjoint h1 h2

theorem testBit_occupancy (h : Good s) (c : Color) (i : Nat) :
    (s.occupancy c).testBit i = true ↔ ∃ p, (s.board c p).testBit i = true := by
  rw [h.occupancy_eq c]
  exact positions.testBit_occupancy_of s.board c i

theorem testBit_occupancy_false (h : Good s) (c : Color) (i : Nat) :
    (s.occupancy c).testBit i = false ↔ ∀ p, (s.board c p).testBit i = false := by
  rw [h.occupancy_eq c]
  exact positions.testBit_occupancy_of_false s.board c i

theorem testBit_flat_false (h : Good s) (i : Nat) :
    s.flat_occupancy.testBit i = false ↔ ∀ c p, (s.board c p).testBit i = false := by
  rw [h.flat_eq, Nat.testBit_or, Bool.or_eq_false_iff, h.testBit_occupancy_false,
    h.testBit_occupancy_false]
  constructor
  · rintro ⟨h1, h2⟩ c p
    cases c
    · exact h1 p
    · exact h2 p
  · intro h'
    exact ⟨h' Color.white, h' Color.black⟩

theorem ep_target (h : Good s) (hus : s.us = Color.white) {t : Nat}
    (ht : squares.bitboard t = s.en_passant_square) :
    40 ≤ t ∧ t < 48 ∧ s.flat_occupancy.testBit t = false ∧
      (s.board Color.black Piece.pawn).testBit (t - 8) = true := by
  rcases h.en_passant with h0 | ⟨e, h1, h2, h3⟩
  · exact absurd (ht.trans h0) (squares.bitboard_ne_zero t)
  · have := squares.bitboard_injective (ht.trans h1)
    subst this
    rw [hus] at h3
    exact ⟨h3.1, h3.2.1, h2, h3.2.2⟩

theorem consistent (h : Good s) (hus : s.us = Color.white)
    (hk : s.board Color.white Piece.king ≠ 0) :
    Consistent s.board s.occupancy s.en_passant_square
      (s.castling_rights Color.white).kingside (s.castling_rights Color.white).queenside where
  word := h.word
  disjoint := h.disjoint
  occupancy_eq := h.occupancy_eq
  one_king := by
    rcases h.kings Color.white with h0 | h1
    · exact absurd h0 hk
    · exact h1
  kingside := by
    intro hr
    obtain ⟨h1, h2⟩ := h.kingside Color.white hr
    rcases h1 with h0 | h1
    · exact absurd h0 hk
    · exact ⟨h1, h2⟩
  queenside := by
    intro hr
    obtain ⟨h1, h2⟩ := h.queenside Color.white hr
    rcases h1 with h0 | h1
    · exact absurd h0 hk
    · exact ⟨h1, h2⟩
  en_passant := by
    rcases h.en_passant with h0 | ⟨e, h1, h2, h3⟩
    · exact Or.inl h0
    · rw [hus] at h3
      exact Or.inr ⟨e, h3.1, h3.2.1, h1, h.flat_eq ▸ h2⟩

end Good

namespace moves
open bitboard directions

theorem word_targets_moves {targets : Bitboard} {src : Nat → Nat} {ty : Nat} {m : Move}
    (h : m ∈ targets_moves targets src ty) : m.move < 2 ^ 16 := by
  simp only [targets_moves, List.mem_map] at h
  obtain ⟨t, _, rfl⟩ := h
  exact Move.pack_lt _ _ _

theorem word_attacks_moves {attacks us them : Bitboard} {src : Nat → Nat} {m : Move}
    (h : m ∈ attacks_moves attacks us them src) : m.move < 2 ^ 16 := by
  simp only [attacks_moves, List.mem_append] at h
  rcases h with h | h <;> exact word_targets_moves h

theorem word_all_moves_list {board : Board} {occupancy : Occupancy} {ep : Bitboard}
    {ck cq : Bool} {m : Move} (h : m ∈ all_moves_list board occupancy ep ck cq) :
    m.move < 2 ^ 16 := by
  simp only [all_moves_list, List.mem_append] at h
  rcases h with h | h | h | h | h | h | h
  · simp only [pawn_moves, List.mem_append, List.mem_flatMap] at h
    rcases h with ((((((h | ⟨_, _, h⟩) | h) | h) | ⟨_, _, h⟩) | h) | ⟨_, _, h⟩) <;>
      exact word_targets_moves h
  · simp only [knight_moves, List.mem_flatMap] at h
    obtain ⟨_, _, h⟩ := h
    exact word_attacks_moves h
  · simp only [slider_moves, List.mem_flatMap] at h
    obtain ⟨_, _, h⟩ := h
    exact word_attacks_moves h
  · simp only [slider_moves, List.mem_flatMap] at h
    obtain ⟨_, _, h⟩ := h
    exact word_attacks_moves h
  · simp only [slider_moves, List.mem_flatMap] at h
    obtain ⟨_, _, h⟩ := h
    exact word_attacks_moves h
  · exact word_attacks_moves h
  · rcases mem_castle_moves h with ⟨_, rfl⟩ | ⟨_, rfl⟩ <;> exact Move.pack_lt _ _ _

theorem testBit_double_push_rank {pawn us them t : Nat}
    (h : (double_push_targets pawn us them).testBit t = true) : 24 ≤ t := by
  simp only [double_push_targets, vertical, Nat.testBit_and, testBit_shl, testBit_complement,
    Bool.and_eq_true, decide_eq_true_eq, Bool.not_eq_true'] at h
  obtain ⟨⟨_, h8, _, h3⟩, _, _⟩ := h
  by_contra hc
  have : ranks._3.testBit (t - 8) = false := by
    have e : ranks._3 = 0xff <<< 16 := by decide
    rw [e, Nat.testBit_shiftLeft]
    have : ¬ 16 ≤ t - 8 := by omega
    simp [this]
  rw [this] at h3
  exact Bool.noConfusion h3

/-- A double push lands on rank 4. -/
theorem double_push_target_ge {pawn us them ep : Bitboard} {m : Move}
    (h : m ∈ pawn_moves pawn us them ep) (hty : m.type = MoveType.double_push) :
    24 ≤ m.target := by
  simp only [pawn_moves, List.mem_append] at h
  rcases h with ((((((h | h) | h) | h) | h) | h) | h)
  · obtain ⟨t, _, _, _, _, h3⟩ := mem_targets_moves (by intro t ht _; omega) (by decide) h
    rw [h3] at hty; exact absurd hty (by decide)
  · obtain ⟨t, _, _, _, _, h3⟩ :=
      mem_promotion_moves promotions_lt (by intro t ht _; omega) h
    rw [hty] at h3; exact absurd h3 (by decide)
  · obtain ⟨t, _, hb, _, h2, _⟩ := mem_targets_moves (by intro t ht _; omega) (by decide) h
    rw [h2]
    exact testBit_double_push_rank hb
  · obtain ⟨t, _, _, _, _, h3⟩ := mem_targets_moves (by intro t ht _; omega) (by decide) h
    rw [h3] at hty; exact absurd hty (by decide)
  · obtain ⟨t, _, _, _, _, h3⟩ :=
      mem_promotion_moves capturing_promotions_lt (by intro t ht _; omega) h
    rw [hty] at h3; exact absurd h3 (by decide)
  · obtain ⟨t, _, _, _, _, h3⟩ := mem_targets_moves (by intro t ht _; omega) (by decide) h
    rw [h3] at hty; exact absurd hty (by decide)
  · obtain ⟨t, _, _, _, _, h3⟩ :=
      mem_promotion_moves capturing_promotions_lt (by intro t ht _; omega) h
    rw [hty] at h3; exact absurd h3 (by decide)

end moves

namespace Good

variable {s : State}

/-- A move emitted for a piece other than a pawn. -/
theorem white_piece_move (h : Good s) {p : Piece} {m : Move} (hw : m.move < 2 ^ 16)
    (hm : PieceMove (s.board Color.white p) (s.occupancy Color.white)
      (s.occupancy Color.black) m) : WhiteMove s m p := by
  obtain ⟨src, t, _, _, hs, hu, h1, h2, h3⟩ := hm
  have hfree : ∀ q, (s.board Color.white q).testBit m.target = false := by
    rw [h2]; exact (h.testBit_occupancy_false _ _).mp hu
  refine ⟨hw, ?_, h1 ▸ hs, hfree, ?_⟩
  · intro heq
    have := hfree p
    rw [← heq, h1, hs] at this
    exact Bool.noConfusion this
  · rcases h3 with ⟨hty, hb⟩ | ⟨hty, hb⟩
    · exact .normal hty (by rw [h2]; exact (h.testBit_occupancy_false _ _).mp hb)
    · obtain ⟨cp, hcp⟩ := (h.testBit_occupancy _ _).mp hb
      refine .capture hty cp (h2 ▸ hcp) ?_
      intro hep
      rcases h.en_passant with h0 | ⟨e, he1, he2, _⟩
      · exact squares.bitboard_ne_zero _ (hep.trans h0)
      · have := squares.bitboard_injective (hep.trans he1)
        rw [h2] at this
        subst this
        have := (h.testBit_flat_false _).mp he2 Color.black cp
        rw [hcp] at this
        exact Bool.noConfusion this

/-- A pawn capture onto `t`. -/
theorem white_pawn_capture (h : Good s) (hus : s.us = Color.white) {m : Move} {t : Nat}
    (hw : m.move < 2 ^ 16) (hne : m.source ≠ m.target)
    (hp : (s.board Color.white Piece.pawn).testBit m.source = true)
    (hcap : (s.occupancy Color.black ||| s.en_passant_square).testBit t = true)
    (htgt : m.target = t)
    (hty : (ranks._8.testBit t = false ∧ m.type = MoveType.capture) ∨
      (ranks._8.testBit t = true ∧ m.type ∈ moves.capturing_promotions)) :
    WhiteMove s m Piece.pawn := by
  subst htgt
  rw [Nat.testBit_or, Bool.or_eq_true] at hcap
  by_cases hb : (s.occupancy Color.black).testBit m.target = true
  · obtain ⟨cp, hcp⟩ := (h.testBit_occupancy _ _).mp hb
    have hnep : squares.bitboard m.target ≠ s.en_passant_square := by
      intro hep
      obtain ⟨_, _, hf, _⟩ := h.ep_target hus hep
      have := (h.testBit_flat_false _).mp hf Color.black cp
      rw [hcp] at this
      exact Bool.noConfusion this
    have hfree : ∀ q, (s.board Color.white q).testBit m.target = false := by
      intro q
      by_contra hc
      have := (h.no_overlap hcp (by simpa using hc : (s.board Color.white q).testBit _ = true)).1
      exact absurd this (by decide)
    refine ⟨hw, hne, hp, hfree, ?_⟩
    rcases hty with ⟨_, hty⟩ | ⟨_, hty⟩
    · exact .capture hty cp hcp hnep
    · exact .capturing_promotion hty rfl cp hcp hnep
  · have he : s.en_passant_square.testBit m.target = true := by
      rcases hcap with hc | hc
      · exact absurd hc hb
      · exact hc
    have hep : squares.bitboard m.target = s.en_passant_square := by
      rcases h.en_passant with h0 | ⟨e, he1, _, _⟩
      · rw [h0, Nat.zero_testBit] at he; exact Bool.noConfusion he
      · rw [he1, squares.testBit_bitboard, decide_eq_true_eq] at he
        rw [he1, he]
    obtain ⟨h40, h48, hf, hpawn⟩ := h.ep_target hus hep
    have hall := (h.testBit_flat_false _).mp hf
    refine ⟨hw, hne, hp, hall Color.white, ?_⟩
    rcases hty with ⟨_, hty⟩ | ⟨h8, _⟩
    · exact .en_passant hty rfl hep h40 hpawn (hall Color.black)
    · rw [ranks.testBit_8 m.target (Move.target_lt m), decide_eq_true_eq] at h8
      omega

/-- Every move of the list of `moves::all_moves` in a good position with white to move. -/
theorem white_move (h : Good s) (hus : s.us = Color.white)
    (hk : s.board Color.white Piece.king ≠ 0) {m : Move}
    (hm : m ∈ moves.all_moves_list s.board s.occupancy s.en_passant_square
      (s.castling_rights Color.white).kingside (s.castling_rights Color.white).queenside) :
    ∃ piece, WhiteMove s m piece := by
  have hw := moves.word_all_moves_list hm
  have hcons := h.consistent hus hk
  simp only [moves.all_moves_list, List.mem_append] at hm
  rcases hm with hm | hm | hm | hm | hm | hm | hm
  · refine ⟨Piece.pawn, ?_⟩
    have h24 := moves.double_push_target_ge hm
    have hp := moves.mem_pawn_moves hm
    cases hp with
    | push t ht h8 hp hfree hsrc htgt hty =>
      rw [Nat.testBit_or, Bool.or_eq_false_iff, h.testBit_occupancy_false,
        h.testBit_occupancy_false] at hfree
      refine ⟨hw, by rw [hsrc, htgt]; omega, hsrc ▸ hp, htgt ▸ hfree.1, ?_⟩
      rcases hty with ⟨_, hty⟩ | ⟨_, hty⟩
      · exact .normal hty (htgt ▸ hfree.2)
      · exact .promotion hty rfl (htgt ▸ hfree.2)
    | double_push t ht hp hfree hfree' hsrc htgt hty =>
      have h24' := h24 hty
      rw [Nat.testBit_or, Bool.or_eq_false_iff, h.testBit_occupancy_false,
        h.testBit_occupancy_false] at hfree hfree'
      refine ⟨hw, by rw [hsrc, htgt]; omega, hsrc ▸ hp, htgt ▸ hfree.1, ?_⟩
      refine .double_push hty rfl (by rw [hsrc]; omega) (by rw [hsrc, htgt]; omega) ?_
        (htgt ▸ hfree.2)
      have e : m.source + 8 = t - 8 := by rw [hsrc]; omega
      rw [e]
      intro c q
      cases c
      · exact hfree'.1 q
      · exact hfree'.2 q
    | capture_w t ht h7 hp hfile hcap hsrc htgt hty =>
      exact h.white_pawn_capture hus hw (by rw [hsrc, htgt]; omega) (hsrc ▸ hp) hcap htgt hty
    | capture_e t ht h9 hp hfile hcap hsrc htgt hty =>
      exact h.white_pawn_capture hus hw (by rw [hsrc, htgt]; omega) (hsrc ▸ hp) hcap htgt hty
  · exact ⟨Piece.knight, h.white_piece_move hw (moves.mem_knight_moves hm)⟩
  · exact ⟨Piece.bishop, h.white_piece_move hw (moves.mem_slider_moves hm).choose_spec.2.2.2.2⟩
  · exact ⟨Piece.rook, h.white_piece_move hw (moves.mem_slider_moves hm).choose_spec.2.2.2.2⟩
  · exact ⟨Piece.queen, h.white_piece_move hw (moves.mem_slider_moves hm).choose_spec.2.2.2.2⟩
  · exact ⟨Piece.king, h.white_piece_move hw (moves.mem_king_moves (h.word _ _) hm).2⟩
  · refine ⟨Piece.king, ?_⟩
    rcases moves.mem_castle_moves hm with ⟨hok, rfl⟩ | ⟨hok, rfl⟩
    · obtain ⟨hr, _, _, _, hf1, hg1⟩ := (moves.kingside_ok_iff _ _ _).mp hok
      obtain ⟨hking, hrook⟩ := hcons.kingside hr
      rw [← h.flat_eq] at hf1 hg1
      have hf1' := (h.testBit_flat_false _).mp hf1
      have hg1' := (h.testBit_flat_false _).mp hg1
      obtain ⟨e1, e2, e3⟩ := Move.source_castle_kingside
      refine ⟨hw, by rw [e1, e2]; decide, by rw [e1, hking]; decide, ?_, ?_⟩
      · rw [e2]; exact hg1' Color.white
      · exact .castle_kingside e3 rfl e1 e2 hrook hf1' (by rw [e2]; exact hg1' Color.black)
    · obtain ⟨hr, _, _, _, _, hd1, hc1, _⟩ := (moves.queenside_ok_iff _ _ _).mp hok
      obtain ⟨hking, hrook⟩ := hcons.queenside hr
      rw [← h.flat_eq] at hd1 hc1
      have hd1' := (h.testBit_flat_false _).mp hd1
      have hc1' := (h.testBit_flat_false _).mp hc1
      obtain ⟨e1, e2, e3⟩ := Move.source_castle_queenside
      refine ⟨hw, by rw [e1, e2]; decide, by rw [e1, hking]; decide, ?_, ?_⟩
      · rw [e2]; exact hc1' Color.white
      · exact .castle_queenside e3 rfl e1 e2 hrook hd1' (by rw [e2]; exact hc1' Color.black)

end Good

/-! ## Making a move of white -/

namespace State

theorem make_white_eq {s : State} {m : Move} {piece : Piece} {captured : Option (Piece × Nat)}
    (hpiece : piece_at s.board Color.white m.source = some piece)
    (hcaptured : (if m.is_capture then
        (piece_at s.board Color.black (s.capture_square m piece)).map
          (fun p => some (p, s.capture_square m piece))
      else some none) = some captured) :
    s.make_white m = some (s.undo_white m captured, s.made_white m piece captured) := by
  unfold make_white
  simp only [hpiece, Option.bind_eq_bind, Option.some_bind, Option.pure_def]
  have hc := hcaptured
  unfold capture_square at hc
  rw [hc]
  simp only [Option.some_bind, attacks_of, moves.all_attacks_eq]
  rfl

theorem unmake_white_eq {s : State} {u : Undo} {placed : Piece}
    (hplaced : piece_at (board_uncastled s.board u.move) Color.white u.move.target =
      some placed) :
    s.unmake_white u = some (s.unmade_white u placed) := by
  unfold unmake_white
  have hp := hplaced
  unfold board_uncastled at hp
  simp only [hp, Option.bind_eq_bind, Option.some_bind, Option.pure_def, attacks_of,
    moves.black_attacks_eq]
  rfl

end State

theorem Move.promotion_of_type {m : Move} {ty : Nat} (h : m.type = ty) :
    m.promotion = MoveType.promotes ty := by
  rw [Move.promotion_eq, h]

/-- The facts of `Step` for every generated move of white. -/
theorem WhiteMove.to_step {s : State} {m : Move} {piece : Piece} (h : Good s)
    (hm : WhiteMove s m piece) :
    ∃ captured, Step s m piece captured ∧
      (if m.is_capture then
        (piece_at s.board Color.black (s.capture_square m piece)).map
          (fun p => some (p, s.capture_square m piece))
      else some none) = some captured := by
  have hfw := hm.target_free
  cases hm.kind with
  | normal hty hfree =>
    refine ⟨none, ⟨hm.source_piece, hm.ne, ?_, by simp, ?_, ?_, ?_, ?_, ?_, ?_⟩, ?_⟩
    · intro c q hq
      cases c
      · rw [hfw q] at hq; exact Bool.noConfusion hq
      · rw [hfree q] at hq; exact Bool.noConfusion hq
    · intro _; rw [Move.is_capture_of_type hty]; rfl
    · intro q hq; rw [Move.promotion_of_type hty] at hq; exact Option.noConfusion (hq.symm.trans rfl : some q = none)
    · intro h2; rw [hty] at h2; exact absurd h2 (by decide)
    · intro h2; rw [hty] at h2; exact absurd h2 (by decide)
    · intro _; rw [Move.promotion_of_type hty]; rfl
    · intro h2; rw [hty] at h2; exact absurd h2 (by decide)
    · rw [Move.is_capture_of_type hty]; rfl
  | capture hty cp hcp hnep =>
    have hsq : s.capture_square m piece = m.target := by
      unfold State.capture_square
      rw [if_neg]
      exact fun hc => hnep hc.2
    refine ⟨some (cp, m.target), ⟨hm.source_piece, hm.ne, ?_, ?_, by simp, ?_, ?_, ?_, ?_, ?_⟩,
      ?_⟩
    · intro c q hq
      cases c
      · rw [hfw q] at hq; exact Bool.noConfusion hq
      · have := (h.no_overlap hq hcp).2
        simp [State.hit, this]
    · intro cc hcc
      cases hcc
      exact ⟨hcp, hsq.symm, by rw [Move.is_capture_of_type hty]; rfl⟩
    · intro q hq; rw [Move.promotion_of_type hty] at hq; exact Option.noConfusion (hq.symm.trans rfl : some q = none)
    · intro h2; rw [hty] at h2; exact absurd h2 (by decide)
    · intro h2; rw [hty] at h2; exact absurd h2 (by decide)
    · intro _; rw [Move.promotion_of_type hty]; rfl
    · intro h2; rw [hty] at h2; exact absurd h2 (by decide)
    · rw [Move.is_capture_of_type hty, hsq, piece_at_eq_some_of_disjoint h.disjoint hcp]; rfl
  | en_passant hty hp hep h40 hpawn hfree =>
    have hsq : s.capture_square m piece = m.target - 8 := by
      unfold State.capture_square
      rw [if_pos ⟨hp, hep⟩]
    refine ⟨some (Piece.pawn, m.target - 8),
      ⟨hm.source_piece, hm.ne, ?_, ?_, by simp, ?_, ?_, ?_, ?_, ?_⟩, ?_⟩
    · intro c q hq
      cases c
      · rw [hfw q] at hq; exact Bool.noConfusion hq
      · rw [hfree q] at hq; exact Bool.noConfusion hq
    · intro cc hcc
      cases hcc
      exact ⟨hpawn, hsq.symm, by rw [Move.is_capture_of_type hty]; rfl⟩
    · intro q hq; rw [Move.promotion_of_type hty] at hq; exact Option.noConfusion (hq.symm.trans rfl : some q = none)
    · intro h2; rw [hty] at h2; exact absurd h2 (by decide)
    · intro h2; rw [hty] at h2; exact absurd h2 (by decide)
    · intro _; rw [Move.promotion_of_type hty]; rfl
    · intro h2; rw [hty] at h2; exact absurd h2 (by decide)
    · rw [Move.is_capture_of_type hty, hsq, piece_at_eq_some_of_disjoint h.disjoint hpawn]; rfl
  | double_push hty hp hsrc htgt hpass hfree =>
    refine ⟨none, ⟨hm.source_piece, hm.ne, ?_, by simp, ?_, ?_, ?_, ?_, ?_, ?_⟩, ?_⟩
    · intro c q hq
      cases c
      · rw [hfw q] at hq; exact Bool.noConfusion hq
      · rw [hfree q] at hq; exact Bool.noConfusion hq
    · intro _; rw [Move.is_capture_of_type hty]; rfl
    · intro q hq; rw [Move.promotion_of_type hty] at hq; exact Option.noConfusion (hq.symm.trans rfl : some q = none)
    · intro h2; rw [hty] at h2; exact absurd h2 (by decide)
    · intro h2; rw [hty] at h2; exact absurd h2 (by decide)
    · intro _; rw [Move.promotion_of_type hty]; rfl
    · intro _; exact ⟨hp, hsrc.1, hsrc.2, htgt, hpass⟩
    · rw [Move.is_capture_of_type hty]; rfl
  | promotion hty hp hfree =>
    have hty' : m.type = 5 ∨ m.type = 6 ∨ m.type = 7 ∨ m.type = 8 := by
      simpa [moves.promotions, MoveType.promotion_knight, MoveType.promotion_bishop,
        MoveType.promotion_rook, MoveType.promotion_queen] using hty
    refine ⟨none, ⟨hm.source_piece, hm.ne, ?_, by simp, ?_, ?_, ?_, ?_, ?_, ?_⟩, ?_⟩
    · intro c q hq
      cases c
      · rw [hfw q] at hq; exact Bool.noConfusion hq
      · rw [hfree q] at hq; exact Bool.noConfusion hq
    · intro _
      rcases hty' with h2 | h2 | h2 | h2 <;> rw [Move.is_capture_of_type h2] <;> rfl
    · intro q hq
      refine ⟨hp, ?_⟩
      rcases hty' with h2 | h2 | h2 | h2 <;> rw [Move.promotion_of_type h2] at hq <;>
        cases hq <;> exact ⟨by decide, by decide⟩
    · intro h2; rcases hty' with h3 | h3 | h3 | h3 <;> rw [h3] at h2 <;>
        exact absurd h2 (by decide)
    · intro h2; rcases hty' with h3 | h3 | h3 | h3 <;> rw [h3] at h2 <;>
        exact absurd h2 (by decide)
    · intro hk; rw [hp] at hk; exact absurd hk (by decide)
    · intro h2; rcases hty' with h3 | h3 | h3 | h3 <;> rw [h3] at h2 <;>
        exact absurd h2 (by decide)
    · rcases hty' with h2 | h2 | h2 | h2 <;> rw [Move.is_capture_of_type h2] <;> rfl
  | capturing_promotion hty hp cp hcp hnep =>
    have hty' : m.type = 9 ∨ m.type = 10 ∨ m.type = 11 ∨ m.type = 12 := by
      simpa [moves.capturing_promotions, MoveType.capturing_promotion_knight,
        MoveType.capturing_promotion_bishop, MoveType.capturing_promotion_rook,
        MoveType.capturing_promotion_queen] using hty
    have hsq : s.capture_square m piece = m.target := by
      unfold State.capture_square
      rw [if_neg]
      exact fun hc => hnep hc.2
    have hcapt : m.is_capture = true := by
      rcases hty' with h2 | h2 | h2 | h2 <;> rw [Move.is_capture_of_type h2] <;> rfl
    refine ⟨some (cp, m.target), ⟨hm.source_piece, hm.ne, ?_, ?_, by simp, ?_, ?_, ?_, ?_, ?_⟩,
      ?_⟩
    · intro c q hq
      cases c
      · rw [hfw q] at hq; exact Bool.noConfusion hq
      · have := (h.no_overlap hq hcp).2
        simp [State.hit, this]
    · intro cc hcc
      cases hcc
      exact ⟨hcp, hsq.symm, hcapt⟩
    · intro q hq
      refine ⟨hp, ?_⟩
      rcases hty' with h2 | h2 | h2 | h2 <;> rw [Move.promotion_of_type h2] at hq <;>
        cases hq <;> exact ⟨by decide, by decide⟩
    · intro h2; rcases hty' with h3 | h3 | h3 | h3 <;> rw [h3] at h2 <;>
        exact absurd h2 (by decide)
    · intro h2; rcases hty' with h3 | h3 | h3 | h3 <;> rw [h3] at h2 <;>
        exact absurd h2 (by decide)
    · intro hk; rw [hp] at hk; exact absurd hk (by decide)
    · intro h2; rcases hty' with h3 | h3 | h3 | h3 <;> rw [h3] at h2 <;>
        exact absurd h2 (by decide)
    · rw [hcapt, hsq, piece_at_eq_some_of_disjoint h.disjoint hcp]; rfl
  | castle_kingside hty hp hsrc htgt hrook hpass hfree =>
    refine ⟨none, ⟨hm.source_piece, hm.ne, ?_, by simp, ?_, ?_, ?_, ?_, ?_, ?_⟩, ?_⟩
    · intro c q hq
      cases c
      · rw [hfw q] at hq; exact Bool.noConfusion hq
      · rw [hfree q] at hq; exact Bool.noConfusion hq
    · intro _; rw [Move.is_capture_of_type hty]; rfl
    · intro q hq; rw [Move.promotion_of_type hty] at hq; exact Option.noConfusion (hq.symm.trans rfl : some q = none)
    · intro _; exact ⟨hp, hsrc, htgt, hrook, hpass, rfl⟩
    · intro h2; rw [hty] at h2; exact absurd h2 (by decide)
    · intro _; rw [Move.promotion_of_type hty]; rfl
    · intro h2; rw [hty] at h2; exact absurd h2 (by decide)
    · rw [Move.is_capture_of_type hty]; rfl
  | castle_queenside hty hp hsrc htgt hrook hpass hfree =>
    refine ⟨none, ⟨hm.source_piece, hm.ne, ?_, by simp, ?_, ?_, ?_, ?_, ?_, ?_⟩, ?_⟩
    · intro c q hq
      cases c
      · rw [hfw q] at hq; exact Bool.noConfusion hq
      · rw [hfree q] at hq; exact Bool.noConfusion hq
    · intro _; rw [Move.is_capture_of_type hty]; rfl
    · intro q hq; rw [Move.promotion_of_type hty] at hq; exact Option.noConfusion (hq.symm.trans rfl : some q = none)
    · intro h2; rw [hty] at h2; exact absurd h2 (by decide)
    · intro _; exact ⟨hp, hsrc, htgt, hrook, hpass, rfl⟩
    · intro _; rw [Move.promotion_of_type hty]; rfl
    · intro h2; rw [hty] at h2; exact absurd h2 (by decide)
    · rw [Move.is_capture_of_type hty]; rfl

/-! ## The board after a move of white -/

namespace State

theorem testBit_board_captured {b : Board} (hw : ∀ c p, b c p < 2 ^ 64)
    (captured : Option (Piece × Nat)) (c : Color) (q : Piece) (i : Nat) :
    (board_captured b captured c q).testBit i = ((b c q).testBit i && !hit captured c q i) := by
  cases captured with
  | none => simp [board_captured, hit]
  | some cc => simp only [board_captured, hit, Board.testBit_remove hw]

theorem word_board_captured {b : Board} (hw : ∀ c p, b c p < 2 ^ 64)
    (captured : Option (Piece × Nat)) : ∀ c p, board_captured b captured c p < 2 ^ 64 := by
  cases captured with
  | none => exact hw
  | some cc => exact Board.word_remove hw _ _ _

theorem testBit_board_moved {b : Board} (hw : ∀ c p, b c p < 2 ^ 64) (m : Move) (piece : Piece)
    (c : Color) (q : Piece) (i : Nat) :
    (board_moved b m piece c q).testBit i =
      (((b c q).testBit i && !decide (c = Color.white ∧ q = piece ∧ i = m.source)) ||
        decide (c = Color.white ∧ q = m.promotion.getD piece ∧ i = m.target)) := by
  simp only [board_moved, Board.testBit_add, Board.testBit_remove hw]

theorem word_board_moved {b : Board} (hw : ∀ c p, b c p < 2 ^ 64) (m : Move) (piece : Piece) :
    ∀ c p, board_moved b m piece c p < 2 ^ 64 :=
  Board.word_add (Board.word_remove hw _ _ _) _ _ (Move.target_lt m)

theorem testBit_board_castled {b : Board} (hw : ∀ c p, b c p < 2 ^ 64) (m : Move)
    (c : Color) (q : Piece) (i : Nat) :
    (board_castled b m c q).testBit i =
      (((b c q).testBit i &&
          !decide (c = Color.white ∧ q = Piece.rook ∧
            ((m.type = MoveType.castle_kingside ∧ i = squares.h1) ∨
              (m.type = MoveType.castle_queenside ∧ i = squares.a1)))) ||
        decide (c = Color.white ∧ q = Piece.rook ∧
          ((m.type = MoveType.castle_kingside ∧ i = squares.f1) ∨
            (m.type = MoveType.castle_queenside ∧ i = squares.d1)))) := by
  unfold board_castled
  by_cases hk : m.type = MoveType.castle_kingside
  · have hq : ¬ m.type = MoveType.castle_queenside := by rw [hk]; decide
    have e1 : ((m.type = MoveType.castle_kingside ∧ i = squares.h1) ∨
        (m.type = MoveType.castle_queenside ∧ i = squares.a1)) ↔ i = squares.h1 :=
      ⟨fun h => h.elim (fun h' => h'.2) (fun h' => absurd h'.1 hq), fun h => Or.inl ⟨hk, h⟩⟩
    have e2 : ((m.type = MoveType.castle_kingside ∧ i = squares.f1) ∨
        (m.type = MoveType.castle_queenside ∧ i = squares.d1)) ↔ i = squares.f1 :=
      ⟨fun h => h.elim (fun h' => h'.2) (fun h' => absurd h'.1 hq), fun h => Or.inl ⟨hk, h⟩⟩
    rw [if_pos hk, Board.testBit_add, Board.testBit_remove hw]
    simp only [e1, e2]
  · by_cases hq : m.type = MoveType.castle_queenside
    · have e1 : ((m.type = MoveType.castle_kingside ∧ i = squares.h1) ∨
          (m.type = MoveType.castle_queenside ∧ i = squares.a1)) ↔ i = squares.a1 :=
        ⟨fun h => h.elim (fun h' => absurd h'.1 hk) (fun h' => h'.2), fun h => Or.inr ⟨hq, h⟩⟩
      have e2 : ((m.type = MoveType.castle_kingside ∧ i = squares.f1) ∨
          (m.type = MoveType.castle_queenside ∧ i = squares.d1)) ↔ i = squares.d1 :=
        ⟨fun h => h.elim (fun h' => absurd h'.1 hk) (fun h' => h'.2), fun h => Or.inr ⟨hq, h⟩⟩
      rw [if_neg hk, if_pos hq, Board.testBit_add, Board.testBit_remove hw]
      simp only [e1, e2]
    · simp [if_neg hk, if_neg hq, hk, hq]

theorem word_board_castled {b : Board} (hw : ∀ c p, b c p < 2 ^ 64) (m : Move) :
    ∀ c p, board_castled b m c p < 2 ^ 64 := by
  unfold board_castled
  split
  · exact Board.word_add (Board.word_remove hw _ _ _) _ _ (by decide)
  · split
    · exact Board.word_add (Board.word_remove hw _ _ _) _ _ (by decide)
    · exact hw

end State

namespace Step

variable {s : State} {m : Move} {piece : Piece} {captured : Option (Piece × Nat)}

theorem word_made (h : Good s) : ∀ c p, s.board_made m piece captured c p < 2 ^ 64 :=
  State.word_board_castled
    (State.word_board_moved (State.word_board_captured h.word captured) m piece) m

/-- The bits of the board after the move. -/
theorem testBit_made (h : Good s) (c : Color) (q : Piece) (i : Nat) :
    (s.board_made m piece captured c q).testBit i =
      (((((s.board c q).testBit i && !State.hit captured c q i) &&
            !decide (c = Color.white ∧ q = piece ∧ i = m.source)) ||
          decide (c = Color.white ∧ q = m.promotion.getD piece ∧ i = m.target)) &&
          !decide (c = Color.white ∧ q = Piece.rook ∧
            ((m.type = MoveType.castle_kingside ∧ i = squares.h1) ∨
              (m.type = MoveType.castle_queenside ∧ i = squares.a1))) ||
        decide (c = Color.white ∧ q = Piece.rook ∧
          ((m.type = MoveType.castle_kingside ∧ i = squares.f1) ∨
            (m.type = MoveType.castle_queenside ∧ i = squares.d1)))) := by
  unfold State.board_made
  rw [State.testBit_board_castled
      (State.word_board_moved (State.word_board_captured h.word captured) m piece),
    State.testBit_board_moved (State.word_board_captured h.word captured),
    State.testBit_board_captured h.word]

/-- The piece that lands on the target. -/
theorem placed (st : Step s m piece captured) :
    State.unpromoted m.promotion (m.promotion.getD piece) = piece := by
  cases hp : m.promotion with
  | none => rfl
  | some q => exact (st.promotion q hp).1.symm

theorem placed_ne_king (st : Step s m piece captured) (hk : piece ≠ Piece.king) :
    m.promotion.getD piece ≠ Piece.king := by
  cases hp : m.promotion with
  | none => exact hk
  | some q => exact (st.promotion q hp).2.1

theorem not_castle (st : Step s m piece captured) (hk : piece ≠ Piece.king) :
    m.type ≠ MoveType.castle_kingside ∧ m.type ≠ MoveType.castle_queenside :=
  ⟨fun h => hk (st.castle_kingside h).1, fun h => hk (st.castle_queenside h).1⟩

/-- After the capture the target is empty. -/
theorem target_empty (st : Step s m piece captured) (h : Good s) (c : Color) (q : Piece) :
    (State.board_captured s.board captured c q).testBit m.target = false := by
  rw [State.testBit_board_captured h.word]
  by_cases hb : (s.board c q).testBit m.target = true
  · rw [hb, st.target_hit c q hb]; rfl
  · simp [hb]

end Step

/-! ## Unmaking a move of white -/

namespace Step

variable {s : State} {m : Move} {piece : Piece} {captured : Option (Piece × Nat)}

/-- The rook of a castling goes back. -/
theorem uncastled (st : Step s m piece captured) (h : Good s) :
    State.board_uncastled (s.board_made m piece captured) m =
      State.board_moved (State.board_captured s.board captured) m piece := by
  have hw1 := State.word_board_captured h.word captured
  have hw3 := State.word_board_moved hw1 m piece
  unfold State.board_made State.board_uncastled State.board_castled
  by_cases hk : m.type = MoveType.castle_kingside
  · obtain ⟨hp, hsrc, htgt, hrook, hpass, hcap⟩ := st.castle_kingside hk
    have hprom : m.promotion = none := st.castle_king hp
    subst hcap
    have h1 : (State.board_moved (State.board_captured s.board none) m piece Color.white
        Piece.rook).testBit squares.h1 = true := by
      rw [State.testBit_board_moved hw1, State.testBit_board_captured h.word, hrook, hp]
      simp [State.hit]
    have h2 : ((State.board_moved (State.board_captured s.board none) m piece).remove
        Color.white Piece.rook squares.h1 Color.white Piece.rook).testBit squares.f1 = false := by
      rw [Board.testBit_remove hw3, State.testBit_board_moved hw1,
        State.testBit_board_captured h.word, hpass, hp, hprom]
      simp
    rw [if_pos hk, if_pos hk, Board.remove_add (Board.word_remove hw3 _ _ _) (by decide) h2,
      Board.add_remove hw3 h1]
  · by_cases hq : m.type = MoveType.castle_queenside
    · obtain ⟨hp, hsrc, htgt, hrook, hpass, hcap⟩ := st.castle_queenside hq
      have hprom : m.promotion = none := st.castle_king hp
      subst hcap
      have h1 : (State.board_moved (State.board_captured s.board none) m piece Color.white
          Piece.rook).testBit squares.a1 = true := by
        rw [State.testBit_board_moved hw1, State.testBit_board_captured h.word, hrook, hp]
        simp [State.hit]
      have h2 : ((State.board_moved (State.board_captured s.board none) m piece).remove
          Color.white Piece.rook squares.a1 Color.white Piece.rook).testBit squares.d1 =
            false := by
        rw [Board.testBit_remove hw3, State.testBit_board_moved hw1,
          State.testBit_board_captured h.word, hpass, hp, hprom]
        simp
      rw [if_neg hk, if_pos hq, if_neg hk, if_pos hq,
        Board.remove_add (Board.word_remove hw3 _ _ _) (by decide) h2, Board.add_remove hw3 h1]
    · rw [if_neg hk, if_neg hq, if_neg hk, if_neg hq]

/-- The piece standing on the target after the move is the piece that landed there. -/
theorem piece_at_target (st : Step s m piece captured) (h : Good s) :
    piece_at (State.board_moved (State.board_captured s.board captured) m piece) Color.white
      m.target = some (m.promotion.getD piece) := by
  have hw1 := State.word_board_captured h.word captured
  apply piece_at_eq_some
  · rw [State.testBit_board_moved hw1]
    simp
  · intro q hq
    rw [State.testBit_board_moved hw1, st.target_empty h]
    simp [hq]

/-- The moved piece goes back to the source. -/
theorem unmoved (st : Step s m piece captured) (h : Good s) :
    State.board_unmoved (State.board_moved (State.board_captured s.board captured) m piece) m
      (m.promotion.getD piece) piece = State.board_captured s.board captured := by
  have hw1 := State.word_board_captured h.word captured
  unfold State.board_unmoved State.board_moved
  have h2 : ((State.board_captured s.board captured).remove Color.white piece m.source
      Color.white (m.promotion.getD piece)).testBit m.target = false := by
    rw [Board.testBit_remove hw1, st.target_empty h]
    rfl
  have h1 : (State.board_captured s.board captured Color.white piece).testBit m.source =
      true := by
    rw [State.testBit_board_captured h.word, st.source_piece]
    cases captured <;> simp [State.hit]
  rw [Board.remove_add (Board.word_remove hw1 _ _ _) (Move.target_lt m) h2,
    Board.add_remove hw1 h1]

/-- The captured piece is put back. -/
theorem uncaptured (st : Step s m piece captured) (h : Good s) :
    State.board_uncaptured (State.board_captured s.board captured) captured = s.board := by
  cases captured with
  | none => rfl
  | some cc =>
    exact Board.add_remove h.word (st.captured_piece cc rfl).1

/-- The board is restored. -/
theorem board_unmade (st : Step s m piece captured) (h : Good s) {s1 : State}
    (h1 : s1.board = s.board_made m piece captured) :
    s1.board_unmade (s.undo_white m captured) (m.promotion.getD piece) = s.board := by
  unfold State.board_unmade
  simp only [State.undo_white]
  rw [h1, st.uncastled h, st.placed, st.unmoved h, st.uncaptured h]

/-- Unmaking the move of white gives back the position. -/
theorem unmake_white (st : Step s m piece captured) (h : Good s) (hus : s.us = Color.white)
    {s1 : State} (h1 : s1.board = s.board_made m piece captured) :
    s1.unmake_white (s.undo_white m captured) = some s := by
  have hp : piece_at (State.board_uncastled s1.board (s.undo_white m captured).move)
      Color.white (s.undo_white m captured).move.target = some (m.promotion.getD piece) := by
    show piece_at (State.board_uncastled s1.board m) Color.white m.target = _
    rw [h1, st.uncastled h]
    exact st.piece_at_target h
  rw [State.unmake_white_eq hp]
  have hb := st.board_unmade h h1
  have ha := h.attacks_eq
  rw [hus] at ha
  simp only [Color.other, State.attacks_of, moves.black_attacks_eq, Option.some.injEq] at ha
  have ho : positions.occupancy_of s.board = s.occupancy := by
    funext c; exact (h.occupancy_eq c).symm
  have hf : s.occupancy Color.white ||| s.occupancy Color.black = s.flat_occupancy :=
    h.flat_eq.symm
  unfold State.unmade_white
  rw [hb, ho, hf, ha]
  cases s
  simp_all [State.undo_white]

end Step

/-! ## The position after a move of white is good -/

namespace Step

variable {s : State} {m : Move} {piece : Piece} {captured : Option (Piece × Nat)}

theorem hit_white (captured : Option (Piece × Nat)) (q : Piece) (i : Nat) :
    State.hit captured Color.white q i = false := by
  cases captured <;> simp [State.hit]

/-- No square holds two pieces after the move. -/
theorem no_overlap_made (st : Step s m piece captured) (h : Good s) {c c' : Color}
    {q q' : Piece} {i : Nat} (h1 : (s.board_made m piece captured c q).testBit i = true)
    (h2 : (s.board_made m piece captured c' q').testBit i = true) : c = c' ∧ q = q' := by
  have hw1 := State.word_board_captured h.word captured
  have hw3 := State.word_board_moved hw1 m piece
  -- the board before the rook of a castling moves
  have key : ∀ {c c' : Color} {q q' : Piece} {i : Nat},
      (State.board_moved (State.board_captured s.board captured) m piece c q).testBit i = true →
      (State.board_moved (State.board_captured s.board captured) m piece c' q').testBit i =
        true → c = c' ∧ q = q' := by
    intro c c' q q' i h1 h2
    rw [State.testBit_board_moved hw1] at h1 h2
    simp only [Bool.or_eq_true, Bool.and_eq_true, Bool.not_eq_true', decide_eq_true_eq,
      decide_eq_false_iff_not] at h1 h2
    rcases h1 with ⟨hb1, _⟩ | ⟨rfl, rfl, rfl⟩
    · rcases h2 with ⟨hb2, _⟩ | ⟨rfl, rfl, rfl⟩
      · rw [State.testBit_board_captured h.word] at hb1 hb2
        simp only [Bool.and_eq_true] at hb1 hb2
        exact h.no_overlap hb1.1 hb2.1
      · rw [st.target_empty h] at hb1
        exact Bool.noConfusion hb1
    · rcases h2 with ⟨hb2, _⟩ | ⟨rfl, rfl, _⟩
      · rw [st.target_empty h] at hb2
        exact Bool.noConfusion hb2
      · exact ⟨rfl, rfl⟩
  unfold State.board_made at h1 h2
  rw [State.testBit_board_castled hw3] at h1 h2
  simp only [Bool.or_eq_true, Bool.and_eq_true, Bool.not_eq_true', decide_eq_true_eq,
    decide_eq_false_iff_not] at h1 h2
  have empty : ∀ {c : Color} {q : Piece} {i : Nat},
      ((m.type = MoveType.castle_kingside ∧ i = squares.f1) ∨
        (m.type = MoveType.castle_queenside ∧ i = squares.d1)) →
      (State.board_moved (State.board_captured s.board captured) m piece c q).testBit i =
        false := by
    intro c q i hi
    rw [State.testBit_board_moved hw1, State.testBit_board_captured h.word]
    rcases hi with ⟨hk, rfl⟩ | ⟨hk, rfl⟩
    · obtain ⟨_, _, htgt, _, hpass, _⟩ := st.castle_kingside hk
      rw [hpass, htgt]
      simp [squares.f1, squares.g1]
    · obtain ⟨_, _, htgt, _, hpass, _⟩ := st.castle_queenside hk
      rw [hpass, htgt]
      simp [squares.d1, squares.c1]
  rcases h1 with ⟨hb1, _⟩ | ⟨rfl, rfl, hi1⟩
  · rcases h2 with ⟨hb2, _⟩ | ⟨rfl, rfl, hi2⟩
    · exact key hb1 hb2
    · rw [empty hi2] at hb1
      exact Bool.noConfusion hb1
  · rcases h2 with ⟨hb2, _⟩ | ⟨rfl, rfl, _⟩
    · rw [empty hi1] at hb2
      exact Bool.noConfusion hb2
    · exact ⟨rfl, rfl⟩

/-- The white king after the move: where it was, or on the target if it moved. -/
theorem white_king_made (st : Step s m piece captured) (h : Good s) :
    (piece ≠ Piece.king ∧
      s.board_made m piece captured Color.white Piece.king = s.board Color.white Piece.king) ∨
    (piece = Piece.king ∧
      s.board_made m piece captured Color.white Piece.king = squares.bitboard m.target) := by
  by_cases hk : piece = Piece.king
  · refine Or.inr ⟨hk, ?_⟩
    have hprom : m.promotion = none := st.castle_king hk
    have hsrc := st.source_piece
    rw [hk] at hsrc
    rcases h.kings Color.white with h0 | ⟨k, _, hk'⟩
    · rw [h0, Nat.zero_testBit] at hsrc; exact Bool.noConfusion hsrc
    · rw [hk', squares.testBit_bitboard, decide_eq_true_eq] at hsrc
      apply Nat.eq_of_testBit_eq
      intro i
      rw [testBit_made h, hk', hit_white, hk, hprom, squares.testBit_bitboard,
        squares.testBit_bitboard, hsrc]
      by_cases hi : i = m.target
      · subst hi; simp
      · have hi' : ¬ m.target = i := fun e => hi e.symm
        by_cases hs : m.source = i
        · subst hs; simp [hi', st.ne]
        · simp [hi, hi', hs]
  · refine Or.inl ⟨hk, ?_⟩
    have hpl := st.placed_ne_king hk
    apply Nat.eq_of_testBit_eq
    intro i
    rw [testBit_made h, hit_white]
    have e1 : ¬ Piece.king = piece := fun e => hk e.symm
    have e2 : ¬ Piece.king = m.promotion.getD piece := fun e => hpl e.symm
    simp [e1, e2]

/-- The black king after the move: where it was, or captured. -/
theorem black_king_made (st : Step s m piece captured) (h : Good s) :
    s.board_made m piece captured Color.black Piece.king = s.board Color.black Piece.king ∨
    s.board_made m piece captured Color.black Piece.king = 0 := by
  have hf : ∀ i, (s.board_made m piece captured Color.black Piece.king).testBit i =
      ((s.board Color.black Piece.king).testBit i &&
        !State.hit captured Color.black Piece.king i) := by
    intro i
    rw [testBit_made h]
    simp
  cases captured with
  | none =>
    refine Or.inl ?_
    apply Nat.eq_of_testBit_eq
    intro i
    rw [hf]
    simp [State.hit]
  | some cc =>
    by_cases hk : cc.1 = Piece.king
    · refine Or.inr ?_
      have hcp := (st.captured_piece cc rfl).1
      rw [hk] at hcp
      rcases h.kings Color.black with h0 | ⟨k, _, hk'⟩
      · rw [h0, Nat.zero_testBit] at hcp; exact Bool.noConfusion hcp
      · rw [hk', squares.testBit_bitboard, decide_eq_true_eq] at hcp
        apply Nat.eq_of_testBit_eq
        intro i
        rw [hf, hk', squares.testBit_bitboard, Nat.zero_testBit, hcp]
        by_cases hi : cc.2 = i
        · simp [State.hit, hk, hi]
        · simp [hi]
    · refine Or.inl ?_
      apply Nat.eq_of_testBit_eq
      intro i
      rw [hf]
      have : ¬ Piece.king = cc.1 := fun e => hk e.symm
      simp [State.hit, this]

/-- A white rook on its corner stays there unless it moves. -/
theorem white_rook_made (st : Step s m piece captured) (h : Good s) {corner : Nat}
    (hk : piece ≠ Piece.king) (hr : ¬ (piece = Piece.rook ∧ m.source = corner))
    (hc : (s.board Color.white Piece.rook).testBit corner = true) :
    (s.board_made m piece captured Color.white Piece.rook).testBit corner = true := by
  obtain ⟨hn1, hn2⟩ := st.not_castle hk
  rw [testBit_made h, hc, hit_white]
  have e : ¬ (Piece.rook = piece ∧ corner = m.source) := fun ⟨e1, e2⟩ => hr ⟨e1.symm, e2.symm⟩
  simp [hn1, hn2, e]

/-- A black rook on its corner stays there unless it is captured. -/
theorem black_rook_made (st : Step s m piece captured) (h : Good s) {corner : Nat}
    (hr : ¬ (m.is_capture = true ∧ s.capture_square m piece = corner))
    (hc : (s.board Color.black Piece.rook).testBit corner = true) :
    (s.board_made m piece captured Color.black Piece.rook).testBit corner = true := by
  rw [testBit_made h, hc]
  have : State.hit captured Color.black Piece.rook corner = false := by
    cases captured with
    | none => rfl
    | some cc =>
      obtain ⟨_, h2, h3⟩ := st.captured_piece cc rfl
      have : ¬ corner = cc.2 := fun e => hr ⟨h3, by rw [← h2, e]⟩
      simp [State.hit, this]
  simp [this]

/-- The position after a move of white is good. -/
theorem good_made (st : Step s m piece captured) (h : Good s) :
    Good (s.made_white m piece captured) where
  word := word_made h
  disjoint := disjoint_of_no_overlap (fun _ _ _ _ _ h1 h2 => st.no_overlap_made h h1 h2)
  occupancy_eq := fun _ => rfl
  flat_eq := rfl
  attacks_eq := moves.all_attacks_eq _ _
  kings := by
    intro c
    cases c
    · rcases st.white_king_made h with ⟨_, e⟩ | ⟨_, e⟩
      · rw [show (s.made_white m piece captured).board Color.white Piece.king =
            s.board Color.white Piece.king from e]
        exact h.kings Color.white
      · exact Or.inr ⟨m.target, Move.target_lt m, e⟩
    · rcases st.black_king_made h with e | e
      · rw [show (s.made_white m piece captured).board Color.black Piece.king =
            s.board Color.black Piece.king from e]
        exact h.kings Color.black
      · exact Or.inl e
  kingside := by
    intro c hr
    cases c
    · simp only [State.made_white, State.rights_made, Bool.and_eq_true, Bool.not_eq_true',
        decide_eq_false_iff_not] at hr
      obtain ⟨⟨h1, h2⟩, h3⟩ := hr
      obtain ⟨hk, hrook⟩ := h.kingside Color.white h1
      rcases st.white_king_made h with ⟨_, e⟩ | ⟨e, _⟩
      · exact ⟨by rw [show (s.made_white m piece captured).board Color.white Piece.king =
                      s.board Color.white Piece.king from e]
                  exact hk, st.white_rook_made h h2 h3 hrook⟩
      · exact absurd e h2
    · simp only [State.made_white, State.rights_made, Bool.and_eq_true, Bool.not_eq_true',
        Bool.and_eq_false_iff, decide_eq_false_iff_not] at hr
      obtain ⟨h1, h2⟩ := hr
      obtain ⟨hk, hrook⟩ := h.kingside Color.black h1
      refine ⟨?_, st.black_rook_made h (fun ⟨e1, e2⟩ => ?_) hrook⟩
      · rcases st.black_king_made h with e | e
        · rw [show (s.made_white m piece captured).board Color.black Piece.king =
              s.board Color.black Piece.king from e]
          exact hk
        · exact Or.inl e
      · rcases h2 with h2 | h2
        · rw [e1] at h2; exact Bool.noConfusion h2
        · exact h2 e2
  queenside := by
    intro c hr
    cases c
    · simp only [State.made_white, State.rights_made, Bool.and_eq_true, Bool.not_eq_true',
        decide_eq_false_iff_not] at hr
      obtain ⟨⟨h1, h2⟩, h3⟩ := hr
      obtain ⟨hk, hrook⟩ := h.queenside Color.white h1
      rcases st.white_king_made h with ⟨_, e⟩ | ⟨e, _⟩
      · exact ⟨by rw [show (s.made_white m piece captured).board Color.white Piece.king =
                      s.board Color.white Piece.king from e]
                  exact hk, st.white_rook_made h h2 h3 hrook⟩
      · exact absurd e h2
    · simp only [State.made_white, State.rights_made, Bool.and_eq_true, Bool.not_eq_true',
        Bool.and_eq_false_iff, decide_eq_false_iff_not] at hr
      obtain ⟨h1, h2⟩ := hr
      obtain ⟨hk, hrook⟩ := h.queenside Color.black h1
      refine ⟨?_, st.black_rook_made h (fun ⟨e1, e2⟩ => ?_) hrook⟩
      · rcases st.black_king_made h with e | e
        · rw [show (s.made_white m piece captured).board Color.black Piece.king =
              s.board Color.black Piece.king from e]
          exact hk
        · exact Or.inl e
      · rcases h2 with h2 | h2
        · rw [e1] at h2; exact Bool.noConfusion h2
        · exact h2 e2
  en_passant := by
    by_cases hd : m.type = MoveType.double_push
    · obtain ⟨hp, h8, h16, htgt, hpass⟩ := st.double_push hd
      have hprom : m.promotion = none := by rw [Move.promotion_of_type hd]; rfl
      have hk : m.type ≠ MoveType.castle_kingside := by rw [hd]; decide
      have hq : m.type ≠ MoveType.castle_queenside := by rw [hd]; decide
      refine Or.inr ⟨m.source + 8, by simp [State.made_white, hd], ?_, ?_⟩
      · show (positions.occupancy_of (s.board_made m piece captured) Color.white |||
          positions.occupancy_of (s.board_made m piece captured) Color.black).testBit _ = false
        rw [Nat.testBit_or, Bool.or_eq_false_iff, positions.testBit_occupancy_of_false,
          positions.testBit_occupancy_of_false]
        have : ∀ c q, (s.board_made m piece captured c q).testBit (m.source + 8) = false := by
          intro c q
          rw [testBit_made h, hpass]
          have e : ¬ m.source + 8 = m.target := by omega
          simp [hk, hq, e]
        exact ⟨this _, this _⟩
      · show 16 ≤ m.source + 8 ∧ m.source + 8 < 24 ∧
          (s.board_made m piece captured Color.white Piece.pawn).testBit (m.source + 8 + 8) =
            true
        refine ⟨by omega, by omega, ?_⟩
        rw [testBit_made h, hprom, hp]
        have e : m.source + 8 + 8 = m.target := by omega
        simp [e]
    · exact Or.inl (by simp [State.made_white, hd])

end Step

/-! ## Good positions seen from the other side -/

theorem Color.other_other (c : Color) : c.other.other = c := by cases c <;> rfl

theorem positions.flip_apply (b : Board) (c : Color) (p : Piece) :
    positions.flip b c p = bitboard.flip_vertically (b c.other p) := by
  cases c <;> rfl

theorem positions.flip_involutive {b : Board} (hw : ∀ c p, b c p < 2 ^ 64) :
    positions.flip (positions.flip b) = b := by
  funext c p
  rw [positions.flip_apply, positions.flip_apply, Color.other_other,
    bitboard.flip_word_twice (hw c p)]

theorem positions.occupancy_of_flip (b : Board) (c : Color) :
    positions.occupancy_of (positions.flip b) c =
      bitboard.flip_vertically (positions.occupancy_of b c.other) := by
  simp only [positions.occupancy_of, positions.flip_apply, bitboard.flip_vertically_or]

theorem squares.flip_vertically_home (c : Color) :
    squares.flip_vertically (squares.king_home c.other) = squares.king_home c ∧
    squares.flip_vertically (squares.kingside_corner c) = squares.kingside_corner c.other ∧
    squares.flip_vertically (squares.queenside_corner c) = squares.queenside_corner c.other ∧
    squares.king_home c < 64 ∧ squares.kingside_corner c < 64 ∧
    squares.queenside_corner c < 64 := by
  cases c <;> decide

namespace Good

variable {s : State}

theorem ep_lt (h : Good s) : s.en_passant_square < 2 ^ 64 := by
  rcases h.en_passant with h0 | ⟨e, h1, _, h3⟩
  · rw [h0]; decide
  · rw [h1]
    apply squares.bitboard_lt
    cases hus : s.us <;> rw [hus] at h3 <;> simp only at h3 <;> omega

theorem occupancy_lt (h : Good s) (c : Color) : s.occupancy c < 2 ^ 64 := by
  rw [h.occupancy_eq]
  exact positions.occupancy_of_lt h.word c

theorem flat_lt (h : Good s) : s.flat_occupancy < 2 ^ 64 := by
  rw [h.flat_eq]
  exact lor_lt (h.occupancy_lt _) (h.occupancy_lt _)

theorem attacks_lt (h : Good s) : s.their_attacks < 2 ^ 64 := by
  have ha := h.attacks_eq
  cases hus : s.us
  · rw [hus] at ha
    simp only [Color.other, State.attacks_of, moves.black_attacks_eq, Option.some.injEq] at ha
    rw [← ha]
    exact bitboard.flip_word_lt _
  · rw [hus] at ha
    simp only [Color.other, State.attacks_of, moves.all_attacks_eq, Option.some.injEq] at ha
    rw [← ha]
    exact moves.all_attacks_val_lt _ _ (h.word Color.white)

/-- Flipping a good position twice gives it back. -/
theorem flip_twice (h : Good s) : s.flip_vertically.flip_vertically = s := by
  cases s with
  | mk b o f u e r a hh =>
    have e1 : positions.flip (positions.flip b) = b := positions.flip_involutive h.word
    have e2 : (fun c => bitboard.flip_vertically (bitboard.flip_vertically (o c))) = o :=
      funext (fun c => bitboard.flip_word_twice (h.occupancy_lt c))
    have e3 : bitboard.flip_vertically (bitboard.flip_vertically f) = f :=
      bitboard.flip_word_twice h.flat_lt
    have e4 : bitboard.flip_vertically (bitboard.flip_vertically e) = e :=
      bitboard.flip_word_twice h.ep_lt
    have e5 : bitboard.flip_vertically (bitboard.flip_vertically a) = a :=
      bitboard.flip_word_twice h.attacks_lt
    simp only [State.flip_vertically, Color.other_other]
    rw [e1, e2, e3, e4, e5]

/-- The flipped position is good. -/
theorem flip (h : Good s) : Good s.flip_vertically where
  word := fun c p => by
    show positions.flip s.board c p < 2 ^ 64
    rw [positions.flip_apply]
    exact bitboard.flip_word_lt _
  disjoint := by
    intro c p c' p' hne
    show positions.flip s.board c p &&& positions.flip s.board c' p' = 0
    rw [positions.flip_apply, positions.flip_apply, ← bitboard.flip_vertically_and,
      h.disjoint, bitboard.flip_vertically_zero]
    rcases hne with hne | hne
    · exact Or.inl (by cases c <;> cases c' <;> simp_all [Color.other])
    · exact Or.inr hne
  occupancy_eq := by
    intro c
    show bitboard.flip_vertically (s.occupancy c.other) =
      positions.occupancy_of (positions.flip s.board) c
    rw [positions.occupancy_of_flip, h.occupancy_eq]
  flat_eq := by
    show bitboard.flip_vertically s.flat_occupancy =
      bitboard.flip_vertically (s.occupancy Color.white.other) |||
        bitboard.flip_vertically (s.occupancy Color.black.other)
    rw [h.flat_eq, bitboard.flip_vertically_or, Nat.lor_comm]
    rfl
  attacks_eq := by
    have ha := h.attacks_eq
    show State.attacks_of s.us.other.other (bitboard.flip_vertically s.flat_occupancy)
      (positions.flip s.board) = some (bitboard.flip_vertically s.their_attacks)
    rw [Color.other_other]
    cases hus : s.us
    · rw [hus] at ha
      simp only [Color.other, State.attacks_of, moves.black_attacks_eq,
        Option.some.injEq] at ha
      simp only [State.attacks_of, moves.all_attacks_eq, Option.some.injEq]
      rw [← ha]
      have hw : moves.all_attacks_val (bitboard.flip_vertically s.flat_occupancy)
          (positions.flip s.board) < 2 ^ 64 :=
        moves.all_attacks_val_lt _ _ (fun p => by
          rw [positions.flip_apply]; exact bitboard.flip_word_lt _)
      exact (bitboard.flip_word_twice hw).symm
    · rw [hus] at ha
      simp only [Color.other, State.attacks_of, moves.all_attacks_eq, Option.some.injEq] at ha
      simp only [State.attacks_of, moves.black_attacks_eq, Option.some.injEq]
      rw [← ha]
      show bitboard.flip_vertically (moves.all_attacks_val
        (bitboard.flip_vertically (bitboard.flip_vertically s.flat_occupancy))
        (positions.flip (positions.flip s.board))) = _
      rw [bitboard.flip_word_twice h.flat_lt, positions.flip_involutive h.word]
  kings := by
    intro c
    show positions.flip s.board c Piece.king = 0 ∨
      ∃ k, k < 64 ∧ positions.flip s.board c Piece.king = squares.bitboard k
    rw [positions.flip_apply]
    rcases h.kings c.other with h0 | ⟨k, hk, hk'⟩
    · exact Or.inl (by rw [h0, bitboard.flip_vertically_zero])
    · exact Or.inr ⟨squares.flip_vertically k, squares.flip_index_lt hk, by
        rw [hk', bitboard.flip_vertically_bitboard hk]⟩
  kingside := by
    intro c hr
    obtain ⟨hk, hrook⟩ := h.kingside c.other hr
    obtain ⟨e1, e2, _, l1, l2, _⟩ := squares.flip_vertically_home c
    obtain ⟨_, _, _, l1', _, _⟩ := squares.flip_vertically_home c.other
    show (positions.flip s.board c Piece.king = 0 ∨ positions.flip s.board c Piece.king = _) ∧
      (positions.flip s.board c Piece.rook).testBit _ = true
    rw [positions.flip_apply, positions.flip_apply]
    refine ⟨?_, ?_⟩
    · rcases hk with h0 | h1
      · exact Or.inl (by rw [h0, bitboard.flip_vertically_zero])
      · exact Or.inr (by rw [h1, bitboard.flip_vertically_bitboard l1', e1])
    · rw [bitboard.testBit_flip_vertically, e2, hrook]
      simp [l2]
  queenside := by
    intro c hr
    obtain ⟨hk, hrook⟩ := h.queenside c.other hr
    obtain ⟨e1, _, e3, l1, _, l3⟩ := squares.flip_vertically_home c
    obtain ⟨_, _, _, l1', _, _⟩ := squares.flip_vertically_home c.other
    show (positions.flip s.board c Piece.king = 0 ∨ positions.flip s.board c Piece.king = _) ∧
      (positions.flip s.board c Piece.rook).testBit _ = true
    rw [positions.flip_apply, positions.flip_apply]
    refine ⟨?_, ?_⟩
    · rcases hk with h0 | h1
      · exact Or.inl (by rw [h0, bitboard.flip_vertically_zero])
      · exact Or.inr (by rw [h1, bitboard.flip_vertically_bitboard l1', e1])
    · rw [bitboard.testBit_flip_vertically, e3, hrook]
      simp [l3]
  en_passant := by
    show bitboard.flip_vertically s.en_passant_square = 0 ∨
      ∃ e, bitboard.flip_vertically s.en_passant_square = squares.bitboard e ∧
        (bitboard.flip_vertically s.flat_occupancy).testBit e = false ∧
        match s.us.other with
        | Color.white => 40 ≤ e ∧ e < 48 ∧
          (positions.flip s.board Color.black Piece.pawn).testBit (e - 8) = true
        | Color.black => 16 ≤ e ∧ e < 24 ∧
          (positions.flip s.board Color.white Piece.pawn).testBit (e + 8) = true
    rcases h.en_passant with h0 | ⟨e, h1, h2, h3⟩
    · exact Or.inl (by rw [h0, bitboard.flip_vertically_zero])
    · refine Or.inr ⟨squares.flip_vertically e, ?_, ?_, ?_⟩
      · rw [h1]
        apply bitboard.flip_vertically_bitboard
        cases hus : s.us <;> rw [hus] at h3 <;> simp only at h3 <;> omega
      · have he : e < 64 := by
          cases hus : s.us <;> rw [hus] at h3 <;> simp only at h3 <;> omega
        rw [bitboard.testBit_flip_vertically, squares.flip_index_twice he, h2]
        simp
      · cases hus : s.us
        · rw [hus] at h3
          simp only at h3
          obtain ⟨h40, h48, hp⟩ := h3
          show 16 ≤ squares.flip_vertically e ∧ squares.flip_vertically e < 24 ∧
            (positions.flip s.board Color.white Piece.pawn).testBit
              (squares.flip_vertically e + 8) = true
          rw [positions.flip_apply, bitboard.testBit_flip_vertically]
          have e1 : squares.flip_vertically (squares.flip_vertically e + 8) = e - 8 := by
            unfold squares.flip_vertically; omega
          have e2 : squares.flip_vertically e + 8 < 64 := by
            unfold squares.flip_vertically; omega
          rw [e1]
          refine ⟨by unfold squares.flip_vertically; omega,
            by unfold squares.flip_vertically; omega, ?_⟩
          simp [e2, Color.other, hp]
        · rw [hus] at h3
          simp only at h3
          obtain ⟨h16, h24, hp⟩ := h3
          show 40 ≤ squares.flip_vertically e ∧ squares.flip_vertically e < 48 ∧
            (positions.flip s.board Color.black Piece.pawn).testBit
              (squares.flip_vertically e - 8) = true
          rw [positions.flip_apply, bitboard.testBit_flip_vertically]
          have e1 : squares.flip_vertically (squares.flip_vertically e - 8) = e + 8 := by
            unfold squares.flip_vertically; omega
          have e2 : squares.flip_vertically e - 8 < 64 := by
            unfold squares.flip_vertically; omega
          rw [e1]
          refine ⟨by unfold squares.flip_vertically; omega,
            by unfold squares.flip_vertically; omega, ?_⟩
          simp [e2, Color.other, hp]

/-- The hash plays no part in the invariant. -/
theorem rehash (h : Good s)
    (zobrist : Board → Color → Bitboard → (Color → CastlingRights) → Nat) :
    Good (s.rehash zobrist) :=
  ⟨h.word, h.disjoint, h.occupancy_eq, h.flat_eq, h.attacks_eq, h.kings, h.kingside,
    h.queenside, h.en_passant⟩

end Good

/-! ## Making and unmaking generated moves, for both colours -/

namespace State

/-- The generated list of white: no assertion fails, and every move is one of
`moves::all_moves`, generated while white has a king. -/
theorem mem_moves_white (s : State) :
    ∃ ms, s.moves_white = some ms ∧ ∀ m ∈ ms, s.board Color.white Piece.king ≠ 0 ∧
      m ∈ moves.all_moves_list s.board s.occupancy s.en_passant_square
        (s.castling_rights Color.white).kingside (s.castling_rights Color.white).queenside := by
  unfold moves_white
  by_cases hk : s.board Color.white Piece.king = 0
  · exact ⟨[], by rw [if_pos hk], fun m hm => absurd hm (List.not_mem_nil m)⟩
  · have e := moves.all_moves_appends s.board s.occupancy s.en_passant_square
      (s.castling_rights Color.white).kingside (s.castling_rights Color.white).queenside []
    rw [List.nil_append] at e
    have e' : moves.all_moves [] s.board s.occupancy s.en_passant_square
        (s.castling_rights Color.white).kingside (s.castling_rights Color.white).queenside =
        some (moves.all_moves_list s.board s.occupancy s.en_passant_square
          (s.castling_rights Color.white).kingside (s.castling_rights Color.white).queenside) :=
      e
    rw [if_neg hk]
    simp only [Option.bind_eq_bind, Option.pure_def]
    rw [e', moves.all_attacks_eq]
    simp only [Option.some_bind]
    split
    · exact ⟨_, rfl, fun m hm => ⟨hk, (List.mem_filter.mp hm).1⟩⟩
    · exact ⟨_, rfl, fun m hm => ⟨hk, hm⟩⟩

end State

/-- Flipping the undo record of a move of white twice gives it back. -/
theorem Undo.flip_flip_white {s : State} {m : Move} {piece : Piece}
    {captured : Option (Piece × Nat)} (h : Good s) (st : Step s m piece captured)
    (hw : m.move < 2 ^ 16) :
    (s.undo_white m captured).flip_vertically.flip_vertically = s.undo_white m captured := by
  have e1 : m.flip_vertically.flip_vertically = m := Move.flip_move_twice hw
  have e2 : (fun c => s.castling_rights c.other.other) = s.castling_rights := by
    funext c; rw [Color.other_other]
  have e3 := bitboard.flip_word_twice h.ep_lt
  have e4 : (captured.map (fun c => (c.1, squares.flip_vertically c.2))).map
      (fun c => (c.1, squares.flip_vertically c.2)) = captured := by
    cases captured with
    | none => rfl
    | some cc =>
      have hlt : cc.2 < 64 :=
        moves.testBit_lt_of_word (h.word _ _) (st.captured_piece cc rfl).1
      simp only [Option.map_some']
      rw [squares.flip_index_twice hlt]
  simp only [Undo.flip_vertically, State.undo_white]
  rw [e1, e2, e3, e4]

theorem positions.initial_homes :
    positions.initial Color.white Piece.king = squares.bitboard squares.e1 ∧
    positions.initial Color.black Piece.king = squares.bitboard squares.e8 ∧
    (positions.initial Color.white Piece.rook).testBit squares.h1 = true ∧
    (positions.initial Color.black Piece.rook).testBit squares.h8 = true ∧
    (positions.initial Color.white Piece.rook).testBit squares.a1 = true ∧
    (positions.initial Color.black Piece.rook).testBit squares.a8 = true := by decide

namespace Good

variable {s : State}

/-- Making a generated move of white, and unmaking it. -/
theorem make_white (h : Good s) (hus : s.us = Color.white) {ms : List Move}
    (hms : s.moves_white = some ms) {m : Move} (hm : m ∈ ms) :
    ∃ piece captured, Step s m piece captured ∧ m.move < 2 ^ 16 ∧
      s.make_white m = some (s.undo_white m captured, s.made_white m piece captured) := by
  obtain ⟨ms', hms', hall⟩ := s.mem_moves_white
  rw [hms] at hms'
  cases hms'
  obtain ⟨hk, hmem⟩ := hall m hm
  obtain ⟨piece, hwm⟩ := h.white_move hus hk hmem
  obtain ⟨captured, st, hc⟩ := hwm.to_step h
  exact ⟨piece, captured, st, hwm.word,
    State.make_white_eq (piece_at_eq_some_of_disjoint h.disjoint hwm.source_piece) hc⟩

/-- Making a generated move in a good position succeeds and gives a good position, and
unmaking it gives back the position. -/
theorem make_move (h : Good s)
    (zobrist : Board → Color → Bitboard → (Color → CastlingRights) → Nat) {ms : List Move}
    (hms : s.moves = some ms) {m : Move} (hm : m ∈ ms) :
    ∃ u s', s.make_move zobrist m = some (u, s') ∧ Good s' ∧ s'.unmake_move u = some s := by
  cases hus : s.us
  · -- white to move
    have hms' : s.moves_white = some ms := by
      unfold State.moves at hms; rw [hus] at hms; exact hms
    obtain ⟨piece, captured, st, _, hmk⟩ := h.make_white hus hms' hm
    refine ⟨s.undo_white m captured, (s.made_white m piece captured).rehash zobrist, ?_,
      (st.good_made h).rehash zobrist, ?_⟩
    · unfold State.make_move
      rw [hus]
      simp only [hmk, Option.map_some']
    · show State.unmake_move _ _ = _
      unfold State.unmake_move
      exact st.unmake_white h hus rfl
  · -- black to move: the same on the flipped position
    have hf := h.flip
    have husf : s.flip_vertically.us = Color.white := by
      show s.us.other = _
      rw [hus]; rfl
    have hms' : s.flip_vertically.moves_white.map (List.map Move.flip_vertically) =
        some ms := by
      unfold State.moves at hms; rw [hus] at hms; exact hms
    obtain ⟨ms', hms1, hms2⟩ := Option.map_eq_some'.mp hms'
    subst hms2
    obtain ⟨m', hm', rfl⟩ := List.mem_map.mp hm
    obtain ⟨piece, captured, st, hw, hmk⟩ := hf.make_white husf hms1 hm'
    have hgm := st.good_made hf
    refine ⟨(s.flip_vertically.undo_white m' captured).flip_vertically,
      ((s.flip_vertically.made_white m' piece captured).flip_vertically).rehash zobrist, ?_,
      hgm.flip.rehash zobrist, ?_⟩
    · unfold State.make_move
      rw [hus]
      simp only [Move.flip_move_twice hw, hmk, Option.map_some']
    · have hb : (((s.flip_vertically.made_white m' piece captured).flip_vertically).rehash
          zobrist).flip_vertically.board =
            s.flip_vertically.board_made m' piece captured :=
        positions.flip_involutive hgm.word
      have hu := st.unmake_white hf husf hb
      unfold State.unmake_move
      show Option.map State.flip_vertically
        (State.unmake_white _
          (s.flip_vertically.undo_white m' captured).flip_vertically.flip_vertically) = _
      rw [Undo.flip_flip_white hf st hw, hu, Option.map_some', h.flip_twice]

/-- The move list of a position is generated without failing an assertion. -/
theorem moves_some (s : State) : ∃ ms, s.moves = some ms := by
  unfold State.moves
  cases s.us
  · obtain ⟨ms, hms, _⟩ := s.mem_moves_white
    exact ⟨ms, hms⟩
  · obtain ⟨ms, hms, _⟩ := s.flip_vertically.mem_moves_white
    exact ⟨ms.map Move.flip_vertically, by simp only [hms, Option.map_some']⟩

/-- The initial position is good. -/
theorem initial (zobrist : Board → Color → Bitboard → (Color → CastlingRights) → Nat) :
    Good (State.initial zobrist) where
  word := positions.initial_consistent.word
  disjoint := positions.initial_consistent.disjoint
  occupancy_eq := fun _ => rfl
  flat_eq := rfl
  attacks_eq := moves.black_attacks_eq _ _
  kings := by
    intro c
    cases c
    · exact Or.inr ⟨squares.e1, by decide, positions.initial_homes.1⟩
    · exact Or.inr ⟨squares.e8, by decide, positions.initial_homes.2.1⟩
  kingside := by
    intro c _
    cases c
    · exact ⟨Or.inr positions.initial_homes.1, positions.initial_homes.2.2.1⟩
    · exact ⟨Or.inr positions.initial_homes.2.1, positions.initial_homes.2.2.2.1⟩
  queenside := by
    intro c _
    cases c
    · exact ⟨Or.inr positions.initial_homes.1, positions.initial_homes.2.2.2.2.1⟩
    · exact ⟨Or.inr positions.initial_homes.2.1, positions.initial_homes.2.2.2.2.2⟩
  en_passant := Or.inl rfl

/-- The occupancies of a good position are disjoint. -/
theorem occupancy_disjoint (h : Good s) :
    s.occupancy Color.white &&& s.occupancy Color.black = 0 := by
  rw [land_eq_zero_iff]
  intro i hi
  by_contra hc
  obtain ⟨p, hp⟩ := (h.testBit_occupancy _ _).mp hi
  obtain ⟨q, hq⟩ := (h.testBit_occupancy _ _).mp (by simpa using hc)
  exact absurd (h.no_overlap hq hp).1 (by decide)

end Good

/-- Every reachable position is good. -/
theorem Reachable.good {zobrist : Board → Color → Bitboard → (Color → CastlingRights) → Nat}
    {s : State} (hr : Reachable zobrist s) : Good s := by
  induction hr with
  | initial => exact Good.initial zobrist
  | make_move _ hms hm hmk ih =>
    obtain ⟨u, s', h1, h2, _⟩ := ih.make_move zobrist hms hm
    rw [hmk] at h1
    cases h1
    exact h2

/-- C18: for every state reachable from the initial position, the move list is generated
(no assertion fails), and for every move `m` of it `make_move` succeeds and `unmake_move`
with the returned undo record gives back the state before the move: board, occupancies, side
to move, castling rights, en-passant square, cached attacks and hash. -/
theorem make_unmake_round_trip
    (zobrist : Board → Color → Bitboard → (Color → CastlingRights) → Nat) (s : State)
    (hr : Reachable zobrist s) :
    ∃ ms, s.moves = some ms ∧
      ∀ m ∈ ms, ∃ u s', s.make_move zobrist m = some (u, s') ∧ s'.unmake_move u = some s := by
  obtain ⟨ms, hms⟩ := Good.moves_some s
  refine ⟨ms, hms, fun m hm => ?_⟩
  obtain ⟨u, s', h1, _, h3⟩ := hr.good.make_move zobrist hms hm
  exact ⟨u, s', h1, h3⟩

/-- C19: every state reached from the initial position by making generated moves is
consistent: each occupancy is the union of its colour's piece bitboards, the flat occupancy
is the union of both, the two occupancies are disjoint, and `their_attacks` is the freshly
recomputed set of attacks of the opponent of the side to move. -/
theorem reachable_consistent
    (zobrist : Board → Color → Bitboard → (Color → CastlingRights) → Nat) (s : State)
    (hr : Reachable zobrist s) : s.require_consistent :=
  ⟨hr.good.occupancy_eq, hr.good.flat_eq, hr.good.occupancy_disjoint, hr.good.attacks_eq⟩

/-- The pawn move e2-e4 is generated in the initial position. -/
theorem State.initial_moves_e4 :
    ∃ ms, (State.initial (fun _ _ _ _ => 0)).moves = some ms ∧
      Move.pack squares.e2 squares.e4 MoveType.double_push ∈ ms := by
  have h : ((State.initial (fun _ _ _ _ => 0)).moves.map (fun ms =>
      decide (Move.pack squares.e2 squares.e4 MoveType.double_push ∈ ms))) = some true := by
    decide!
  obtain ⟨ms, hms, hm⟩ := Option.map_eq_some'.mp h
  exact ⟨ms, hms, of_decide_eq_true hm⟩

/-- Witness of C18: the initial position, in which e2-e4 is generated, made and unmade. -/
theorem make_unmake_round_trip_witness :
    Reachable (fun _ _ _ _ => 0) (State.initial (fun _ _ _ _ => 0)) ∧
    ∃ ms, (State.initial (fun _ _ _ _ => 0)).moves = some ms ∧
      Move.pack squares.e2 squares.e4 MoveType.double_push ∈ ms ∧
      ∀ m ∈ ms, ∃ u s', (State.initial (fun _ _ _ _ => 0)).make_move (fun _ _ _ _ => 0) m =
          some (u, s') ∧
        s'.unmake_move u = some (State.initial (fun _ _ _ _ => 0)) := by
  refine ⟨Reachable.initial, ?_⟩
  obtain ⟨ms, hms, hall⟩ := make_unmake_round_trip (fun _ _ _ _ => 0)
    (State.initial (fun _ _ _ _ => 0)) Reachable.initial
  obtain ⟨ms', hms', hm⟩ := State.initial_moves_e4
  rw [hms] at hms'
  cases hms'
  exact ⟨ms, hms, hm, hall⟩

/-- Witness of C19: the position after e2-e4 from the initial position. -/
theorem reachable_consistent_witness :
    ∃ u s, (State.initial (fun _ _ _ _ => 0)).make_move (fun _ _ _ _ => 0)
        (Move.pack squares.e2 squares.e4 MoveType.double_push) = some (u, s) ∧
      Reachable (fun _ _ _ _ => 0) s ∧ s.require_consistent := by
  obtain ⟨ms, hms, hm⟩ := State.initial_moves_e4
  obtain ⟨u, s, h1, _, _⟩ := (Good.initial (fun _ _ _ _ => 0)).make_move (fun _ _ _ _ => 0)
    hms hm
  have hr : Reachable (fun _ _ _ _ => 0) s := Reachable.make_move Reachable.initial hms hm h1
  exact ⟨u, s, h1, hr, reachable_consistent (fun _ _ _ _ => 0) s hr⟩

/-! ## Names of the move kinds -/

theorem Move.typename_of_eq_some {type : MoveType} {name : String}
    (h : Move.typename_of type = some name) : Move.typename_from_type type = Except.ok name := by
  unfold Move.typename_of at h
  split at h
  · next n hn => rw [hn]; cases h; rfl
  · cases h

theorem Move.typename_of_eq_none {type : MoveType} (h : Move.typename_of type = none) :
    ∃ e, Move.typename_from_type type = Except.error e := by
  unfold Move.typename_of at h
  split at h
  · cases h
  · next e he => exact ⟨e, he⟩

/-- C25: `Move::typename_from_type` returns a name for each of the 13 defined move types, the
13 names are pairwise distinct, and for every other value of the 4-bit type field (13, 14
and 15) it throws `invalid_argument` and returns no name. -/
theorem typename_from_type_total :
    (∀ type ∈ MoveType.values, ∃ name, Move.typename_from_type type = Except.ok name) ∧
    (MoveType.values.map Move.typename_of).Nodup ∧
    MoveType.values.length = 13 ∧
    (∀ type, type < 16 → type ∉ MoveType.values →
      ∃ e, Move.typename_from_type type = Except.error e) ∧
    Move.typename_from_type 13 = Except.error ⟨"undefined move type: 0xd"⟩ := by
  refine ⟨?_, by decide, rfl, ?_, rfl⟩
  · intro type h
    have : ∀ type ∈ MoveType.values, (Move.typename_of type).isSome = true := by decide
    obtain ⟨name, hn⟩ := Option.isSome_iff_exists.mp (this type h)
    exact ⟨name, Move.typename_of_eq_some hn⟩
  · intro type h16 hn
    have : ∀ type, type < 16 → type ∉ MoveType.values → Move.typename_of type = none :=
      forall_below (by decide)
    exact Move.typename_of_eq_none (this type h16 hn)

/-! ## The square constants -/

/-- C26: each of the 64 named square constants a1 .. h8 is the index `file + 8 * rank` (file
a..h as 0..7, rank 1..8 as 0..7), the bitboard of a square is the single bit `1 << index`,
and so a1 = 0x1, e4 = 0x0000000010000000, h8 = 0x8000000000000000 and
d4 | e4 | f4 | c5 = 0x0000000438000000. -/
theorem square_constants :
    (∀ file rank, file < 8 → rank < 8 → squares.constant file rank = file + 8 * rank) ∧
    (∀ i j, (squares.bitboard i).testBit j = decide (i = j)) ∧
    (∀ i, squares.bitboard i = 2 ^ i) ∧
    squares.bitboard squares.a1 = 0x1 ∧
    squares.bitboard squares.e4 = 0x0000000010000000 ∧
    squares.bitboard squares.h8 = 0x8000000000000000 ∧
    squares.bitboard squares.d4 ||| squares.bitboard squares.e4 |||
      squares.bitboard squares.f4 ||| squares.bitboard squares.c5 = 0x0000000438000000 := by
  refine ⟨?_, squares.testBit_bitboard, fun i => Nat.one_shiftLeft i, by decide, by decide,
    by decide, by decide⟩
  have h : ∀ file, file < 8 → ∀ rank, rank < 8 →
      squares.constant file rank = file + 8 * rank :=
    forall_below (by decide)
  exact fun file rank hf hr => h file hf rank hr

/-! ## Sliding along a line: the arguments that do not matter -/

theorem land_complement_idem (m p : Nat) :
    m &&& bitboard.complement p &&& bitboard.complement p = m &&& bitboard.complement p := by
  apply Nat.eq_of_testBit_eq
  intro i
  simp only [Nat.testBit_and]
  cases m.testBit i <;> cases (bitboard.complement p).testBit i <;> rfl

/-- The function `slides` removes the piece from the mobility itself. -/
theorem moves.slides_mobility_without (occupancy piece mobility : Nat) :
    moves.slides occupancy piece (mobility &&& bitboard.complement piece) =
      moves.slides occupancy piece mobility := by
  simp only [moves.slides, land_complement_idem]

/-- The function `slides` does not look at the occupancy of the piece's own squares. -/
theorem moves.slides_occupancy_congr {occupancy occupancy' piece : Nat} (mobility : Nat)
    (h : occupancy &&& bitboard.complement piece = occupancy' &&& bitboard.complement piece) :
    moves.slides occupancy piece mobility = moves.slides occupancy' piece mobility := by
  rw [moves.slides_restrict occupancy, moves.slides_restrict occupancy']
  congr 1
  apply Nat.eq_of_testBit_eq
  intro i
  have := congrArg (fun x => Nat.testBit x i) h
  simp only [Nat.testBit_and] at this ⊢
  cases hm : mobility.testBit i
  · simp
  · simpa using this

theorem moves.testBit_slides_piece (occupancy piece mobility : Nat) {i : Nat}
    (h : piece.testBit i = true) : (moves.slides occupancy piece mobility).testBit i = false := by
  simp only [moves.slides, Nat.testBit_and, bitboard.testBit_complement, h]
  simp

theorem land_complement_lor (occupancy piece : Nat) :
    (occupancy ||| piece) &&& bitboard.complement piece =
      occupancy &&& bitboard.complement piece := by
  apply Nat.eq_of_testBit_eq
  intro i
  simp only [Nat.testBit_and, Nat.testBit_or, bitboard.testBit_complement]
  cases occupancy.testBit i <;> cases piece.testBit i <;> simp

/-- C27: for every square `s` and every occupancy, `moves::slides` of the single-bit bitboard
of `s` along the file, the diagonal or the antidiagonal through `s` (the mobility with or
without `s` itself) is exactly the set of squares of that line reached by walking from `s`
in both directions up to and including the first occupied square; `s` is not in it; and the
result is the same whether or not the occupancy contains `s`.  The three values of test
`rays_every_which_way` follow. -/
theorem slides_line (s : Nat) (hs : s < 64) (occupancy : Bitboard) :
    (∀ line df dr,
      ((line = files.by_square s ∧ df = 0 ∧ dr = 1) ∨
        (line = diagonals.by_square s ∧ df = 1 ∧ dr = -1) ∨
        (line = antidiagonals.by_square s ∧ df = 1 ∧ dr = 1)) →
      ∀ mobility,
        (mobility = line ∨ mobility = line &&& bitboard.complement (squares.bitboard s)) →
        ∀ occupancy',
          (occupancy' = occupancy ∨ occupancy' = occupancy ||| squares.bitboard s ∨
            occupancy' = occupancy &&& bitboard.complement (squares.bitboard s)) →
          moves.slides occupancy' (squares.bitboard s) mobility =
            spec.walk occupancy (spec.ray s df dr) |||
              spec.walk occupancy (spec.ray s (-df) (-dr)) ∧
          (moves.slides occupancy' (squares.bitboard s) mobility).testBit s = false) ∧
    moves.slides (squares.bitboard squares.f5) (squares.bitboard squares.f5)
        (diagonals.by_square squares.f5 &&& bitboard.complement (squares.bitboard squares.f5)) =
      0x0408100040800000 ∧
    moves.slides (squares.bitboard squares.f5) (squares.bitboard squares.f5)
        (antidiagonals.by_square squares.f5 &&&
          bitboard.complement (squares.bitboard squares.f5)) =
      0x0080400010080402 ∧
    moves.slides (squares.bitboard squares.c3) (squares.bitboard squares.c3)
        (files.by_square squares.c3 &&& bitboard.complement (squares.bitboard squares.c3)) =
      0x0404040404000404 := by
  refine ⟨?_, by decide!, by decide!, by decide!⟩
  intro line df dr hline mobility hmob occupancy' hocc
  refine ⟨?_, moves.testBit_slides_piece _ _ _ (by simp)⟩
  have e1 : moves.slides occupancy' (squares.bitboard s) mobility =
      moves.slides occupancy (squares.bitboard s) line := by
    have e2 : moves.slides occupancy' (squares.bitboard s) mobility =
        moves.slides occupancy' (squares.bitboard s) line := by
      rcases hmob with rfl | rfl
      · rfl
      · exact moves.slides_mobility_without _ _ _
    rw [e2]
    apply moves.slides_occupancy_congr
    rcases hocc with rfl | rfl | rfl
    · rfl
    · exact land_complement_lor _ _
    · exact land_complement_idem _ _
  rw [e1]
  rcases hline with ⟨rfl, rfl, rfl⟩ | ⟨rfl, rfl, rfl⟩ | ⟨rfl, rfl, rfl⟩
  · exact moves.slides_file hs occupancy
  · exact moves.slides_diagonal hs occupancy
  · exact moves.slides_antidiagonal hs occupancy

/-- Witness of C27: the bishop on f5 of test `rays_every_which_way`, sliding along its
diagonal with itself as the only occupied square. -/
theorem slides_line_witness :
    squares.f5 < 64 ∧
    moves.slides (0 ||| squares.bitboard squares.f5) (squares.bitboard squares.f5)
        (diagonals.by_square squares.f5 &&& bitboard.complement (squares.bitboard squares.f5)) =
      spec.walk 0 (spec.ray squares.f5 1 (-1)) ||| spec.walk 0 (spec.ray squares.f5 (-1) (- -1)) :=
  ⟨by decide, ((slides_line squares.f5 (by decide) 0).1 (diagonals.by_square squares.f5) 1 (-1)
    (Or.inr (Or.inl ⟨rfl, rfl, rfl⟩)) _ (Or.inr rfl) _ (Or.inr (Or.inl rfl))).1⟩

/-- C28: for every square `s` and every occupancy, `moves::slides_rank` of the single-bit
bitboard of `s` along the rank of `s` fails no assertion and returns exactly the squares of
that rank reached by walking from `s` to the right and to the left up to and including the
first occupied square (`s` excluded); for a lone rook on c3 it is `0x0000000000fb0000`. -/
theorem slides_rank_line (s : Nat) (hs : s < 64) (occupancy : Bitboard) :
    (∀ rank : Rank, rank.index = s / 8 →
      moves.slides_rank occupancy (squares.bitboard s) rank =
        some (spec.walk occupancy (spec.ray s 1 0) ||| spec.walk occupancy (spec.ray s (-1) 0)) ∧
      (spec.walk occupancy (spec.ray s 1 0) |||
        spec.walk occupancy (spec.ray s (-1) 0)).testBit s = false) ∧
    moves.slides_rank (squares.bitboard squares.c3) (squares.bitboard squares.c3)
      (ranks.by_square squares.c3) = some 0x0000000000fb0000 := by
  refine ⟨?_, by decide!⟩
  intro rank hr
  have e : rank = ranks.by_square s := by
    cases rank
    simp only [ranks.by_square] at *
    exact congrArg _ hr
  subst e
  refine ⟨moves.slides_rank_walk hs occupancy, ?_⟩
  have hne : ∀ df dr : Int, (spec.walk occupancy (spec.ray s df dr)).testBit s = true →
      s ∈ spec.ray s df dr := fun df dr h => spec.testBit_walk h
  have hnot : ∀ s, s < 64 → (decide (s ∈ spec.ray s 1 0) || decide (s ∈ spec.ray s (-1) 0)) =
      false := forall_below (by decide)
  have := hnot s hs
  simp only [Bool.or_eq_false_iff, decide_eq_false_iff_not] at this
  rw [Nat.testBit_or, Bool.or_eq_false_iff]
  constructor
  · by_contra hc
    exact this.1 (hne 1 0 (by simpa using hc))
  · by_contra hc
    exact this.2 (hne (-1) 0 (by simpa using hc))

/-- Witness of C28: the rook on c3 of test `rays_every_which_way`. -/
theorem slides_rank_line_witness :
    squares.c3 < 64 ∧
    moves.slides_rank (squares.bitboard squares.c3) (squares.bitboard squares.c3) ⟨2⟩ =
      some (spec.walk (squares.bitboard squares.c3) (spec.ray squares.c3 1 0) |||
        spec.walk (squares.bitboard squares.c3) (spec.ray squares.c3 (-1) 0)) :=
  ⟨by decide, ((slides_rank_line squares.c3 (by decide) _).1 ⟨2⟩ rfl).1⟩

/-- C29: for every 64-bit occupancy and board, `moves::black_attacks` of the vertically
flipped occupancy and the mirrored board (every piece bitboard flipped vertically, the two
colours swapped) is the vertical flip of `moves::all_attacks` of the occupancy and the
board; neither fails an assertion. -/
theorem black_attacks_flip (occupancy : Bitboard) (board : Board) (ho : occupancy < 2 ^ 64)
    (hb : ∀ c p, board c p < 2 ^ 64) :
    ∃ attacks, moves.all_attacks occupancy board = some attacks ∧
      moves.black_attacks (bitboard.flip_vertically occupancy) (positions.flip board) =
        some (bitboard.flip_vertically attacks) := by
  refine ⟨_, moves.all_attacks_eq occupancy board, ?_⟩
  rw [moves.black_attacks_eq]
  show some (bitboard.flip_vertically (moves.all_attacks_val
    (bitboard.flip_vertically (bitboard.flip_vertically occupancy))
    (positions.flip (positions.flip board)))) = _
  rw [bitboard.flip_word_twice ho, positions.flip_involutive hb]

/-- Witness of C29: the starting position. -/
theorem black_attacks_flip_witness :
    (positions.occupancy_of positions.initial Color.white |||
      positions.occupancy_of positions.initial Color.black) < 2 ^ 64 ∧
    (∀ c p, positions.initial c p < 2 ^ 64) ∧
    ∃ attacks, moves.all_attacks
        (positions.occupancy_of positions.initial Color.white |||
          positions.occupancy_of positions.initial Color.black) positions.initial =
          some attacks ∧
      moves.black_attacks (bitboard.flip_vertically
        (positions.occupancy_of positions.initial Color.white |||
          positions.occupancy_of positions.initial Color.black))
        (positions.flip positions.initial) = some (bitboard.flip_vertically attacks) :=
  ⟨by decide, positions.initial_consistent.word,
    black_attacks_flip _ _ (by decide) positions.initial_consistent.word⟩

/-! ## Double pushes -/

theorem ranks.testBit_3 : ∀ t, t < 64 → ranks._3.testBit t = decide (16 ≤ t ∧ t < 24) :=
  forall_lt_64 (by decide!)

namespace moves
open bitboard directions

theorem word_pawn_moves {pawn us them ep : Bitboard} {m : Move}
    (h : m ∈ pawn_moves pawn us them ep) : m.move < 2 ^ 16 := by
  simp only [pawn_moves, List.mem_append, List.mem_flatMap] at h
  rcases h with ((((((h | ⟨_, _, h⟩) | h) | h) | ⟨_, _, h⟩) | h) | ⟨_, _, h⟩) <;>
    exact word_targets_moves h

/-- A pawn on rank 2 with two free squares in front of it has a double-push target. -/
theorem testBit_double_push_of {pawn us them s : Nat} (h8 : 8 ≤ s) (h16 : s < 16)
    (hp : pawn.testBit s = true) (hf : (us ||| them).testBit (s + 8) = false)
    (hf' : (us ||| them).testBit (s + 16) = false) :
    (double_push_targets pawn us them).testBit (s + 16) = true := by
  have h3 : ranks._3.testBit (s + 8) = true := by
    rw [ranks.testBit_3 _ (by omega), decide_eq_true_eq]; omega
  have e1 : s + 16 - 8 = s + 8 := by omega
  have e2 : s + 8 - 8 = s := by omega
  have l1 : s + 16 < 64 := by omega
  have l2 : s + 8 < 64 := by omega
  have g1 : 8 ≤ s + 16 := by omega
  have g2 : 8 ≤ s + 8 := by omega
  simp only [double_push_targets, single_push_targets, vertical, Nat.testBit_and, testBit_shl,
    testBit_complement, e1, e2, h3, hp, hf, hf', l1, l2, g1, g2, decide_True, Bool.not_false,
    Bool.and_self]

end moves

/-- C30: `moves::pawn` fails no assertion, and among the moves it appends, the double pushes
are exactly the moves from a square `s` of rank 2 that holds a pawn, with both `s + 8` and
`s + 16` unoccupied, to `s + 16`.  In the position of test `various_moves` these are a2-a4
and h2-h4, and not b2-b4, whose target holds a knight. -/
theorem pawn_double_push (ms : List Move) (pawn us them en_passant_square : Bitboard) :
    ∃ out, moves.pawn ms pawn us them en_passant_square = some (ms ++ out) ∧
      (∀ m, (m ∈ out ∧ m.type = MoveType.double_push) ↔
        ∃ s, 8 ≤ s ∧ s < 16 ∧ pawn.testBit s = true ∧
          (us ||| them).testBit (s + 8) = false ∧ (us ||| them).testBit (s + 16) = false ∧
          m = Move.pack s (s + 16) MoveType.double_push) ∧
      (∀ m ∈ out, m.type = MoveType.double_push →
        8 ≤ m.source ∧ m.source < 16 ∧ m.target = m.source + 16) ∧
      ∃ out', moves.pawn [] (positions.various Color.white Piece.pawn)
          (positions.occupancy_of positions.various Color.white)
          (positions.occupancy_of positions.various Color.black)
          (squares.bitboard squares.g6) = some out' ∧
        out'.filter (fun m => decide (m.type = MoveType.double_push)) =
          [Move.pack squares.a2 squares.a4 MoveType.double_push,
           Move.pack squares.h2 squares.h4 MoveType.double_push] := by
  have main : ∀ m, (m ∈ moves.pawn_moves pawn us them en_passant_square ∧
      m.type = MoveType.double_push) ↔
        ∃ s, 8 ≤ s ∧ s < 16 ∧ pawn.testBit s = true ∧
          (us ||| them).testBit (s + 8) = false ∧ (us ||| them).testBit (s + 16) = false ∧
          m = Move.pack s (s + 16) MoveType.double_push := by
    intro m
    constructor
    · rintro ⟨hm, hty⟩
      have hw := moves.word_pawn_moves hm
      have h24 := moves.double_push_target_ge hm hty
      rcases moves.mem_pawn_moves hm with
        ⟨t, _, _, _, _, _, _, h⟩ | ⟨t, ht, hp, hf, hf', hsrc, htgt, _⟩ |
        ⟨t, _, _, _, _, _, _, _, h⟩ | ⟨t, _, _, _, _, _, _, _, h⟩
      · rw [hty] at h
        rcases h with ⟨_, h⟩ | ⟨_, h⟩
        · exact absurd h (by decide)
        · exact absurd h (by decide)
      · refine ⟨t - 16, by omega, by omega, hp, ?_, ?_, ?_⟩
        · rw [show t - 16 + 8 = t - 8 by omega]; exact hf'
        · rw [show t - 16 + 16 = t by omega]; exact hf
        · rw [show t - 16 + 16 = t by omega, ← hsrc, ← htgt, ← hty]
          exact (Move.pack_eta hw).symm
      · rw [hty] at h
        rcases h with ⟨_, h⟩ | ⟨_, h⟩
        · exact absurd h (by decide)
        · exact absurd h (by decide)
      · rw [hty] at h
        rcases h with ⟨_, h⟩ | ⟨_, h⟩
        · exact absurd h (by decide)
        · exact absurd h (by decide)
    · rintro ⟨s, h8, h16, hp, hf, hf', rfl⟩
      refine ⟨?_, (Move.pack_fields (by omega) (by omega) (by decide)).2.2⟩
      have hb := moves.testBit_double_push_of h8 h16 hp hf hf'
      have hmem := @mem_targets_moves_of _ (fun t => t - 16) MoveType.double_push _
        (show s + 16 < 64 by omega) hb
      simp only [Nat.add_sub_cancel] at hmem
      simp only [moves.pawn_moves, List.mem_append]
      exact Or.inl (Or.inl (Or.inl (Or.inl (Or.inr hmem))))
  refine ⟨_, moves.pawn_appends pawn us them en_passant_square ms, main, ?_, ?_⟩
  · intro m hm hty
    obtain ⟨s, h8, h16, _, _, _, rfl⟩ := (main m).mp ⟨hm, hty⟩
    obtain ⟨e1, e2, _⟩ := Move.pack_fields (show s < 64 by omega) (show s + 16 < 64 by omega)
      (show MoveType.double_push < 16 by decide)
    rw [e1, e2]
    exact ⟨h8, h16, rfl⟩
  · have h : (moves.pawn [] (positions.various Color.white Piece.pawn)
        (positions.occupancy_of positions.various Color.white)
        (positions.occupancy_of positions.various Color.black)
        (squares.bitboard squares.g6)).any (fun out => decide (
          out.filter (fun m => decide (m.type = MoveType.double_push)) =
            [Move.pack squares.a2 squares.a4 MoveType.double_push,
             Move.pack squares.h2 squares.h4 MoveType.double_push])) = true := by decide!
    obtain ⟨out, h1, h2⟩ := exists_of_any h
    exact ⟨out, h1, of_decide_eq_true h2⟩

/-! ## The search tree -/

namespace mcts

end mcts

/-! ## The calls of the agent: what every reachable state satisfies -/

namespace agent

theorem MCTSAgent.run_append : ∀ (s1 s2 : List Event) {a a1 : MCTSAgent},
    a.run s1 = Except.ok a1 → a.run (s1 ++ s2) = a1.run s2
  | [], s2, a, a1, h => by
    simp only [MCTSAgent.run, Except.ok.injEq] at h
    subst h
    rfl
  | e :: s1, s2, a, a1, h => by
    simp only [MCTSAgent.run, List.cons_append] at h ⊢
    split at h
    · next a0 h0 => exact MCTSAgent.run_append s1 s2 h
    · exact Except.noConfusion h

theorem MCTSAgent.run_cons {e : Event} {schedule : List Event} {a a1 : MCTSAgent}
    (h : a.step e = Except.ok a1) : a.run (e :: schedule) = a1.run schedule := by
  simp only [MCTSAgent.run, h]

theorem MCTSAgent.run_single {e : Event} {a a1 : MCTSAgent}
    (h : a.step e = Except.ok a1) : a.run [e] = Except.ok a1 := by
  simp only [MCTSAgent.run, h]

/-- An invariant of the steps is an invariant of the interleavings. -/
theorem MCTSAgent.run_induction {P : MCTSAgent → Prop} {Q : Event → Prop}
    (hstep : ∀ a a' e, P a → Q e → a.step e = Except.ok a' → P a') :
    ∀ (schedule : List Event) {a a' : MCTSAgent}, P a → (∀ e ∈ schedule, Q e) →
      a.run schedule = Except.ok a' → P a'
  | [], a, a', h, _, hs => by
    simp only [MCTSAgent.run, Except.ok.injEq] at hs
    exact hs ▸ h
  | e :: schedule, a, a', h, hq, hs => by
    simp only [MCTSAgent.run] at hs
    split at hs
    · next a1 h1 =>
      exact MCTSAgent.run_induction hstep schedule
        (hstep a a1 e h (hq e (List.mem_cons_self _ _)) h1)
        (fun e he => hq e (List.mem_cons_of_mem _ he)) hs
    · exact Except.noConfusion hs

theorem PondererPc.in_batch_release_before {pc : PondererPc}
    (h : pc.release_before.in_batch = true) : pc.in_batch = true := by
  cases pc <;> simp_all [PondererPc.release_before, PondererPc.in_batch]

theorem PondererPc.in_batch_release_after {pc : PondererPc}
    (h : pc.release_after.in_batch = true) : pc.in_batch = true := by
  cases pc <;> simp_all [PondererPc.release_after, PondererPc.in_batch]

theorem PondererPc.terminated_release_before {pc : PondererPc}
    (h : pc.release_before = PondererPc.terminated) : pc = PondererPc.terminated := by
  cases pc <;> simp_all [PondererPc.release_before]

theorem PondererPc.terminated_release_after {pc : PondererPc}
    (h : pc.release_after = PondererPc.terminated) : pc = PondererPc.terminated := by
  cases pc <;> simp_all [PondererPc.release_after]

theorem ControllerPc.in_destructor_release_before (pc : ControllerPc) :
    pc.release_before.in_destructor = pc.in_destructor := by
  cases pc <;> rfl

theorem ControllerPc.in_destructor_release_after (pc : ControllerPc) :
    pc.release_after.in_destructor = pc.in_destructor := by
  cases pc <;> rfl

theorem Sound.at_new (n : Nat) : Sound (MCTSAgent.new n) := by
  refine ⟨?_, fun _ => ⟨rfl, ?_⟩⟩
  · intro pc hpc hb
    rw [List.eq_of_mem_replicate hpc] at hb
    exact Bool.noConfusion hb
  · intro pc hpc
    rw [List.eq_of_mem_replicate hpc]
    exact PondererPc.noConfusion

/-- The barrier `barrier_before_change` keeps the facts of `Sound`. -/
theorem Sound.sound_wait_before {a : MCTSAgent} (h : Sound a) : Sound a.wait_before := by
  unfold MCTSAgent.wait_before
  split
  · refine ⟨?_, ?_⟩
    · intro pc hpc hb
      obtain ⟨pc', hpc', rfl⟩ := List.mem_map.mp hpc
      exact h.batch pc' hpc' (PondererPc.in_batch_release_before hb)
    · intro hd
      have hd' : a.controller.in_destructor = false := by
        rw [← ControllerPc.in_destructor_release_before]; exact hd
      refine ⟨(h.alive hd').1, ?_⟩
      intro pc hpc hpt
      obtain ⟨pc', hpc', rfl⟩ := List.mem_map.mp hpc
      exact (h.alive hd').2 pc' hpc' (PondererPc.terminated_release_before hpt)
  · exact ⟨h.batch, h.alive⟩

/-- The barrier `barrier_after_change` keeps the facts of `Sound`. -/
theorem Sound.sound_wait_after {a : MCTSAgent} (h : Sound a) : Sound a.wait_after := by
  unfold MCTSAgent.wait_after
  split
  · refine ⟨?_, ?_⟩
    · intro pc hpc hb
      obtain ⟨pc', hpc', rfl⟩ := List.mem_map.mp hpc
      exact h.batch pc' hpc' (PondererPc.in_batch_release_after hb)
    · intro hd
      have hd' : a.controller.in_destructor = false := by
        rw [← ControllerPc.in_destructor_release_after]; exact hd
      refine ⟨(h.alive hd').1, ?_⟩
      intro pc hpc hpt
      obtain ⟨pc', hpc', rfl⟩ := List.mem_map.mp hpc
      exact (h.alive hd').2 pc' hpc' (PondererPc.terminated_release_after hpt)
  · exact ⟨h.batch, h.alive⟩

/-- A ponderer moves to a place `pc'` that is allowed in the current state. -/
theorem Sound.sound_jump {a : MCTSAgent} {i : Nat} {pc' : PondererPc} (h : Sound a)
    (hb : pc'.in_batch = true → a.shared.do_ponder = true)
    (ht : pc' = PondererPc.terminated → a.do_terminate = true) : Sound (a.jump i pc') := by
  refine ⟨?_, ?_⟩
  · intro pc hpc hpb
    rcases List.mem_or_eq_of_mem_set hpc with h1 | h1
    · exact h.batch pc h1 hpb
    · exact hb (h1 ▸ hpb)
  · intro hd
    refine ⟨(h.alive hd).1, ?_⟩
    intro pc hpc hpt
    rcases List.mem_or_eq_of_mem_set hpc with h1 | h1
    · exact (h.alive hd).2 pc h1 hpt
    · have := ht (h1 ▸ hpt)
      rw [(h.alive hd).1] at this
      exact Bool.noConfusion this

theorem Sound.sound_ponderer_step {a a' : MCTSAgent} {i : Nat} {pc : PondererPc}
    (h : Sound a) (hi : a.ponderers[i]? = some pc)
    (hs : a.ponderer_step i pc = Except.ok a') : Sound a' := by
  have hin : pc ∈ a.ponderers := mem_of_getElem? hi
  cases pc with
  | loop =>
    simp only [MCTSAgent.ponderer_step, Except.ok.injEq] at hs
    subst hs
    refine h.sound_jump (fun hb => ?_) (fun ht => ?_)
    · split at hb <;> exact Bool.noConfusion hb
    · split at ht
      · assumption
      · exact PondererPc.noConfusion ht
  | test_pending =>
    simp only [MCTSAgent.ponderer_step, Except.ok.injEq] at hs
    subst hs
    refine h.sound_jump (fun hb => ?_) (fun ht => ?_)
    · split at hb <;> exact Bool.noConfusion hb
    · split at ht <;> exact PondererPc.noConfusion ht
  | test_do_ponder =>
    simp only [MCTSAgent.ponderer_step, Except.ok.injEq] at hs
    subst hs
    refine h.sound_jump (fun hb => ?_) (fun ht => ?_)
    · split at hb <;> exact Bool.noConfusion hb
    · split at ht <;> exact PondererPc.noConfusion ht
  | arrive_before =>
    simp only [MCTSAgent.ponderer_step, Except.ok.injEq] at hs
    subst hs
    exact (h.sound_jump (fun hb => Bool.noConfusion hb)
      (fun ht => PondererPc.noConfusion ht)).sound_wait_before
  | wait_before => exact Except.noConfusion hs
  | arrive_after =>
    simp only [MCTSAgent.ponderer_step, Except.ok.injEq] at hs
    subst hs
    exact (h.sound_jump (fun hb => Bool.noConfusion hb)
      (fun ht => PondererPc.noConfusion ht)).sound_wait_after
  | wait_after => exact Except.noConfusion hs
  | assert_node =>
    simp only [MCTSAgent.ponderer_step] at hs
    split at hs
    · simp only [Except.ok.injEq] at hs
      subst hs
      exact h.sound_jump (fun hb => Bool.noConfusion hb) (fun ht => PondererPc.noConfusion ht)
    · exact Except.noConfusion hs
  | test_ponder =>
    simp only [MCTSAgent.ponderer_step, Except.ok.injEq] at hs
    subst hs
    refine h.sound_jump (fun hb => ?_) (fun ht => ?_)
    · split at hb
      · assumption
      · exact Bool.noConfusion hb
    · split at ht <;> exact PondererPc.noConfusion ht
  | pondering left =>
    have hdp := h.batch _ hin rfl
    cases left with
    | zero =>
      simp only [MCTSAgent.ponderer_step, Except.ok.injEq] at hs
      subst hs
      exact h.sound_jump (fun hb => Bool.noConfusion hb) (fun ht => PondererPc.noConfusion ht)
    | succ left =>
      simp only [MCTSAgent.ponderer_step] at hs
      split at hs
      · simp only [Except.ok.injEq] at hs
        subst hs
        exact h.sound_jump (fun _ => hdp) (fun ht => PondererPc.noConfusion ht)
      · exact Except.noConfusion hs
  | terminated => exact Except.noConfusion hs

theorem Sound.sound_controller_step {n : Nat} {a a' : MCTSAgent} (hinv : Inv n a) (h : Sound a)
    (hs : a.controller_step = Except.ok a') : Sound a' := by
  unfold MCTSAgent.controller_step at hs
  split at hs
  · next change hc =>
    simp only [Except.ok.injEq] at hs
    subst hs
    refine Sound.sound_wait_before ⟨h.batch, fun _ => h.alive (by rw [hc]; rfl)⟩
  · next write rest hc =>
    split at hs
    case h_2 => exact Except.noConfusion hs
    simp only [Except.ok.injEq] at hs
    subst hs
    refine ⟨?_, fun _ => h.alive (by rw [hc]; rfl)⟩
    intro pc hpc hb
    rcases hinv.phase with ⟨hbt, _, _, _⟩ | ⟨_, hp, _, _⟩
    · rw [hc] at hbt; exact Bool.noConfusion hbt
    · have := hp pc hpc
      cases pc <;> simp_all [PondererPc.between, PondererPc.in_batch]
  · next hc =>
    simp only [Except.ok.injEq] at hs
    subst hs
    exact ⟨h.batch, fun _ => h.alive (by rw [hc]; rfl)⟩
  · next hc =>
    simp only [Except.ok.injEq] at hs
    subst hs
    exact Sound.sound_wait_after ⟨h.batch, fun _ => h.alive (by rw [hc]; rfl)⟩
  · next hc =>
    split at hs
    · simp only [Except.ok.injEq] at hs
      subst hs
      exact ⟨h.batch, fun hd => Bool.noConfusion hd⟩
    · exact Except.noConfusion hs
  · exact Except.noConfusion hs

theorem Sound.sound_step {n : Nat} {a a' : MCTSAgent} {e : Event} (hinv : Inv n a)
    (h : Sound a) (hs : a.step e = Except.ok a') : Sound a' := by
  cases e with
  | between_ponderings change =>
    simp only [MCTSAgent.step] at hs
    split at hs
    · next hc =>
      simp only [Except.ok.injEq] at hs
      subst hs
      exact ⟨h.batch, fun _ => h.alive (by rw [hc]; rfl)⟩
    · exact Except.noConfusion hs
  | destroy =>
    simp only [MCTSAgent.step] at hs
    split at hs
    · next hc =>
      simp only [Except.ok.injEq] at hs
      subst hs
      exact ⟨h.batch, fun hd => Bool.noConfusion hd⟩
    · exact Except.noConfusion hs
  | controller => exact h.sound_controller_step hinv hs
  | ponderer i =>
    simp only [MCTSAgent.step] at hs
    split at hs
    · next pc hi => exact h.sound_ponderer_step hi hs
    · exact Except.noConfusion hs

/-- Every interleaving keeps the invariant and the facts of `Sound`. -/
theorem Sound.sound_run {n : Nat} (schedule : List Event) {a a' : MCTSAgent} (hinv : Inv n a)
    (h : Sound a) (hs : a.run schedule = Except.ok a') : Inv n a' ∧ Sound a' :=
  MCTSAgent.run_induction (P := fun a => Inv n a ∧ Sound a) (Q := fun _ => True)
    (fun _ _ _ h _ hs => ⟨h.1.agent_step hs, h.2.sound_step h.1 hs⟩) schedule ⟨hinv, h⟩
    (fun _ _ => trivial) hs

end agent
namespace agent

/-- A property kept by the moves of a ponderer and by the two barriers is kept by every step
of a ponderer. -/
theorem MCTSAgent.ponderer_step_keeps {P : MCTSAgent → Prop}
    (hjump : ∀ a i pc, P a → P (a.jump i pc))
    (hbefore : ∀ a, P a → P a.wait_before) (hafter : ∀ a, P a → P a.wait_after)
    {a a' : MCTSAgent} {i : Nat} {pc : PondererPc} (h : P a)
    (hs : a.ponderer_step i pc = Except.ok a') : P a' := by
  cases pc with
  | loop =>
    simp only [MCTSAgent.ponderer_step, Except.ok.injEq] at hs
    exact hs ▸ hjump _ _ _ h
  | test_pending =>
    simp only [MCTSAgent.ponderer_step, Except.ok.injEq] at hs
    exact hs ▸ hjump _ _ _ h
  | test_do_ponder =>
    simp only [MCTSAgent.ponderer_step, Except.ok.injEq] at hs
    exact hs ▸ hjump _ _ _ h
  | arrive_before =>
    simp only [MCTSAgent.ponderer_step, Except.ok.injEq] at hs
    exact hs ▸ hbefore _ (hjump _ _ _ h)
  | wait_before => exact Except.noConfusion hs
  | arrive_after =>
    simp only [MCTSAgent.ponderer_step, Except.ok.injEq] at hs
    exact hs ▸ hafter _ (hjump _ _ _ h)
  | wait_after => exact Except.noConfusion hs
  | assert_node =>
    simp only [MCTSAgent.ponderer_step] at hs
    split at hs
    · simp only [Except.ok.injEq] at hs
      exact hs ▸ hjump _ _ _ h
    · exact Except.noConfusion hs
  | test_ponder =>
    simp only [MCTSAgent.ponderer_step, Except.ok.injEq] at hs
    exact hs ▸ hjump _ _ _ h
  | pondering left =>
    cases left with
    | zero =>
      simp only [MCTSAgent.ponderer_step, Except.ok.injEq] at hs
      exact hs ▸ hjump _ _ _ h
    | succ left =>
      simp only [MCTSAgent.ponderer_step] at hs
      split at hs
      · simp only [Except.ok.injEq] at hs
        exact hs ▸ hjump _ _ _ h
      · exact Except.noConfusion hs
  | terminated => exact Except.noConfusion hs

theorem ControllerPc.remaining_release_before (pc : ControllerPc) :
    pc.release_before.remaining = pc.remaining := by
  cases pc <;> rfl

theorem ControllerPc.remaining_release_after (pc : ControllerPc) :
    pc.release_after.remaining = pc.remaining := by
  cases pc <;> rfl

theorem ControllerPc.after_change_release_before (pc : ControllerPc) :
    pc.release_before.after_change = pc.after_change := by
  cases pc <;> rfl

theorem ControllerPc.after_change_release_after (pc : ControllerPc) :
    pc.release_after.after_change = pc.after_change := by
  cases pc <;> rfl

theorem Effect.effect_wait_before {result : Except Fault Shared} {terminate : Bool} {a : MCTSAgent}
    (h : Effect result terminate a) : Effect result terminate a.wait_before := by
  unfold MCTSAgent.wait_before
  split
  · exact ⟨(ControllerPc.in_destructor_release_before _).trans h.call,
      by simpa only [ControllerPc.remaining_release_before] using h.result,
      fun hc => h.pending ((ControllerPc.after_change_release_before _).symm.trans hc),
      h.terminate⟩
  · exact ⟨h.call, h.result, h.pending, h.terminate⟩

theorem Effect.effect_wait_after {result : Except Fault Shared} {terminate : Bool} {a : MCTSAgent}
    (h : Effect result terminate a) : Effect result terminate a.wait_after := by
  unfold MCTSAgent.wait_after
  split
  · exact ⟨(ControllerPc.in_destructor_release_after _).trans h.call,
      by simpa only [ControllerPc.remaining_release_after] using h.result,
      fun hc => h.pending ((ControllerPc.after_change_release_after _).symm.trans hc),
      h.terminate⟩
  · exact ⟨h.call, h.result, h.pending, h.terminate⟩

theorem Effect.thread_step {result : Except Fault Shared} {terminate : Bool}
    {a a' : MCTSAgent} {e : Event} (h : Effect result terminate a)
    (he : e.is_thread = true) (hs : a.step e = Except.ok a') : Effect result terminate a' := by
  cases e with
  | between_ponderings change => exact Bool.noConfusion he
  | destroy => exact Bool.noConfusion he
  | controller =>
    simp only [MCTSAgent.step] at hs
    unfold MCTSAgent.controller_step at hs
    split at hs
    · next change hc =>
      simp only [Except.ok.injEq] at hs
      subst hs
      refine Effect.effect_wait_before ⟨rfl, ?_, fun hf => Bool.noConfusion hf, h.terminate⟩
      have := h.result
      rw [hc] at this
      exact this
    · next write rest hc =>
      split at hs
      case h_2 => exact Except.noConfusion hs
      next shared hw =>
      simp only [Except.ok.injEq] at hs
      subst hs
      refine ⟨rfl, ?_, fun hf => Bool.noConfusion hf, h.terminate⟩
      have := h.result
      rw [hc] at this
      simp only [ControllerPc.remaining, apply_change, hw] at this
      exact this
    · next hc =>
      simp only [Except.ok.injEq] at hs
      subst hs
      refine ⟨rfl, ?_, fun _ => rfl, h.terminate⟩
      have := h.result
      rw [hc] at this
      exact this
    · next hc =>
      simp only [Except.ok.injEq] at hs
      subst hs
      refine Effect.effect_wait_after ⟨rfl, ?_, fun _ => ?_, h.terminate⟩
      · have := h.result
        rw [hc] at this
        exact this
      · exact h.pending (by rw [hc]; rfl)
    · next hc =>
      have := h.call
      rw [hc] at this
      exact Bool.noConfusion this
    · exact Except.noConfusion hs
  | ponderer i =>
    simp only [MCTSAgent.step] at hs
    split at hs
    · next pc hi =>
      exact MCTSAgent.ponderer_step_keeps (P := Effect result terminate)
        (fun a i pc h => ⟨h.call, h.result, h.pending, h.terminate⟩)
        (fun a h => h.effect_wait_before) (fun a h => h.effect_wait_after) h hs
    · exact Except.noConfusion hs

theorem Effect.effect_run {result : Except Fault Shared} {terminate : Bool} :
    ∀ (schedule : List Event) {a a' : MCTSAgent}, Effect result terminate a →
      schedule.all Event.is_thread = true → a.run schedule = Except.ok a' →
      Effect result terminate a'
  | [], a, a', h, _, hs => by
    simp only [MCTSAgent.run, Except.ok.injEq] at hs
    exact hs ▸ h
  | e :: schedule, a, a', h, hq, hs => by
    simp only [MCTSAgent.run] at hs
    simp only [List.all_cons, Bool.and_eq_true] at hq
    split at hs
    · next a1 h1 => exact Effect.effect_run schedule (h.thread_step hq.1 h1) hq.2 hs
    · exact Except.noConfusion hs

/-- When a call of `between_ponderings(change)` has returned, every write of the change
function has been done, once and in order, on the fields the agent had at the call;
`pending_change` is false again and `do_terminate` is as before. -/
theorem Returns.effect {a a' : MCTSAgent} {change : Change} {schedule : List Event}
    (h : Returns (a.between_ponderings change) schedule a') :
    apply_change change a.shared = Except.ok a'.shared ∧ a'.pending_change = false ∧
      a'.do_terminate = a.do_terminate ∧ a.controller = ControllerPc.idle := by
  obtain ⟨a1, hcall, hthread, hrun, hidle⟩ := h
  simp only [MCTSAgent.between_ponderings, MCTSAgent.step] at hcall
  split at hcall
  · next hc =>
    simp only [Except.ok.injEq] at hcall
    subst hcall
    have h1 : Effect (apply_change change a.shared) a.do_terminate
        { a with pending_change := true, controller := ControllerPc.arrive_before change } :=
      ⟨rfl, rfl, fun hf => Bool.noConfusion hf, rfl⟩
    have h2 := h1.effect_run schedule hthread hrun
    have h3 := h2.result
    rw [hidle] at h3
    exact ⟨h3.symm, h2.pending (by rw [hidle]; rfl), h2.terminate, hc⟩
  · exact Except.noConfusion hcall

theorem keeps_state_nil : keeps_state [] := fun _ h => absurd h (List.not_mem_nil _)

theorem Unset.unset_wait_before {state : Option Nat} {node : Option mcts.Node} {a : MCTSAgent} (h : Unset state node a) :
    Unset state node a.wait_before := by
  unfold MCTSAgent.wait_before
  split
  · exact ⟨by simpa only [ControllerPc.remaining_release_before] using h.remaining,
      h.state, h.node⟩
  · exact ⟨h.remaining, h.state, h.node⟩

theorem Unset.unset_wait_after {state : Option Nat} {node : Option mcts.Node} {a : MCTSAgent} (h : Unset state node a) :
    Unset state node a.wait_after := by
  unfold MCTSAgent.wait_after
  split
  · exact ⟨by simpa only [ControllerPc.remaining_release_after] using h.remaining,
      h.state, h.node⟩
  · exact ⟨h.remaining, h.state, h.node⟩

theorem Unset.unset_step {state : Option Nat} {node : Option mcts.Node} {a a' : MCTSAgent} {e : Event}
    (h : Unset state node a) (he : e.keeps_state) (hs : a.step e = Except.ok a') :
    Unset state node a' := by
  cases e with
  | between_ponderings change =>
    simp only [MCTSAgent.step] at hs
    split at hs
    · simp only [Except.ok.injEq] at hs
      subst hs
      exact ⟨he, h.state, h.node⟩
    · exact Except.noConfusion hs
  | destroy =>
    simp only [MCTSAgent.step] at hs
    split at hs
    · simp only [Except.ok.injEq] at hs
      subst hs
      exact ⟨keeps_state_nil, h.state, h.node⟩
    · exact Except.noConfusion hs
  | controller =>
    simp only [MCTSAgent.step] at hs
    unfold MCTSAgent.controller_step at hs
    have hr := h.remaining
    split at hs
    · next change hc =>
      simp only [Except.ok.injEq] at hs
      subst hs
      rw [hc] at hr
      exact Unset.unset_wait_before ⟨hr, h.state, h.node⟩
    · next write rest hc =>
      split at hs
      case h_2 => exact Except.noConfusion hs
      next shared hw =>
      simp only [Except.ok.injEq] at hs
      subst hs
      rw [hc] at hr
      have := hr write (List.mem_cons_self _ _) _ _ hw
      exact ⟨fun w hw => hr w (List.mem_cons_of_mem _ hw), this.1.trans h.state,
        this.2.trans h.node⟩
    · next hc =>
      simp only [Except.ok.injEq] at hs
      subst hs
      exact ⟨keeps_state_nil, h.state, h.node⟩
    · next hc =>
      simp only [Except.ok.injEq] at hs
      subst hs
      exact Unset.unset_wait_after ⟨keeps_state_nil, h.state, h.node⟩
    · next hc =>
      split at hs
      · simp only [Except.ok.injEq] at hs
        subst hs
        exact ⟨keeps_state_nil, h.state, h.node⟩
      · exact Except.noConfusion hs
    · exact Except.noConfusion hs
  | ponderer i =>
    simp only [MCTSAgent.step] at hs
    split at hs
    · next pc hi =>
      exact MCTSAgent.ponderer_step_keeps (P := Unset state node)
        (fun a i pc h => ⟨h.remaining, h.state, h.node⟩)
        (fun a h => h.unset_wait_before) (fun a h => h.unset_wait_after) h hs
    · exact Except.noConfusion hs

/-- An agent on which no change function has written `state` or `node` has neither. -/
theorem Unset.unset_run {n : Nat} {schedule : List Event} {a : MCTSAgent}
    (hrun : (MCTSAgent.new n).run schedule = Except.ok a)
    (hkeep : ∀ e ∈ schedule, e.keeps_state) : a.shared.state = none ∧ a.shared.node = none := by
  have := MCTSAgent.run_induction (P := Unset none none) (Q := Event.keeps_state)
    (fun _ _ _ h he hs => h.unset_step he hs) schedule
    (show Unset none none (MCTSAgent.new n) from ⟨keeps_state_nil, rfl, rfl⟩) hkeep hrun
  exact ⟨this.state, this.node⟩

end agent
/-! ## The calls of the agent return -/

namespace agent

theorem countP_lt_of_getElem? {q : PondererPc → Bool} {pc : PondererPc} :
    ∀ {l : List PondererPc} {i : Nat}, l[i]? = some pc → q pc = false →
      l.countP q < l.length
  | [], i, h, _ => by simp at h
  | a :: l, 0, h, hq => by
    have : a = pc := by simpa using h
    subst this
    have := List.countP_le_length q (l := l)
    simp only [List.countP_cons, hq, List.length_cons]
    simp
    omega
  | a :: l, i + 1, h, hq => by
    have h' : l[i]? = some pc := by simpa using h
    have ih := countP_lt_of_getElem? h' hq
    simp only [List.countP_cons, List.length_cons]
    split <;> omega

theorem set_of_getElem? {x : PondererPc} :
    ∀ {l : List PondererPc} {i : Nat}, l[i]? = some x → l.set i x = l
  | [], i, h => by simp at h
  | a :: l, 0, h => by
    have : a = x := by simpa using h
    subst this
    rfl
  | a :: l, i + 1, h => by
    have h' : l[i]? = some x := by simpa using h
    simp only [List.set_cons_succ, set_of_getElem? h']

theorem set_replicate_append (x : PondererPc) :
    ∀ (k : Nat) (y : PondererPc) (l : List PondererPc),
      (List.replicate k x ++ y :: l).set k x = List.replicate (k + 1) x ++ l
  | 0, y, l => rfl
  | k + 1, y, l => by
    simp only [List.replicate_succ, List.cons_append, List.set_cons_succ,
      set_replicate_append x k y l]

theorem getElem?_replicate_append (x : PondererPc) :
    ∀ (k : Nat) (l : List PondererPc), (List.replicate k x ++ l)[k]? = l[0]?
  | 0, l => rfl
  | k + 1, l => by
    simp only [List.replicate_succ, List.cons_append, List.getElem?_cons_succ,
      getElem?_replicate_append x k l]

theorem Drives.refl (a : MCTSAgent) : Drives a a.ponderers a :=
  ⟨[], rfl, rfl, ⟨rfl, rfl, rfl, rfl, rfl⟩⟩

theorem Drives.trans {a a1 a2 : MCTSAgent} {l1 l2 : List PondererPc} (h1 : Drives a l1 a1)
    (h2 : Drives a1 l2 a2) : Drives a l2 a2 := by
  obtain ⟨s1, t1, r1, m1⟩ := h1
  obtain ⟨s2, t2, r2, m2⟩ := h2
  refine ⟨s1 ++ s2, by simp only [List.all_append, t1, t2, Bool.and_self], ?_, ?_⟩
  · rw [MCTSAgent.run_append s1 s2 r1]; exact r2
  · exact ⟨m2.ponderers, m2.pending.trans m1.pending, m2.terminate.trans m1.terminate,
      m2.shared.trans m1.shared, m2.controller.trans m1.controller⟩

theorem Calling.drives {n : Nat} {change : Change} {a a' : MCTSAgent}
    {ponderers : List PondererPc} (h : Calling n change a) (hd : Drives a ponderers a') :
    Calling n change a' := by
  obtain ⟨schedule, _, hrun, hm⟩ := hd
  obtain ⟨hinv, hsound⟩ := Sound.sound_run schedule h.inv h.sound hrun
  refine ⟨hinv, hsound, hm.controller.trans h.controller, hm.pending.trans h.pending, ?_⟩
  rw [hm.shared]
  exact h.healthy

/-- One step of ponderer `i` that only moves it. -/
theorem Drives.one_step {a : MCTSAgent} {i : Nat} {pc' : PondererPc}
    (hs : a.step (Event.ponderer i) = Except.ok (a.jump i pc')) :
    Drives a (a.ponderers.set i pc') (a.jump i pc') :=
  ⟨[Event.ponderer i], rfl, MCTSAgent.run_single hs, ⟨rfl, rfl, rfl, rfl, rfl⟩⟩

/-- If ponderer `i` moves in one step and reaches the barrier from there, it reaches the
barrier. -/
theorem Calling.after_jump {n : Nat} {change : Change} {a a' : MCTSAgent} {i : Nat}
    {pc' : PondererPc} (_h : Calling n change a)
    (hs : a.step (Event.ponderer i) = Except.ok (a.jump i pc'))
    (hd : Drives (a.jump i pc') ((a.jump i pc').ponderers.set i PondererPc.wait_before) a') :
    Drives a (a.ponderers.set i PondererPc.wait_before) a' := by
  have := (Drives.one_step hs).trans hd
  simpa only [MCTSAgent.jump, List.set_set] using this

theorem Calling.not_between {n : Nat} {change : Change} {a : MCTSAgent}
    (h : Calling n change a) :
    (∀ pc ∈ a.ponderers, pc.between = false) ∧
      a.barrier_before_change.count + a.ponderers.countP PondererPc.waits_before = n + 1 := by
  rcases h.inv.phase with ⟨_, hp, hcount, _⟩ | ⟨hb, _, _, _⟩
  · refine ⟨hp, ?_⟩
    simp only [MCTSAgent.waiting_before, h.controller, ControllerPc.waits_before] at hcount
    simpa using hcount
  · rw [h.controller] at hb; exact Bool.noConfusion hb

/-- A ponderer that arrives at `barrier_before_change` before the controller is blocked. -/
theorem Calling.arrive {n : Nat} {change : Change} {a : MCTSAgent} {i : Nat}
    (h : Calling n change a) (hi : a.ponderers[i]? = some PondererPc.arrive_before) :
    ∃ a', Drives a (a.ponderers.set i PondererPc.wait_before) a' := by
  have hcount : ¬ (a.jump i PondererPc.wait_before).barrier_before_change.count = 1 := by
    have hlt := countP_lt_of_getElem? (q := PondererPc.waits_before) hi rfl
    have := h.not_between.2
    have := h.inv.length
    show ¬ a.barrier_before_change.count = 1
    omega
  have e : a.step (Event.ponderer i) =
      Except.ok ((a.jump i PondererPc.wait_before).wait_before) := by
    simp only [MCTSAgent.step, hi, MCTSAgent.ponderer_step]
  refine ⟨_, [Event.ponderer i], rfl, MCTSAgent.run_single e, ?_⟩
  unfold MCTSAgent.wait_before
  rw [if_neg hcount]
  exact ⟨rfl, rfl, rfl, rfl, rfl⟩

theorem Calling.calling_jump {n : Nat} {change : Change} {a : MCTSAgent} {i : Nat} {pc' : PondererPc}
    (h : Calling n change a)
    (hs : a.step (Event.ponderer i) = Except.ok (a.jump i pc')) :
    Calling n change (a.jump i pc') :=
  h.drives (Drives.one_step hs)

theorem MCTSAgent.getElem?_jump {a : MCTSAgent} {i : Nat} {pc pc' : PondererPc}
    (hi : a.ponderers[i]? = some pc) : (a.jump i pc').ponderers[i]? = some pc' := by
  obtain ⟨hlt, _⟩ := List.getElem?_eq_some_iff.mp hi
  simp only [MCTSAgent.jump, List.getElem?_set_self hlt]

theorem Calling.park_test_pending {n : Nat} {change : Change} {a : MCTSAgent} {i : Nat}
    (h : Calling n change a) (hi : a.ponderers[i]? = some PondererPc.test_pending) :
    ∃ a', Drives a (a.ponderers.set i PondererPc.wait_before) a' := by
  have e : a.step (Event.ponderer i) = Except.ok (a.jump i PondererPc.arrive_before) := by
    simp only [MCTSAgent.step, hi, MCTSAgent.ponderer_step, h.pending, if_true]
  obtain ⟨a', hd⟩ := (h.calling_jump e).arrive (MCTSAgent.getElem?_jump hi)
  exact ⟨a', h.after_jump e hd⟩

theorem Calling.park_loop {n : Nat} {change : Change} {a : MCTSAgent} {i : Nat}
    (h : Calling n change a) (hi : a.ponderers[i]? = some PondererPc.loop) :
    ∃ a', Drives a (a.ponderers.set i PondererPc.wait_before) a' := by
  have ht : a.do_terminate = false := (h.sound.alive (by rw [h.controller]; rfl)).1
  have e : a.step (Event.ponderer i) = Except.ok (a.jump i PondererPc.test_pending) := by
    simp only [MCTSAgent.step, hi, MCTSAgent.ponderer_step, ht, Bool.false_eq_true, if_false]
  obtain ⟨a', hd⟩ := (h.calling_jump e).park_test_pending (MCTSAgent.getElem?_jump hi)
  exact ⟨a', h.after_jump e hd⟩

theorem Calling.park_pondering {n : Nat} {change : Change} :
    ∀ (left : Nat) {a : MCTSAgent} {i : Nat}, Calling n change a →
      a.ponderers[i]? = some (PondererPc.pondering left) →
      ∃ a', Drives a (a.ponderers.set i PondererPc.wait_before) a'
  | 0, a, i, h, hi => by
    have e : a.step (Event.ponderer i) = Except.ok (a.jump i PondererPc.loop) := by
      simp only [MCTSAgent.step, hi, MCTSAgent.ponderer_step]
    obtain ⟨a', hd⟩ := (h.calling_jump e).park_loop (MCTSAgent.getElem?_jump hi)
    exact ⟨a', h.after_jump e hd⟩
  | left + 1, a, i, h, hi => by
    have hn : a.shared.node.isSome = true :=
      h.healthy (h.sound.batch _ (mem_of_getElem? hi) rfl)
    have e : a.step (Event.ponderer i) = Except.ok (a.jump i (PondererPc.pondering left)) := by
      simp only [MCTSAgent.step, hi, MCTSAgent.ponderer_step, hn, if_true]
    obtain ⟨a', hd⟩ := Calling.park_pondering left (h.calling_jump e) (MCTSAgent.getElem?_jump hi)
    exact ⟨a', h.after_jump e hd⟩

theorem Calling.park_test_ponder {n : Nat} {change : Change} {a : MCTSAgent} {i : Nat}
    (h : Calling n change a) (hi : a.ponderers[i]? = some PondererPc.test_ponder) :
    ∃ a', Drives a (a.ponderers.set i PondererPc.wait_before) a' := by
  cases hd : a.shared.do_ponder
  · have e : a.step (Event.ponderer i) = Except.ok (a.jump i PondererPc.loop) := by
      simp only [MCTSAgent.step, hi, MCTSAgent.ponderer_step, hd, Bool.false_eq_true, if_false]
    obtain ⟨a', hd⟩ := (h.calling_jump e).park_loop (MCTSAgent.getElem?_jump hi)
    exact ⟨a', h.after_jump e hd⟩
  · have e : a.step (Event.ponderer i) = Except.ok (a.jump i (PondererPc.pondering 100)) := by
      simp only [MCTSAgent.step, hi, MCTSAgent.ponderer_step, hd, if_true]
    obtain ⟨a', hd⟩ := Calling.park_pondering 100 (h.calling_jump e) (MCTSAgent.getElem?_jump hi)
    exact ⟨a', h.after_jump e hd⟩

/-- Before the controller arrives at `barrier_before_change`, every ponderer can go on, with
steps of its own, until it is blocked in `barrier_before_change.wait()`. -/
theorem Calling.park {n : Nat} {change : Change} {a : MCTSAgent} {i : Nat} {pc : PondererPc}
    (h : Calling n change a) (hi : a.ponderers[i]? = some pc) :
    ∃ a', Drives a (a.ponderers.set i PondererPc.wait_before) a' := by
  have hin := mem_of_getElem? hi
  cases pc with
  | loop => exact h.park_loop hi
  | test_pending => exact h.park_test_pending hi
  | test_do_ponder =>
    cases hd : a.shared.do_ponder
    · have e : a.step (Event.ponderer i) = Except.ok (a.jump i PondererPc.arrive_before) := by
        simp only [MCTSAgent.step, hi, MCTSAgent.ponderer_step, hd, Bool.not_false, if_true]
      obtain ⟨a', hd⟩ := (h.calling_jump e).arrive (MCTSAgent.getElem?_jump hi)
      exact ⟨a', h.after_jump e hd⟩
    · have e : a.step (Event.ponderer i) = Except.ok (a.jump i PondererPc.test_ponder) := by
        simp only [MCTSAgent.step, hi, MCTSAgent.ponderer_step, hd, Bool.not_true,
          Bool.false_eq_true, if_false]
      obtain ⟨a', hd⟩ := (h.calling_jump e).park_test_ponder (MCTSAgent.getElem?_jump hi)
      exact ⟨a', h.after_jump e hd⟩
  | arrive_before => exact h.arrive hi
  | wait_before =>
    refine ⟨a, ?_⟩
    rw [set_of_getElem? hi]
    exact Drives.refl a
  | arrive_after => exact Bool.noConfusion ((h.not_between.1 _ hin).symm.trans rfl)
  | wait_after => exact Bool.noConfusion ((h.not_between.1 _ hin).symm.trans rfl)
  | assert_node =>
    have hc : (a.shared.node.isSome || !a.shared.do_ponder) = true := by
      cases hd : a.shared.do_ponder
      · simp
      · simp [h.healthy hd]
    have e : a.step (Event.ponderer i) = Except.ok (a.jump i PondererPc.test_ponder) := by
      simp only [MCTSAgent.step, hi, MCTSAgent.ponderer_step, hc, if_true]
    obtain ⟨a', hd⟩ := (h.calling_jump e).park_test_ponder (MCTSAgent.getElem?_jump hi)
    exact ⟨a', h.after_jump e hd⟩
  | test_ponder => exact h.park_test_ponder hi
  | pondering left => exact Calling.park_pondering left h hi
  | terminated =>
    exact absurd rfl ((h.sound.alive (by rw [h.controller]; rfl)).2 _ hin)

/-- Before the controller arrives at `barrier_before_change`, the first `k` ponderers can
all go on until they are blocked there. -/
theorem Calling.park_first {n : Nat} {change : Change} {a : MCTSAgent}
    (h : Calling n change a) : ∀ k, k ≤ n →
      ∃ a', Drives a (List.replicate k PondererPc.wait_before ++ a.ponderers.drop k) a'
  | 0, _ => ⟨a, by simpa using Drives.refl a⟩
  | k + 1, hk => by
    obtain ⟨a1, h1⟩ := Calling.park_first h k (by omega)
    have hc1 := h.drives h1
    obtain ⟨s1, t1, r1, hm⟩ := h1
    have hlen : k < a.ponderers.length := by rw [h.inv.length]; omega
    have hdrop : a.ponderers.drop k = a.ponderers[k] :: a.ponderers.drop (k + 1) :=
      List.drop_eq_getElem_cons hlen
    have hi : a1.ponderers[k]? = some a.ponderers[k] := by
      rw [hm.ponderers, getElem?_replicate_append, hdrop, List.getElem?_cons_zero]
    obtain ⟨a2, h2⟩ := hc1.park hi
    refine ⟨a2, ?_⟩
    have h12 := Drives.trans ⟨s1, t1, r1, hm⟩ h2
    rw [hm.ponderers, hdrop, set_replicate_append] at h12
    exact h12

end agent
namespace agent

/-- The controller arrives last at `barrier_before_change`: every thread is released and the
controller enters the change function. -/
theorem Calling.release {n : Nat} {change : Change} {a : MCTSAgent} (h : Calling n change a)
    (hall : a.ponderers = List.replicate n PondererPc.wait_before) :
    ∃ a', a.step Event.controller = Except.ok a' ∧
      a'.controller = ControllerPc.changing change ∧
      a'.ponderers = List.replicate n PondererPc.arrive_after ∧ a'.shared = a.shared := by
  have hcount : a.barrier_before_change.count = 1 := by
    have := h.not_between.2
    rw [hall, List.countP_replicate] at this
    simp only [PondererPc.waits_before, if_true] at this
    omega
  have e : a.step Event.controller = Except.ok (MCTSAgent.wait_before
      { a with controller := ControllerPc.wait_before change }) := by
    simp only [MCTSAgent.step, MCTSAgent.controller_step, h.controller]
  refine ⟨_, e, ?_⟩
  unfold MCTSAgent.wait_before
  rw [if_pos (show ({ a with controller := ControllerPc.wait_before change } :
    MCTSAgent).barrier_before_change.count = 1 from hcount)]
  refine ⟨rfl, ?_, rfl⟩
  show a.ponderers.map PondererPc.release_before = _
  rw [hall, List.map_replicate]
  rfl

/-- Inside the change function the controller does its writes one after the other, if none
fails, and leaves the function. -/
theorem MCTSAgent.do_writes : ∀ (rest : Change) {a : MCTSAgent} {result : Shared},
    a.controller = ControllerPc.changing rest → apply_change rest a.shared = Except.ok result →
      ∃ schedule a', schedule.all Event.is_thread = true ∧ a.run schedule = Except.ok a' ∧
        a'.controller = ControllerPc.arrive_after ∧ a'.ponderers = a.ponderers
  | [], a, result, hc, _ => by
    have e : a.step Event.controller = Except.ok
        { a with pending_change := false, controller := ControllerPc.arrive_after } := by
      simp only [MCTSAgent.step, MCTSAgent.controller_step, hc]
    exact ⟨[Event.controller], _, rfl, MCTSAgent.run_single e, rfl, rfl⟩
  | write :: rest, a, result, hc, hr => by
    simp only [apply_change] at hr
    split at hr
    · next shared hw =>
      have e : a.step Event.controller = Except.ok
          { a with shared := shared, controller := ControllerPc.changing rest } := by
        simp only [MCTSAgent.step, MCTSAgent.controller_step, hc, hw]
      obtain ⟨schedule, a', ht, hrun, h1, h2⟩ := MCTSAgent.do_writes rest
        (a := { a with shared := shared, controller := ControllerPc.changing rest }) rfl hr
      refine ⟨Event.controller :: schedule, a', ?_, ?_, h1, h2⟩
      · simp only [List.all_cons, ht, Event.is_thread, Bool.and_self]
      · rw [MCTSAgent.run_cons e]; exact hrun
    · exact Except.noConfusion hr

theorem Inv.between_count {n : Nat} {a : MCTSAgent} (h : Inv n a)
    (hc : a.controller = ControllerPc.arrive_after) :
    a.barrier_after_change.count + a.ponderers.countP PondererPc.waits_after = n + 1 := by
  rcases h.phase with ⟨hb, _, _, _⟩ | ⟨_, _, _, hcount⟩
  · rw [hc] at hb; exact Bool.noConfusion hb
  · simp only [MCTSAgent.waiting_after, hc, ControllerPc.waits_after] at hcount
    simpa using hcount

/-- After the change function, the first `k` ponderers arrive at `barrier_after_change` and are
blocked there, the controller not having arrived. -/
theorem Inv.arrive_after_first {n : Nat} {a : MCTSAgent} (h : Inv n a)
    (hc : a.controller = ControllerPc.arrive_after)
    (hall : a.ponderers = List.replicate n PondererPc.arrive_after) : ∀ k, k ≤ n →
      ∃ schedule a', schedule.all Event.is_thread = true ∧ a.run schedule = Except.ok a' ∧
        a'.controller = ControllerPc.arrive_after ∧
        a'.ponderers = List.replicate k PondererPc.wait_after ++
          List.replicate (n - k) PondererPc.arrive_after
  | 0, _ => ⟨[], a, rfl, rfl, hc, by simpa using hall⟩
  | k + 1, hk => by
    obtain ⟨s1, a1, t1, r1, c1, p1⟩ := Inv.arrive_after_first h hc hall k (by omega)
    have hinv := Inv.run s1 h r1
    have hnk : n - k = (n - (k + 1)) + 1 := by omega
    rw [hnk, List.replicate_succ] at p1
    have hi : a1.ponderers[k]? = some PondererPc.arrive_after := by
      rw [p1, getElem?_replicate_append, List.getElem?_cons_zero]
    have hcount : ¬ (a1.jump k PondererPc.wait_after).barrier_after_change.count = 1 := by
      have hlt := countP_lt_of_getElem? (q := PondererPc.waits_after) hi rfl
      have := hinv.between_count c1
      have := hinv.length
      show ¬ a1.barrier_after_change.count = 1
      omega
    have e : a1.step (Event.ponderer k) =
        Except.ok ((a1.jump k PondererPc.wait_after).wait_after) := by
      simp only [MCTSAgent.step, hi, MCTSAgent.ponderer_step]
    refine ⟨s1 ++ [Event.ponderer k], (a1.jump k PondererPc.wait_after).wait_after,
      ?_, ?_, ?_, ?_⟩
    · simp only [List.all_append, t1, List.all_cons, Event.is_thread, List.all_nil,
        Bool.and_self]
    · rw [MCTSAgent.run_append s1 _ r1]
      exact MCTSAgent.run_single e
    · unfold MCTSAgent.wait_after
      rw [if_neg hcount]
      exact c1
    · unfold MCTSAgent.wait_after
      rw [if_neg hcount]
      show a1.ponderers.set k PondererPc.wait_after = _
      rw [p1, set_replicate_append]

/-- The controller arrives last at `barrier_after_change`: every thread is released and
`between_ponderings` returns. -/
theorem Inv.release_after {n : Nat} {a : MCTSAgent} (h : Inv n a)
    (hc : a.controller = ControllerPc.arrive_after)
    (hall : a.ponderers = List.replicate n PondererPc.wait_after) :
    ∃ a', a.step Event.controller = Except.ok a' ∧ a'.controller = ControllerPc.idle := by
  have hcount : a.barrier_after_change.count = 1 := by
    have := h.between_count hc
    rw [hall, List.countP_replicate] at this
    simp only [PondererPc.waits_after, if_true] at this
    omega
  have e : a.step Event.controller = Except.ok (MCTSAgent.wait_after
      { a with controller := ControllerPc.wait_after }) := by
    simp only [MCTSAgent.step, MCTSAgent.controller_step, hc]
  refine ⟨_, e, ?_⟩
  unfold MCTSAgent.wait_after
  rw [if_pos (show ({ a with controller := ControllerPc.wait_after } :
    MCTSAgent).barrier_after_change.count = 1 from hcount)]
  rfl

/-- A call of `between_ponderings` whose change function fails no assertion can return: there
is an interleaving of the threads at the end of which the controller has left the function. -/
theorem Calling.returns {n : Nat} {change : Change} {a : MCTSAgent} {result : Shared}
    (h : Calling n change a) (hr : apply_change change a.shared = Except.ok result) :
    ∃ schedule a', schedule.all Event.is_thread = true ∧ a.run schedule = Except.ok a' ∧
      a'.controller = ControllerPc.idle := by
  obtain ⟨a1, h1⟩ := h.park_first n (Nat.le_refl n)
  have hc1 := h.drives h1
  obtain ⟨s1, t1, r1, m1⟩ := h1
  have p1 : a1.ponderers = List.replicate n PondererPc.wait_before := by
    rw [m1.ponderers, List.drop_of_length_le (by rw [h.inv.length]), List.append_nil]
  obtain ⟨a2, e2, c2, p2, sh2⟩ := hc1.release p1
  have hinv2 := hc1.inv.agent_step e2
  obtain ⟨s3, a3, t3, r3, c3, p3⟩ := MCTSAgent.do_writes change c2
    (show apply_change change a2.shared = Except.ok result by rw [sh2, m1.shared]; exact hr)
  have hinv3 := Inv.run s3 hinv2 r3
  obtain ⟨s4, a4, t4, r4, c4, p4⟩ :=
    hinv3.arrive_after_first c3 (p3.trans p2) n (Nat.le_refl n)
  have hinv4 := Inv.run s4 hinv3 r4
  rw [Nat.sub_self, List.replicate_zero, List.append_nil] at p4
  obtain ⟨a5, e5, c5⟩ := hinv4.release_after c4 p4
  refine ⟨s1 ++ (Event.controller :: (s3 ++ (s4 ++ [Event.controller]))), a5, ?_, ?_, c5⟩
  · simp only [List.all_append, List.all_cons, t1, t3, t4, Event.is_thread, List.all_nil,
      Bool.and_self]
  · rw [MCTSAgent.run_append s1 _ r1, MCTSAgent.run_cons e2, MCTSAgent.run_append s3 _ r3,
      MCTSAgent.run_append s4 _ r4]
    exact MCTSAgent.run_single e5

/-- Every agent state reached from the constructor satisfies the invariant and the facts of
`Sound`. -/
theorem MCTSAgent.reached_inv {n : Nat} {schedule : List Event} {a : MCTSAgent}
    (hrun : (MCTSAgent.new n).run schedule = Except.ok a) : Inv n a ∧ Sound a :=
  Sound.sound_run schedule (Inv.new n) (Sound.at_new n) hrun

/-- From every agent state reached from the constructor in which the controller is outside
every operation and `node` is set if `do_ponder` is, a call of `between_ponderings` whose
change function fails no assertion can return. -/
theorem MCTSAgent.between_ponderings_returns {n : Nat} {schedule : List Event}
    {a : MCTSAgent} {change : Change} {result : Shared}
    (hrun : (MCTSAgent.new n).run schedule = Except.ok a)
    (hidle : a.controller = ControllerPc.idle)
    (hhealthy : a.shared.do_ponder = true → a.shared.node.isSome = true)
    (hr : apply_change change a.shared = Except.ok result) :
    ∃ schedule' a', Returns (a.between_ponderings change) schedule' a' := by
  obtain ⟨hinv, hsound⟩ := MCTSAgent.reached_inv hrun
  have e : a.step (Event.between_ponderings change) = Except.ok
      { a with pending_change := true, controller := ControllerPc.arrive_before change } := by
    simp only [MCTSAgent.step, hidle]
  have hc : Calling n change
      { a with pending_change := true, controller := ControllerPc.arrive_before change } :=
    ⟨hinv.agent_step e, hsound.sound_step hinv e, rfl, rfl, hhealthy⟩
  obtain ⟨schedule', a', ht, hrun', hidle'⟩ := hc.returns hr
  exact ⟨schedule', a', _, e, ht, hrun', hidle'⟩

/-- The agent state in which a call has returned is reached from the constructor. -/
theorem Returns.reached {n : Nat} {schedule : List Event} {a a' : MCTSAgent}
    {change : Change} {schedule' : List Event}
    (hrun : (MCTSAgent.new n).run schedule = Except.ok a)
    (h : Returns (a.between_ponderings change) schedule' a') :
    (MCTSAgent.new n).run (schedule ++ Event.between_ponderings change :: schedule') =
      Except.ok a' := by
  obtain ⟨a1, hcall, _, hrun', _⟩ := h
  rw [MCTSAgent.run_append schedule _ hrun, MCTSAgent.run_cons hcall]
  exact hrun'

end agent
namespace agent

theorem keeps_state_start_pondering : keeps_state start_pondering_change := by
  intro write hw s s' h
  simp only [start_pondering_change, List.mem_singleton] at hw
  subst hw
  simp only [Except.ok.injEq] at h
  subst h
  exact ⟨rfl, rfl⟩

theorem keeps_state_stop_pondering : keeps_state stop_pondering_change := by
  intro write hw s s' h
  simp only [stop_pondering_change, List.mem_singleton] at hw
  subst hw
  simp only [Except.ok.injEq] at h
  subst h
  exact ⟨rfl, rfl⟩

theorem apply_stop_pondering_change (shared : Shared) :
    apply_change stop_pondering_change shared =
      Except.ok { shared with do_ponder := false } := rfl

end agent

namespace agent

theorem MCTSAgent.pending_ok_wait_before {a : MCTSAgent} (h : a.pending_ok) :
    a.wait_before.pending_ok := by
  unfold MCTSAgent.wait_before
  split
  · show a.pending_change = _
    rw [ControllerPc.after_change_release_before, ControllerPc.in_destructor_release_before]
    exact h
  · exact h

theorem MCTSAgent.pending_ok_wait_after {a : MCTSAgent} (h : a.pending_ok) :
    a.wait_after.pending_ok := by
  unfold MCTSAgent.wait_after
  split
  · show a.pending_change = _
    rw [ControllerPc.after_change_release_after, ControllerPc.in_destructor_release_after]
    exact h
  · exact h

theorem MCTSAgent.pending_ok_step {a a' : MCTSAgent} {e : Event} (h : a.pending_ok)
    (hs : a.step e = Except.ok a') : a'.pending_ok := by
  cases e with
  | between_ponderings change =>
    simp only [MCTSAgent.step] at hs
    split at hs
    · simp only [Except.ok.injEq] at hs
      subst hs
      rfl
    · exact Except.noConfusion hs
  | destroy =>
    simp only [MCTSAgent.step] at hs
    split at hs
    · next hc =>
      simp only [Except.ok.injEq] at hs
      subst hs
      have : a.pending_change = false := by
        have := h
        unfold MCTSAgent.pending_ok at this
        rw [hc] at this
        exact this
      exact this
    · exact Except.noConfusion hs
  | controller =>
    simp only [MCTSAgent.step] at hs
    unfold MCTSAgent.controller_step at hs
    unfold MCTSAgent.pending_ok at h
    split at hs
    · next change hc =>
      simp only [Except.ok.injEq] at hs
      subst hs
      rw [hc] at h
      exact MCTSAgent.pending_ok_wait_before h
    · next write rest hc =>
      split at hs
      case h_2 => exact Except.noConfusion hs
      simp only [Except.ok.injEq] at hs
      subst hs
      rw [hc] at h
      exact h
    · next hc =>
      simp only [Except.ok.injEq] at hs
      subst hs
      rfl
    · next hc =>
      simp only [Except.ok.injEq] at hs
      subst hs
      rw [hc] at h
      exact MCTSAgent.pending_ok_wait_after h
    · next hc =>
      split at hs
      · simp only [Except.ok.injEq] at hs
        subst hs
        rw [hc] at h
        exact h
      · exact Except.noConfusion hs
    · exact Except.noConfusion hs
  | ponderer i =>
    simp only [MCTSAgent.step] at hs
    split at hs
    · next pc hi =>
      exact MCTSAgent.ponderer_step_keeps (P := MCTSAgent.pending_ok)
        (fun a i pc h => h)
        (fun a h => MCTSAgent.pending_ok_wait_before h)
        (fun a h => MCTSAgent.pending_ok_wait_after h) h hs
    · exact Except.noConfusion hs

/-- In every agent state reached from the constructor in which the controller is outside
every operation, `pending_change` is false. -/
theorem MCTSAgent.pending_idle {n : Nat} {schedule : List Event} {a : MCTSAgent}
    (hrun : (MCTSAgent.new n).run schedule = Except.ok a)
    (hidle : a.controller = ControllerPc.idle) : a.pending_change = false := by
  have := MCTSAgent.run_induction (P := MCTSAgent.pending_ok) (Q := fun _ => True)
    (fun _ _ _ h _ hs => MCTSAgent.pending_ok_step h hs) schedule
    (show (MCTSAgent.new n).pending_ok from rfl) (fun _ _ => trivial) hrun
  unfold MCTSAgent.pending_ok at this
  rw [hidle] at this
  exact this

end agent

open agent in
/-- C21 (the code on the failing input): an agent with one ponderer is constructed, the
ponderer goes through its loop to `barrier_before_change.wait()` (`do_ponder` is false), and
the agent is destroyed.  Then `do_terminate` is set, the controller is inside `join_all`, the
ponderer is still blocked in `barrier_before_change.wait()`, and no thread can ever take a
step: every event is blocked, so every non-empty interleaving from there fails. -/
theorem destructor_deadlock :
    ∃ a, (MCTSAgent.new 1).run [Event.ponderer 0, Event.ponderer 0, Event.ponderer 0,
        Event.ponderer 0, Event.destroy] = Except.ok a ∧
      a.shared.do_ponder = false ∧ a.do_terminate = true ∧
      a.controller = ControllerPc.joining ∧ a.ponderers = [PondererPc.wait_before] ∧
      (∀ e, a.step e = Except.error Fault.blocked) ∧
      ∀ e schedule, a.run (e :: schedule) = Except.error Fault.blocked := by
  have hstep : ∀ e, MCTSAgent.step
      { pending_change := false
        do_terminate := true
        shared := { do_ponder := false, state := none, node := none }
        barrier_before_change := { threshold := 2, count := 1 }
        barrier_after_change := { threshold := 2, count := 2 }
        controller := ControllerPc.joining
        ponderers := [PondererPc.wait_before] } e = Except.error Fault.blocked := by
    intro e
    cases e with
    | between_ponderings change => rfl
    | destroy => rfl
    | controller => rfl
    | ponderer i =>
      cases i with
      | zero => rfl
      | succ i => rfl
  refine ⟨{ pending_change := false
            do_terminate := true
            shared := { do_ponder := false, state := none, node := none }
            barrier_before_change := { threshold := 2, count := 1 }
            barrier_after_change := { threshold := 2, count := 2 }
            controller := ControllerPc.joining
            ponderers := [PondererPc.wait_before] }, rfl, rfl, rfl, rfl, rfl, hstep, ?_⟩
  intro e schedule
  simp only [MCTSAgent.run, hstep e]

open agent in
/-- C23: on an agent reached from its constructor by calls whose change functions write
neither `state` nor `node` (no `set_state`), both are unset, and a call of `advance_state`
fails its first assertion: it ends in the assertion fault without entering
`between_ponderings`, so it never returns and no field of the agent is written.  The change
functions of `start_pondering` and `stop_pondering` are such functions. -/
theorem advance_state_before_set_state (c : Collaborators) (n : Nat) (schedule : List Event)
    (a : MCTSAgent) (m : Move)
    (hrun : (MCTSAgent.new n).run schedule = Except.ok a)
    (hkeep : ∀ e ∈ schedule, e.keeps_state) :
    a.shared.state = none ∧ a.shared.node = none ∧
    a.advance_state c m = Except.error Fault.assertion ∧
    (∀ schedule' a', ¬ Returns (a.advance_state c m) schedule' a') ∧
    (Event.between_ponderings start_pondering_change).keeps_state ∧
    (Event.between_ponderings stop_pondering_change).keeps_state := by
  obtain ⟨hs, hn⟩ := Unset.unset_run hrun hkeep
  have hcall : a.advance_state c m = Except.error Fault.assertion := by
    simp only [MCTSAgent.advance_state, hs, Option.isNone_none, if_true]
  refine ⟨hs, hn, hcall, ?_, keeps_state_start_pondering, keeps_state_stop_pondering⟩
  rintro schedule' a' ⟨a1, h1, _⟩
  rw [hcall] at h1
  exact Except.noConfusion h1

open agent in
/-- C24: let the agent be in a state reached from its constructor, with the controller outside
every operation and `node` set if `do_ponder` is.  Then a call of `stop_pondering` can
return; whenever it has returned, `do_ponder` is false, `state` and `node` are as before,
`pending_change` is false, as it was before, and `do_terminate` is as before; a second call
can return as well, and whenever it has returned all these fields are as after the first
call. -/
theorem stop_pondering_idempotent (n : Nat) (schedule : List Event) (a : MCTSAgent)
    (hrun : (MCTSAgent.new n).run schedule = Except.ok a)
    (hidle : a.controller = ControllerPc.idle)
    (hhealthy : a.shared.do_ponder = true → a.shared.node.isSome = true) :
    (∃ s1 a1, Returns a.stop_pondering s1 a1) ∧
    ∀ s1 a1, Returns a.stop_pondering s1 a1 →
      (a1.shared = { a.shared with do_ponder := false } ∧ a1.pending_change = false ∧
        a1.pending_change = a.pending_change ∧ a1.do_terminate = a.do_terminate) ∧
      (∃ s2 a2, Returns a1.stop_pondering s2 a2) ∧
      ∀ s2 a2, Returns a1.stop_pondering s2 a2 →
        a2.shared = a1.shared ∧ a2.pending_change = a1.pending_change ∧
          a2.do_terminate = a1.do_terminate := by
  refine ⟨MCTSAgent.between_ponderings_returns hrun hidle hhealthy
    (apply_stop_pondering_change a.shared), ?_⟩
  intro s1 a1 h1
  obtain ⟨he, hp, ht, _⟩ := h1.effect
  rw [apply_stop_pondering_change, Except.ok.injEq] at he
  have hidle1 : a1.controller = ControllerPc.idle := by
    obtain ⟨_, _, _, _, h⟩ := h1
    exact h
  have hd1 : a1.shared.do_ponder = false := by rw [← he]
  refine ⟨⟨he.symm, hp, hp.trans (MCTSAgent.pending_idle hrun hidle).symm, ht⟩, ?_, ?_⟩
  · exact MCTSAgent.between_ponderings_returns (Returns.reached hrun h1) hidle1
      (fun h => by rw [hd1] at h; exact Bool.noConfusion h)
      (apply_stop_pondering_change a1.shared)
  · intro s2 a2 h2
    obtain ⟨he2, hp2, ht2, _⟩ := h2.effect
    rw [apply_stop_pondering_change, Except.ok.injEq] at he2
    refine ⟨?_, hp2.trans hp.symm, ht2⟩
    rw [← he2, ← he]
open agent in
/-- Witness of C23: one ponderer; `stop_pondering` is called on the new agent and returns,
then `advance_state` is called. -/
theorem advance_state_before_set_state_witness :
    (MCTSAgent.new 1).run
        [Event.between_ponderings stop_pondering_change,
          Event.ponderer 0, Event.ponderer 0, Event.ponderer 0,
          Event.controller, Event.controller, Event.controller, Event.controller,
          Event.ponderer 0] =
      Except.ok
        { pending_change := false
          do_terminate := false
          shared := { do_ponder := false, state := none, node := none }
          barrier_before_change := { threshold := 2, count := 2 }
          barrier_after_change := { threshold := 2, count := 2 }
          controller := ControllerPc.idle
          ponderers := [PondererPc.assert_node] } ∧
    MCTSAgent.advance_state
        { make_move := fun s _ => s + 1
          new_node := fun move _ => ⟨mcts.Tree.mk move 0 0 [], mcts.Parent.null⟩ }
        { pending_change := false
          do_terminate := false
          shared := { do_ponder := false, state := none, node := none }
          barrier_before_change := { threshold := 2, count := 2 }
          barrier_after_change := { threshold := 2, count := 2 }
          controller := ControllerPc.idle
          ponderers := [PondererPc.assert_node] }
        (Move.pack squares.e2 squares.e4 MoveType.double_push) =
      Except.error Fault.assertion :=
  ⟨rfl, (advance_state_before_set_state _ 1
    [Event.between_ponderings stop_pondering_change,
      Event.ponderer 0, Event.ponderer 0, Event.ponderer 0,
      Event.controller, Event.controller, Event.controller, Event.controller,
      Event.ponderer 0] _ _ rfl (by
        intro e he
        simp only [List.mem_cons, List.mem_singleton, List.not_mem_nil, or_false] at he
        rcases he with rfl | rfl | rfl | rfl | rfl | rfl | rfl | rfl | rfl
        · exact keeps_state_stop_pondering
        all_goals exact trivial)).2.2.1⟩

open agent in
/-- Witness of C24: one ponderer, inside its batch of samples, when `stop_pondering` is
called. -/
theorem stop_pondering_idempotent_witness :
    (MCTSAgent.new 1).run
        [Event.between_ponderings
            [fun s => Except.ok { s with state := some 0 },
              fun s => Except.ok { s with node := some ⟨mcts.Tree.mk none 0 0 [], mcts.Parent.null⟩ }],
          Event.ponderer 0, Event.ponderer 0, Event.ponderer 0,
          Event.controller, Event.controller, Event.controller, Event.controller,
          Event.controller,
          Event.ponderer 0, Event.ponderer 0, Event.ponderer 0,
          Event.between_ponderings [fun s => Except.ok { s with do_ponder := true }],
          Event.ponderer 0, Event.ponderer 0, Event.ponderer 0,
          Event.controller, Event.controller, Event.controller, Event.controller,
          Event.ponderer 0, Event.ponderer 0, Event.ponderer 0] =
      Except.ok
        { pending_change := false
          do_terminate := false
          shared :=
            { do_ponder := true
              state := some 0
              node := some ⟨mcts.Tree.mk none 0 0 [], mcts.Parent.null⟩ }
          barrier_before_change := { threshold := 2, count := 2 }
          barrier_after_change := { threshold := 2, count := 2 }
          controller := ControllerPc.idle
          ponderers := [PondererPc.pondering 100] } ∧
    ∃ s1 a1, Returns (MCTSAgent.stop_pondering
      { pending_change := false
        do_terminate := false
        shared :=
          { do_ponder := true
            state := some 0
            node := some ⟨mcts.Tree.mk none 0 0 [], mcts.Parent.null⟩ }
        barrier_before_change := { threshold := 2, count := 2 }
        barrier_after_change := { threshold := 2, count := 2 }
        controller := ControllerPc.idle
        ponderers := [PondererPc.pondering 100] }) s1 a1 :=
  ⟨rfl, (stop_pondering_idempotent 1 _ _ agent.pondering_reachable rfl (fun _ => rfl)).1⟩

/-! ## A rank onto the a1-h8 line and back -/

namespace moves
open bitboard directions

/-- On every byte, the multiplication of `rank_onto_a1h8` spreads the byte over the a1-h8 line
and the multiplication and division of `a1h8_onto_rank` collect it again. -/
theorem a1h8_byte : ∀ y, y < 256 →
    (mul y 0x0101010101010101 &&& antidiagonals.a1h8) &&& complement antidiagonals.a1h8 = 0 ∧
    mul (mul y 0x0101010101010101 &&& antidiagonals.a1h8) 0x0101010101010101 /
      0x0100000000000000 = y :=
  forall_below (by decide!)

theorem land_ff_lt (x : Nat) : x &&& 0xff < 256 :=
  Nat.lt_of_le_of_lt Nat.and_le_right (by decide)

/-- A byte shifted to rank `k / 8` is the part of the board on that rank. -/
theorem shl_byte (b : Bitboard) (hb : b < 2 ^ 64) (k : Nat) :
    shl (shr b k &&& 0xff) k = b &&& (0xff <<< k) := by
  apply Nat.eq_of_testBit_eq
  intro i
  have hff : (0xff : Nat) = 2 ^ 8 - 1 := by decide
  simp only [testBit_shl, Nat.testBit_and, testBit_shr, Nat.testBit_shiftLeft, hff,
    Nat.testBit_two_pow_sub_one]
  by_cases hk : k ≤ i
  · have e : k + (i - k) = i := by omega
    by_cases hi : i < 64
    · simp [hk, hi, e]
    · have : b.testBit i = false := by
        by_contra hc
        exact hi (testBit_lt_of_word hb (by simpa using hc))
      simp [hi, this]
  · simp [hk]

end moves
/-- C34: for every 64-bit bitboard `b` and every rank `r` (in particular the ranks 0..7 of
the board), `moves::rank_onto_a1h8` returns a subset of the a1-h8 line, so the assertion of
`moves::a1h8_onto_rank` holds on it, and `a1h8_onto_rank(rank_onto_a1h8(b, r), r)` is
`b & (0xff << 8r)`. -/
theorem rank_round_trip (b : Bitboard) (hb : b < 2 ^ 64) (rank : Rank) :
    moves.rank_onto_a1h8 b rank &&& bitboard.complement antidiagonals.a1h8 = 0 ∧
    moves.a1h8_onto_rank (moves.rank_onto_a1h8 b rank) rank =
      some (b &&& (0xff <<< (8 * rank.index))) := by
  obtain ⟨h1, h2⟩ := moves.a1h8_byte _
    (moves.land_ff_lt (bitboard.shr b (rank.index * directions.vertical)))
  refine ⟨h1, ?_⟩
  have e : moves.rank_onto_a1h8 b rank =
      bitboard.mul (bitboard.shr b (rank.index * directions.vertical) &&& 0xff)
        0x0101010101010101 &&& antidiagonals.a1h8 := rfl
  rw [e]
  unfold moves.a1h8_onto_rank
  rw [if_pos h1]
  simp only [h2]
  rw [moves.shl_byte b hb, show rank.index * directions.vertical = 8 * rank.index from
    Nat.mul_comm _ _]

/-- Witness of C34: the starting position's occupancy and rank 2. -/
theorem rank_round_trip_witness :
    (0xffff00000000ffff : Nat) < 2 ^ 64 ∧
    moves.a1h8_onto_rank (moves.rank_onto_a1h8 0xffff00000000ffff ⟨1⟩) ⟨1⟩ = some 0xff00 :=
  ⟨by decide, (rank_round_trip 0xffff00000000ffff (by decide) ⟨1⟩).2⟩
/-! ## No move lands on a piece of the mover -/

theorem PieceMove.target_not_us {piece us them : Bitboard} {m : Move}
    (h : PieceMove piece us them m) : us.testBit m.target = false := by
  obtain ⟨s, t, _, _, _, hu, _, ht, _⟩ := h
  rw [ht]; exact hu

theorem PawnMove.pawn_target_not_us {pawn us them ep : Bitboard} {m : Move}
    (hd : us &&& them = 0) (hep : ep &&& us = 0) (h : PawnMove pawn us them ep m) :
    us.testBit m.target = false := by
  have hcap : ∀ t, (them ||| ep).testBit t = true → us.testBit t = false := by
    intro t ht
    rw [Nat.testBit_or, Bool.or_eq_true] at ht
    rcases ht with ht | ht
    · exact (land_eq_zero_iff us them).mp hd t ht
    · by_contra hc
      have := (land_eq_zero_iff ep us).mp hep t (by simpa using hc)
      rw [this] at ht
      exact Bool.noConfusion ht
  have hfree : ∀ t, (us ||| them).testBit t = false → us.testBit t = false := by
    intro t ht
    rw [Nat.testBit_or, Bool.or_eq_false_iff] at ht
    exact ht.1
  cases h with
  | push t ht h8 hp hf hsrc htgt hty => rw [htgt]; exact hfree t hf
  | double_push t ht hp hf hf' hsrc htgt hty => rw [htgt]; exact hfree t hf
  | capture_w t ht h7 hp hfile hc hsrc htgt hty => rw [htgt]; exact hcap t hc
  | capture_e t ht h9 hp hfile hc hsrc htgt hty => rw [htgt]; exact hcap t hc
/-- C31: for every board and occupancy in which the occupancies of white and black are
disjoint and the en-passant square is not occupied by white, `moves::all_moves` fails no
assertion and no move it appends has a target occupied by white; in particular no white
piece bitboard contained in the white occupancy has the target. -/
theorem all_moves_target_not_own (board : Board) (occupancy : Occupancy)
    (en_passant_square : Bitboard) (can_castle_kingside can_castle_queenside : Bool)
    (hd : occupancy Color.white &&& occupancy Color.black = 0)
    (hep : en_passant_square &&& occupancy Color.white = 0) (ms : List Move) :
    ∃ out, moves.all_moves ms board occupancy en_passant_square can_castle_kingside
        can_castle_queenside = some (ms ++ out) ∧
      ∀ m ∈ out, (occupancy Color.white).testBit m.target = false ∧
        ∀ piece, (∀ i, (board Color.white piece).testBit i = true →
            (occupancy Color.white).testBit i = true) →
          (board Color.white piece).testBit m.target = false := by
  refine ⟨_, moves.all_moves_appends board occupancy en_passant_square can_castle_kingside
    can_castle_queenside ms, ?_⟩
  intro m hm
  have main : (occupancy Color.white).testBit m.target = false := by
    simp only [moves.all_moves_list, List.mem_append] at hm
    rcases hm with hm | hm | hm | hm | hm | hm | hm
    · exact PawnMove.pawn_target_not_us hd hep (moves.mem_pawn_moves hm)
    · exact (moves.mem_knight_moves hm).target_not_us
    · exact (moves.mem_slider_moves hm).choose_spec.2.2.2.2.target_not_us
    · exact (moves.mem_slider_moves hm).choose_spec.2.2.2.2.target_not_us
    · exact (moves.mem_slider_moves hm).choose_spec.2.2.2.2.target_not_us
    · obtain ⟨t, _, _, hu, _, h2, _⟩ :=
        mem_attacks_moves (by intro _ _ _; exact moves.index_from_bitboard_lt _) hm
      rw [h2]; exact hu
    · rcases moves.mem_castle_moves hm with ⟨hok, rfl⟩ | ⟨hok, rfl⟩
      · obtain ⟨_, _, _, _, _, hg⟩ := (moves.kingside_ok_iff _ _ _).mp hok
        rw [Move.source_castle_kingside.2.1]
        rw [Nat.testBit_or, Bool.or_eq_false_iff] at hg
        exact hg.1
      · obtain ⟨_, _, _, _, _, _, hc, _⟩ := (moves.queenside_ok_iff _ _ _).mp hok
        rw [Move.source_castle_queenside.2.1]
        rw [Nat.testBit_or, Bool.or_eq_false_iff] at hc
        exact hc.1
  refine ⟨main, fun piece hsub => ?_⟩
  by_contra hc
  have := hsub m.target (by simpa using hc)
  rw [main] at this
  exact Bool.noConfusion this

/-- Witness of C31: the position of test `various_moves`, with en-passant square g6. -/
theorem all_moves_target_not_own_witness :
    positions.occupancy_of positions.various Color.white &&&
      positions.occupancy_of positions.various Color.black = 0 ∧
    squares.bitboard squares.g6 &&& positions.occupancy_of positions.various Color.white = 0 ∧
    ∃ out, moves.all_moves [] positions.various (positions.occupancy_of positions.various)
        (squares.bitboard squares.g6) false true = some ([] ++ out) ∧
      ∀ m ∈ out, (positions.occupancy_of positions.various Color.white).testBit m.target =
        false :=
  ⟨by decide, by decide,
    (all_moves_target_not_own positions.various (positions.occupancy_of positions.various)
      (squares.bitboard squares.g6) false true (by decide) (by decide) []).imp
      (fun _ h => ⟨h.1, fun m hm => (h.2 m hm).1⟩)⟩
/-! ## The root under `do_ponder` -/

namespace agent

theorem rooted_through_now : ∀ {change : Change} {s : Shared},
    rooted_through change s → s.rooted
  | [], _, h => h
  | _ :: _, _, h => h.1

theorem rooted_through_set_state (c : Collaborators) (state : Nat) {s : Shared}
    (h : s.rooted) : rooted_through (set_state_change c state) s := by
  refine ⟨h, fun s1 h1 => ⟨?_, fun s2 h2 => ?_⟩⟩
  · simp only [Except.ok.injEq] at h1
    subst h1
    exact h
  · simp only [Except.ok.injEq] at h2
    subst h2
    exact fun _ => rfl

theorem rooted_through_advance_state (c : Collaborators) (move : Move) {s : Shared}
    (h : s.rooted) : rooted_through (advance_state_change c move) s := by
  refine ⟨h, fun s1 h1 => ?_⟩
  have r1 : s1.rooted := by
    beta_reduce at h1
    split at h1
    · simp only [Except.ok.injEq] at h1
      subst h1
      exact h
    · exact Except.noConfusion h1
  refine ⟨r1, fun s2 h2 => ?_⟩
  show s2.rooted
  beta_reduce at h2
  split at h2
  · exact Except.noConfusion h2
  · split at h2
    · split at h2
      · simp only [Except.ok.injEq] at h2
        subst h2
        exact fun _ => rfl
      · exact Except.noConfusion h2
    · split at h2
      · simp only [Except.ok.injEq] at h2
        subst h2
        exact fun _ => rfl
      · exact Except.noConfusion h2

theorem rooted_through_start_pondering {s : Shared} (h : s.rooted)
    (hn : s.node.isSome = true) : rooted_through start_pondering_change s := by
  refine ⟨h, fun s1 h1 => ?_⟩
  simp only [Except.ok.injEq] at h1
  subst h1
  exact fun _ => hn

theorem rooted_through_stop_pondering {s : Shared} (h : s.rooted) :
    rooted_through stop_pondering_change s := by
  refine ⟨h, fun s1 h1 => ?_⟩
  simp only [Except.ok.injEq] at h1
  subst h1
  exact fun hd => Bool.noConfusion hd

theorem MCTSAgent.rooted_wait_before {a : MCTSAgent} (h : a.rooted) : a.wait_before.rooted := by
  unfold MCTSAgent.wait_before
  split
  · show rooted_through a.controller.release_before.remaining a.shared
    rw [ControllerPc.remaining_release_before]
    exact h
  · exact h

theorem MCTSAgent.rooted_wait_after {a : MCTSAgent} (h : a.rooted) : a.wait_after.rooted := by
  unfold MCTSAgent.wait_after
  split
  · show rooted_through a.controller.release_after.remaining a.shared
    rw [ControllerPc.remaining_release_after]
    exact h
  · exact h

theorem MCTSAgent.rooted_step {c : Collaborators} {a a' : MCTSAgent} {e : Event}
    (h : a.rooted) (he : e.follows_protocol c a) (hs : a.step e = Except.ok a') :
    a'.rooted := by
  have hnow : a.shared.rooted := rooted_through_now h
  cases e with
  | between_ponderings change =>
    simp only [MCTSAgent.step] at hs
    split at hs
    · simp only [Except.ok.injEq] at hs
      subst hs
      show rooted_through change a.shared
      rcases he.1 with ⟨state, rfl⟩ | ⟨move, rfl⟩ | rfl | rfl
      · exact rooted_through_set_state c state hnow
      · exact rooted_through_advance_state c move hnow
      · exact rooted_through_start_pondering hnow (he.2 rfl)
      · exact rooted_through_stop_pondering hnow
    · exact Except.noConfusion hs
  | destroy =>
    simp only [MCTSAgent.step] at hs
    split at hs
    · simp only [Except.ok.injEq] at hs
      subst hs
      exact hnow
    · exact Except.noConfusion hs
  | controller =>
    simp only [MCTSAgent.step] at hs
    unfold MCTSAgent.controller_step at hs
    unfold MCTSAgent.rooted at h
    split at hs
    · next change hc =>
      simp only [Except.ok.injEq] at hs
      subst hs
      rw [hc] at h
      exact MCTSAgent.rooted_wait_before h
    · next write rest hc =>
      split at hs
      case h_2 => exact Except.noConfusion hs
      next shared hw =>
      simp only [Except.ok.injEq] at hs
      subst hs
      rw [hc] at h
      exact h.2 shared hw
    · next hc =>
      simp only [Except.ok.injEq] at hs
      subst hs
      exact hnow
    · next hc =>
      simp only [Except.ok.injEq] at hs
      subst hs
      exact MCTSAgent.rooted_wait_after (show rooted_through [] a.shared from hnow)
    · next hc =>
      split at hs
      · simp only [Except.ok.injEq] at hs
        subst hs
        exact hnow
      · exact Except.noConfusion hs
    · exact Except.noConfusion hs
  | ponderer i =>
    simp only [MCTSAgent.step] at hs
    split at hs
    · next pc hi =>
      exact MCTSAgent.ponderer_step_keeps (P := MCTSAgent.rooted)
        (fun a i pc h => h)
        (fun a h => MCTSAgent.rooted_wait_before h)
        (fun a h => MCTSAgent.rooted_wait_after h) h hs
    · exact Except.noConfusion hs

theorem MCTSAgent.rooted_run {c : Collaborators} : ∀ (schedule : List Event)
    {a a' : MCTSAgent}, a.rooted → a.follows c schedule →
      a.run schedule = Except.ok a' → a'.rooted
  | [], a, a', h, _, hs => by
    simp only [MCTSAgent.run, Except.ok.injEq] at hs
    exact hs ▸ h
  | e :: schedule, a, a', h, hf, hs => by
    simp only [MCTSAgent.run] at hs
    split at hs
    · next a1 h1 =>
      exact MCTSAgent.rooted_run schedule (MCTSAgent.rooted_step h hf.1 h1) (hf.2 a1 h1) hs
    · exact Except.noConfusion hs

/-- With the root set if `do_ponder` is, no step of a ponderer fails the assertion
`node || !do_ponder` or samples through a null root. -/
theorem MCTSAgent.ponderer_safe {a : MCTSAgent} (hsound : Sound a)
    (hr : a.shared.rooted) (i : Nat) :
    a.step (Event.ponderer i) ≠ Except.error Fault.assertion ∧
      a.step (Event.ponderer i) ≠ Except.error Fault.null_node := by
  simp only [MCTSAgent.step]
  cases hi : a.ponderers[i]? with
  | none => exact ⟨by simp, by simp⟩
  | some pc =>
    have hin := mem_of_getElem? hi
    cases pc with
    | assert_node =>
      have hc : (a.shared.node.isSome || !a.shared.do_ponder) = true := by
        cases hd : a.shared.do_ponder
        · simp
        · simp [hr hd]
      simp only [MCTSAgent.ponderer_step, hc, if_true]
      exact ⟨by simp, by simp⟩
    | pondering left =>
      cases left with
      | zero => simp only [MCTSAgent.ponderer_step]; exact ⟨by simp, by simp⟩
      | succ left =>
        have hn : a.shared.node.isSome = true := hr (hsound.batch _ hin rfl)
        simp only [MCTSAgent.ponderer_step, hn, if_true]
        exact ⟨by simp, by simp⟩
    | _ => simp only [MCTSAgent.ponderer_step]; exact ⟨by simp, by simp⟩

end agent
namespace agent

theorem MCTSAgent.follows_threads {c : Collaborators} : ∀ (schedule : List Event)
    (a : MCTSAgent), schedule.all Event.is_thread = true → a.follows c schedule
  | [], _, _ => trivial
  | e :: schedule, a, h => by
    simp only [List.all_cons, Bool.and_eq_true] at h
    refine ⟨⟨?_, ?_⟩, fun a' _ => MCTSAgent.follows_threads schedule a' h.2⟩
    · cases e <;> first | exact trivial | exact Bool.noConfusion h.1
    · intro he
      rw [he] at h
      exact Bool.noConfusion h.1

theorem MCTSAgent.follows_append {c : Collaborators} : ∀ (s1 s2 : List Event)
    {a a1 : MCTSAgent}, a.follows c s1 → a.run s1 = Except.ok a1 → a1.follows c s2 →
      a.follows c (s1 ++ s2)
  | [], s2, a, a1, _, hr, h2 => by
    simp only [MCTSAgent.run, Except.ok.injEq] at hr
    subst hr
    exact h2
  | e :: s1, s2, a, a1, h1, hr, h2 => by
    refine ⟨h1.1, fun a' ha' => ?_⟩
    rw [MCTSAgent.run_cons ha'] at hr
    exact MCTSAgent.follows_append s1 s2 (h1.2 a' ha') hr h2

theorem set_state_change_ne_start (c : Collaborators) (state : Nat) :
    Event.between_ponderings (set_state_change c state) ≠
      Event.between_ponderings start_pondering_change := by
  intro h
  have : (2 : Nat) = 1 := congrArg List.length (Event.between_ponderings.inj h)
  exact absurd this (by decide)

/-- A call of `set_state` follows the protocol. -/
theorem MCTSAgent.follows_set_state {c : Collaborators} {a : MCTSAgent} (state : Nat)
    {schedule : List Event}
    (h : ∀ a', a.step (Event.between_ponderings (set_state_change c state)) = Except.ok a' →
      a'.follows c schedule) :
    a.follows c (Event.between_ponderings (set_state_change c state) :: schedule) :=
  ⟨⟨Or.inl ⟨state, rfl⟩, fun he => absurd he (set_state_change_ne_start c state)⟩, h⟩

/-- A call of `start_pondering` on an agent with a root follows the protocol. -/
theorem MCTSAgent.follows_start_pondering {c : Collaborators} {a : MCTSAgent}
    {schedule : List Event} (hn : a.shared.node.isSome = true)
    (h : ∀ a', a.step (Event.between_ponderings start_pondering_change) = Except.ok a' →
      a'.follows c schedule) :
    a.follows c (Event.between_ponderings start_pondering_change :: schedule) :=
  ⟨⟨Or.inr (Or.inr (Or.inl rfl)), fun _ => hn⟩, h⟩

/-- While the controller is outside every operation, the steps of the threads write none of
the fields of the agent. -/
theorem Returns.of_idle {n : Nat} {schedule schedule' : List Event} {a a' : MCTSAgent}
    (hrun : (MCTSAgent.new n).run schedule = Except.ok a)
    (hidle : a.controller = ControllerPc.idle)
    (h : Returns (Except.ok a) schedule' a') :
    a'.shared = a.shared ∧ a'.pending_change = a.pending_change ∧
      a'.do_terminate = a.do_terminate := by
  obtain ⟨a1, hcall, hthread, hrun', hidle'⟩ := h
  simp only [Except.ok.injEq] at hcall
  subst hcall
  have hp := MCTSAgent.pending_idle hrun hidle
  have h1 : Effect (Except.ok a.shared) a.do_terminate a :=
    ⟨by rw [hidle]; rfl, by rw [hidle]; rfl, fun _ => hp, rfl⟩
  have h2 := h1.effect_run schedule' hthread hrun'
  have h3 := h2.result
  rw [hidle'] at h3
  simp only [ControllerPc.remaining, apply_change, Except.ok.injEq] at h3
  exact ⟨h3, (h2.pending (by rw [hidle']; rfl)).trans hp.symm, h2.terminate⟩

theorem apply_set_state_change (c : Collaborators) (state : Nat) (shared : Shared) :
    apply_change (set_state_change c state) shared = Except.ok
      { do_ponder := shared.do_ponder
        state := some state
        node := some (c.new_node none state) } := rfl

end agent

open agent in
/-- C32 (the claim fails as stated): on a new agent with one ponderer, `start_pondering` is
called, a public operation, and returns; then `do_ponder` is true, the root `node` is null,
and the next step of the ponderer fails the assertion `node || !do_ponder`. -/
theorem start_pondering_without_root :
    (MCTSAgent.new 1).run
        [Event.between_ponderings start_pondering_change,
          Event.ponderer 0, Event.ponderer 0, Event.ponderer 0,
          Event.controller, Event.controller, Event.controller, Event.controller,
          Event.ponderer 0] =
      Except.ok
        { pending_change := false
          do_terminate := false
          shared := { do_ponder := true, state := none, node := none }
          barrier_before_change := { threshold := 2, count := 2 }
          barrier_after_change := { threshold := 2, count := 2 }
          controller := ControllerPc.idle
          ponderers := [PondererPc.assert_node] } ∧
    (∀ c, (Event.between_ponderings start_pondering_change).is_public c) ∧
    MCTSAgent.step
        { pending_change := false
          do_terminate := false
          shared := { do_ponder := true, state := none, node := none }
          barrier_before_change := { threshold := 2, count := 2 }
          barrier_after_change := { threshold := 2, count := 2 }
          controller := ControllerPc.idle
          ponderers := [PondererPc.assert_node] } (Event.ponderer 0) =
      Except.error Fault.assertion :=
  ⟨rfl, fun _ => Or.inr (Or.inr (Or.inl rfl)), rfl⟩

open agent in
/-- C32 (amended): in every agent state reached from the constructor by steps of the threads
and calls of the public operations, each call of `start_pondering` (also through `resume` or
`start_decision`) being made when the root is set, the root is set whenever `do_ponder` is
true, and no step of a ponderer fails the assertion `node || !do_ponder` or samples through a
null root. -/
theorem ponder_only_with_root (c : Collaborators) (n : Nat) (schedule : List Event)
    (a : MCTSAgent)
    (hrun : (MCTSAgent.new n).run schedule = Except.ok a)
    (hfollows : (MCTSAgent.new n).follows c schedule) :
    (a.shared.do_ponder = true → a.shared.node.isSome = true) ∧
    ∀ i, a.step (Event.ponderer i) ≠ Except.error Fault.assertion ∧
      a.step (Event.ponderer i) ≠ Except.error Fault.null_node := by
  have h0 : (MCTSAgent.new n).rooted := fun hd => Bool.noConfusion hd
  have hr := rooted_through_now (MCTSAgent.rooted_run schedule h0 hfollows hrun)
  exact ⟨hr, MCTSAgent.ponderer_safe (MCTSAgent.reached_inv hrun).2 hr⟩

open agent in
/-- C33: let the agent be in a state reached from its constructor, with the controller outside
every operation.  If `state` is already `s`, the call `set_state(s)` returns at once with the
agent as it is, and until the next call `state`, `node`, `do_ponder`, `pending_change` and
`do_terminate` stay as they are.  If `state` is another state or unset (and `node` is set if
`do_ponder` is), the call can return, and whenever it has returned, `state` is `s`, `node` is
a new parentless node without incoming move on `s`, `do_ponder` is as before and
`pending_change` is false. -/
theorem set_state_effect (c : Collaborators) (n : Nat) (schedule : List Event)
    (a : MCTSAgent) (s : Nat)
    (hrun : (MCTSAgent.new n).run schedule = Except.ok a)
    (hidle : a.controller = ControllerPc.idle) :
    (a.shared.state = some s →
      a.set_state c s = Except.ok a ∧
      ∀ schedule' a', Returns (a.set_state c s) schedule' a' →
        a'.shared = a.shared ∧ a'.pending_change = a.pending_change ∧
          a'.do_terminate = a.do_terminate) ∧
    (a.shared.state ≠ some s →
      ((a.shared.do_ponder = true → a.shared.node.isSome = true) →
        ∃ schedule' a', Returns (a.set_state c s) schedule' a') ∧
      ∀ schedule' a', Returns (a.set_state c s) schedule' a' →
        a'.shared.state = some s ∧ a'.shared.node = some (c.new_node none s) ∧
          a'.shared.do_ponder = a.shared.do_ponder ∧ a'.pending_change = false ∧
          a'.do_terminate = a.do_terminate) := by
  constructor
  · intro hs
    have hcall : a.set_state c s = Except.ok a := by
      simp only [MCTSAgent.set_state, hs, if_true]
    rw [hcall]
    exact ⟨rfl, fun schedule' a' h => Returns.of_idle hrun hidle h⟩
  · intro hs
    have hcall : a.set_state c s = a.between_ponderings (set_state_change c s) := by
      simp only [MCTSAgent.set_state, hs, if_false]
    rw [hcall]
    refine ⟨fun hhealthy => MCTSAgent.between_ponderings_returns hrun hidle hhealthy
      (apply_set_state_change c s a.shared), ?_⟩
    intro schedule' a' hret
    obtain ⟨he, hp, ht, _⟩ := hret.effect
    rw [apply_set_state_change, Except.ok.injEq] at he
    rw [← he]
    exact ⟨rfl, rfl, rfl, hp, ht⟩
open agent in
/-- Witness of C32 (amended): one ponderer; `set_state` is called and returns, then
`start_pondering` is called and returns, and the ponderer enters its batch of samples. -/
theorem ponder_only_with_root_witness :
    (MCTSAgent.new 1).run
        [Event.between_ponderings (set_state_change
            { make_move := fun s _ => s + 1
              new_node := fun move _ => ⟨mcts.Tree.mk move 0 0 [], mcts.Parent.null⟩ } 0),
          Event.ponderer 0, Event.ponderer 0, Event.ponderer 0,
          Event.controller, Event.controller, Event.controller, Event.controller,
          Event.controller,
          Event.ponderer 0, Event.ponderer 0, Event.ponderer 0,
          Event.between_ponderings start_pondering_change,
          Event.ponderer 0, Event.ponderer 0, Event.ponderer 0,
          Event.controller, Event.controller, Event.controller, Event.controller,
          Event.ponderer 0, Event.ponderer 0, Event.ponderer 0] =
      Except.ok
        { pending_change := false
          do_terminate := false
          shared :=
            { do_ponder := true
              state := some 0
              node := some ⟨mcts.Tree.mk none 0 0 [], mcts.Parent.null⟩ }
          barrier_before_change := { threshold := 2, count := 2 }
          barrier_after_change := { threshold := 2, count := 2 }
          controller := ControllerPc.idle
          ponderers := [PondererPc.pondering 100] } ∧
    MCTSAgent.follows
        { make_move := fun s _ => s + 1
          new_node := fun move _ => ⟨mcts.Tree.mk move 0 0 [], mcts.Parent.null⟩ }
        (MCTSAgent.new 1)
        [Event.between_ponderings (set_state_change
            { make_move := fun s _ => s + 1
              new_node := fun move _ => ⟨mcts.Tree.mk move 0 0 [], mcts.Parent.null⟩ } 0),
          Event.ponderer 0, Event.ponderer 0, Event.ponderer 0,
          Event.controller, Event.controller, Event.controller, Event.controller,
          Event.controller,
          Event.ponderer 0, Event.ponderer 0, Event.ponderer 0,
          Event.between_ponderings start_pondering_change,
          Event.ponderer 0, Event.ponderer 0, Event.ponderer 0,
          Event.controller, Event.controller, Event.controller, Event.controller,
          Event.ponderer 0, Event.ponderer 0, Event.ponderer 0] ∧
    MCTSAgent.step
        { pending_change := false
          do_terminate := false
          shared :=
            { do_ponder := true
              state := some 0
              node := some ⟨mcts.Tree.mk none 0 0 [], mcts.Parent.null⟩ }
          barrier_before_change := { threshold := 2, count := 2 }
          barrier_after_change := { threshold := 2, count := 2 }
          controller := ControllerPc.idle
          ponderers := [PondererPc.pondering 100] } (Event.ponderer 0) ≠
      Except.error Fault.assertion := by
  have hf : MCTSAgent.follows
      { make_move := fun s _ => s + 1
        new_node := fun move _ => ⟨mcts.Tree.mk move 0 0 [], mcts.Parent.null⟩ }
      (MCTSAgent.new 1)
      [Event.between_ponderings (set_state_change
          { make_move := fun s _ => s + 1
            new_node := fun move _ => ⟨mcts.Tree.mk move 0 0 [], mcts.Parent.null⟩ } 0),
        Event.ponderer 0, Event.ponderer 0, Event.ponderer 0,
        Event.controller, Event.controller, Event.controller, Event.controller,
        Event.controller,
        Event.ponderer 0, Event.ponderer 0, Event.ponderer 0,
        Event.between_ponderings start_pondering_change,
        Event.ponderer 0, Event.ponderer 0, Event.ponderer 0,
        Event.controller, Event.controller, Event.controller, Event.controller,
        Event.ponderer 0, Event.ponderer 0, Event.ponderer 0] := by
    apply MCTSAgent.follows_set_state 0
    intro a1 h1
    have e1 := Except.ok.inj h1
    subst e1
    refine MCTSAgent.follows_append
      [Event.ponderer 0, Event.ponderer 0, Event.ponderer 0,
        Event.controller, Event.controller, Event.controller, Event.controller,
        Event.controller,
        Event.ponderer 0, Event.ponderer 0, Event.ponderer 0]
      [Event.between_ponderings start_pondering_change,
        Event.ponderer 0, Event.ponderer 0, Event.ponderer 0,
        Event.controller, Event.controller, Event.controller, Event.controller,
        Event.ponderer 0, Event.ponderer 0, Event.ponderer 0]
      (MCTSAgent.follows_threads _ _ rfl) rfl ?_
    exact MCTSAgent.follows_start_pondering rfl
      (fun a2 _ => MCTSAgent.follows_threads _ a2 rfl)
  have h := fun a hrun => ((ponder_only_with_root _ 1 _ a hrun hf).2 0).1
  exact ⟨rfl, hf, h _ rfl⟩

open agent in
/-- Witness of C33: one ponderer; `set_state` has put the state 0, and `set_state` is called
with the state 0 again. -/
theorem set_state_effect_witness :
    (MCTSAgent.new 1).run
        [Event.between_ponderings (set_state_change
            { make_move := fun s _ => s + 1
              new_node := fun move _ => ⟨mcts.Tree.mk move 0 0 [], mcts.Parent.null⟩ } 0),
          Event.ponderer 0, Event.ponderer 0, Event.ponderer 0,
          Event.controller, Event.controller, Event.controller, Event.controller,
          Event.controller,
          Event.ponderer 0, Event.ponderer 0, Event.ponderer 0] =
      Except.ok
        { pending_change := false
          do_terminate := false
          shared :=
            { do_ponder := false
              state := some 0
              node := some ⟨mcts.Tree.mk none 0 0 [], mcts.Parent.null⟩ }
          barrier_before_change := { threshold := 2, count := 2 }
          barrier_after_change := { threshold := 2, count := 2 }
          controller := ControllerPc.idle
          ponderers := [PondererPc.loop] } ∧
    MCTSAgent.set_state
        { make_move := fun s _ => s + 1
          new_node := fun move _ => ⟨mcts.Tree.mk move 0 0 [], mcts.Parent.null⟩ }
        { pending_change := false
          do_terminate := false
          shared :=
            { do_ponder := false
              state := some 0
              node := some ⟨mcts.Tree.mk none 0 0 [], mcts.Parent.null⟩ }
          barrier_before_change := { threshold := 2, count := 2 }
          barrier_after_change := { threshold := 2, count := 2 }
          controller := ControllerPc.idle
          ponderers := [PondererPc.loop] } 0 =
      Except.ok
        { pending_change := false
          do_terminate := false
          shared :=
            { do_ponder := false
              state := some 0
              node := some ⟨mcts.Tree.mk none 0 0 [], mcts.Parent.null⟩ }
          barrier_before_change := { threshold := 2, count := 2 }
          barrier_after_change := { threshold := 2, count := 2 }
          controller := ControllerPc.idle
          ponderers := [PondererPc.loop] } :=
  ⟨rfl, ((set_state_effect
    { make_move := fun s _ => s + 1
      new_node := fun move _ => ⟨mcts.Tree.mk move 0 0 [], mcts.Parent.null⟩ } 1
    [Event.between_ponderings (set_state_change
        { make_move := fun s _ => s + 1
          new_node := fun move _ => ⟨mcts.Tree.mk move 0 0 [], mcts.Parent.null⟩ } 0),
      Event.ponderer 0, Event.ponderer 0, Event.ponderer 0,
      Event.controller, Event.controller, Event.controller, Event.controller,
      Event.controller,
      Event.ponderer 0, Event.ponderer 0, Event.ponderer 0]
    { pending_change := false
      do_terminate := false
      shared :=
        { do_ponder := false
          state := some 0
          node := some ⟨mcts.Tree.mk none 0 0 [], mcts.Parent.null⟩ }
      barrier_before_change := { threshold := 2, count := 2 }
      barrier_after_change := { threshold := 2, count := 2 }
      controller := ControllerPc.idle
      ponderers := [PondererPc.loop] } 0 rfl rfl).1 rfl).1⟩

/-! ## Forced king capture -/

theorem exists_testBit_of_land_ne_zero {x y : Nat} (h : x &&& y ≠ 0) :
    ∃ i, x.testBit i = true ∧ y.testBit i = true := by
  by_contra hc
  apply h
  rw [land_eq_zero_iff]
  intro i hi
  by_contra hx
  exact hc ⟨i, by simpa using hx, hi⟩

theorem land_ne_zero_of_testBit {x y i : Nat} (hx : x.testBit i = true)
    (hy : y.testBit i = true) : x &&& y ≠ 0 := by
  intro h
  have := (land_eq_zero_iff x y).mp h i hy
  rw [hx] at this
  exact Bool.noConfusion this

namespace State

/-- When white attacks the black king, the generated list of white is the part of the list of
`moves::all_moves` that lands on the black king. -/
theorem moves_white_forced (s : State)
    (h : moves.all_attacks_val s.flat_occupancy s.board &&& s.board Color.black Piece.king ≠ 0) :
    ∃ ms, s.moves_white = some ms ∧
      ∀ m ∈ ms, (s.board Color.black Piece.king).testBit m.target = true := by
  unfold moves_white
  by_cases hk : s.board Color.white Piece.king = 0
  · exact ⟨[], by rw [if_pos hk], fun m hm => absurd hm (List.not_mem_nil m)⟩
  · have e := moves.all_moves_appends s.board s.occupancy s.en_passant_square
      (s.castling_rights Color.white).kingside (s.castling_rights Color.white).queenside []
    rw [List.nil_append] at e
    have e' : moves.all_moves [] s.board s.occupancy s.en_passant_square
        (s.castling_rights Color.white).kingside (s.castling_rights Color.white).queenside =
        some (moves.all_moves_list s.board s.occupancy s.en_passant_square
          (s.castling_rights Color.white).kingside (s.castling_rights Color.white).queenside) :=
      e
    rw [if_neg hk]
    simp only [Option.bind_eq_bind, Option.pure_def]
    rw [e', moves.all_attacks_eq]
    simp only [Option.some_bind]
    rw [if_pos h]
    refine ⟨_, rfl, fun m hm => ?_⟩
    have hf := (List.mem_filter.mp hm).2
    simp only [bne_iff_ne, ne_eq] at hf
    obtain ⟨i, hi, hki⟩ := exists_testBit_of_land_ne_zero hf
    rw [squares.testBit_bitboard, decide_eq_true_eq] at hi
    rw [hi]
    exact hki

/-- The attack of black on the white king, seen on the flipped position. -/
theorem flip_king_attacked (s : State)
    (h : moves.black_attacks_val s.flat_occupancy s.board &&&
      s.board Color.white Piece.king ≠ 0) :
    moves.all_attacks_val s.flip_vertically.flat_occupancy s.flip_vertically.board &&&
      s.flip_vertically.board Color.black Piece.king ≠ 0 := by
  obtain ⟨i, hi, hk⟩ := exists_testBit_of_land_ne_zero h
  have hi' : (bitboard.flip_vertically (moves.all_attacks_val
      (bitboard.flip_vertically s.flat_occupancy) (positions.flip s.board))).testBit i = true :=
    hi
  rw [bitboard.testBit_flip_vertically, Bool.and_eq_true, decide_eq_true_eq] at hi'
  refine land_ne_zero_of_testBit (i := squares.flip_vertically i) hi'.2 ?_
  show (bitboard.flip_vertically (s.board Color.white Piece.king)).testBit _ = true
  rw [bitboard.testBit_flip_vertically, squares.flip_index_twice hi'.1, hk]
  simp [squares.flip_index_lt hi'.1]

end State

/-- C7: in every position in which the side to move attacks the opponent's king
(`their_king_attacked()`), with white or black to move, `moves::moves(state)` returns a list
and every move of it lands on a square of the opponent's king; when that king stands on the
single square `k`, the target of every generated move is `k`. -/
theorem forced_king_capture (s : State) (h : s.their_king_attacked = some true) :
    ∃ ms, s.moves = some ms ∧
      ∀ m ∈ ms, (s.board s.us.other Piece.king).testBit m.target = true ∧
        ∀ k, s.board s.us.other Piece.king = squares.bitboard k → m.target = k := by
  have key : ∃ ms, s.moves = some ms ∧
      ∀ m ∈ ms, (s.board s.us.other Piece.king).testBit m.target = true := by
    unfold State.their_king_attacked State.attacks_of at h
    unfold State.moves
    cases hus : s.us
    · rw [hus] at h
      simp only [moves.all_attacks_eq, Option.map_some', Option.some.injEq, bne_iff_ne, ne_eq,
        decide_eq_true_eq, Color.other] at h
      exact s.moves_white_forced (by simpa using h)
    · rw [hus] at h
      simp only [moves.black_attacks_eq, Option.map_some', Option.some.injEq, bne_iff_ne, ne_eq,
        decide_eq_true_eq, Color.other] at h
      obtain ⟨ms, hms, hall⟩ := s.flip_vertically.moves_white_forced
        (s.flip_king_attacked (by simpa using h))
      refine ⟨ms.map Move.flip_vertically, by simp only [hms, Option.map_some'], ?_⟩
      intro m hm
      obtain ⟨m0, hm0, rfl⟩ := List.mem_map.mp hm
      have h0 : (bitboard.flip_vertically (s.board Color.white Piece.king)).testBit m0.target =
          true := hall m0 hm0
      rw [bitboard.testBit_flip_vertically, Bool.and_eq_true] at h0
      rw [(Move.flip_vertically_fields m0).2.1]
      exact h0.2
  obtain ⟨ms, hms, hall⟩ := key
  refine ⟨ms, hms, fun m hm => ⟨hall m hm, fun k hk => ?_⟩⟩
  have := hall m hm
  rw [hk, squares.testBit_bitboard, decide_eq_true_eq] at this
  exact this.symm

/-- Witness of C7, scenario S5: after black's d5c4 in the position of test `king_capture`
white attacks the black king on c4, and the generated list of white is the single move f7xc4,
the capture of the king. -/
theorem forced_king_capture_witness :
    State.king_capture_after.their_king_attacked = some true ∧
    State.king_capture_after.moves =
      some [Move.pack squares.f7 squares.c4 MoveType.capture] ∧
    ∃ ms, State.king_capture_after.moves = some ms ∧
      ∀ m ∈ ms,
        (State.king_capture_after.board State.king_capture_after.us.other
          Piece.king).testBit m.target = true ∧
        ∀ k, State.king_capture_after.board State.king_capture_after.us.other Piece.king =
          squares.bitboard k → m.target = k :=
  ⟨by decide!, by decide!, forced_king_capture State.king_capture_after (by decide!)⟩

/-- Scenario S5 on the modelled position: in the position of test `king_capture` the move
d5c4 is among the generated moves of black; making it gives the position
`State.king_capture_after`; there the generated list of white is the king capture f7xc4; and
after that capture the generated list of black is empty. -/
theorem State.king_capture_scenario :
    State.king_capture.moves.map
        (fun ms => decide (Move.pack squares.d5 squares.c4 MoveType.normal ∈ ms)) = some true ∧
    (State.king_capture.make_move (fun _ _ _ _ => 0)
        (Move.pack squares.d5 squares.c4 MoveType.normal)).map (fun r => r.2.fields) =
      some State.king_capture_after.fields ∧
    (State.king_capture.make_move (fun _ _ _ _ => 0)
        (Move.pack squares.d5 squares.c4 MoveType.normal)).bind (fun r => r.2.moves) =
      some [Move.pack squares.f7 squares.c4 MoveType.capture] ∧
    (State.king_capture_after.make_move (fun _ _ _ _ => 0)
        (Move.pack squares.f7 squares.c4 MoveType.capture)).bind (fun r => r.2.moves) =
      some [] :=
  ⟨by decide!, by decide!, by decide!, by decide!⟩
